import Mathlib

/-!
# text-gl: UTF-8 codec, text layout engine, number and path parser

A shallow embedding of `src/utf8.cpp`, of `src/text.cpp` and, from `src/parse.cpp`, of
`ParseDouble`, `SVGParsePathDoubles`, `ParseSVGPath` and of `ParseSVGFontData` with the
functions it calls, on the document tree that libxml2 builds.

* A text buffer is a `List Byte`; a C pointer into it is a position (`Nat`), position 0
  being the first byte.  A C string holds its terminating 0 byte as its last element.
* `int8_t` bytes are kept as their bit pattern (`Fin 256`); `UTF8Char` (`int32_t`) values
  are kept as their 32-bit pattern (`Nat`, reduced `% 2 ^ 32` where the source shifts).
* A C++ exception is an `Except.error`.  Reading outside the buffer (undefined behaviour
  in the source) is the separate outcome `Error.OutOfBounds`.
* `GLfloat` and `double` quantities are rationals: the arithmetic is exact.
* A returned `nullptr` is `none`; the parser functions work on the text from the current
  position on (`bytes.drop p`) and return positions.
-/

namespace TextGL

set_option maxRecDepth 100000

/-! ## Data model -/

/-- Bit pattern of one `int8_t` of a text buffer. -/
abbrev Byte := Fin 256

/-- Bit pattern of an `int32_t` character value (`typedef int32_t UTF8Char`). -/
abbrev UTF8Char := Nat

/-- Exceptions of the library, with the arguments that are formatted into the message. -/
inductive Error where
  /-- `EncodingError(format, a, b)`: the two numbers passed to the message; a byte is
  recorded as its bit pattern. -/
  | EncodingError (a b : Nat)
  /-- `TextFormatError`: the next word does not fit in the line width. -/
  | TextFormatError
  /-- `MissingGlyphError(c)`. -/
  | MissingGlyphError (c : UTF8Char)
  /-- `FontParseError`. -/
  | FontParseError
  /-- A read outside the buffer (undefined behaviour in the source). -/
  | OutOfBounds
  /-- The iteration bound of the model was reached. -/
  | OutOfFuel
  deriving DecidableEq, Repr

deriving instance DecidableEq for Except

/-! ## utf8.cpp -/

/-- Loop of `CountSuccessiveLeftBits`: `while (n < 8 && (byte & (0x80 >> n))) n++`. -/
def CountSuccessiveLeftBitsLoop (byte : Byte) : Nat → Nat → Nat
  | 0, n => n
  | k + 1, n =>
    if n < 8 ∧ (byte.val &&& (0x80 >>> n)) ≠ 0 then
      CountSuccessiveLeftBitsLoop byte k (n + 1)
    else n

/-- Number of uninterrupted 1 bits at the beginning of the byte (at most 8). -/
def CountSuccessiveLeftBits (byte : Byte) : Nat :=
  CountSuccessiveLeftBitsLoop byte 8 0

/-- The test `(byte & 0b11000000) != 0b10000000` of the source. -/
def notContinuation (byte : Byte) : Bool :=
  (byte.val &&& 0xC0) != 0x80

/-- Loop `for (i = 1; i < nBytes; i++)` of `NextUTF8Char`; the first argument is
`nBytes - i`, the number of iterations left. -/
def NextUTF8CharLoop (bytes : List Byte) (p : Nat) : Nat → Nat → UTF8Char → Except Error UTF8Char
  | 0, _, ch => .ok ch
  | r + 1, i, ch =>
    match bytes[p + i]? with
    | none => .error .OutOfBounds
    | some b =>
      if notContinuation b then
        .error (.EncodingError (i + 1) b.val)
      else
        NextUTF8CharLoop bytes p r (i + 1) (((ch <<< 8) ||| (0xff &&& b.val)) % 2 ^ 32)

/-- Decodes the character at position `p`: returns its value and the position of the
next character. -/
def NextUTF8Char (bytes : List Byte) (p : Nat) : Except Error (UTF8Char × Nat) :=
  match bytes[p]? with
  | none => .error .OutOfBounds
  | some b0 =>
    let nBytes := CountSuccessiveLeftBits b0
    let ch := 0xff &&& b0.val
    if nBytes = 0 then
      .ok (ch, p + 1)
    else
      match NextUTF8CharLoop bytes p (nBytes - 1) 1 ch with
      | .error e => .error e
      | .ok ch => .ok (ch, p + nBytes)

/-- Loop `while (!beginFound)` of `PrevUTF8Char`; the first argument is the number of
bytes that lie before `bytes - nBytes`.  Returns `nBytes`, `ch` and the last byte read.
A shift by 32 bits or more (five or more bytes scanned) is undefined in the source; here the
shifted byte falls outside the 32 bits that are kept. -/
def PrevUTF8CharLoop (bytes : List Byte) (p : Nat) :
    Nat → Nat → UTF8Char → Except Error (Nat × UTF8Char × Byte)
  | 0, _, _ => .error .OutOfBounds
  | r + 1, nBytes, ch =>
    let nBytes := nBytes + 1
    match bytes[p - nBytes]? with
    | none => .error .OutOfBounds
    | some byte =>
      let beginFound := notContinuation byte
      let ch := (ch ||| ((0xff &&& byte.val) <<< (8 * (nBytes - 1)))) % 2 ^ 32
      if beginFound then .ok (nBytes, ch, byte)
      else PrevUTF8CharLoop bytes p r nBytes ch

/-- Decodes the character that ends right before position `p`: returns its value and the
position where it starts. -/
def PrevUTF8Char (bytes : List Byte) (p : Nat) : Except Error (UTF8Char × Nat) :=
  match PrevUTF8CharLoop bytes p p 0 0 with
  | .error e => .error e
  | .ok (nBytes, ch, byte) =>
    let nBits := CountSuccessiveLeftBits byte
    if nBits ≠ nBytes ∧ nBytes > 1 then
      .error (.EncodingError nBits nBytes)
    else
      .ok (ch, p - nBytes)

/-- Position of character number `n`, counted from position `p`. -/
def GetUTF8Position (bytes : List Byte) (p : Nat) : Nat → Except Error Nat
  | 0 => .ok p
  | n + 1 =>
    match NextUTF8Char bytes p with
    | .error e => .error e
    | .ok (_, q) => GetUTF8Position bytes q n

/-- Loop `while (*bytes)` of `CountCharsUTF8`; `stop` is the `end` pointer (`none` for
`NULL`). -/
def CountCharsUTF8Loop (bytes : List Byte) (stop : Option Nat) :
    Nat → Nat → Nat → Except Error Nat
  | 0, _, _ => .error .OutOfFuel
  | fuel + 1, p, n =>
    match bytes[p]? with
    | none => .error .OutOfBounds
    | some b =>
      if b.val = 0 then .ok n
      else
        match NextUTF8Char bytes p with
        | .error e => .error e
        | .ok (_, q) =>
          let n := n + 1
          match stop with
          | some e => if q ≥ e then .ok n else CountCharsUTF8Loop bytes stop fuel q n
          | none => CountCharsUTF8Loop bytes stop fuel q n

/-- Number of characters from position `start` up to `stop` or the terminator. -/
def CountCharsUTF8 (bytes : List Byte) (start : Nat) (stop : Option Nat) : Except Error Nat :=
  CountCharsUTF8Loop bytes stop (bytes.length + 1) start 0

/-! ## font.h, tex.h: the font view -/

/-- Metrics of one glyph (`struct GlyphMetrics`). -/
structure GlyphMetrics where
  bearingX : ℚ
  bearingY : ℚ
  width : ℚ
  height : ℚ
  advanceX : ℚ

/-- Font-wide ink extents (`struct FontBoundingBox`). -/
structure FontBoundingBox where
  left : ℚ
  bottom : ℚ
  right : ℚ
  top : ℚ

/-- Font-wide metrics (`struct FontMetrics`). -/
structure FontMetrics where
  unitsPerEM : ℚ
  ascent : ℚ
  descent : ℚ
  bbox : FontBoundingBox

/-- The map `std::unordered_map<UTF8Char, std::unordered_map<UTF8Char, double>>`:
`none` where `find` returns `end()`. -/
abbrev KernTable := UTF8Char → Option (UTF8Char → Option ℚ)

/-- Kerning of the pair `c1`, `c2`: 0.0 if the combination doesn't exist. -/
def GetKernValue (kernTable : KernTable) (c1 c2 : UTF8Char) : ℚ :=
  match kernTable c1 with
  | none => 0
  | some m2 =>
    match m2 c2 with
    | none => 0
    | some v => v

/-- The abstract class `Font`: its virtual methods (`GetStyle` plays no part in layout). -/
structure Font where
  GetMetrics : FontMetrics
  GetHorizontalKernTable : KernTable
  GetGlyphMetrics : UTF8Char → Except Error GlyphMetrics

/-- A glyph of a texture font (`class GLTextureGlyph`). -/
structure GLTextureGlyph where
  mMetrics : GlyphMetrics
  texture : Nat
  textureWidth : Int
  textureHeight : Int

/-- A texture font (`class GLTextureFont`): `mGlyphs c = none` where `find` returns `end()`. -/
structure GLTextureFont where
  mMetrics : FontMetrics
  mGlyphs : UTF8Char → Option GLTextureGlyph
  mHorizontalKernTable : KernTable

/-- `GLTextureFont::GetGlyph`. -/
def GLTextureFont.GetGlyph (pFont : GLTextureFont) (c : UTF8Char) : Except Error GLTextureGlyph :=
  match pFont.mGlyphs c with
  | none => .error (.MissingGlyphError c)
  | some g => .ok g

/-- `GLTextureFont::GetGlyphMetrics`. -/
def GLTextureFont.GetGlyphMetrics (pFont : GLTextureFont) (c : UTF8Char) :
    Except Error GlyphMetrics := do
  let g ← pFont.GetGlyph c
  return g.mMetrics

/-- A texture font seen through the interface `Font`. -/
def GLTextureFont.toFont (pFont : GLTextureFont) : Font where
  GetMetrics := pFont.mMetrics
  GetHorizontalKernTable := pFont.mHorizontalKernTable
  GetGlyphMetrics := pFont.GetGlyphMetrics

/-! ## text.h: records -/

/-- Character range and geometric extent of a selection (`struct TextSelectionDetails`). -/
structure TextSelectionDetails where
  startPosition : Nat
  endPosition : Nat
  startX : ℚ
  endX : ℚ
  baseY : ℚ
  ascent : ℚ
  descent : ℚ

/-- One corner of a glyph quad (`struct GlyphVertex`). -/
structure GlyphVertex where
  x : ℚ
  y : ℚ
  tx : ℚ
  ty : ℚ

/-- The quad of a glyph (`struct GlyphQuad`), vertices counter clockwise. -/
structure GlyphQuad where
  vertices : Fin 4 → GlyphVertex
  texture : Nat

/-- Horizontal alignment (`enum TextAlign`). -/
inductive TextAlign where
  | TEXTALIGN_LEFT
  | TEXTALIGN_CENTER
  | TEXTALIGN_RIGHT
  deriving DecidableEq, Repr

/-- Layout parameters (`struct TextParams`). -/
structure TextParams where
  startX : ℚ
  startY : ℚ
  maxWidth : ℚ
  lineSpacing : ℚ
  align : TextAlign

/-- A call of one of the hooks of `GLTextLeftToRightIterator`. -/
inductive Event where
  | OnGlyph (c : UTF8Char) (quad : GlyphQuad) (details : TextSelectionDetails)
  | OnLine (details : TextSelectionDetails)

/-! ## text.cpp -/

/-- `SetTextSelection`. -/
def SetTextSelection (pFontMetrics : FontMetrics) (startPosition endPosition : Nat)
    (startX endX baseY : ℚ) : TextSelectionDetails where
  startPosition := startPosition
  endPosition := endPosition
  startX := startX
  endX := endX
  baseY := baseY
  ascent := pFontMetrics.ascent
  descent := pFontMetrics.descent

/-- `SetGlyphQuad`. -/
def SetGlyphQuad (pFont : GLTextureFont) (c : UTF8Char) (x y : ℚ) : Except Error GlyphQuad := do
  let pGlyph ← pFont.GetGlyph c
  let pGlyphMetrics := pGlyph.mMetrics
  let pFontMetrics := pFont.mMetrics
  let tw : ℚ := pGlyph.textureWidth
  let th : ℚ := pGlyph.textureHeight
  -- top left
  let v3 : GlyphVertex :=
    ⟨x + pFontMetrics.bbox.left + pGlyphMetrics.bearingX,
     y + pFontMetrics.bbox.top + pGlyphMetrics.bearingY, 0, 1⟩
  -- top right
  let v2 : GlyphVertex := ⟨v3.x + tw, v3.y, 1, 1⟩
  -- bottom right
  let v1 : GlyphVertex := ⟨v2.x, v2.y - th, 1, 0⟩
  -- bottom left
  let v0 : GlyphVertex := ⟨v3.x, v3.y - th, 0, 0⟩
  return { vertices := ![v0, v1, v2, v3], texture := pGlyph.texture }

/-- `IsSpace`: a space or a tab. -/
def IsSpace (c : UTF8Char) : Bool :=
  c == 32 || c == 9

/-- Loop of `SkipSpaces`. -/
def SkipSpacesLoop (bytes : List Byte) : Nat → Nat → Except Error Nat
  | 0, _ => .error .OutOfFuel
  | fuel + 1, p => do
    let (c, next) ← NextUTF8Char bytes p
    if c == 0 || !IsSpace c then
      return p
    else
      SkipSpacesLoop bytes fuel next

/-- `SkipSpaces`: the position of the first character at or after `p` that is no space. -/
def SkipSpaces (bytes : List Byte) (p : Nat) : Except Error Nat :=
  SkipSpacesLoop bytes (bytes.length + 1) p

/-- `AtLineEnding`: the answer and the position `past`.  After a carriage return the
source decodes at `p` once more. -/
def AtLineEnding (bytes : List Byte) (p : Nat) : Except Error (Bool × Nat) := do
  let (c, past) ← NextUTF8Char bytes p
  if c == 10 then
    return (true, past)
  else if c == 13 then
    let (c, past) ← NextUTF8Char bytes p
    if c == 10 then
      return (true, past)
    else
      return (false, past)
  else
    return (false, past)

/-- `AtStringEnding`. -/
def AtStringEnding (bytes : List Byte) (p : Nat) : Except Error Bool := do
  let (c, _) ← NextUTF8Char bytes p
  return c == 0

/-- Second loop of `NextWordWidth`: reads until the first whitespace. -/
def NextWordWidthWord (pFont : Font) (bytes : List Byte) :
    Nat → Nat → ℚ → UTF8Char → Except Error (ℚ × Nat)
  | 0, _, _, _ => .error .OutOfFuel
  | fuel + 1, p, w, cPrev => do
    let (c, _) ← NextUTF8Char bytes p
    if ← AtStringEnding bytes p then
      return (w, p)
    let (lineEnding, next) ← AtLineEnding bytes p
    if lineEnding || IsSpace c then
      return (w, p)
    let w := if cPrev != 0 then w + GetKernValue pFont.GetHorizontalKernTable cPrev c else w
    let m ← pFont.GetGlyphMetrics c
    let w := w + m.advanceX
    NextWordWidthWord pFont bytes fuel next w c

/-- First loop of `NextWordWidth`: reads the whitespaces preceding the word, then goes on
with the second loop. -/
def NextWordWidthSpaces (pFont : Font) (bytes : List Byte) :
    Nat → Nat → ℚ → UTF8Char → Except Error (ℚ × Nat)
  | 0, _, _, _ => .error .OutOfFuel
  | fuel + 1, p, w, cPrev => do
    let (c, _) ← NextUTF8Char bytes p
    if ← AtStringEnding bytes p then
      return (0, p)
    let (lineEnding, next) ← AtLineEnding bytes p
    if lineEnding then
      return (0, p)
    if !IsSpace c then
      NextWordWidthWord pFont bytes (fuel + 1) p w cPrev
    else
      let w := if cPrev != 0 then w + GetKernValue pFont.GetHorizontalKernTable cPrev c else w
      let m ← pFont.GetGlyphMetrics c
      let w := w + m.advanceX
      NextWordWidthSpaces pFont bytes fuel next w c

/-- `NextWordWidth`: the measured width and the position `pEnd`. -/
def NextWordWidth (pFont : Font) (bytes : List Byte) (text : Nat) : Except Error (ℚ × Nat) :=
  NextWordWidthSpaces pFont bytes (bytes.length + 1) text 0 0

/-- Loop of `NextLineWidth`. -/
def NextLineWidthLoop (pFont : Font) (bytes : List Byte) (maxLineWidth : ℚ) :
    Nat → Nat → ℚ → Except Error (ℚ × Nat)
  | 0, _, _ => .error .OutOfFuel
  | fuel + 1, p, lineWidth => do
    let (wordWidth, pWordEnd) ← NextWordWidth pFont bytes p
    if wordWidth > maxLineWidth then
      throw .TextFormatError
    else if lineWidth + wordWidth > maxLineWidth then
      return (lineWidth, p)
    else
      let lineWidth := lineWidth + wordWidth
      let p := pWordEnd
      if ← AtStringEnding bytes p then
        return (lineWidth, p)
      let (lineEnding, _) ← AtLineEnding bytes p
      if lineEnding then
        return (lineWidth, p)
      NextLineWidthLoop pFont bytes maxLineWidth fuel p lineWidth

/-- `NextLineWidth`: the measured width of the line and the position `pLineEnd`. -/
def NextLineWidth (pFont : Font) (bytes : List Byte) (text : Nat) (maxLineWidth : ℚ) :
    Except Error (ℚ × Nat) := do
  let p ← SkipSpaces bytes text
  NextLineWidthLoop pFont bytes maxLineWidth (bytes.length + 1) p 0

/-- Loop of `CountLines`. -/
def CountLinesLoop (pFont : Font) (bytes : List Byte) (params : TextParams) :
    Nat → Nat → Nat → Except Error Nat
  | 0, _, _ => .error .OutOfFuel
  | fuel + 1, p, count => do
    if ← AtStringEnding bytes p then
      return count
    let count := count + 1
    let (_, next) ← NextLineWidth pFont bytes p params.maxWidth
    let p := next
    if ← AtStringEnding bytes p then
      return count
    let (lineEnding, next) ← AtLineEnding bytes p
    let p := if lineEnding then next else p
    CountLinesLoop pFont bytes params fuel p count

/-- `CountLines`. -/
def CountLines (pFont : Font) (bytes : List Byte) (text : Nat) (params : TextParams) :
    Except Error Nat :=
  CountLinesLoop pFont bytes params (bytes.length + 1) text 0

/-- Glyph loop `while (p < pLineEnd)` of `IterateText`: takes and returns the hook calls
made so far; on success also the position reached. -/
def IterateTextGlyphs (pFont : GLTextureFont) (bytes : List Byte) (text : Nat) (y : ℚ)
    (pLineEnd : Nat) : Nat → Nat → ℚ → UTF8Char → List Event → List Event × Except Error Nat
  | 0, _, _, _, out => (out, .error .OutOfFuel)
  | fuel + 1, p, x, cPrev, out =>
    if p < pLineEnd then
      let x0 := x
      let step : Except Error (UTF8Char × Nat × ℚ × Event) := do
        let (c, next) ← NextUTF8Char bytes p
        let x := if cPrev != 0 then x + GetKernValue pFont.mHorizontalKernTable cPrev c else x
        let quad ← SetGlyphQuad pFont c x y
        let g ← pFont.GetGlyph c
        let x := x + g.mMetrics.advanceX
        let startPosition ← CountCharsUTF8 bytes text (some p)
        let endPosition ← CountCharsUTF8 bytes text (some next)
        let glyphSelection := SetTextSelection pFont.mMetrics startPosition endPosition x0 x y
        return (c, next, x, .OnGlyph c quad glyphSelection)
      match step with
      | .error e => (out, .error e)
      | .ok (c, next, x, ev) =>
        IterateTextGlyphs pFont bytes text y pLineEnd fuel next x c (out ++ [ev])
    else
      (out, .ok p)

/-- Line loop `while (!AtStringEnding(p))` of `IterateText`. -/
def IterateTextLoop (pFont : GLTextureFont) (bytes : List Byte) (text : Nat)
    (params : TextParams) : Nat → Nat → ℚ → List Event → List Event × Except Error Unit
  | 0, _, _, out => (out, .error .OutOfFuel)
  | fuel + 1, p, y, out =>
    let line : Except Error (Option (ℚ × Nat × Nat × Event)) := do
      if ← AtStringEnding bytes p then
        return none
      let (lineWidth, pLineEnd) ← NextLineWidth pFont.toFont bytes p params.maxWidth
      let x :=
        if params.align = .TEXTALIGN_CENTER then params.startX - lineWidth / 2
        else if params.align = .TEXTALIGN_RIGHT then params.startX - lineWidth
        else params.startX
      let p ← SkipSpaces bytes p
      let startPosition ← CountCharsUTF8 bytes text (some p)
      let endPosition ← CountCharsUTF8 bytes text (some pLineEnd)
      let lineSelection :=
        SetTextSelection pFont.mMetrics startPosition endPosition x (x + lineWidth) y
      return some (x, p, pLineEnd, .OnLine lineSelection)
    match line with
    | .error e => (out, .error e)
    | .ok none => (out, .ok ())
    | .ok (some (x, p, pLineEnd, ev)) =>
      match IterateTextGlyphs pFont bytes text y pLineEnd (bytes.length + 1) p x 0 (out ++ [ev]) with
      | (out, .error e) => (out, .error e)
      | (out, .ok p) =>
        -- See what character ended the line.
        let ending : Except Error (Option Nat) := do
          if ← AtStringEnding bytes p then
            return none
          let (lineEnding, next) ← AtLineEnding bytes p
          return some (if lineEnding then next else p)
        match ending with
        | .error e => (out, .error e)
        | .ok none => (out, .ok ())
        | .ok (some p) => IterateTextLoop pFont bytes text params fuel p (y - params.lineSpacing) out

/-- `GLTextLeftToRightIterator::IterateText`: the calls of `OnLine` and `OnGlyph` in the
order they are made, and how the call ends. -/
def IterateText (pFont : GLTextureFont) (bytes : List Byte) (text : Nat) (params : TextParams) :
    List Event × Except Error Unit :=
  IterateTextLoop pFont bytes text params (bytes.length + 1) text params.startY []

/-- The character spans of the `OnLine` calls among the events. -/
def lineSpans : List Event → List (Nat × Nat)
  | [] => []
  | .OnLine d :: es => (d.startPosition, d.endPosition) :: lineSpans es
  | .OnGlyph _ _ _ :: es => lineSpans es

/-- The characters of the `OnGlyph` calls among the events. -/
def glyphChars : List Event → List UTF8Char
  | [] => []
  | .OnLine _ :: es => glyphChars es
  | .OnGlyph c _ _ :: es => c :: glyphChars es

/-! ## Well-formed UTF-8 sequences -/

/-- The value obtained by concatenating bytes, the first byte most significant. -/
def bigEndian (s : List Byte) : Nat :=
  s.foldl (fun acc b => acc * 256 + b.val) 0

/-- A well-formed UTF-8 sequence of 1 to 4 bytes: a single byte without leading 1-bit, or a
lead byte with `n` leading 1-bits (`2 ≤ n ≤ 4`) followed by `n - 1` bytes `10xxxxxx`. -/
def WellFormedSeq : List Byte → Prop
  | [] => False
  | b0 :: rest =>
    (CountSuccessiveLeftBits b0 = 0 ∧ rest = []) ∨
    (2 ≤ CountSuccessiveLeftBits b0 ∧ CountSuccessiveLeftBits b0 ≤ 4 ∧
      rest.length + 1 = CountSuccessiveLeftBits b0 ∧ ∀ b ∈ rest, notContinuation b = false)

instance : DecidablePred WellFormedSeq := fun s => by
  cases s <;> unfold WellFormedSeq <;> infer_instance

/-- Loop of the test `next_test`:
`for (p = text; *p; p = NextUTF8Char(p, characters[i]), i++)`, collecting the characters. -/
def nextTestLoop (bytes : List Byte) : Nat → Nat → List UTF8Char → Except Error (List UTF8Char)
  | 0, _, _ => .error .OutOfFuel
  | fuel + 1, p, characters =>
    match bytes[p]? with
    | none => .error .OutOfBounds
    | some b =>
      if b.val = 0 then .ok characters
      else
        match NextUTF8Char bytes p with
        | .error e => .error e
        | .ok (ch, q) => nextTestLoop bytes fuel q (characters ++ [ch])

/-- The characters met when iterating `NextUTF8Char` from position `text` to the terminator. -/
def nextTest (bytes : List Byte) (text : Nat) : Except Error (List UTF8Char) :=
  nextTestLoop bytes (bytes.length + 1) text []

/-- One step of the accumulation in `NextUTF8Char`. -/
def nextStep (ch : UTF8Char) (b : Byte) : UTF8Char :=
  ((ch <<< 8) ||| (0xff &&& b.val)) % 2 ^ 32

/-- One step of the accumulation in `PrevUTF8Char`, `nBytes` being already incremented. -/
def prevStep (ch : UTF8Char) (byte : Byte) (nBytes : Nat) : UTF8Char :=
  (ch ||| ((0xff &&& byte.val) <<< (8 * (nBytes - 1)))) % 2 ^ 32

/-! ## Texts and fonts of the examples -/

/-- The ASCII C string of `s`: its characters followed by the terminating 0. -/
def cstr (s : String) : List Byte :=
  s.toList.map (fun c => Fin.ofNat c.toNat) ++ [0]

/-- A font view in which every glyph has the advance `adv c` and kerning is `kern`. -/
def simpleFont (adv : UTF8Char → ℚ) (kern : KernTable) : Font where
  GetMetrics := ⟨1000, 800, -200, ⟨0, -200, 1000, 800⟩⟩
  GetHorizontalKernTable := kern
  GetGlyphMetrics := fun c => .ok ⟨0, 0, adv c, 1000, adv c⟩

/-- A texture font in which every glyph has the advance `adv c` and kerning is `kern`. -/
def simpleTextureFont (adv : UTF8Char → ℚ) (kern : KernTable) : GLTextureFont where
  mMetrics := ⟨1000, 800, -200, ⟨0, -200, 1000, 800⟩⟩
  mGlyphs := fun c => some ⟨⟨0, 0, adv c, 1000, adv c⟩, c, 16, 16⟩
  mHorizontalKernTable := kern

/-- Kerning of -5 between `t` and `w` and of -3 between `h` and `r`, none elsewhere. -/
def tightKern : KernTable := fun c1 =>
  if c1 = 116 then some (fun c2 => if c2 = 119 then some (-5) else none)
  else if c1 = 104 then some (fun c2 => if c2 = 114 then some (-3) else none)
  else none

/-! ## parse.cpp: numbers -/

/-- The C library function `isdigit` in the C locale. -/
def isdigit (c : Byte) : Bool :=
  48 ≤ c.val && c.val ≤ 57

/-- The C library function `isspace` in the C locale: space, `\t`, `\n`, `\v`, `\f`, `\r`. -/
def isspace (c : Byte) : Bool :=
  c.val == 32 || (9 ≤ c.val && c.val ≤ 13)

/-- The C library function `isupper` in the C locale. -/
def isupper (c : Byte) : Bool :=
  65 ≤ c.val && c.val ≤ 90

/-- The C library function `tolower` in the C locale. -/
def tolower (c : Byte) : Byte :=
  if isupper c then c + 32 else c

/-- The digits read by the C library function `atoi`, on the text from the current position
on. -/
def atoiDigits : List Byte → Nat → Except Error Nat
  | [], _ => .error .OutOfBounds
  | c :: rest, acc =>
    if isdigit c then atoiDigits rest (acc * 10 + (c.val - 48)) else .ok acc

/-- The C library function `atoi` on the text from the current position on: white space, an
optional sign, decimal digits.  The value is the one the digits denote; outside the range of
`int` the C library leaves the result undefined. -/
def atoi : List Byte → Except Error Int
  | [] => .error .OutOfBounds
  | c :: rest =>
    if isspace c then atoi rest
    else if c.val = 45 then (atoiDigits rest 0).map (fun n => -(n : Int))
    else if c.val = 43 then (atoiDigits rest 0).map (fun n => (n : Int))
    else (atoiDigits (c :: rest) 0).map (fun n => (n : Int))

/-- The loop `while (isdigit(*p)) p++` of `ParseDouble`, on the text from `p` on. -/
def ParseDoubleSkipDigits : List Byte → Nat → Except Error Nat
  | [], _ => .error .OutOfBounds
  | c :: rest, p => if isdigit c then ParseDoubleSkipDigits rest (p + 1) else .ok p

/-- The exponent branch of `ParseDouble` after its `p++`, on the text from `p` on. -/
def ParseDoubleExponent (s : List Byte) (p : Nat) (out : ℚ) : Except Error (ℚ × Option Nat) :=
  match s with
  | [] => .error .OutOfBounds
  | c :: rest =>
    -- '+' just means positive power, default
    let sp : List Byte × Nat := if c.val = 43 then (rest, p + 1) else (c :: rest, p)
    match atoi sp.1 with
    | .error err => .error err
    | .ok e =>
      let out := out * (10 : ℚ) ^ e
      -- read past exponent number
      match sp.1 with
      | [] => .error .OutOfBounds
      | c :: rest =>
        let sp : List Byte × Nat := if c.val = 45 then (rest, sp.2 + 1) else (c :: rest, sp.2)
        match ParseDoubleSkipDigits sp.1 sp.2 with
        | .error err => .error err
        | .ok q => .ok (out, some q)

/-- The loop `while (*p)` of `ParseDouble`, on the text from `p` on, with the variables
`out`, `d` and `ndigit`.  Returns `out` and the returned pointer (`none` for `nullptr`). -/
def ParseDoubleLoop : List Byte → Nat → ℚ → ℚ → Int → Except Error (ℚ × Option Nat)
  | [], _, _, _, _ => .error .OutOfBounds
  | c :: rest, p, out, d, ndigit =>
    if c.val = 0 then .ok (out, some p)
    else if isdigit c then
      let digit : ℚ := ((c.val - 48 : Nat) : ℚ)
      if d > 1 then -- left from period
        ParseDoubleLoop rest (p + 1) (out * d + digit) d (ndigit + 1)
      else -- right from period, decimal
        ParseDoubleLoop rest (p + 1) (out + d * digit) (d * (1 / 10)) (ndigit + 1)
    else if (tolower c).val = 101 then
      -- if no digits precede the exponent, assume 1
      let out := if ndigit ≤ 0 then 1 else out
      ParseDoubleExponent rest (p + 1) out
    else if c.val = 46 then
      ParseDoubleLoop rest (p + 1) out (1 / 10) ndigit
    else if c.val = 45 then
      -- negative number
      match ParseDoubleLoop rest (p + 1) 0 10 0 with
      | .error err => .error err
      | .ok (v, q) => .ok (-v, q)
    else
      -- To assume success, must have read at least one digit
      if ndigit > 0 then .ok (out, some p) else .ok (out, none)

/-- `ParseDouble`: the value `out` and the pointer to the string after the number, `none`
for `nullptr`. -/
def ParseDouble (bytes : List Byte) (text : Nat) : Except Error (ℚ × Option Nat) :=
  ParseDoubleLoop (bytes.drop text) text 0 10 0

/-! ## parse.cpp: paths -/

/-- Kind of a path element (`enum GlyphPathElementType`). -/
inductive GlyphPathElementType where
  | ELEMENT_MOVETO
  | ELEMENT_LINETO
  | ELEMENT_CURVETO
  | ELEMENT_ARCTO
  | ELEMENT_CLOSEPATH
  deriving DecidableEq, Repr

/-- A path element (`struct GlyphPathElement`).  In the source `rx`, `ry` and `rotate` share
their storage with `x1`, `y1` and `x2` through the anonymous union: they are the same fields
here.  `largeArc` and `sweep` lie over the first bytes of `y2`; the model keeps them apart. -/
structure GlyphPathElement where
  type : GlyphPathElementType
  x1 : ℚ
  y1 : ℚ
  x2 : ℚ
  y2 : ℚ
  largeArc : Bool
  sweep : Bool
  x : ℚ
  y : ℚ
  deriving DecidableEq, Repr

/-- `rx` of an arc: the storage of `x1`. -/
def GlyphPathElement.rx (el : GlyphPathElement) : ℚ := el.x1

/-- `ry` of an arc: the storage of `y1`. -/
def GlyphPathElement.ry (el : GlyphPathElement) : ℚ := el.y1

/-- `rotate` of an arc: the storage of `x2`. -/
def GlyphPathElement.rotate (el : GlyphPathElement) : ℚ := el.x2

/-- The constant `PI` of parse.cpp. -/
def PI : ℚ := 3.14159265358979323846

/-- The loop `while (isspace(*d)) d++`, on the text from `d` on. -/
def skipSpace : List Byte → Nat → Except Error Nat
  | [], _ => .error .OutOfBounds
  | c :: rest, d => if isspace c then skipSpace rest (d + 1) else .ok d

/-- The loop `while (isspace(*nd) || *nd == ',') nd++`, on the text from `nd` on. -/
def skipSeparators : List Byte → Nat → Except Error Nat
  | [], _ => .error .OutOfBounds
  | c :: rest, nd => if isspace c || c.val == 44 then skipSeparators rest (nd + 1) else .ok nd

/-- The inner loop of `SVGParsePathDoubles`, on the text from `text` on:
`while (isspace(*text) || *text == ',') { text++; if (!*text) return NULL; }`. -/
def SVGParsePathDoublesSkip : List Byte → Nat → Except Error (Option Nat)
  | [], _ => .error .OutOfBounds
  | c :: rest, text =>
    if isspace c || c.val == 44 then
      match rest with
      | [] => .error .OutOfBounds
      | c' :: _ => if c'.val = 0 then .ok none else SVGParsePathDoublesSkip rest (text + 1)
    else .ok (some text)

/-- `SVGParsePathDoubles`: parses `n` comma/space separated floats; returns them with the
pointer to the text after them, `none` for `NULL`. -/
def SVGParsePathDoubles (bytes : List Byte) : Nat → Nat → Except Error (Option (List ℚ × Nat))
  | 0, text => .ok (some ([], text))
  | n + 1, text =>
    match bytes[text]? with
    | none => .error .OutOfBounds
    | some c =>
      if c.val = 0 then .ok none
      else
        match SVGParsePathDoublesSkip (bytes.drop text) text with
        | .error err => .error err
        | .ok none => .ok none
        | .ok (some text) =>
          match ParseDouble bytes text with
          | .error err => .error err
          | .ok (_, none) => .ok none
          | .ok (v, some text) =>
            match SVGParsePathDoubles bytes n text with
            | .error err => .error err
            | .ok none => .ok none
            | .ok (some (vs, text)) => .ok (some (v :: vs, text))

/-- `Quadratic2Bezier`: the new values of `x1`, `y1`, `x2`, `y2`. -/
def Quadratic2Bezier (x1 y1 x2 y2 x y : ℚ) : ℚ × ℚ × ℚ × ℚ :=
  let xq1 := x2 * 2 / 3 + x1 / 3
  let yq1 := y2 * 2 / 3 + y1 / 3
  let xq2 := x2 * 2 / 3 + x / 3
  let yq2 := y2 * 2 / 3 + y / 3
  (xq1, yq1, xq2, yq2)

/-- The end point update shared by the commands: absolute for an upper case symbol, relative
to the current point otherwise. -/
def setEndPoint (upper : Bool) (el : GlyphPathElement) (x y : ℚ) : GlyphPathElement :=
  if upper then { el with x := x, y := y } else { el with x := el.x + x, y := el.y + y }

/-- Body of the `moveto` loop of `ParseSVGPath`. -/
def pathMoveTo (upper : Bool) (el : GlyphPathElement) (ds : List ℚ) : GlyphPathElement :=
  { setEndPoint upper el (ds.getD 0 0) (ds.getD 1 0) with type := .ELEMENT_MOVETO }

/-- Body of the `lineto` loop of `ParseSVGPath`. -/
def pathLineTo (upper : Bool) (el : GlyphPathElement) (ds : List ℚ) : GlyphPathElement :=
  { setEndPoint upper el (ds.getD 0 0) (ds.getD 1 0) with type := .ELEMENT_LINETO }

/-- Body of the `horizontal lineto` loop of `ParseSVGPath`. -/
def pathHorizontalTo (upper : Bool) (el : GlyphPathElement) (ds : List ℚ) : GlyphPathElement :=
  let el := if upper then { el with x := ds.getD 0 0 } else { el with x := el.x + ds.getD 0 0 }
  { el with type := .ELEMENT_LINETO }

/-- Body of the `vertical lineto` loop of `ParseSVGPath`. -/
def pathVerticalTo (upper : Bool) (el : GlyphPathElement) (ds : List ℚ) : GlyphPathElement :=
  let el := if upper then { el with y := ds.getD 0 0 } else { el with y := el.y + ds.getD 0 0 }
  { el with type := .ELEMENT_LINETO }

/-- Body of the `curveto` loop of `ParseSVGPath`. -/
def pathCurveTo (upper : Bool) (el : GlyphPathElement) (ds : List ℚ) : GlyphPathElement :=
  let el :=
    if upper then
      { el with x1 := ds.getD 0 0, y1 := ds.getD 1 0, x2 := ds.getD 2 0, y2 := ds.getD 3 0,
                x := ds.getD 4 0, y := ds.getD 5 0 }
    else
      { el with x1 := el.x + ds.getD 0 0, y1 := el.y + ds.getD 1 0,
                x2 := el.x + ds.getD 2 0, y2 := el.y + ds.getD 3 0,
                x := el.x + ds.getD 4 0, y := el.y + ds.getD 5 0 }
  { el with type := .ELEMENT_CURVETO }

/-- Body of the `smooth curveto` loop of `ParseSVGPath`. -/
def pathSmoothTo (upper : Bool) (prevSymbol : Byte) (el : GlyphPathElement) (ds : List ℚ) :
    GlyphPathElement :=
  let el :=
    if prevSymbol.val = 115 ∨ prevSymbol.val = 99 then
      { el with x1 := el.x + (el.x - el.x2), y1 := el.y + (el.y - el.y2) }
    else
      { el with x1 := el.x, y1 := el.y }
  let el :=
    if upper then
      { el with x2 := ds.getD 0 0, y2 := ds.getD 1 0, x := ds.getD 2 0, y := ds.getD 3 0 }
    else
      { el with x2 := el.x + ds.getD 0 0, y2 := el.y + ds.getD 1 0,
                x := el.x + ds.getD 2 0, y := el.y + ds.getD 3 0 }
  { el with type := .ELEMENT_CURVETO }

/-- Body of the `quadratic curveto` loop of `ParseSVGPath`. -/
def pathQuadraticTo (upper : Bool) (el : GlyphPathElement) (ds : List ℚ) : GlyphPathElement :=
  let el := { el with x1 := el.x, y1 := el.y }
  let el :=
    if upper then
      { el with x2 := ds.getD 0 0, y2 := ds.getD 1 0, x := ds.getD 2 0, y := ds.getD 3 0 }
    else
      { el with x2 := el.x + ds.getD 0 0, y2 := el.y + ds.getD 1 0,
                x := el.x + ds.getD 2 0, y := el.y + ds.getD 3 0 }
  -- Cairo doesn't do quadratic, so fake it:
  let q := Quadratic2Bezier el.x1 el.y1 el.x2 el.y2 el.x el.y
  { el with x1 := q.1, y1 := q.2.1, x2 := q.2.2.1, y2 := q.2.2.2, type := .ELEMENT_CURVETO }

/-- Body of the `smooth quadratic curveto` loop of `ParseSVGPath`; the result of
`Quadratic2Bezier` stays in the local variables `qx1 .. qy2` and is not stored. -/
def pathSmoothQuadraticTo (upper : Bool) (prevSymbol : Byte) (el : GlyphPathElement)
    (ds : List ℚ) : GlyphPathElement :=
  let el := { el with x1 := el.x, y1 := el.y }
  let el :=
    if prevSymbol.val = 116 ∨ prevSymbol.val = 113 then
      { el with x2 := el.x + (el.x - el.x2), y2 := el.y + (el.y - el.y2) }
    else
      { el with x2 := el.x, y2 := el.y }
  let el := setEndPoint upper el (ds.getD 0 0) (ds.getD 1 0)
  { el with type := .ELEMENT_CURVETO }

/-- A loop `while ((nd = SVGParsePathDoubles(n, d, ds))) { ...; path.push_back(el); d = nd; }`
of `ParseSVGPath`, `update` being the assignments to `el`. -/
def ParseSVGPathGroups (bytes : List Byte) (n : Nat)
    (update : GlyphPathElement → List ℚ → GlyphPathElement) :
    Nat → Nat → GlyphPathElement → List GlyphPathElement →
      Except Error (Nat × GlyphPathElement × List GlyphPathElement)
  | 0, _, _, _ => .error .OutOfFuel
  | fuel + 1, d, el, path =>
    match SVGParsePathDoubles bytes n d with
    | .error err => .error err
    | .ok none => .ok (d, el, path)
    | .ok (some (ds, nd)) =>
      let el := update el ds
      ParseSVGPathGroups bytes n update fuel nd el (path ++ [el])

/-- The loop of the `smooth curveto` command, which sets `prevSymbol = symbol` in its
body. -/
def ParseSVGPathSmoothGroups (bytes : List Byte) (upper : Bool) :
    Nat → Nat → Byte → GlyphPathElement → List GlyphPathElement →
      Except Error (Nat × GlyphPathElement × List GlyphPathElement)
  | 0, _, _, _, _ => .error .OutOfFuel
  | fuel + 1, d, prevSymbol, el, path =>
    match SVGParsePathDoubles bytes 4 d with
    | .error err => .error err
    | .ok none => .ok (d, el, path)
    | .ok (some (ds, nd)) =>
      let el := pathSmoothTo upper prevSymbol el ds
      ParseSVGPathSmoothGroups bytes upper fuel nd 115 el (path ++ [el])

/-- Reads `*p`. -/
def readChar (bytes : List Byte) (p : Nat) : Except Error Byte :=
  match bytes[p]? with
  | none => .error .OutOfBounds
  | some c => .ok c

/-- Body of the loop `while (isdigit(*d) || *d == '-')` of the arc command: one group
`rx ry rotation largeArcFlag sweepFlag x y`.  Returns the new `d` and the element pushed. -/
def ParseSVGPathArc (bytes : List Byte) (upper : Bool) (d : Nat) (el : GlyphPathElement) :
    Except Error (Nat × GlyphPathElement) := do
  let some (ds, nd) ← SVGParsePathDoubles bytes 3 d
    | throw .FontParseError
  let el := { el with x1 := ds.getD 0 0, y1 := ds.getD 1 0, x2 := ds.getD 2 0 * PI / 180 }
  let nd ← skipSeparators (bytes.drop nd) nd
  let c ← readChar bytes nd
  if !isdigit c then
    throw .FontParseError
  let el := { el with largeArc := c.val != 48 }
  let nd ← skipSeparators (bytes.drop (nd + 1)) (nd + 1)
  let c ← readChar bytes nd
  if !isdigit c then
    throw .FontParseError
  let el := { el with sweep := c.val != 48 }
  let nd ← skipSeparators (bytes.drop (nd + 1)) (nd + 1)
  let some (ds, nd) ← SVGParsePathDoubles bytes 2 nd
    | throw .FontParseError
  let nd ← skipSpace (bytes.drop nd) nd
  -- end points:
  let el := setEndPoint upper el (ds.getD 0 0) (ds.getD 1 0)
  return (nd, { el with type := .ELEMENT_ARCTO })

/-- The loop `while (isdigit(*d) || *d == '-')` of the arc command. -/
def ParseSVGPathArcs (bytes : List Byte) (upper : Bool) :
    Nat → Nat → GlyphPathElement → List GlyphPathElement →
      Except Error (Nat × GlyphPathElement × List GlyphPathElement)
  | 0, _, _, _ => .error .OutOfFuel
  | fuel + 1, d, el, path =>
    match readChar bytes d with
    | .error err => .error err
    | .ok c =>
      if isdigit c || c.val == 45 then
        match ParseSVGPathArc bytes upper d el with
        | .error err => .error err
        | .ok (d, el) => ParseSVGPathArcs bytes upper fuel d el (path ++ [el])
      else .ok (d, el, path)

/-- The `switch (symbol)` of `ParseSVGPath`: the new `d`, `el` and `path`. -/
def ParseSVGPathCommand (bytes : List Byte) (upper : Bool) (symbol prevSymbol : Byte)
    (d : Nat) (el : GlyphPathElement) (path : List GlyphPathElement) :
    Except Error (Nat × GlyphPathElement × List GlyphPathElement) :=
  let fuel := bytes.length + 1
  if symbol.val = 122 then -- closepath
    let el := { el with type := .ELEMENT_CLOSEPATH }
    .ok (d, el, path ++ [el])
  else if symbol.val = 109 then -- moveto(x y)+
    ParseSVGPathGroups bytes 2 (pathMoveTo upper) fuel d el path
  else if symbol.val = 108 then -- lineto(x y)+
    ParseSVGPathGroups bytes 2 (pathLineTo upper) fuel d el path
  else if symbol.val = 104 then -- horizontal lineto x+
    ParseSVGPathGroups bytes 1 (pathHorizontalTo upper) fuel d el path
  else if symbol.val = 118 then -- vertical lineto y+
    ParseSVGPathGroups bytes 1 (pathVerticalTo upper) fuel d el path
  else if symbol.val = 99 then -- curveto(x1 y1 x2 y2 x y)+
    ParseSVGPathGroups bytes 6 (pathCurveTo upper) fuel d el path
  else if symbol.val = 115 then -- shorthand/smooth curveto(x2 y2 x y)+
    ParseSVGPathSmoothGroups bytes upper fuel d prevSymbol el path
  else if symbol.val = 113 then -- quadratic Bezier curveto(x1 y1 x y)+
    ParseSVGPathGroups bytes 4 (pathQuadraticTo upper) fuel d el path
  else if symbol.val = 116 then -- Shorthand/smooth quadratic Bezier curveto(x y)+
    ParseSVGPathGroups bytes 2 (pathSmoothQuadraticTo upper prevSymbol) fuel d el path
  else if symbol.val = 97 then -- elliptical arc
    match skipSpace (bytes.drop d) d with
    | .error err => .error err
    | .ok d => ParseSVGPathArcs bytes upper fuel d el path
  else
    .ok (d, el, path)

/-- The loop `while (*d)` of `ParseSVGPath`. -/
def ParseSVGPathLoop (bytes : List Byte) :
    Nat → Nat → Byte → GlyphPathElement → List GlyphPathElement →
      Except Error (List GlyphPathElement)
  | 0, _, _, _, _ => .error .OutOfFuel
  | fuel + 1, d, symbol, el, path =>
    match readChar bytes d with
    | .error err => .error err
    | .ok c =>
      if c.val = 0 then .ok path
      else
        let prevSymbol := symbol
        -- Get the next path symbol:
        match skipSpace (bytes.drop d) d with
        | .error err => .error err
        | .ok d =>
          match readChar bytes d with
          | .error err => .error err
          | .ok c =>
            let upper := isupper c -- upper is absolute, lower is relative
            let symbol := tolower c
            let d := d + 1
            -- Take the approriate action for the symbol:
            match ParseSVGPathCommand bytes upper symbol prevSymbol d el path with
            | .error err => .error err
            | .ok (d, el, path) => ParseSVGPathLoop bytes fuel d symbol el path

/-- `ParseSVGPath`: the elements appended to `path`.  The local variable `el` is not
initialized in the source: its initial content is the argument `el`. -/
def ParseSVGPath (bytes : List Byte) (d : Nat) (el : GlyphPathElement)
    (path : List GlyphPathElement) : Except Error (List GlyphPathElement) :=
  ParseSVGPathLoop bytes (bytes.length + 1) d 109 el path

/-- A path element with every field zero. -/
def zeroElement : GlyphPathElement :=
  ⟨.ELEMENT_MOVETO, 0, 0, 0, 0, false, false, 0, 0⟩

/-! ## Notions used in the statements on the layout engine -/

/-- The character at position `e` ends a word: the terminator, a line feed, a space or a
tab. -/
def atBreak (bytes : List Byte) (e : Nat) : Prop :=
  ∃ c next, NextUTF8Char bytes e = .ok (c, next) ∧ (c = 0 ∨ c = 10 ∨ c = 32 ∨ c = 9)

/-- Position `q` is reached from position `p` by decoding whole characters. -/
def Reach (bytes : List Byte) (p q : Nat) : Prop :=
  ∃ k, GetUTF8Position bytes p k = .ok q

/-- The event is a call of `OnGlyph`. -/
def Event.isGlyph : Event → Bool
  | .OnGlyph _ _ _ => true
  | .OnLine _ => false

/-- The start X of a line of width `W` under the alignment of `params`. -/
def alignedStartX (params : TextParams) (W : ℚ) : ℚ :=
  match params.align with
  | .TEXTALIGN_LEFT => params.startX
  | .TEXTALIGN_CENTER => params.startX - W / 2
  | .TEXTALIGN_RIGHT => params.startX - W

/-- The quad of the first `OnGlyph` call among the events. -/
def firstGlyphQuad : List Event → Option GlyphQuad
  | [] => none
  | .OnGlyph _ quad _ :: _ => some quad
  | .OnLine _ :: es => firstGlyphQuad es

/-! ## Decimal literals, exponents and arc groups as written -/

/-- The number a string of decimal digits denotes. -/
def digitsValue (ds : List Byte) : Nat :=
  ds.foldl (fun acc c => acc * 10 + (c.val - 48)) 0

/-- A character that cannot continue a number: not a digit, `.`, `e`, `E` or `-` (the
terminator 0 is one). -/
def endsNumber (c : Byte) : Bool :=
  !isdigit c && c.val != 46 && (tolower c).val != 101 && c.val != 45

/-- The characters of the optional fraction of a decimal literal: a `.` followed by
digits. -/
def fractionChars : Option (List Byte) → List Byte
  | none => []
  | some ds => 46 :: ds

/-- The characters of a decimal literal: an optional `-`, the digits `ip`, and optionally a
`.` followed by the digits of `fp`. -/
def literalChars (neg : Bool) (ip : List Byte) (fp : Option (List Byte)) : List Byte :=
  (if neg then [45] else []) ++ ip ++ fractionChars fp

/-- The value a decimal literal denotes. -/
def literalValue (neg : Bool) (ip : List Byte) (fp : Option (List Byte)) : ℚ :=
  let m : ℚ := (digitsValue ip : ℚ) +
    (match fp with
     | none => 0
     | some ds => (digitsValue ds : ℚ) / 10 ^ ds.length)
  if neg then -m else m

/-- A decimal literal: an optional `-`, digits, and optionally a `.` with digits. -/
structure DecimalLiteral where
  neg : Bool
  ip : List Byte
  fp : Option (List Byte)

/-- The characters of the literal. -/
def DecimalLiteral.chars (L : DecimalLiteral) : List Byte :=
  literalChars L.neg L.ip L.fp

/-- The value the literal denotes. -/
def DecimalLiteral.value (L : DecimalLiteral) : ℚ :=
  literalValue L.neg L.ip L.fp

/-- The literal has at least one digit before the `.` and only digits where digits are
expected. -/
def DecimalLiteral.wellFormed (L : DecimalLiteral) : Bool :=
  L.ip.all isdigit && !L.ip.isEmpty &&
    (match L.fp with
     | none => true
     | some ds => ds.all isdigit)

/-- A character that separates the numbers of a path: white space or a comma. -/
def isSeparator (c : Byte) : Bool :=
  isspace c || c.val == 44

/-- The value of an exponent `sign ds`: the digits `ds`, negated after a `-`. -/
def exponentValue (sign ds : List Byte) : Int :=
  if sign = [45] then -(digitsValue ds : Int) else (digitsValue ds : Int)

/-- The characters of an arc group `rx ry rotation largeArcFlag sweepFlag x y` with the
separators `s1 .. s6` between its members and the white space `ws` after it. -/
def arcGroupChars (rx ry rot : DecimalLiteral) (f1 f2 : Byte) (x y : DecimalLiteral)
    (s1 s2 s3 s4 s5 s6 ws : List Byte) : List Byte :=
  rx.chars ++ (s1 ++ (ry.chars ++ (s2 ++ (rot.chars ++ (s3 ++ (f1 :: (s4 ++ (f2 :: (s5 ++
    (x.chars ++ (s6 ++ (y.chars ++ ws))))))))))))

/-- The element an arc group denotes, `el` being the element before it. -/
def arcElement (upper : Bool) (el : GlyphPathElement) (rx ry rot : DecimalLiteral)
    (f1 f2 : Byte) (x y : DecimalLiteral) : GlyphPathElement where
  type := .ELEMENT_ARCTO
  x1 := rx.value
  y1 := ry.value
  x2 := rot.value * PI / 180
  y2 := el.y2
  largeArc := f1.val != 48
  sweep := f2.val != 48
  x := if upper then x.value else el.x + x.value
  y := if upper then y.value else el.y + y.value

/-! ## More texts and fonts of the examples -/

/-- A font view without any glyph for the carriage return; every other glyph has advance 1. -/
def noCarriageReturnFont : Font where
  GetMetrics := ⟨1000, 800, -200, ⟨0, -200, 1000, 800⟩⟩
  GetHorizontalKernTable := fun _ => none
  GetGlyphMetrics := fun c =>
    if c = 13 then .error (.MissingGlyphError c) else .ok ⟨0, 0, 1, 1000, 1⟩

/-- The text "a\r\nb" as a C string. -/
def windowsText : List Byte := [97, 13, 10, 98, 0]

/-- A texture font whose bounding box starts 7 units right of the origin; every glyph has
bearing 3 and advance 10, and there is no kerning. -/
def insetTextureFont : GLTextureFont where
  mMetrics := ⟨1000, 800, -200, ⟨7, -200, 1000, 800⟩⟩
  mGlyphs := fun c => some ⟨⟨3, 0, 10, 1000, 10⟩, c, 16, 16⟩
  mHorizontalKernTable := fun _ => none

/-! ## parse.cpp: the font document -/

/-- The C library function `islower` in the C locale. -/
def islower (c : Byte) : Bool :=
  97 ≤ c.val && c.val ≤ 122

/-- The C library function `toupper` in the C locale. -/
def toupper (c : Byte) : Byte :=
  if islower c then c - 32 else c

/-- The content of the ASCII string `s`, without a terminating 0 (a `std::string`, or the
text of an `xmlChar *`). -/
def str (s : String) : List Byte :=
  s.toList.map (fun c => Fin.ofNat c.toNat)

/-- A node of the document tree that libxml2 builds (`xmlNode`): its name, its attributes
with their values, and its children in document order.  Strings are kept without their
terminating 0. -/
inductive XmlNode where
  | mk (name : List Byte) (properties : List (List Byte × List Byte))
      (children : List XmlNode)

/-- The field `name` of an `xmlNode`. -/
def XmlNode.name : XmlNode → List Byte
  | .mk name _ _ => name

/-- The attributes of an `xmlNode`. -/
def XmlNode.properties : XmlNode → List (List Byte × List Byte)
  | .mk _ properties _ => properties

/-- The children of an `xmlNode` (the list that `XMLChildIterable` walks). -/
def XmlNode.children : XmlNode → List XmlNode
  | .mk _ _ children => children

/-- The libxml2 function `xmlGetProp`: the value of the attribute `key`, `none` for `NULL`. -/
def xmlGetProp (pTag : XmlNode) (key : List Byte) : Option (List Byte) :=
  match pTag.properties.find? (fun a => a.1 == key) with
  | none => none
  | some a => some a.2

/-- The libxml2 function `xmlHasProp`. -/
def xmlHasProp (pTag : XmlNode) (key : List Byte) : Bool :=
  (xmlGetProp pTag key).isSome

/-- The function `boost::iequals`: equality of the two strings up to case. -/
def iequals (a b : List Byte) : Bool :=
  a.map toupper == b.map toupper

/-- `FindChild`: the first child with the name `tagName`. -/
def FindChild (pParent : XmlNode) (tagName : List Byte) : Except Error XmlNode :=
  match pParent.children.find? (fun pChild => iequals pChild.name tagName) with
  | some pChild => .ok pChild
  | none => .error .FontParseError

/-- `IterFindChildren`: the children with the name `tagName`. -/
def IterFindChildren (pParent : XmlNode) (tagName : List Byte) : List XmlNode :=
  pParent.children.filter (fun pChild => iequals pChild.name tagName)

/-- `ParseUnicodeAttrib`: the character `c`. -/
def ParseUnicodeAttrib (pTag : XmlNode) (key : List Byte) : Except Error UTF8Char :=
  match xmlGetProp pTag key with
  | none => .error .FontParseError
  | some pS =>
    if pS.length > 4 then .error .FontParseError
    else
      match NextUTF8Char (pS ++ [0]) 0 with
      | .error err => .error err
      | .ok (c, next) =>
        match (pS ++ [0])[next]? with
        | none => .error .OutOfBounds
        | some b => if b.val ≠ 0 then .error .FontParseError else .ok c

/-- `ParseStringAttrib`: the string `s`. -/
def ParseStringAttrib (pTag : XmlNode) (key : List Byte) : Except Error (List Byte) :=
  match xmlGetProp pTag key with
  | none => .error .FontParseError
  | some pS => .ok pS

/-- `ParseDoubleAttrib`: the number `d`. -/
def ParseDoubleAttrib (pTag : XmlNode) (key : List Byte) : Except Error ℚ :=
  match xmlGetProp pTag key with
  | none => .error .FontParseError
  | some pS =>
    match ParseDouble (pS ++ [0]) 0 with
    | .error err => .error err
    | .ok (_, none) => .error .FontParseError
    | .ok (d, some _) => .ok d

/-- The loop `for (i = 0; i < 4; i++)` of `ParseBoundingBoxAttrib` with `n` rounds to go:
the numbers read. -/
def ParseBoundingBoxNumbers (bytes : List Byte) : Nat → Nat → Except Error (List ℚ)
  | 0, _ => .ok []
  | n + 1, p =>
    match skipSpace (bytes.drop p) p with
    | .error err => .error err
    | .ok p =>
      match ParseDouble bytes p with
      | .error err => .error err
      | .ok (_, none) => .error .FontParseError
      | .ok (v, some p) =>
        match ParseBoundingBoxNumbers bytes n p with
        | .error err => .error err
        | .ok numbers => .ok (v :: numbers)

/-- `ParseBoundingBoxAttrib`: the bounding box `bbox`. -/
def ParseBoundingBoxAttrib (pTag : XmlNode) : Except Error FontBoundingBox :=
  match ParseStringAttrib pTag (str "bbox") with
  | .error err => .error err
  | .ok s =>
    match ParseBoundingBoxNumbers (s ++ [0]) 4 0 with
    | .error err => .error err
    | .ok numbers =>
      .ok ⟨numbers.getD 0 0, numbers.getD 1 0, numbers.getD 2 0, numbers.getD 3 0⟩

deriving instance DecidableEq for GlyphMetrics, FontBoundingBox, FontMetrics

/-- Outline and metrics of one glyph (`struct GlyphData`). -/
structure GlyphData where
  mMetrics : GlyphMetrics
  mPath : List GlyphPathElement
  deriving DecidableEq

/-- The parsed font (`struct FontData`): `mGlyphs c = none` where the map has no key `c`. -/
structure FontData where
  mMetrics : FontMetrics
  mGlyphs : UTF8Char → Option GlyphData
  mHorizontalKernTable : KernTable

/-- The map `std::unordered_map<std::string, UTF8Char>` from glyph names to characters. -/
abbrev NameTable := List Byte → Option UTF8Char

/-- The statement `if (xmlHasProp(pTag, key)) ParseDoubleAttrib(pTag, key, d)`: the new
value of `d`. -/
def ParseOptionalDoubleAttrib (pTag : XmlNode) (key : List Byte) (d : ℚ) : Except Error ℚ :=
  if xmlHasProp pTag key then ParseDoubleAttrib pTag key else .ok d

/-- `ParseGlyphTag`: the new `fontData` and `namesToCharacters`.  The path is parsed with
the uninitialized element `el` of `ParseSVGPath`. -/
def ParseGlyphTag (pGlyphTag : XmlNode) (defaults : GlyphMetrics) (el : GlyphPathElement)
    (fontData : FontData) (namesToCharacters : NameTable) : Except Error (FontData × NameTable) :=
  if !xmlHasProp pGlyphTag (str "unicode") then .ok (fontData, namesToCharacters)
  else
    match ParseUnicodeAttrib pGlyphTag (str "unicode") with
    | .error err => .error err
    | .ok c =>
      let names : Except Error NameTable :=
        if xmlHasProp pGlyphTag (str "glyph-name") then
          match ParseStringAttrib pGlyphTag (str "glyph-name") with
          | .error err => .error err
          | .ok name => .ok (fun n => if n = name then some c else namesToCharacters n)
        else .ok namesToCharacters
      match names with
      | .error err => .error err
      | .ok namesToCharacters =>
        -- `fontData.mGlyphs[c]` inserts an empty glyph when there is none
        let mPath : List GlyphPathElement :=
          match fontData.mGlyphs c with
          | none => []
          | some g => g.mPath
        match ParseOptionalDoubleAttrib pGlyphTag (str "horiz-adv-x") defaults.advanceX with
        | .error err => .error err
        | .ok advanceX =>
          match ParseOptionalDoubleAttrib pGlyphTag (str "horiz-origin-x") defaults.bearingX with
          | .error err => .error err
          | .ok bearingX =>
            match ParseOptionalDoubleAttrib pGlyphTag (str "horiz-origin-y") defaults.bearingY with
            | .error err => .error err
            | .ok bearingY =>
              let mMetrics : GlyphMetrics :=
                { defaults with advanceX := advanceX, bearingX := bearingX, bearingY := bearingY }
              -- 'd' might be missing for a whitespace glyph
              let d : Except Error (List Byte) :=
                if xmlHasProp pGlyphTag (str "d") then ParseStringAttrib pGlyphTag (str "d")
                else .ok []
              match d with
              | .error err => .error err
              | .ok d =>
                match ParseSVGPath (d ++ [0]) 0 el mPath with
                | .error err => .error err
                | .ok mPath =>
                  .ok ({ fontData with
                          mGlyphs := fun c' =>
                            if c' = c then some ⟨mMetrics, mPath⟩ else fontData.mGlyphs c' },
                        namesToCharacters)

/-- The function `boost::split(names, value, boost::is_any_of(","))`: the pieces of `value`
between its commas, empty pieces included. -/
def splitAtCommas : List Byte → List (List Byte)
  | [] => [[]]
  | c :: rest =>
    if c.val = 44 then [] :: splitAtCommas rest
    else
      match splitAtCommas rest with
      | [] => [[c]]
      | name :: names => (c :: name) :: names

/-- `ParseGlyphNameListAttrib`: the list `names`. -/
def ParseGlyphNameListAttrib (pTag : XmlNode) (id : List Byte) :
    Except Error (List (List Byte)) :=
  match ParseStringAttrib pTag id with
  | .error err => .error err
  | .ok value => .ok (splitAtCommas value)

/-- The loop of `ParseGlyphUnicodeListAttrib` over the pieces `reprs`: the characters that
are pushed to the back of `characters`. -/
def ParseGlyphUnicodeList : List (List Byte) → Except Error (List UTF8Char)
  | [] => .ok []
  | repr :: reprs =>
    match NextUTF8Char (repr ++ [0]) 0 with
    | .error err => .error err
    | .ok (c, next) =>
      match (repr ++ [0])[next]? with
      | none => .error .OutOfBounds
      | some b =>
        if b.val ≠ 0 then .error .FontParseError
        else
          match ParseGlyphUnicodeList reprs with
          | .error err => .error err
          | .ok cs => .ok (c :: cs)

/-- `ParseGlyphUnicodeListAttrib`: the new list `characters`. -/
def ParseGlyphUnicodeListAttrib (pTag : XmlNode) (id : List Byte)
    (characters : List UTF8Char) : Except Error (List UTF8Char) :=
  match ParseStringAttrib pTag id with
  | .error err => .error err
  | .ok value =>
    match ParseGlyphUnicodeList (splitAtCommas value) with
    | .error err => .error err
    | .ok cs => .ok (characters ++ cs)

/-- The loop `for (std::string &name : g)` of `ParseHKernTag`: the characters pushed to the
back of `u`. -/
def lookupGlyphNames (namesToCharacters : NameTable) :
    List (List Byte) → Except Error (List UTF8Char)
  | [] => .ok []
  | name :: names =>
    match namesToCharacters name with
    | none => .error .FontParseError
    | some c =>
      match lookupGlyphNames namesToCharacters names with
      | .error err => .error err
      | .ok cs => .ok (c :: cs)

/-- The block `if (xmlHasProp(pHKernTag, "g1")) { ... }` of `ParseHKernTag`: the list `u1`. -/
def ParseHKernNames (pHKernTag : XmlNode) (namesToCharacters : NameTable) (id : List Byte) :
    Except Error (List UTF8Char) :=
  if xmlHasProp pHKernTag id then
    match ParseGlyphNameListAttrib pHKernTag id with
    | .error err => .error err
    | .ok g => lookupGlyphNames namesToCharacters g
  else .ok []

/-- The assignment `table[c1][c2] = k`. -/
def setKernValue (table : KernTable) (c1 c2 : UTF8Char) (k : ℚ) : KernTable :=
  fun a =>
    if a = c1 then
      some (fun b =>
        if b = c2 then some k
        else
          match table c1 with
          | none => none
          | some row => row b)
    else table a

/-- `ParseHKernTag`: the new `fontData`. -/
def ParseHKernTag (pHKernTag : XmlNode) (namesToCharacters : NameTable) (fontData : FontData) :
    Except Error FontData :=
  match ParseDoubleAttrib pHKernTag (str "k") with
  | .error err => .error err
  | .ok k =>
    match ParseHKernNames pHKernTag namesToCharacters (str "g1") with
    | .error err => .error err
    | .ok u1 =>
      match ParseHKernNames pHKernTag namesToCharacters (str "g2") with
      | .error err => .error err
      | .ok u2 =>
        let u1' : Except Error (List UTF8Char) :=
          if xmlHasProp pHKernTag (str "u1") then
            ParseGlyphUnicodeListAttrib pHKernTag (str "u1") u1
          else .ok u1
        match u1' with
        | .error err => .error err
        | .ok u1 =>
          let u2' : Except Error (List UTF8Char) :=
            if xmlHasProp pHKernTag (str "u2") then
              ParseGlyphUnicodeListAttrib pHKernTag (str "u2") u2
            else .ok u2
          match u2' with
          | .error err => .error err
          | .ok u2 =>
            .ok { fontData with
                  mHorizontalKernTable :=
                    u1.foldl (fun table c1 => u2.foldl (fun table c2 => setKernValue table c1 c2 k)
                      table) fontData.mHorizontalKernTable }

/-- The loop `for (xmlNodePtr pGlyphTag : IterFindChildren(pFontTag, "glyph"))` of
`ParseSVGFontData`. -/
def ParseGlyphTags (defaults : GlyphMetrics) (el : GlyphPathElement) :
    List XmlNode → FontData → NameTable → Except Error (FontData × NameTable)
  | [], fontData, namesToCharacters => .ok (fontData, namesToCharacters)
  | pGlyphTag :: tags, fontData, namesToCharacters =>
    match ParseGlyphTag pGlyphTag defaults el fontData namesToCharacters with
    | .error err => .error err
    | .ok (fontData, namesToCharacters) =>
      ParseGlyphTags defaults el tags fontData namesToCharacters

/-- The loop `for (xmlNodePtr pHKernTag : IterFindChildren(pFontTag, "hkern"))` of
`ParseSVGFontData`. -/
def ParseHKernTags (namesToCharacters : NameTable) : List XmlNode → FontData → Except Error FontData
  | [], fontData => .ok fontData
  | pHKernTag :: tags, fontData =>
    match ParseHKernTag pHKernTag namesToCharacters fontData with
    | .error err => .error err
    | .ok fontData => ParseHKernTags namesToCharacters tags fontData

/-- `ParseSVGFontData` on the document that `ParseXML` returns, `pRoot` being its root
element (`none` for `nullptr`): the new `fontData`.  `el` is the uninitialized element of
`ParseSVGPath`. -/
def ParseSVGFontData (pRoot : Option XmlNode) (el : GlyphPathElement) (fontData : FontData) :
    Except Error FontData := do
  let some pRoot := pRoot
    | throw .FontParseError
  if !iequals pRoot.name (str "svg") then
    throw .FontParseError
  let pDefsTag ← FindChild pRoot (str "defs")
  let pFontTag ← FindChild pDefsTag (str "font")
  let pFaceTag ← FindChild pFontTag (str "font-face")
  let ascent ← ParseDoubleAttrib pFaceTag (str "ascent")
  let descent ← ParseDoubleAttrib pFaceTag (str "descent")
  let unitsPerEM ← ParseDoubleAttrib pFaceTag (str "units-per-em")
  let bbox ← ParseBoundingBoxAttrib pFaceTag
  let fontData := { fontData with mMetrics := ⟨unitsPerEM, ascent, descent, bbox⟩ }
  let advanceX ← ParseOptionalDoubleAttrib pFontTag (str "horiz-adv-x") (bbox.right - bbox.left)
  let bearingX ← ParseOptionalDoubleAttrib pFontTag (str "horiz-origin-x") 0
  let bearingY ← ParseOptionalDoubleAttrib pFontTag (str "horiz-origin-y") 0
  let defaultGlyphMetrics : GlyphMetrics := ⟨bearingX, bearingY, 0, bbox.top - bbox.bottom, advanceX⟩
  let (fontData, namesToCharacters) ←
    ParseGlyphTags defaultGlyphMetrics el (IterFindChildren pFontTag (str "glyph")) fontData
      (fun _ => none)
  ParseHKernTags namesToCharacters (IterFindChildren pFontTag (str "hkern")) fontData

/-! ## Notions used in the statements on measuring and emitting -/

/-- The `n` characters decoded from position `p` on, and the position after them. -/
def DecodeChars (bytes : List Byte) : Nat → Nat → Except Error (List UTF8Char × Nat)
  | 0, p => .ok ([], p)
  | n + 1, p =>
    match NextUTF8Char bytes p with
    | .error err => .error err
    | .ok (c, next) =>
      match DecodeChars bytes n next with
      | .error err => .error err
      | .ok (cs, q) => .ok (c :: cs, q)

/-- The advance of the glyph of `c` in the font view, 0 when there is no such glyph. -/
def advanceOf (pFont : Font) (c : UTF8Char) : ℚ :=
  match pFont.GetGlyphMetrics c with
  | .ok m => m.advanceX
  | .error _ => 0

/-- The sum of the advances of the characters `cs` plus the sum of the kerning between each
character and the next one. -/
def wordWidth (pFont : Font) (cs : List UTF8Char) : ℚ :=
  (cs.map (advanceOf pFont)).sum +
    ((cs.zip cs.tail).map
      (fun ab => GetKernValue pFont.GetHorizontalKernTable ab.1 ab.2)).sum

/-- The width that a measuring loop adds for the characters `cs` after the character
`cPrev`: kerning with the character before (none when `cPrev` is 0), then the advance. -/
def chainWidth (pFont : Font) : UTF8Char → List UTF8Char → ℚ
  | _, [] => 0
  | cPrev, c :: cs =>
    (if cPrev != 0 then GetKernValue pFont.GetHorizontalKernTable cPrev c else 0)
      + advanceOf pFont c + chainWidth pFont c cs

/-- The character is part of a word: not the terminator, a line feed, a space or a tab. -/
def isWordChar (c : UTF8Char) : Bool :=
  c != 0 && c != 10 && c != 32 && c != 9

/-- The `baseY` of the `OnLine` calls among the events, in order. -/
def lineBaseYs : List Event → List ℚ
  | [] => []
  | .OnLine d :: es => d.baseY :: lineBaseYs es
  | .OnGlyph _ _ _ :: es => lineBaseYs es

/-- Every `OnGlyph` call among the events carries the `baseY` of the last `OnLine` call
before it, `current` being the `baseY` of the last `OnLine` call before the events. -/
def glyphsFollowLine : Option ℚ → List Event → Prop
  | _, [] => True
  | _, .OnLine d :: es => glyphsFollowLine (some d.baseY) es
  | current, .OnGlyph _ _ d :: es => current = some d.baseY ∧ glyphsFollowLine current es

/-- Position `q` is reached from position `p` by decoding characters that all satisfy `P`. -/
def Span (bytes : List Byte) (P : UTF8Char → Prop) (p q : Nat) : Prop :=
  ∃ cs, DecodeChars bytes cs.length p = .ok (cs, q) ∧ ∀ c ∈ cs, P c

/-- The character is shown by a glyph of its own: not a space, a tab or a line feed. -/
def isVisible (c : UTF8Char) : Bool :=
  c != 32 && c != 9 && c != 10

/-! ## Notions used in the statements on the document parser -/

/-- The entry of the kern table for the pair `(a, b)`, if there is one. -/
def kernEntry (table : KernTable) (a b : UTF8Char) : Option ℚ :=
  match table a with
  | none => none
  | some row => row b

/-- A `FontData` without glyphs and kerning. -/
def emptyFontData : FontData :=
  ⟨⟨0, 0, 0, ⟨0, 0, 0, 0⟩⟩, fun _ => none, fun _ => none⟩

/-- An element without children. -/
def leaf (name : String) (properties : List (String × String)) : XmlNode :=
  .mk (str name) (properties.map (fun a => (str a.1, str a.2))) []

/-- The `font-face` element of the example documents. -/
def exampleFace : XmlNode :=
  leaf "font-face" [("ascent", "800"), ("descent", "-200"), ("units-per-em", "1000"),
    ("bbox", "0 -200 1000 800")]

/-- A glyph element for the letter `A` with an outline. -/
def exampleGlyph : XmlNode :=
  leaf "glyph" [("unicode", "A"), ("glyph-name", "A"), ("horiz-adv-x", "550"),
    ("d", "M 0 0 L 10 0 z")]

/-- The `font` element of a document with one glyph and no kerning. -/
def singleGlyphFont : XmlNode :=
  .mk (str "font") [(str "horiz-adv-x", str "600")] [exampleFace, exampleGlyph]

/-- The `defs` element of the document with one glyph. -/
def singleGlyphDefs : XmlNode :=
  .mk (str "defs") [] [singleGlyphFont]

/-- A document `svg > defs > font` with a font-face and one glyph. -/
def singleGlyphDocument : XmlNode :=
  .mk (str "svg") [] [singleGlyphDefs]

/-- The `hkern` element of the example: the groups `A,V` and `a,o,e`, value 40. -/
def exampleHKern : XmlNode :=
  leaf "hkern" [("g1", "A,V"), ("g2", "a,o,e"), ("k", "40")]

/-- The `font` element of a document with five named glyphs and one `hkern`. -/
def kernFont : XmlNode :=
  .mk (str "font") [(str "horiz-adv-x", str "600")] [exampleFace, exampleGlyph,
    leaf "glyph" [("unicode", "V"), ("glyph-name", "V")],
    leaf "glyph" [("unicode", "a"), ("glyph-name", "a")],
    leaf "glyph" [("unicode", "o"), ("glyph-name", "o")],
    leaf "glyph" [("unicode", "e"), ("glyph-name", "e")],
    exampleHKern]

/-- The `defs` element of the document with kerning. -/
def kernDefs : XmlNode :=
  .mk (str "defs") [] [kernFont]

/-- A document `svg > defs > font` with a font-face, five glyphs and one `hkern`. -/
def kernDocument : XmlNode :=
  .mk (str "svg") [] [kernDefs]

/-- A number as written in a path: separators (white space or commas) and then a decimal
literal. -/
structure WrittenNumber where
  sep : List Byte
  lit : DecimalLiteral

/-- The characters of a written number. -/
def WrittenNumber.chars (w : WrittenNumber) : List Byte :=
  w.sep ++ w.lit.chars

/-- The separators are white space or commas and the literal is well formed. -/
def WrittenNumber.wellFormed (w : WrittenNumber) : Bool :=
  w.sep.all isSeparator && w.lit.wellFormed

/-- The characters of a sequence of written numbers. -/
def numbersChars (ws : List WrittenNumber) : List Byte :=
  (ws.map WrittenNumber.chars).flatten

/-- The values of a sequence of written numbers. -/
def numbersValues (ws : List WrittenNumber) : List ℚ :=
  ws.map (fun w => w.lit.value)

/-- Every number is well formed, and every number but the first is set apart from the one
before it by at least one separator. -/
def wellWritten (ws : List WrittenNumber) : Bool :=
  ws.all WrittenNumber.wellFormed && ws.tail.all (fun w => !w.sep.isEmpty)

/-- A character at which the numbers of a command stop: it is no separator and cannot start
or continue a number (the terminator 0 and the command letters other than `e` are such). -/
def stopsNumbers (c : Byte) : Bool :=
  endsNumber c && !isSeparator c

/-- The elements pushed by a loop over coordinate groups, `update` being the assignments to
`el` and the groups being given by their values. -/
def groupElements (update : GlyphPathElement → List ℚ → GlyphPathElement)
    (el : GlyphPathElement) : List (List ℚ) → List GlyphPathElement
  | [] => []
  | ds :: rest => update el ds :: groupElements update (update el ds) rest

/-- The content of `el` after a loop over coordinate groups. -/
def groupLast (update : GlyphPathElement → List ℚ → GlyphPathElement)
    (el : GlyphPathElement) : List (List ℚ) → GlyphPathElement
  | [] => el
  | ds :: rest => groupLast update (update el ds) rest

/-- The coordinate pairs of a command as lists of two numbers. -/
def pairGroups (ps : List (WrittenNumber × WrittenNumber)) : List (List WrittenNumber) :=
  ps.map (fun p => [p.1, p.2])

/-- Degree elevation of a quadratic curve from `P0` to `P1` with the control point `Q`: the
control points `2/3 Q + 1/3 P0` and `2/3 Q + 1/3 P1` of the equivalent cubic curve. -/
def elevatedControls (P0 Q P1 : ℚ × ℚ) : (ℚ × ℚ) × (ℚ × ℚ) :=
  ((2 / 3 * Q.1 + 1 / 3 * P0.1, 2 / 3 * Q.2 + 1 / 3 * P0.2),
   (2 / 3 * Q.1 + 1 / 3 * P1.1, 2 / 3 * Q.2 + 1 / 3 * P1.2))

/-- The buffer holds a string that ends at position `T`: a 0 byte stands at `T` and none
at the positions from `p` up to `T`. -/
def TerminatedAt (bytes : List Byte) (p T : Nat) : Prop :=
  bytes[T]? = some 0 ∧ ∀ i, p ≤ i → i < T → bytes[i]? ≠ some 0

/-- The error is an exception of the library, not a read outside the buffer and not the
iteration bound of the model. -/
def Error.isException : Error → Bool
  | .OutOfBounds => false
  | .OutOfFuel => false
  | _ => true

/-- The call returns a result that satisfies `P`, or it raises an exception. -/
def CompletesWith {α : Type} (r : Except Error α) (P : α → Prop) : Prop :=
  match r with
  | .ok v => P v
  | .error e => e.isException = true

/-! ## Notions used in the statements on the ends of lines -/

/-- The last character of `cs`, or `a` when `cs` is empty. -/
def lastOr (a : UTF8Char) : List UTF8Char → UTF8Char
  | [] => a
  | c :: cs => lastOr c cs

/-- No glyph follows on the same line: the events are over or go on with a line record. -/
def startsNewLine : List Event → Bool
  | [] => true
  | .OnLine _ :: _ => true
  | .OnGlyph _ _ _ :: _ => false

/-- Every glyph that is the last one of its line and is no space or tab ends where the record
of its line ends: its `endX` is the `endX` of the last `OnLine` call before it, `lineEnd`
being the `endX` of the last `OnLine` call before the events. -/
def lastGlyphsMeetLineEnd : Option ℚ → List Event → Prop
  | _, [] => True
  | _, .OnLine d :: es => lastGlyphsMeetLineEnd (some d.endX) es
  | lineEnd, .OnGlyph c _ d :: es =>
    ((startsNewLine es = true ∧ IsSpace c = false) → lineEnd = some d.endX) ∧
      lastGlyphsMeetLineEnd lineEnd es

/-- The `endX` of the records, with the character for a glyph. -/
def endXs : List Event → List (Option UTF8Char × ℚ)
  | [] => []
  | .OnLine d :: es => (none, d.endX) :: endXs es
  | .OnGlyph c _ d :: es => (some c, d.endX) :: endXs es

/-- Kerning of 3 between `a` and a space after it, none elsewhere. -/
def kernBeforeSpace : KernTable := fun c1 =>
  if c1 = 97 then some (fun c2 => if c2 = 32 then some 3 else none) else none

/-! ## Notions used in the statement on line records -/

/-- The records of the `OnLine` calls among the events, in order. -/
def lineRecords : List Event → List TextSelectionDetails
  | [] => []
  | .OnLine d :: es => d :: lineRecords es
  | .OnGlyph _ _ _ :: es => lineRecords es

/-- The lines of the text from position `p` on, as the line loops of `IterateText` and of
`CountLines` walk them: for each line the position where it starts, and the width and the
end position that `NextLineWidth` returns there.  The next line starts at the end position
of the line, or after the line ending that stands there.  The list ends at the end of the
text, or where a step raises. -/
def measuredLines (pFont : Font) (bytes : List Byte) (maxWidth : ℚ) :
    Nat → Nat → List (Nat × ℚ × Nat)
  | 0, _ => []
  | fuel + 1, p =>
    match AtStringEnding bytes p, NextLineWidth pFont bytes p maxWidth with
    | .ok false, .ok (W, e) =>
      (p, W, e) ::
        (match AtStringEnding bytes e, AtLineEnding bytes e with
        | .ok false, .ok (lineEnding, next) =>
          measuredLines pFont bytes maxWidth fuel (if lineEnding then next else e)
        | _, _ => [])
    | _, _ => []

/-- The record `d` is the record of the line `l`: the line starts at `l.1`, where
`NextLineWidth` returns the width `W = l.2.1` and the end position `l.2.2`; the character
span of `d` runs from the first character after the spaces at the start of the line to the
end position of the line; its `startX` is `params.startX` for left alignment,
`params.startX - W / 2` for center alignment and `params.startX - W` for right alignment,
and its `endX` is its `startX` plus `W`. -/
def recordOfLine (pFont : Font) (bytes : List Byte) (text : Nat) (params : TextParams)
    (d : TextSelectionDetails) (l : Nat × ℚ × Nat) : Prop :=
  NextLineWidth pFont bytes l.1 params.maxWidth = .ok (l.2.1, l.2.2) ∧
  (∃ s, SkipSpaces bytes l.1 = .ok s ∧
    CountCharsUTF8 bytes text (some s) = .ok d.startPosition) ∧
  CountCharsUTF8 bytes text (some l.2.2) = .ok d.endPosition ∧
  (params.align = .TEXTALIGN_LEFT → d.startX = params.startX) ∧
  (params.align = .TEXTALIGN_CENTER → d.startX = params.startX - l.2.1 / 2) ∧
  (params.align = .TEXTALIGN_RIGHT → d.startX = params.startX - l.2.1) ∧
  d.endX = d.startX + l.2.1

/-! ## Lemmas on bytes -/

theorem mask_byte : ∀ b : Byte, 0xff &&& b.val = b.val := by decide

theorem lead_notContinuation : ∀ b : Byte, 2 ≤ CountSuccessiveLeftBits b → notContinuation b = true := by
  decide

theorem ascii_notContinuation : ∀ b : Byte, CountSuccessiveLeftBits b = 0 → notContinuation b = true := by
  decide

theorem continuation_iff : ∀ b : Byte, notContinuation b = false ↔ CountSuccessiveLeftBits b = 1 := by
  decide

theorem zero_iff_val : ∀ b : Byte, b.val = 0 ↔ b = 0 := by decide

theorem drop_eq_cons {α : Type} {l : List α} {n : Nat} {a : α} {t : List α}
    (h : l.drop n = a :: t) : l[n]? = some a ∧ l.drop (n + 1) = t := by
  constructor
  · have := List.getElem?_drop l n 0
    rw [h] at this
    simpa using this.symm
  · have : l.drop (n + 1) = (l.drop n).drop 1 := by rw [List.drop_drop, Nat.add_comm]
    rw [this, h]; rfl

theorem nextStep_eq (ch : Nat) (b : Byte) (h : ch < 2 ^ 24) :
    nextStep ch b = ch * 256 + b.val := by
  unfold nextStep
  rw [mask_byte, Nat.shiftLeft_eq]
  have hb : b.val < 2 ^ 8 := b.isLt
  have hor := Nat.mul_add_lt_is_or hb ch
  rw [Nat.mul_comm] at hor
  rw [← hor]
  have h256 : (2 : Nat) ^ 8 = 256 := by norm_num
  rw [h256] at hb ⊢
  apply Nat.mod_eq_of_lt
  have h24 : ch < 16777216 := by norm_num at h; exact h
  have hb256 : b.val < 256 := b.isLt
  clear hor h hb
  norm_num
  omega

theorem NextUTF8CharLoop_continuations (bytes : List Byte) (p : Nat) :
    ∀ (todo : List Byte) (i : Nat) (ch : UTF8Char) (post : List Byte),
      bytes.drop (p + i) = todo ++ post → (∀ b ∈ todo, notContinuation b = false) →
      NextUTF8CharLoop bytes p todo.length i ch = .ok (todo.foldl nextStep ch) := by
  intro todo
  induction todo with
  | nil => intro i ch post _ _; rfl
  | cons t todo ih =>
    intro i ch post hdrop hcont
    obtain ⟨hget, hrest⟩ := drop_eq_cons hdrop
    have ht : notContinuation t = false := hcont t (List.mem_cons_self _ _)
    simp only [List.length_cons, NextUTF8CharLoop, hget, ht, List.foldl_cons]
    exact ih (i + 1) _ post (by rw [← Nat.add_assoc]; exact hrest)
      (fun b hb => hcont b (List.mem_cons_of_mem _ hb))

theorem foldl_nextStep_eq :
    ∀ (todo : List Byte) (ch k : Nat), ch < 256 ^ k → k + todo.length ≤ 4 →
      todo.foldl nextStep ch = todo.foldl (fun acc b => acc * 256 + b.val) ch := by
  intro todo
  induction todo with
  | nil => intro ch k _ _; rfl
  | cons t todo ih =>
    intro ch k hch hk
    simp only [List.length_cons] at hk
    have hk3 : k ≤ 3 := by omega
    have hlt : ch < 2 ^ 24 :=
      lt_of_lt_of_le hch (by
        calc 256 ^ k ≤ 256 ^ 3 := Nat.pow_le_pow_right (by norm_num) hk3
          _ = 2 ^ 24 := by norm_num)
    simp only [List.foldl_cons]
    rw [nextStep_eq ch t hlt]
    apply ih (ch * 256 + t.val) (k + 1)
    · have : t.val < 256 := t.isLt
      calc ch * 256 + t.val < (ch + 1) * 256 := by omega
        _ ≤ 256 ^ k * 256 := Nat.mul_le_mul_right _ hch
        _ = 256 ^ (k + 1) := by rw [Nat.pow_succ]
    · omega

theorem NextUTF8Char_wellFormed (pre s post : List Byte) (hs : WellFormedSeq s) :
    NextUTF8Char (pre ++ s ++ post) pre.length = .ok (bigEndian s, pre.length + s.length) := by
  cases s with
  | nil => exact absurd hs (by simp [WellFormedSeq])
  | cons b0 rest =>
    have hget : (pre ++ b0 :: rest ++ post)[pre.length]? = some b0 := by
      rw [List.append_assoc, List.getElem?_append_right (Nat.le_refl _)]
      simp
    unfold NextUTF8Char
    simp only [hget]
    rcases hs with ⟨h0, hrest⟩ | ⟨h2, h4, hlen, hcont⟩
    · subst hrest
      simp [h0, bigEndian, mask_byte]
    · have hne : CountSuccessiveLeftBits b0 ≠ 0 := by omega
      have hdrop : (pre ++ b0 :: rest ++ post).drop (pre.length + 1) = rest ++ post := by
        simp [List.drop_append]
      have hloop := NextUTF8CharLoop_continuations (pre ++ b0 :: rest ++ post) pre.length rest 1
        (0xff &&& b0.val) post hdrop hcont
      have hr : CountSuccessiveLeftBits b0 - 1 = rest.length := by omega
      simp only [hne, if_false, hr, hloop]
      have hb0 : b0.val < 256 ^ 1 := by simp
      rw [mask_byte, foldl_nextStep_eq rest b0.val 1 hb0 (by omega)]
      simp [bigEndian, List.length_cons, ← hlen]

theorem bigEndian_foldl (t : List Byte) :
    ∀ acc : Nat, t.foldl (fun acc b => acc * 256 + b.val) acc = acc * 256 ^ t.length + bigEndian t := by
  induction t with
  | nil => intro acc; simp [bigEndian]
  | cons c t ih =>
    intro acc
    simp only [bigEndian, List.foldl_cons, List.length_cons]
    rw [ih (acc * 256 + c.val), ih (0 * 256 + c.val)]
    ring

theorem bigEndian_cons (c : Byte) (t : List Byte) :
    bigEndian (c :: t) = c.val * 256 ^ t.length + bigEndian t := by
  have := bigEndian_foldl t (0 * 256 + c.val)
  simpa [bigEndian] using this

theorem bigEndian_lt (t : List Byte) : bigEndian t < 256 ^ t.length := by
  induction t with
  | nil => simp [bigEndian]
  | cons c t ih =>
    rw [bigEndian_cons, List.length_cons, Nat.pow_succ]
    have hc : c.val < 256 := c.isLt
    calc c.val * 256 ^ t.length + bigEndian t < c.val * 256 ^ t.length + 256 ^ t.length := by omega
      _ = (c.val + 1) * 256 ^ t.length := by ring
      _ ≤ 256 * 256 ^ t.length := Nat.mul_le_mul_right _ (by omega)
      _ = 256 ^ t.length * 256 := by ring

theorem prevStep_eq (ch : Nat) (byte : Byte) (m : Nat) (hm : m ≤ 3) (hch : ch < 256 ^ m) :
    prevStep ch byte (m + 1) = byte.val * 256 ^ m + ch := by
  unfold prevStep
  have h256 : (256 : Nat) ^ m = 2 ^ (8 * m) := by
    rw [Nat.pow_mul]
  rw [mask_byte, Nat.shiftLeft_eq, Nat.add_sub_cancel, Nat.lor_comm]
  have hor := Nat.mul_add_lt_is_or (h256 ▸ hch) byte.val
  rw [Nat.mul_comm] at hor
  rw [← hor, ← h256]
  apply Nat.mod_eq_of_lt
  have hb : byte.val < 256 := byte.isLt
  have hpow : 256 ^ m ≤ 256 ^ 3 := Nat.pow_le_pow_right (by norm_num) hm
  calc byte.val * 256 ^ m + ch < byte.val * 256 ^ m + 256 ^ m := by omega
    _ = (byte.val + 1) * 256 ^ m := by ring
    _ ≤ 256 * 256 ^ 3 := Nat.mul_le_mul (by omega) hpow
    _ = 2 ^ 32 := by norm_num

theorem getElem?_middle {α : Type} (A B : List α) (x : α) (n : Nat) (h : n = A.length) :
    (A ++ x :: B)[n]? = some x := by
  subst h
  rw [List.getElem?_append_right (Nat.le_refl _)]
  simp

theorem PrevUTF8CharLoop_wellFormed (pre post : List Byte) (lead : Byte)
    (hlead : notContinuation lead = true) :
    ∀ (mid tail : List Byte), (∀ b ∈ mid, notContinuation b = false) →
      mid.length + tail.length + 1 ≤ 4 →
      PrevUTF8CharLoop (pre ++ lead :: (mid ++ tail) ++ post)
          (pre.length + 1 + mid.length + tail.length)
          (pre.length + 1 + mid.length) tail.length (bigEndian tail)
        = .ok (mid.length + tail.length + 1, bigEndian (lead :: (mid ++ tail)), lead) := by
  intro mid
  induction mid using List.reverseRecOn with
  | nil =>
    intro tail _ hlen
    have hget : (pre ++ lead :: ([] ++ tail) ++ post)[pre.length + 1 + 0 + tail.length
        - (tail.length + 1)]? = some lead := by
      rw [List.append_assoc]
      exact getElem?_middle pre _ lead _ (by omega)
    simp only [List.length_nil, Nat.add_zero, PrevUTF8CharLoop] at hget ⊢
    simp only [hget, hlead, if_true]
    have h3 : tail.length ≤ 3 := by simp at hlen; omega
    have := prevStep_eq (bigEndian tail) lead tail.length h3 (bigEndian_lt tail)
    unfold prevStep at this
    rw [this, List.nil_append, bigEndian_cons]
    simp [Nat.add_comm]
  | append_singleton mid c ih =>
    intro tail hcont hlen
    simp only [List.length_append, List.length_singleton] at hlen ⊢
    have hc : notContinuation c = false := hcont c (by simp)
    have hlist : pre ++ lead :: (mid ++ [c] ++ tail) ++ post
        = (pre ++ lead :: mid) ++ c :: (tail ++ post) := by simp
    have hget : (pre ++ lead :: (mid ++ [c] ++ tail) ++ post)[pre.length + 1 + (mid.length + 1)
        + tail.length - (tail.length + 1)]? = some c := by
      rw [hlist]
      exact getElem?_middle _ _ c _ (by simp; omega)
    have hsucc : pre.length + 1 + (mid.length + 1) = (pre.length + 1 + mid.length) + 1 := by omega
    rw [hsucc]
    simp only [PrevUTF8CharLoop]
    rw [← hsucc]
    simp only [hget, hc]
    have h3 : tail.length ≤ 3 := by omega
    have hstep := prevStep_eq (bigEndian tail) c tail.length h3 (bigEndian_lt tail)
    unfold prevStep at hstep
    rw [hstep, ← bigEndian_cons]
    have := ih (c :: tail) (fun b hb => hcont b (by simp [hb])) (by simp; omega)
    simp only [List.length_cons] at this
    have hl2 : pre ++ lead :: (mid ++ c :: tail) ++ post
        = pre ++ lead :: (mid ++ [c] ++ tail) ++ post := by simp
    rw [hl2] at this
    have hq : pre.length + 1 + mid.length + (tail.length + 1)
        = pre.length + 1 + (mid.length + 1) + tail.length := by omega
    rw [hq] at this
    simp only [Bool.false_eq_true, if_false]
    rw [this]
    simp only [List.append_assoc, List.singleton_append, Except.ok.injEq, Prod.mk.injEq, and_true]
    omega

theorem PrevUTF8Char_wellFormed (pre s post : List Byte) (hs : WellFormedSeq s) :
    PrevUTF8Char (pre ++ s ++ post) (pre.length + s.length) = .ok (bigEndian s, pre.length) := by
  cases s with
  | nil => exact absurd hs (by simp [WellFormedSeq])
  | cons b0 rest =>
    have hnc : notContinuation b0 = true := by
      rcases hs with ⟨h0, _⟩ | ⟨h2, _⟩
      · exact ascii_notContinuation b0 h0
      · exact lead_notContinuation b0 h2
    have hcont : ∀ b ∈ rest, notContinuation b = false := by
      rcases hs with ⟨_, hr⟩ | ⟨_, _, _, hc⟩
      · subst hr; simp
      · exact hc
    have hlen : rest.length + 1 ≤ 4 := by
      rcases hs with ⟨_, hr⟩ | ⟨_, h4, hl, _⟩
      · subst hr; simp
      · omega
    have hloop := PrevUTF8CharLoop_wellFormed pre post b0 hnc rest [] hcont (by simpa using hlen)
    simp only [List.append_nil, List.length_nil, Nat.add_zero] at hloop
    have hb : bigEndian ([] : List Byte) = 0 := rfl
    rw [hb] at hloop
    unfold PrevUTF8Char
    have hp : pre.length + (b0 :: rest).length = pre.length + 1 + rest.length := by
      simp; omega
    rw [hp, hloop]
    have hbits : ¬ (CountSuccessiveLeftBits b0 ≠ rest.length + 1 ∧ rest.length + 1 > 1) := by
      rcases hs with ⟨_, hr⟩ | ⟨_, _, hl, _⟩
      · subst hr; simp
      · omega
    simp only [hbits, if_false]
    congr 2
    omega

theorem length_le_join_length (seqs : List (List Byte)) (h : ∀ t ∈ seqs, t ≠ []) :
    seqs.length ≤ seqs.flatten.length := by
  induction seqs with
  | nil => simp
  | cons t seqs ih =>
    have ht : t ≠ [] := h t (List.mem_cons_self _ _)
    have hpos : 0 < t.length := List.length_pos.mpr ht
    have := ih (fun u hu => h u (List.mem_cons_of_mem _ hu))
    simp only [List.flatten_cons, List.length_cons, List.length_append]
    omega

theorem leftBits_zero : ∀ b : Byte, b.val = 0 → CountSuccessiveLeftBits b = 0 := by decide

theorem wellFormed_head_ne_zero (b0 : Byte) (rest : List Byte) (hs : WellFormedSeq (b0 :: rest))
    (hne : b0 :: rest ≠ [0]) : b0.val ≠ 0 := by
  intro h0
  rcases hs with ⟨_, hr⟩ | ⟨h2, _⟩
  · subst hr
    exact hne (by rw [(zero_iff_val b0).mp h0])
  · have := leftBits_zero b0 h0
    omega

theorem nextTestLoop_wellFormed :
    ∀ (seqs : List (List Byte)) (pre : List Byte) (acc : List UTF8Char) (fuel : Nat),
      (∀ t ∈ seqs, WellFormedSeq t ∧ t ≠ [0]) → seqs.length + 1 ≤ fuel →
      nextTestLoop (pre ++ seqs.flatten ++ [0]) fuel pre.length acc = .ok (acc ++ seqs.map bigEndian) := by
  intro seqs
  induction seqs with
  | nil =>
    intro pre acc fuel _ hfuel
    obtain ⟨k, rfl⟩ : ∃ k, fuel = k + 1 := ⟨fuel - 1, by simp at hfuel; omega⟩
    have hget : (pre ++ ([] : List (List Byte)).flatten ++ [0])[pre.length]? = some (0 : Byte) := by
      simp
    simp [nextTestLoop, hget]
  | cons t seqs ih =>
    intro pre acc fuel hwf hfuel
    obtain ⟨k, rfl⟩ : ∃ k, fuel = k + 1 := ⟨fuel - 1, by simp at hfuel; omega⟩
    have ht := hwf t (List.mem_cons_self _ _)
    cases t with
    | nil => exact absurd ht.1 (by simp [WellFormedSeq])
    | cons b0 rest =>
      have hlist : pre ++ ((b0 :: rest) :: seqs).flatten ++ [0]
          = pre ++ (b0 :: rest) ++ (seqs.flatten ++ [0]) := by simp
      have hget : (pre ++ ((b0 :: rest) :: seqs).flatten ++ [0])[pre.length]? = some b0 := by
        have : pre ++ ((b0 :: rest) :: seqs).flatten ++ [0]
            = pre ++ b0 :: (rest ++ seqs.flatten ++ [0]) := by simp
        rw [this]
        exact getElem?_middle _ _ _ _ rfl
      have hb0 : b0.val ≠ 0 := wellFormed_head_ne_zero b0 rest ht.1 ht.2
      have hnext := NextUTF8Char_wellFormed pre (b0 :: rest) (seqs.flatten ++ [0]) ht.1
      rw [← hlist] at hnext
      simp only [nextTestLoop, hget, hb0, if_false, hnext]
      have hrec := ih (pre ++ b0 :: rest) (acc ++ [bigEndian (b0 :: rest)]) k
        (fun u hu => hwf u (List.mem_cons_of_mem _ hu)) (by simp at hfuel; omega)
      have hlist2 : pre ++ b0 :: rest ++ seqs.flatten ++ [0]
          = pre ++ ((b0 :: rest) :: seqs).flatten ++ [0] := by simp
      rw [hlist2, List.length_append] at hrec
      rw [hrec]
      simp

theorem nextTest_wellFormed (seqs : List (List Byte))
    (hwf : ∀ t ∈ seqs, WellFormedSeq t ∧ t ≠ [0]) :
    nextTest (seqs.flatten ++ [0]) 0 = .ok (seqs.map bigEndian) := by
  have hne : ∀ t ∈ seqs, t ≠ [] := by
    intro t ht h
    have := (hwf t ht).1
    rw [h] at this
    exact this
  have hlen := length_le_join_length seqs hne
  have := nextTestLoop_wellFormed seqs [] [] ((seqs.flatten ++ [0]).length + 1) hwf
    (by rw [List.length_append]; omega)
  simpa [nextTest] using this

theorem wellFormed_length (b0 : Byte) (rest : List Byte) (hs : WellFormedSeq (b0 :: rest)) :
    (b0 :: rest).length =
      if CountSuccessiveLeftBits b0 = 0 then 1 else CountSuccessiveLeftBits b0 := by
  rcases hs with ⟨h0, hr⟩ | ⟨h2, _, hl, _⟩
  · subst hr; simp [h0]
  · have : CountSuccessiveLeftBits b0 ≠ 0 := by omega
    simp [this, hl]

theorem NextUTF8CharLoop_error_iff (bytes : List Byte) (p : Nat) :
    ∀ (r i : Nat) (ch : UTF8Char) (a b : Nat),
      NextUTF8CharLoop bytes p r i ch = .error (.EncodingError a b) ↔
        (i + 1 ≤ a ∧ a ≤ i + r ∧ ∃ bad : Byte, bytes[p + (a - 1)]? = some bad ∧
          notContinuation bad = true ∧ b = bad.val ∧
          ∀ j, i ≤ j → j < a - 1 → ∃ c : Byte, bytes[p + j]? = some c ∧ notContinuation c = false) := by
  intro r
  induction r with
  | zero =>
    intro i ch a b
    simp only [NextUTF8CharLoop, Nat.add_zero, reduceCtorEq, false_iff]
    rintro ⟨h1, h2, _⟩
    omega
  | succ r ih =>
    intro i ch a b
    cases hget : bytes[p + i]? with
    | none =>
      simp only [NextUTF8CharLoop, hget, Except.error.injEq, reduceCtorEq, false_iff]
      rintro ⟨h1, h2, bad, hbad, _, _, hall⟩
      rcases Nat.eq_or_lt_of_le h1 with heq | hlt
      · have : a - 1 = i := by omega
        rw [this, hget] at hbad
        exact Option.noConfusion hbad
      · obtain ⟨c, hc, _⟩ := hall i (Nat.le_refl _) (by omega)
        rw [hget] at hc
        exact Option.noConfusion hc
    | some t =>
      cases hnc : notContinuation t with
      | true =>
        simp only [NextUTF8CharLoop, hget, hnc, if_true, Except.error.injEq,
          Error.EncodingError.injEq]
        constructor
        · rintro ⟨ha, hb⟩
          subst ha
          refine ⟨Nat.le_refl _, by omega, t, ?_, hnc, hb.symm, ?_⟩
          · simpa using hget
          · intro j h1 h2
            simp at h2
            omega
        · rintro ⟨h1, h2, bad, hbad, hbnc, hb, hall⟩
          rcases Nat.eq_or_lt_of_le h1 with heq | hlt
          · have : a - 1 = i := by omega
            rw [this, hget] at hbad
            simp only [Option.some.injEq] at hbad
            subst hbad
            exact ⟨heq, hb.symm⟩
          · obtain ⟨c, hc, hcc⟩ := hall i (Nat.le_refl _) (by omega)
            rw [hget] at hc
            simp only [Option.some.injEq] at hc
            subst hc
            rw [hnc] at hcc
            exact Bool.noConfusion hcc
      | false =>
        simp only [NextUTF8CharLoop, hget, hnc, Bool.false_eq_true, if_false]
        rw [ih]
        constructor
        · rintro ⟨h1, h2, bad, hbad, hbnc, hb, hall⟩
          refine ⟨by omega, by omega, bad, hbad, hbnc, hb, ?_⟩
          intro j hj1 hj2
          rcases Nat.eq_or_lt_of_le hj1 with heq | hlt
          · subst heq
            exact ⟨t, hget, hnc⟩
          · exact hall j (by omega) hj2
        · rintro ⟨h1, h2, bad, hbad, hbnc, hb, hall⟩
          have hne : a ≠ i + 1 := by
            intro heq
            have : a - 1 = i := by omega
            rw [this, hget] at hbad
            simp only [Option.some.injEq] at hbad
            subst hbad
            rw [hnc] at hbnc
            exact Bool.noConfusion hbnc
          refine ⟨by omega, by omega, bad, hbad, hbnc, hb, ?_⟩
          intro j hj1 hj2
          exact hall j (by omega) hj2

theorem NextUTF8Char_error_iff (bytes : List Byte) (p a b : Nat) :
    NextUTF8Char bytes p = .error (.EncodingError a b) ↔
      ∃ b0 bad : Byte, bytes[p]? = some b0 ∧ 2 ≤ a ∧ a ≤ CountSuccessiveLeftBits b0 ∧
        bytes[p + (a - 1)]? = some bad ∧ notContinuation bad = true ∧ b = bad.val ∧
        ∀ j, 1 ≤ j → j < a - 1 → ∃ c : Byte, bytes[p + j]? = some c ∧ notContinuation c = false := by
  unfold NextUTF8Char
  cases hget : bytes[p]? with
  | none => simp
  | some b0 =>
    by_cases h0 : CountSuccessiveLeftBits b0 = 0
    · simp only [h0, if_true, reduceCtorEq, Option.some.injEq, false_iff]
      rintro ⟨b0', bad, hb0, h2, hle, _⟩
      subst hb0
      omega
    · simp only [h0, if_false]
      have key := NextUTF8CharLoop_error_iff bytes p (CountSuccessiveLeftBits b0 - 1) 1
        (0xff &&& b0.val) a b
      cases hloop : NextUTF8CharLoop bytes p (CountSuccessiveLeftBits b0 - 1) 1 (0xff &&& b0.val) with
      | ok ch =>
        rw [hloop] at key
        simp only [reduceCtorEq, false_iff, Option.some.injEq] at key ⊢
        rintro ⟨b0', bad, hb0, h2, hle, hbad, hnc, hb, hall⟩
        subst hb0
        exact key ⟨h2, by omega, bad, hbad, hnc, hb, hall⟩
      | error e =>
        rw [hloop] at key
        simp only [Except.error.injEq, Option.some.injEq] at key ⊢
        rw [key]
        constructor
        · rintro ⟨h1, h2, bad, hbad, hnc, hb, hall⟩
          exact ⟨b0, bad, rfl, h1, by omega, hbad, hnc, hb, hall⟩
        · rintro ⟨b0', bad, hb0, h2, hle, hbad, hnc, hb, hall⟩
          subst hb0
          exact ⟨h2, by omega, bad, hbad, hnc, hb, hall⟩

theorem exists_first_bad (bytes : List Byte) (p n : Nat)
    (h : ∃ i, 1 ≤ i ∧ i < n ∧ ∃ c : Byte, bytes[p + i]? = some c ∧ notContinuation c = true) :
    ∃ i bad, 1 ≤ i ∧ i < n ∧ bytes[p + i]? = some bad ∧ notContinuation bad = true ∧
      ∀ j, 1 ≤ j → j < i → ∃ c : Byte, bytes[p + j]? = some c ∧ notContinuation c = false := by
  classical
  have hmin := fun (m : Nat) (hm : m < Nat.find h) => Nat.find_min h hm
  obtain ⟨h1, hn, bad, hbad, hnc⟩ := Nat.find_spec h
  refine ⟨Nat.find h, bad, h1, hn, hbad, hnc, ?_⟩
  intro j hj1 hj2
  have hlt : p + j < bytes.length := by
    have := (List.getElem?_eq_some_iff.mp hbad).1
    omega
  refine ⟨bytes[p + j], List.getElem?_eq_getElem hlt, ?_⟩
  by_contra hcon
  apply hmin j hj2
  refine ⟨hj1, by omega, bytes[p + j], List.getElem?_eq_getElem hlt, ?_⟩
  simpa using hcon

theorem PrevUTF8CharLoop_scan (bytes : List Byte) (p k : Nat) (byte : Byte)
    (hkp : k ≤ p) (hstop : bytes[p - k]? = some byte) (hnc : notContinuation byte = true)
    (hcont : ∀ j, 1 ≤ j → j < k → ∃ c : Byte, bytes[p - j]? = some c ∧ notContinuation c = false) :
    ∀ (d m : Nat) (ch : UTF8Char), m + d + 1 = k →
      ∃ ch', PrevUTF8CharLoop bytes p (p - m) m ch = .ok (k, ch', byte) := by
  intro d
  induction d with
  | zero =>
    intro m ch hm
    obtain ⟨r, hr⟩ : ∃ r, p - m = r + 1 := ⟨p - m - 1, by omega⟩
    have hk : m + 1 = k := by omega
    rw [hr]
    simp only [PrevUTF8CharLoop, hk, hstop, hnc, if_true]
    exact ⟨_, rfl⟩
  | succ d ih =>
    intro m ch hm
    obtain ⟨r, hr⟩ : ∃ r, p - m = r + 1 := ⟨p - m - 1, by omega⟩
    obtain ⟨c, hc, hcc⟩ := hcont (m + 1) (by omega) (by omega)
    have hr' : r = p - (m + 1) := by omega
    rw [hr]
    simp only [PrevUTF8CharLoop, hc, hcc, Bool.false_eq_true, if_false]
    rw [hr']
    exact ih (m + 1) _ (by omega)

theorem wellFormed_getElem?_head (pre t post : List Byte) (ht : WellFormedSeq t ∧ t ≠ [0]) :
    ∃ b0 : Byte, (pre ++ t ++ post)[pre.length]? = some b0 ∧ b0.val ≠ 0 := by
  cases t with
  | nil => exact absurd ht.1 (by simp [WellFormedSeq])
  | cons b0 rest =>
    refine ⟨b0, ?_, wellFormed_head_ne_zero b0 rest ht.1 ht.2⟩
    rw [List.append_assoc]
    exact getElem?_middle _ _ _ _ rfl

theorem GetUTF8Position_wellFormed :
    ∀ (n : Nat) (seqs : List (List Byte)) (pre post : List Byte),
      (∀ t ∈ seqs, WellFormedSeq t ∧ t ≠ [0]) → n ≤ seqs.length →
      GetUTF8Position (pre ++ seqs.flatten ++ post) pre.length n
        = .ok (pre.length + (seqs.take n).flatten.length) := by
  intro n
  induction n with
  | zero => intro seqs pre post _ _; simp [GetUTF8Position]
  | succ n ih =>
    intro seqs pre post hwf hn
    cases seqs with
    | nil => simp at hn
    | cons t seqs =>
      have ht := hwf t (List.mem_cons_self _ _)
      have hlist : pre ++ (t :: seqs).flatten ++ post = pre ++ t ++ (seqs.flatten ++ post) := by
        simp
      have hnext := NextUTF8Char_wellFormed pre t (seqs.flatten ++ post) ht.1
      rw [← hlist] at hnext
      simp only [GetUTF8Position, hnext]
      have hrec := ih seqs (pre ++ t) post (fun u hu => hwf u (List.mem_cons_of_mem _ hu))
        (by simp at hn; omega)
      have hlist2 : pre ++ t ++ seqs.flatten ++ post = pre ++ (t :: seqs).flatten ++ post := by
        simp
      rw [hlist2, List.length_append] at hrec
      rw [hrec]
      simp [Nat.add_assoc]

theorem CountCharsUTF8Loop_wellFormed :
    ∀ (front : List (List Byte)) (s pre rest : List Byte) (cnt fuel : Nat),
      (∀ t ∈ front, WellFormedSeq t ∧ t ≠ [0]) → (WellFormedSeq s ∧ s ≠ [0]) →
      front.length + 1 ≤ fuel →
      CountCharsUTF8Loop (pre ++ front.flatten ++ s ++ rest)
          (some (pre.length + front.flatten.length + s.length)) fuel pre.length cnt
        = .ok (cnt + front.length + 1) := by
  intro front
  induction front with
  | nil =>
    intro s pre rest cnt fuel _ hs hfuel
    obtain ⟨k, rfl⟩ : ∃ k, fuel = k + 1 := ⟨fuel - 1, by simp at hfuel; omega⟩
    have hlist : pre ++ ([] : List (List Byte)).flatten ++ s ++ rest = pre ++ s ++ rest := by simp
    obtain ⟨b0, hget, hb0⟩ := wellFormed_getElem?_head pre s rest hs
    have hnext := NextUTF8Char_wellFormed pre s rest hs.1
    rw [hlist]
    simp only [CountCharsUTF8Loop, hget, hb0, if_false, hnext, List.flatten_nil, List.length_nil,
      Nat.add_zero, ge_iff_le, Nat.le_refl, if_true]
  | cons t front ih =>
    intro s pre rest cnt fuel hwf hs hfuel
    obtain ⟨k, rfl⟩ : ∃ k, fuel = k + 1 := ⟨fuel - 1, by simp at hfuel; omega⟩
    have ht := hwf t (List.mem_cons_self _ _)
    have hlist : pre ++ (t :: front).flatten ++ s ++ rest
        = pre ++ t ++ (front.flatten ++ s ++ rest) := by simp
    obtain ⟨b0, hget, hb0⟩ := wellFormed_getElem?_head pre t (front.flatten ++ s ++ rest) ht
    have hnext := NextUTF8Char_wellFormed pre t (front.flatten ++ s ++ rest) ht.1
    have hspos : 0 < s.length := by
      cases s with
      | nil => exact absurd hs.1 (by simp [WellFormedSeq])
      | cons _ _ => simp
    have hstop : ¬ (pre.length + t.length ≥ pre.length + (t :: front).flatten.length + s.length) := by
      simp only [List.flatten_cons, List.length_append]
      omega
    rw [hlist]
    simp only [CountCharsUTF8Loop, hget, hb0, if_false, hnext, hstop]
    have hrec := ih s (pre ++ t) rest (cnt + 1) k
      (fun u hu => hwf u (List.mem_cons_of_mem _ hu)) hs (by simp at hfuel; omega)
    have hlist2 : pre ++ t ++ front.flatten ++ s ++ rest
        = pre ++ t ++ (front.flatten ++ s ++ rest) := by simp
    have hpos : (pre ++ t).length + front.flatten.length + s.length
        = pre.length + (t :: front).flatten.length + s.length := by
      simp only [List.flatten_cons, List.length_append]; omega
    rw [hlist2, hpos, List.length_append] at hrec
    rw [hrec]
    simp only [List.length_cons, Except.ok.injEq]
    omega

/-- For a text of `N` well-formed characters and `1 ≤ n ≤ N`, counting up to the position of
character `n` gives `n`. -/
theorem CountCharsUTF8_GetUTF8Position_pos (seqs : List (List Byte)) (n : Nat)
    (hwf : ∀ t ∈ seqs, WellFormedSeq t ∧ t ≠ [0]) (h1 : 1 ≤ n) (hn : n ≤ seqs.length) :
    ∃ q, GetUTF8Position (seqs.flatten ++ [0]) 0 n = .ok q ∧
      CountCharsUTF8 (seqs.flatten ++ [0]) 0 (some q) = .ok n := by
  have hpos := GetUTF8Position_wellFormed n seqs [] [0] hwf hn
  simp only [List.nil_append, List.length_nil, Nat.zero_add] at hpos
  refine ⟨_, hpos, ?_⟩
  obtain ⟨m, rfl⟩ : ∃ m, n = m + 1 := ⟨n - 1, by omega⟩
  have hm : m < seqs.length := by omega
  have hsplit : seqs = seqs.take m ++ seqs[m] :: seqs.drop (m + 1) := by
    conv_lhs => rw [← List.take_append_drop m seqs]
    rw [List.drop_eq_getElem_cons hm]
  have htake : seqs.take (m + 1) = seqs.take m ++ [seqs[m]] := by
    rw [List.take_succ, List.getElem?_eq_getElem hm]; rfl
  have hfront : ∀ t ∈ seqs.take m, WellFormedSeq t ∧ t ≠ [0] :=
    fun t ht => hwf t (List.mem_of_mem_take ht)
  have hs : WellFormedSeq seqs[m] ∧ seqs[m] ≠ [0] := hwf _ (List.getElem_mem _)
  have hloop := CountCharsUTF8Loop_wellFormed (seqs.take m) seqs[m] []
    ((seqs.drop (m + 1)).flatten ++ [0]) 0 ((seqs.flatten ++ [0]).length + 1) hfront hs (by
      have := length_le_join_length seqs (by
        intro t ht h
        have := (hwf t ht).1
        rw [h] at this
        exact this)
      rw [List.length_take, List.length_append]
      omega)
  have hbytes : [] ++ (seqs.take m).flatten ++ seqs[m] ++ ((seqs.drop (m + 1)).flatten ++ [0])
      = seqs.flatten ++ [0] := by
    have hfl : seqs.flatten
        = (seqs.take m).flatten ++ (seqs[m] ++ (seqs.drop (m + 1)).flatten) := by
      have h := congrArg List.flatten hsplit
      rw [List.flatten_append, List.flatten_cons] at h
      exact h
    rw [hfl]
    simp
  rw [hbytes] at hloop
  simp only [List.length_nil, Nat.zero_add, List.length_take] at hloop
  have hmin : min m seqs.length = m := Nat.min_eq_left (Nat.le_of_lt hm)
  rw [hmin] at hloop
  unfold CountCharsUTF8
  rw [htake]
  simp only [List.flatten_append, List.flatten_cons, List.flatten_nil, List.append_nil]
  rw [List.length_append (seqs.take m).flatten seqs[m]]
  exact hloop

/-! ## Lemmas on the layout engine -/

theorem NextLineWidthLoop_le (pFont : Font) (bytes : List Byte) (maxLineWidth : ℚ) :
    ∀ (fuel p : Nat) (lineWidth w : ℚ) (e : Nat), (lineWidth ≤ maxLineWidth ∨ lineWidth = 0) →
      NextLineWidthLoop pFont bytes maxLineWidth fuel p lineWidth = .ok (w, e) →
      w ≤ maxLineWidth := by
  intro fuel
  induction fuel with
  | zero => intro p lw w e _ h; simp [NextLineWidthLoop] at h
  | succ fuel ih =>
    intro p lw w e hlw h
    simp only [NextLineWidthLoop] at h
    cases hword : NextWordWidth pFont bytes p with
    | error err => simp [hword, bind, Except.bind] at h
    | ok r =>
      obtain ⟨wordWidth, pWordEnd⟩ := r
      simp only [hword, bind, Except.bind] at h
      by_cases h1 : wordWidth > maxLineWidth
      · simp [h1, throw, throwThe, MonadExceptOf.throw] at h
      · simp only [h1, if_false] at h
        by_cases h2 : lw + wordWidth > maxLineWidth
        · simp only [h2, if_true, pure, Except.pure, Except.ok.injEq, Prod.mk.injEq] at h
          rcases hlw with hle | h0
          · rw [← h.1]; exact hle
          · rw [h0, zero_add] at h2
            exact absurd h2 h1
        · simp only [h2, if_false] at h
          have hsum : lw + wordWidth ≤ maxLineWidth := not_lt.mp h2
          cases hse : AtStringEnding bytes pWordEnd with
          | error err => simp [hse] at h
          | ok se =>
            simp only [hse] at h
            cases se with
            | true =>
              simp only [if_true, pure, Except.pure, Except.ok.injEq, Prod.mk.injEq] at h
              rw [← h.1]; exact hsum
            | false =>
              simp only [Bool.false_eq_true, if_false, pure, Except.pure] at h
              cases hle : AtLineEnding bytes pWordEnd with
              | error err => simp [hle] at h
              | ok le =>
                obtain ⟨lineEnding, past⟩ := le
                simp only [hle] at h
                cases lineEnding with
                | true =>
                  simp only [if_true, Except.ok.injEq, Prod.mk.injEq] at h
                  rw [← h.1]; exact hsum
                | false =>
                  simp only [Bool.false_eq_true, if_false] at h
                  exact ih pWordEnd (lw + wordWidth) w e (Or.inl hsum) h

/-! ## Further lemmas on the layout engine -/

theorem AtStringEnding_of_next {bytes : List Byte} {p : Nat} {c : UTF8Char} {n : Nat}
    (h : NextUTF8Char bytes p = .ok (c, n)) : AtStringEnding bytes p = .ok (c == 0) := by
  simp [AtStringEnding, h, bind, Except.bind, pure, Except.pure]

theorem AtLineEnding_of_next {bytes : List Byte} {p : Nat} {c : UTF8Char} {n : Nat}
    (h : NextUTF8Char bytes p = .ok (c, n)) : AtLineEnding bytes p = .ok (c == 10, n) := by
  unfold AtLineEnding
  simp only [h, bind, Except.bind, pure, Except.pure]
  by_cases h10 : c = 10
  · simp [h10]
  · by_cases h13 : c = 13
    · simp [h13]
    · simp [h10, h13]

theorem IsSpace_iff (c : UTF8Char) : IsSpace c = true ↔ c = 32 ∨ c = 9 := by
  simp [IsSpace]

theorem NextWordWidthWord_atBreak (pFont : Font) (bytes : List Byte) :
    ∀ (fuel p : Nat) (w : ℚ) (cPrev : UTF8Char) (w' : ℚ) (e : Nat),
      NextWordWidthWord pFont bytes fuel p w cPrev = .ok (w', e) → atBreak bytes e := by
  intro fuel
  induction fuel with
  | zero => intro p w cPrev w' e h; simp [NextWordWidthWord] at h
  | succ fuel ih =>
    intro p w cPrev w' e h
    simp only [NextWordWidthWord] at h
    cases hn : NextUTF8Char bytes p with
    | error err => simp [hn, bind, Except.bind] at h
    | ok r =>
      obtain ⟨c, next⟩ := r
      simp only [hn, AtStringEnding_of_next hn, AtLineEnding_of_next hn, bind, Except.bind,
        pure, Except.pure] at h
      by_cases h0 : c = 0
      · simp only [h0, beq_self_eq_true, if_true, Except.ok.injEq, Prod.mk.injEq] at h
        exact ⟨c, next, h.2 ▸ hn, Or.inl h0⟩
      · have hb0 : (c == 0) = false := by simpa using h0
        simp only [hb0, Bool.false_eq_true, if_false] at h
        by_cases hbr : ((c == 10) || IsSpace c) = true
        · simp only [hbr, if_true, Except.ok.injEq, Prod.mk.injEq] at h
          refine ⟨c, next, h.2 ▸ hn, ?_⟩
          simp only [Bool.or_eq_true, beq_iff_eq, IsSpace_iff] at hbr
          rcases hbr with h10 | h32 | h9
          · exact Or.inr (Or.inl h10)
          · exact Or.inr (Or.inr (Or.inl h32))
          · exact Or.inr (Or.inr (Or.inr h9))
        · simp only [hbr, Bool.false_eq_true, if_false] at h
          cases hg : pFont.GetGlyphMetrics c with
          | error err => simp [hg] at h
          | ok m =>
            simp only [hg] at h
            exact ih _ _ _ _ _ h

theorem NextWordWidthSpaces_atBreak (pFont : Font) (bytes : List Byte) :
    ∀ (fuel p : Nat) (w : ℚ) (cPrev : UTF8Char) (w' : ℚ) (e : Nat),
      NextWordWidthSpaces pFont bytes fuel p w cPrev = .ok (w', e) → atBreak bytes e := by
  intro fuel
  induction fuel with
  | zero => intro p w cPrev w' e h; simp [NextWordWidthSpaces] at h
  | succ fuel ih =>
    intro p w cPrev w' e h
    simp only [NextWordWidthSpaces] at h
    cases hn : NextUTF8Char bytes p with
    | error err => simp [hn, bind, Except.bind] at h
    | ok r =>
      obtain ⟨c, next⟩ := r
      simp only [hn, AtStringEnding_of_next hn, AtLineEnding_of_next hn, bind, Except.bind,
        pure, Except.pure] at h
      by_cases h0 : c = 0
      · simp only [h0, beq_self_eq_true, if_true, Except.ok.injEq, Prod.mk.injEq] at h
        exact ⟨c, next, h.2 ▸ hn, Or.inl h0⟩
      · have hb0 : (c == 0) = false := by simpa using h0
        simp only [hb0, Bool.false_eq_true, if_false] at h
        by_cases h10 : c = 10
        · simp only [h10, beq_self_eq_true, if_true, Except.ok.injEq, Prod.mk.injEq] at h
          exact ⟨c, next, h.2 ▸ hn, Or.inr (Or.inl h10)⟩
        · have hb10 : (c == 10) = false := by simpa using h10
          simp only [hb10, Bool.false_eq_true, if_false] at h
          cases hsp : IsSpace c with
          | false =>
            simp only [hsp, Bool.not_false, if_true] at h
            exact NextWordWidthWord_atBreak pFont bytes _ _ _ _ _ _ h
          | true =>
            simp only [hsp, Bool.not_true, Bool.false_eq_true, if_false] at h
            cases hg : pFont.GetGlyphMetrics c with
            | error err => simp [hg] at h
            | ok m =>
              simp only [hg] at h
              exact ih _ _ _ _ _ h

theorem NextLineWidthLoop_atBreak (pFont : Font) (bytes : List Byte) (maxLineWidth : ℚ) :
    ∀ (fuel p : Nat) (lineWidth w : ℚ) (e : Nat), (atBreak bytes p ∨ lineWidth = 0) →
      NextLineWidthLoop pFont bytes maxLineWidth fuel p lineWidth = .ok (w, e) →
      atBreak bytes e := by
  intro fuel
  induction fuel with
  | zero => intro p lw w e _ h; simp [NextLineWidthLoop] at h
  | succ fuel ih =>
    intro p lw w e hinv h
    simp only [NextLineWidthLoop] at h
    cases hword : NextWordWidth pFont bytes p with
    | error err => simp [hword, bind, Except.bind] at h
    | ok r =>
      obtain ⟨wordWidth, pWordEnd⟩ := r
      have hend : atBreak bytes pWordEnd :=
        NextWordWidthSpaces_atBreak pFont bytes _ _ _ _ _ _ hword
      simp only [hword, bind, Except.bind] at h
      by_cases h1 : wordWidth > maxLineWidth
      · simp [h1, throw, throwThe, MonadExceptOf.throw] at h
      · simp only [h1, if_false] at h
        by_cases h2 : lw + wordWidth > maxLineWidth
        · simp only [h2, if_true, pure, Except.pure, Except.ok.injEq, Prod.mk.injEq] at h
          rcases hinv with hbr | h0
          · rw [← h.2]; exact hbr
          · rw [h0, zero_add] at h2
            exact absurd h2 h1
        · simp only [h2, if_false] at h
          cases hse : AtStringEnding bytes pWordEnd with
          | error err => simp [hse] at h
          | ok se =>
            simp only [hse] at h
            cases se with
            | true =>
              simp only [if_true, pure, Except.pure, Except.ok.injEq, Prod.mk.injEq] at h
              rw [← h.2]; exact hend
            | false =>
              simp only [Bool.false_eq_true, if_false, pure, Except.pure] at h
              cases hle : AtLineEnding bytes pWordEnd with
              | error err => simp [hle] at h
              | ok le =>
                obtain ⟨lineEnding, past⟩ := le
                simp only [hle] at h
                cases lineEnding with
                | true =>
                  simp only [if_true, Except.ok.injEq, Prod.mk.injEq] at h
                  rw [← h.2]; exact hend
                | false =>
                  simp only [Bool.false_eq_true, if_false] at h
                  exact ih pWordEnd (lw + wordWidth) w e (Or.inl hend) h

theorem NextUTF8Char_lt {bytes : List Byte} {p : Nat} {c : UTF8Char} {q : Nat}
    (h : NextUTF8Char bytes p = .ok (c, q)) : p < q := by
  unfold NextUTF8Char at h
  cases hget : bytes[p]? with
  | none => simp [hget] at h
  | some b0 =>
    simp only [hget] at h
    by_cases h0 : CountSuccessiveLeftBits b0 = 0
    · simp only [h0, if_true, Except.ok.injEq, Prod.mk.injEq] at h
      omega
    · simp only [h0, if_false] at h
      cases hl : NextUTF8CharLoop bytes p (CountSuccessiveLeftBits b0 - 1) 1 (0xff &&& b0.val) with
      | error e => simp [hl] at h
      | ok ch =>
        simp only [hl, Except.ok.injEq, Prod.mk.injEq] at h
        omega

theorem NextUTF8Char_inBounds {bytes : List Byte} {p : Nat} {c : UTF8Char} {q : Nat}
    (h : NextUTF8Char bytes p = .ok (c, q)) : p < bytes.length := by
  unfold NextUTF8Char at h
  cases hget : bytes[p]? with
  | none => simp [hget] at h
  | some b0 => exact (List.getElem?_eq_some_iff.mp hget).1

theorem Reach.refl (bytes : List Byte) (p : Nat) : Reach bytes p p := ⟨0, rfl⟩

theorem Reach.step {bytes : List Byte} {p n q : Nat} {c : UTF8Char}
    (h : NextUTF8Char bytes p = .ok (c, n)) (hr : Reach bytes n q) : Reach bytes p q := by
  obtain ⟨k, hk⟩ := hr
  exact ⟨k + 1, by simp [GetUTF8Position, h, hk]⟩

theorem Reach.le {bytes : List Byte} {p q : Nat} (h : Reach bytes p q) : p ≤ q := by
  obtain ⟨k, hk⟩ := h
  induction k generalizing p with
  | zero => simp [GetUTF8Position] at hk; omega
  | succ k ih =>
    simp only [GetUTF8Position] at hk
    cases hn : NextUTF8Char bytes p with
    | error e => simp [hn] at hk
    | ok r =>
      obtain ⟨c, n⟩ := r
      simp only [hn] at hk
      have := ih hk
      have := NextUTF8Char_lt hn
      omega

theorem Reach.next {bytes : List Byte} {p q : Nat} (h : Reach bytes p q) (hlt : p < q) :
    ∃ c n, NextUTF8Char bytes p = .ok (c, n) ∧ Reach bytes n q := by
  obtain ⟨k, hk⟩ := h
  cases k with
  | zero => simp [GetUTF8Position] at hk; omega
  | succ k =>
    simp only [GetUTF8Position] at hk
    cases hn : NextUTF8Char bytes p with
    | error e => simp [hn] at hk
    | ok r =>
      obtain ⟨c, n⟩ := r
      simp only [hn] at hk
      exact ⟨c, n, rfl, k, hk⟩

theorem Reach.trans {bytes : List Byte} {p q r : Nat} (h1 : Reach bytes p q)
    (h2 : Reach bytes q r) : Reach bytes p r := by
  obtain ⟨k, hk⟩ := h1
  induction k generalizing p with
  | zero =>
    simp [GetUTF8Position] at hk
    subst hk
    exact h2
  | succ k ih =>
    simp only [GetUTF8Position] at hk
    cases hn : NextUTF8Char bytes p with
    | error e => simp [hn] at hk
    | ok r =>
      obtain ⟨c, n⟩ := r
      simp only [hn] at hk
      exact Reach.step hn (ih hk)

theorem SkipSpacesLoop_reach (bytes : List Byte) :
    ∀ (fuel p q : Nat), SkipSpacesLoop bytes fuel p = .ok q → Reach bytes p q := by
  intro fuel
  induction fuel with
  | zero => intro p q h; simp [SkipSpacesLoop] at h
  | succ fuel ih =>
    intro p q h
    simp only [SkipSpacesLoop] at h
    cases hn : NextUTF8Char bytes p with
    | error e => simp [hn, bind, Except.bind] at h
    | ok r =>
      obtain ⟨c, next⟩ := r
      simp only [hn, bind, Except.bind, pure, Except.pure] at h
      by_cases hc : (c == 0 || !IsSpace c) = true
      · simp only [hc, if_true, Except.ok.injEq] at h
        subst h
        exact Reach.refl _ _
      · simp only [hc, Bool.false_eq_true, if_false] at h
        exact Reach.step hn (ih _ _ h)

theorem NextWordWidthWord_reach (pFont : Font) (bytes : List Byte) :
    ∀ (fuel p : Nat) (w : ℚ) (cPrev : UTF8Char) (w' : ℚ) (e : Nat),
      NextWordWidthWord pFont bytes fuel p w cPrev = .ok (w', e) → Reach bytes p e := by
  intro fuel
  induction fuel with
  | zero => intro p w cPrev w' e h; simp [NextWordWidthWord] at h
  | succ fuel ih =>
    intro p w cPrev w' e h
    simp only [NextWordWidthWord] at h
    cases hn : NextUTF8Char bytes p with
    | error err => simp [hn, bind, Except.bind] at h
    | ok r =>
      obtain ⟨c, next⟩ := r
      simp only [hn, AtStringEnding_of_next hn, AtLineEnding_of_next hn, bind, Except.bind,
        pure, Except.pure] at h
      by_cases h0 : (c == 0) = true
      · simp only [h0, if_true, Except.ok.injEq, Prod.mk.injEq] at h
        rw [← h.2]; exact Reach.refl _ _
      · simp only [h0, Bool.false_eq_true, if_false] at h
        by_cases hbr : ((c == 10) || IsSpace c) = true
        · simp only [hbr, if_true, Except.ok.injEq, Prod.mk.injEq] at h
          rw [← h.2]; exact Reach.refl _ _
        · simp only [hbr, Bool.false_eq_true, if_false] at h
          cases hg : pFont.GetGlyphMetrics c with
          | error err => simp [hg] at h
          | ok m =>
            simp only [hg] at h
            exact Reach.step hn (ih _ _ _ _ _ h)

theorem NextWordWidthSpaces_reach (pFont : Font) (bytes : List Byte) :
    ∀ (fuel p : Nat) (w : ℚ) (cPrev : UTF8Char) (w' : ℚ) (e : Nat),
      NextWordWidthSpaces pFont bytes fuel p w cPrev = .ok (w', e) → Reach bytes p e := by
  intro fuel
  induction fuel with
  | zero => intro p w cPrev w' e h; simp [NextWordWidthSpaces] at h
  | succ fuel ih =>
    intro p w cPrev w' e h
    simp only [NextWordWidthSpaces] at h
    cases hn : NextUTF8Char bytes p with
    | error err => simp [hn, bind, Except.bind] at h
    | ok r =>
      obtain ⟨c, next⟩ := r
      simp only [hn, AtStringEnding_of_next hn, AtLineEnding_of_next hn, bind, Except.bind,
        pure, Except.pure] at h
      by_cases h0 : (c == 0) = true
      · simp only [h0, if_true, Except.ok.injEq, Prod.mk.injEq] at h
        rw [← h.2]; exact Reach.refl _ _
      · simp only [h0, Bool.false_eq_true, if_false] at h
        by_cases h10 : (c == 10) = true
        · simp only [h10, if_true, Except.ok.injEq, Prod.mk.injEq] at h
          rw [← h.2]; exact Reach.refl _ _
        · simp only [h10, Bool.false_eq_true, if_false] at h
          cases hsp : IsSpace c with
          | false =>
            simp only [hsp, Bool.not_false, if_true] at h
            exact NextWordWidthWord_reach pFont bytes _ _ _ _ _ _ h
          | true =>
            simp only [hsp, Bool.not_true, Bool.false_eq_true, if_false] at h
            cases hg : pFont.GetGlyphMetrics c with
            | error err => simp [hg] at h
            | ok m =>
              simp only [hg] at h
              exact Reach.step hn (ih _ _ _ _ _ h)

theorem NextLineWidthLoop_reach (pFont : Font) (bytes : List Byte) (maxLineWidth : ℚ) :
    ∀ (fuel p : Nat) (lineWidth w : ℚ) (e : Nat),
      NextLineWidthLoop pFont bytes maxLineWidth fuel p lineWidth = .ok (w, e) →
      Reach bytes p e := by
  intro fuel
  induction fuel with
  | zero => intro p lw w e h; simp [NextLineWidthLoop] at h
  | succ fuel ih =>
    intro p lw w e h
    simp only [NextLineWidthLoop] at h
    cases hword : NextWordWidth pFont bytes p with
    | error err => simp [hword, bind, Except.bind] at h
    | ok r =>
      obtain ⟨wordWidth, pWordEnd⟩ := r
      have hend : Reach bytes p pWordEnd :=
        NextWordWidthSpaces_reach pFont bytes _ _ _ _ _ _ hword
      simp only [hword, bind, Except.bind] at h
      by_cases h1 : wordWidth > maxLineWidth
      · simp [h1, throw, throwThe, MonadExceptOf.throw] at h
      · simp only [h1, if_false] at h
        by_cases h2 : lw + wordWidth > maxLineWidth
        · simp only [h2, if_true, pure, Except.pure, Except.ok.injEq, Prod.mk.injEq] at h
          rw [← h.2]; exact Reach.refl _ _
        · simp only [h2, if_false] at h
          cases hse : AtStringEnding bytes pWordEnd with
          | error err => simp [hse] at h
          | ok se =>
            simp only [hse] at h
            cases se with
            | true =>
              simp only [if_true, pure, Except.pure, Except.ok.injEq, Prod.mk.injEq] at h
              rw [← h.2]; exact hend
            | false =>
              simp only [Bool.false_eq_true, if_false, pure, Except.pure] at h
              cases hle : AtLineEnding bytes pWordEnd with
              | error err => simp [hle] at h
              | ok le =>
                obtain ⟨lineEnding, past⟩ := le
                simp only [hle] at h
                cases lineEnding with
                | true =>
                  simp only [if_true, Except.ok.injEq, Prod.mk.injEq] at h
                  rw [← h.2]; exact hend
                | false =>
                  simp only [Bool.false_eq_true, if_false] at h
                  exact Reach.trans hend (ih pWordEnd (lw + wordWidth) w e h)

theorem NextLineWidth_reach {pFont : Font} {bytes : List Byte} {text : Nat}
    {maxLineWidth w : ℚ} {e : Nat}
    (h : NextLineWidth pFont bytes text maxLineWidth = .ok (w, e)) :
    ∃ p, SkipSpaces bytes text = .ok p ∧ Reach bytes text p ∧ Reach bytes p e := by
  unfold NextLineWidth at h
  cases hskip : SkipSpaces bytes text with
  | error err => simp [hskip, bind, Except.bind] at h
  | ok p =>
    simp only [hskip, bind, Except.bind] at h
    exact ⟨p, rfl, SkipSpacesLoop_reach bytes _ _ _ hskip, NextLineWidthLoop_reach pFont bytes _ _ _ _ _ _ h⟩

theorem glyphStep_ok {pFont : GLTextureFont} {bytes : List Byte} {text : Nat} {y : ℚ}
    {p : Nat} {x0 : ℚ} {cPrev c : UTF8Char} {next : Nat} {x' : ℚ} {ev : Event}
    (heq : (do
        let (c, next) ← NextUTF8Char bytes p
        let x := if cPrev != 0 then x0 + GetKernValue pFont.mHorizontalKernTable cPrev c else x0
        let quad ← SetGlyphQuad pFont c x y
        let g ← pFont.GetGlyph c
        let x := x + g.mMetrics.advanceX
        let startPosition ← CountCharsUTF8 bytes text (some p)
        let endPosition ← CountCharsUTF8 bytes text (some next)
        let glyphSelection := SetTextSelection pFont.mMetrics startPosition endPosition x0 x y
        return (c, next, x, Event.OnGlyph c quad glyphSelection) :
          Except Error (UTF8Char × Nat × ℚ × Event)) = .ok (c, next, x', ev)) :
    ∃ quad g s e, NextUTF8Char bytes p = .ok (c, next) ∧
      SetGlyphQuad pFont c
        (if cPrev != 0 then x0 + GetKernValue pFont.mHorizontalKernTable cPrev c else x0) y
        = .ok quad ∧
      pFont.GetGlyph c = .ok g ∧
      ev = .OnGlyph c quad (SetTextSelection pFont.mMetrics s e x0 x' y) := by
  cases hn : NextUTF8Char bytes p with
  | error err => simp [hn, bind, Except.bind] at heq
  | ok r =>
    obtain ⟨c0, n0⟩ := r
    simp only [hn, bind, Except.bind] at heq
    cases hq : SetGlyphQuad pFont c0
        (if cPrev != 0 then x0 + GetKernValue pFont.mHorizontalKernTable cPrev c0 else x0) y with
    | error err => simp only [hq, reduceCtorEq] at heq
    | ok quad =>
      simp only [hq] at heq
      cases hg : pFont.GetGlyph c0 with
      | error err => simp only [hg, reduceCtorEq] at heq
      | ok g =>
        simp only [hg] at heq
        cases hs : CountCharsUTF8 bytes text (some p) with
        | error err => simp only [hs, reduceCtorEq] at heq
        | ok s =>
          simp only [hs] at heq
          cases he : CountCharsUTF8 bytes text (some n0) with
          | error err => simp only [he, reduceCtorEq] at heq
          | ok e =>
            simp only [he, pure, Except.pure, Except.ok.injEq, Prod.mk.injEq] at heq
            obtain ⟨h1, h2, h3, h4⟩ := heq
            subst h1 h2 h3
            exact ⟨quad, g, s, e, rfl, hq, hg, h4.symm⟩

theorem IterateTextGlyphs_events (pFont : GLTextureFont) (bytes : List Byte) (text : Nat) (y : ℚ)
    (pLineEnd : Nat) :
    ∀ (fuel p : Nat) (x : ℚ) (cPrev : UTF8Char) (out : List Event),
      ∃ gs, (IterateTextGlyphs pFont bytes text y pLineEnd fuel p x cPrev out).1 = out ++ gs ∧
        ∀ ev ∈ gs, ev.isGlyph = true := by
  intro fuel
  induction fuel with
  | zero => intro p x cPrev out; exact ⟨[], by simp [IterateTextGlyphs], by simp⟩
  | succ fuel ih =>
    intro p x cPrev out
    simp only [IterateTextGlyphs]
    by_cases hlt : p < pLineEnd
    · simp only [hlt, if_true]
      split
      · exact ⟨[], by simp, by simp⟩
      · rename_i c next x' ev heq
        obtain ⟨quad, g, s, e, _, _, _, hev⟩ := glyphStep_ok heq
        obtain ⟨gs, hgs, hall⟩ := ih next x' c (out ++ [ev])
        refine ⟨ev :: gs, by rw [hgs]; simp, ?_⟩
        intro ev' hev'
        rcases List.mem_cons.mp hev' with h | h
        · rw [h, hev]; rfl
        · exact hall ev' h
    · simp only [hlt, if_false]
      exact ⟨[], by simp, by simp⟩

theorem IterateTextGlyphs_end (pFont : GLTextureFont) (bytes : List Byte) (text : Nat) (y : ℚ)
    (pLineEnd : Nat) :
    ∀ (fuel p : Nat) (x : ℚ) (cPrev : UTF8Char) (out out' : List Event) (p' : Nat),
      Reach bytes p pLineEnd →
      IterateTextGlyphs pFont bytes text y pLineEnd fuel p x cPrev out = (out', .ok p') →
      p' = pLineEnd := by
  intro fuel
  induction fuel with
  | zero => intro p x cPrev out out' p' _ h; simp [IterateTextGlyphs] at h
  | succ fuel ih =>
    intro p x cPrev out out' p' hr h
    simp only [IterateTextGlyphs] at h
    by_cases hlt : p < pLineEnd
    · simp only [hlt, if_true] at h
      split at h
      · simp at h
      · rename_i c next x' ev heq
        obtain ⟨quad, g, s, e, hn, _, _, _⟩ := glyphStep_ok heq
        obtain ⟨c2, n2, hn2, hr2⟩ := hr.next hlt
        rw [hn] at hn2
        simp only [Except.ok.injEq, Prod.mk.injEq] at hn2
        rw [← hn2.2] at hr2
        exact ih next x' c _ _ _ hr2 h
    · simp only [hlt, if_false, Prod.mk.injEq, Except.ok.injEq] at h
      have := hr.le
      omega

theorem lineStep_ok {pFont : GLTextureFont} {bytes : List Byte} {text : Nat}
    {params : TextParams} {p : Nat} {y x : ℚ} {p1 e : Nat} {ev : Event}
    (heq : (do
        if ← AtStringEnding bytes p then
          return none
        let (lineWidth, pLineEnd) ← NextLineWidth pFont.toFont bytes p params.maxWidth
        let x :=
          if params.align = .TEXTALIGN_CENTER then params.startX - lineWidth / 2
          else if params.align = .TEXTALIGN_RIGHT then params.startX - lineWidth
          else params.startX
        let p ← SkipSpaces bytes p
        let startPosition ← CountCharsUTF8 bytes text (some p)
        let endPosition ← CountCharsUTF8 bytes text (some pLineEnd)
        let lineSelection :=
          SetTextSelection pFont.mMetrics startPosition endPosition x (x + lineWidth) y
        return some (x, p, pLineEnd, Event.OnLine lineSelection) :
          Except Error (Option (ℚ × Nat × Nat × Event))) = .ok (some (x, p1, e, ev))) :
    ∃ W s t, AtStringEnding bytes p = .ok false ∧
      NextLineWidth pFont.toFont bytes p params.maxWidth = .ok (W, e) ∧
      SkipSpaces bytes p = .ok p1 ∧
      CountCharsUTF8 bytes text (some p1) = .ok s ∧
      CountCharsUTF8 bytes text (some e) = .ok t ∧
      x = alignedStartX params W ∧
      ev = .OnLine (SetTextSelection pFont.mMetrics s t x (x + W) y) := by
  cases hse : AtStringEnding bytes p with
  | error err => simp only [hse, bind, Except.bind, reduceCtorEq] at heq
  | ok se =>
    cases se with
    | true => simp [hse, bind, Except.bind, pure, Except.pure] at heq
    | false =>
      simp only [hse, bind, Except.bind, Bool.false_eq_true, if_false, pure, Except.pure] at heq
      cases hl : NextLineWidth pFont.toFont bytes p params.maxWidth with
      | error err => simp only [hl, reduceCtorEq] at heq
      | ok r =>
        obtain ⟨W, e0⟩ := r
        simp only [hl] at heq
        cases hs : SkipSpaces bytes p with
        | error err => simp only [hs, reduceCtorEq] at heq
        | ok p0 =>
          simp only [hs] at heq
          cases h1 : CountCharsUTF8 bytes text (some p0) with
          | error err => simp only [h1, reduceCtorEq] at heq
          | ok s =>
            simp only [h1] at heq
            cases h2 : CountCharsUTF8 bytes text (some e0) with
            | error err => simp only [h2, reduceCtorEq] at heq
            | ok t =>
              simp only [h2, Except.ok.injEq, Option.some.injEq, Prod.mk.injEq] at heq
              obtain ⟨hx, hp, he, hev⟩ := heq
              subst hp he
              have hxa : x = alignedStartX params W := by
                rw [← hx]
                unfold alignedStartX
                cases params.align <;> simp
              refine ⟨W, s, t, rfl, rfl, rfl, h1, h2, hxa, ?_⟩
              rw [← hev, hx]

theorem lineStep_none {pFont : GLTextureFont} {bytes : List Byte} {text : Nat}
    {params : TextParams} {p : Nat} {y : ℚ}
    (heq : (do
        if ← AtStringEnding bytes p then
          return none
        let (lineWidth, pLineEnd) ← NextLineWidth pFont.toFont bytes p params.maxWidth
        let x :=
          if params.align = .TEXTALIGN_CENTER then params.startX - lineWidth / 2
          else if params.align = .TEXTALIGN_RIGHT then params.startX - lineWidth
          else params.startX
        let p ← SkipSpaces bytes p
        let startPosition ← CountCharsUTF8 bytes text (some p)
        let endPosition ← CountCharsUTF8 bytes text (some pLineEnd)
        let lineSelection :=
          SetTextSelection pFont.mMetrics startPosition endPosition x (x + lineWidth) y
        return some (x, p, pLineEnd, Event.OnLine lineSelection) :
          Except Error (Option (ℚ × Nat × Nat × Event))) = .ok none) :
    AtStringEnding bytes p = .ok true := by
  cases hse : AtStringEnding bytes p with
  | error err => simp only [hse, bind, Except.bind, reduceCtorEq] at heq
  | ok se =>
    cases se with
    | true => rfl
    | false =>
      simp only [hse, bind, Except.bind, Bool.false_eq_true, if_false, pure, Except.pure] at heq
      cases hl : NextLineWidth pFont.toFont bytes p params.maxWidth with
      | error err => simp only [hl, reduceCtorEq] at heq
      | ok r =>
        simp only [hl] at heq
        cases hs : SkipSpaces bytes p with
        | error err => simp only [hs, reduceCtorEq] at heq
        | ok p0 =>
          simp only [hs] at heq
          cases h1 : CountCharsUTF8 bytes text (some p0) with
          | error err => simp only [h1, reduceCtorEq] at heq
          | ok s =>
            simp only [h1] at heq
            cases h2 : CountCharsUTF8 bytes text (some r.2) with
            | error err => simp only [h2, reduceCtorEq] at heq
            | ok t => simp only [h2, Except.ok.injEq, reduceCtorEq] at heq

theorem IterateTextLoop_events (pFont : GLTextureFont) (bytes : List Byte) (text : Nat)
    (params : TextParams) :
    ∀ (fuel p : Nat) (y : ℚ) (out : List Event),
      ∃ more, (IterateTextLoop pFont bytes text params fuel p y out).1 = out ++ more ∧
        ∀ d, Event.OnLine d ∈ more → ∃ p W e,
          NextLineWidth pFont.toFont bytes p params.maxWidth = .ok (W, e) ∧
          d.startX = alignedStartX params W ∧ d.endX = d.startX + W := by
  intro fuel
  induction fuel with
  | zero => intro p y out; exact ⟨[], by simp [IterateTextLoop], by simp⟩
  | succ fuel ih =>
    intro p y out
    simp only [IterateTextLoop]
    split
    · exact ⟨[], by simp, by simp⟩
    · exact ⟨[], by simp, by simp⟩
    · rename_i x p1 e ev heq
      obtain ⟨W, s, t, _, hl, _, _, _, hx, hev⟩ := lineStep_ok heq
      obtain ⟨gs, hgs, hglyph⟩ := IterateTextGlyphs_events pFont bytes text y e
        (bytes.length + 1) p1 x 0 (out ++ [ev])
      have hline : ∀ d, Event.OnLine d ∈ ev :: gs → ∃ p W e,
          NextLineWidth pFont.toFont bytes p params.maxWidth = .ok (W, e) ∧
          d.startX = alignedStartX params W ∧ d.endX = d.startX + W := by
        intro d hd
        rcases List.mem_cons.mp hd with h | h
        · rw [hev] at h
          simp only [Event.OnLine.injEq] at h
          subst h
          exact ⟨p, W, e, hl, by simp [SetTextSelection, hx], by simp [SetTextSelection]⟩
        · exact absurd (hglyph _ h) (by simp [Event.isGlyph])
      split
      · rename_i out1 err hg
        rw [hg] at hgs
        exact ⟨ev :: gs, by simpa using hgs, hline⟩
      · rename_i out1 p2 hg
        rw [hg] at hgs
        simp only at hgs
        split
        · exact ⟨ev :: gs, by simpa using hgs, hline⟩
        · exact ⟨ev :: gs, by simpa using hgs, hline⟩
        · rename_i p3 hend
          obtain ⟨more, hmore, hm⟩ := ih p3 (y - params.lineSpacing) out1
          refine ⟨ev :: gs ++ more, ?_, ?_⟩
          · rw [hmore, hgs]; simp
          · intro d hd
            rcases List.mem_append.mp hd with h | h
            · exact hline d h
            · exact hm d h

theorem lineSpans_append (l1 l2 : List Event) :
    lineSpans (l1 ++ l2) = lineSpans l1 ++ lineSpans l2 := by
  induction l1 with
  | nil => rfl
  | cons ev l1 ih =>
    cases ev with
    | OnGlyph c q d => simpa [lineSpans] using ih
    | OnLine d => simp [lineSpans, ih]

theorem lineSpans_glyphs (gs : List Event) (h : ∀ ev ∈ gs, ev.isGlyph = true) :
    lineSpans gs = [] := by
  induction gs with
  | nil => rfl
  | cons ev gs ih =>
    have hev := h ev (List.mem_cons_self _ _)
    cases ev with
    | OnGlyph c q d =>
      simp only [lineSpans]
      exact ih (fun e he => h e (List.mem_cons_of_mem _ he))
    | OnLine d => simp [Event.isGlyph] at hev

theorem endingStep_ok {bytes : List Byte} {p : Nat} {r : Option Nat}
    (heq : (do
        if ← AtStringEnding bytes p then
          return none
        let (lineEnding, next) ← AtLineEnding bytes p
        return some (if lineEnding then next else p) : Except Error (Option Nat)) = .ok r) :
    (r = none ∧ AtStringEnding bytes p = .ok true) ∨
    (∃ lineEnding next, AtStringEnding bytes p = .ok false ∧
      AtLineEnding bytes p = .ok (lineEnding, next) ∧
      r = some (if lineEnding then next else p)) := by
  cases hse : AtStringEnding bytes p with
  | error err => simp only [hse, bind, Except.bind, reduceCtorEq] at heq
  | ok se =>
    cases se with
    | true =>
      simp only [hse, bind, Except.bind, if_true, pure, Except.pure, Except.ok.injEq] at heq
      exact Or.inl ⟨heq.symm, rfl⟩
    | false =>
      simp only [hse, bind, Except.bind, Bool.false_eq_true, if_false, pure, Except.pure] at heq
      cases hle : AtLineEnding bytes p with
      | error err => simp only [hle, reduceCtorEq] at heq
      | ok le =>
        obtain ⟨lineEnding, next⟩ := le
        simp only [hle, Except.ok.injEq] at heq
        exact Or.inr ⟨lineEnding, next, rfl, rfl, heq.symm⟩

theorem IterateTextLoop_CountLinesLoop (pFont : GLTextureFont) (bytes : List Byte) (text : Nat)
    (params : TextParams) :
    ∀ (fuel p : Nat) (y : ℚ) (out events : List Event) (count : Nat),
      IterateTextLoop pFont bytes text params fuel p y out = (events, .ok ()) →
      ∃ n, (lineSpans events).length = (lineSpans out).length + n ∧
        CountLinesLoop pFont.toFont bytes params fuel p count = .ok (count + n) := by
  intro fuel
  induction fuel with
  | zero => intro p y out events count h; simp [IterateTextLoop] at h
  | succ fuel ih =>
    intro p y out events count h
    simp only [IterateTextLoop] at h
    split at h
    · simp at h
    · rename_i heq
      have hse := lineStep_none heq
      simp only [Prod.mk.injEq, and_true] at h
      subst h
      exact ⟨0, rfl, by simp [CountLinesLoop, hse, bind, Except.bind, pure, Except.pure]⟩
    · rename_i x p1 e ev heq
      obtain ⟨W, s, t, hse, hl, hskip, _, _, _, hev⟩ := lineStep_ok heq
      obtain ⟨gs, hgs, hglyph⟩ := IterateTextGlyphs_events pFont bytes text y e
        (bytes.length + 1) p1 x 0 (out ++ [ev])
      obtain ⟨p', hskip', _, hreach⟩ := NextLineWidth_reach hl
      rw [hskip] at hskip'
      simp only [Except.ok.injEq] at hskip'
      subst hskip'
      split at h
      · simp at h
      · rename_i out1 p2 hg
        have hp2 : p2 = e := IterateTextGlyphs_end pFont bytes text y e _ _ _ _ _ _ _ hreach hg
        subst hp2
        rw [hg] at hgs
        simp only at hgs
        have hspans : (lineSpans out1).length = (lineSpans out).length + 1 := by
          rw [hgs, List.append_assoc, lineSpans_append, lineSpans_append, hev,
            lineSpans_glyphs gs hglyph]
          simp [lineSpans]
        split at h
        · simp at h
        · rename_i hend
          simp only [Prod.mk.injEq, and_true] at h
          subst h
          rcases endingStep_ok hend with ⟨_, hse2⟩ | ⟨le, next, _, _, hr⟩
          · exact ⟨1, hspans, by
              simp [CountLinesLoop, hse, hl, hse2, bind, Except.bind, pure, Except.pure]⟩
          · exact absurd hr (by simp)
        · rename_i p3 hend
          rcases endingStep_ok hend with ⟨hr, _⟩ | ⟨le, next, hse2, hle2, hr⟩
          · exact absurd hr (by simp)
          · simp only [Option.some.injEq] at hr
            obtain ⟨n, hn, hc⟩ := ih p3 (y - params.lineSpacing) out1 events (count + 1) h
            refine ⟨n + 1, by omega, ?_⟩
            simp only [CountLinesLoop, hse, hl, hse2, hle2, bind, Except.bind, pure, Except.pure,
              Bool.false_eq_true, if_false]
            rw [← hr, hc]
            congr 1
            omega

theorem NextUTF8Char_zero {bytes : List Byte} {p : Nat} (h : bytes[p]? = some 0) :
    NextUTF8Char bytes p = .ok (0, p + 1) := by
  unfold NextUTF8Char
  rw [h]
  rfl

theorem NextUTF8Char_first_ne_zero {bytes : List Byte} {p : Nat} {c : UTF8Char} {n : Nat}
    (h : NextUTF8Char bytes p = .ok (c, n)) (hc : c ≠ 0) :
    ∃ b : Byte, bytes[p]? = some b ∧ b.val ≠ 0 := by
  cases hget : bytes[p]? with
  | none => simp [NextUTF8Char, hget] at h
  | some b =>
    refine ⟨b, rfl, ?_⟩
    intro hb
    have hb0 : b = 0 := (zero_iff_val b).mp hb
    subst hb0
    rw [NextUTF8Char_zero hget] at h
    simp only [Except.ok.injEq, Prod.mk.injEq] at h
    exact hc h.1.symm

theorem CountCharsUTF8Loop_one {bytes : List Byte} {p : Nat} {c : UTF8Char} {n e fuel : Nat}
    (h : NextUTF8Char bytes p = .ok (c, n)) (hc : c ≠ 0) (he : e ≤ n) :
    CountCharsUTF8Loop bytes (some e) (fuel + 1) p 0 = .ok 1 := by
  obtain ⟨b, hb, hb0⟩ := NextUTF8Char_first_ne_zero h hc
  simp [CountCharsUTF8Loop, hb, hb0, h, he]

theorem CountCharsUTF8Loop_ok (bytes : List Byte) (e : Nat) (hend : bytes[e]? = some 0) :
    ∀ (fuel p cnt : Nat), Reach bytes p e → e - p + 1 ≤ fuel →
      ∃ n, CountCharsUTF8Loop bytes (some e) fuel p cnt = .ok n := by
  intro fuel
  induction fuel with
  | zero => intro p cnt _ hf; omega
  | succ fuel ih =>
    intro p cnt hr hf
    have hle := hr.le
    rcases Nat.eq_or_lt_of_le hle with heq | hlt
    · subst heq
      exact ⟨cnt, by simp [CountCharsUTF8Loop, hend]⟩
    · obtain ⟨c, n, hn, hr2⟩ := hr.next hlt
      have hpn := NextUTF8Char_lt hn
      cases hget : bytes[p]? with
      | none => simp [NextUTF8Char, hget] at hn
      | some b =>
        by_cases hb : b.val = 0
        · exact ⟨cnt, by simp [CountCharsUTF8Loop, hget, hb]⟩
        · by_cases hge : n ≥ e
          · exact ⟨cnt + 1, by simp [CountCharsUTF8Loop, hget, hb, hn, hge]⟩
          · obtain ⟨m, hm⟩ := ih n (cnt + 1) hr2 (by omega)
            exact ⟨m, by simp [CountCharsUTF8Loop, hget, hb, hn, hge, hm]⟩

theorem glyphStep_eq {pFont : GLTextureFont} {bytes : List Byte} {text : Nat} {y : ℚ}
    {p : Nat} {x0 : ℚ} {cPrev c : UTF8Char} {next : Nat} {quad : GlyphQuad} {g : GLTextureGlyph}
    {s t : Nat}
    (hn : NextUTF8Char bytes p = .ok (c, next))
    (hq : SetGlyphQuad pFont c
      (if cPrev != 0 then x0 + GetKernValue pFont.mHorizontalKernTable cPrev c else x0) y
      = .ok quad)
    (hg : pFont.GetGlyph c = .ok g)
    (hs : CountCharsUTF8 bytes text (some p) = .ok s)
    (ht : CountCharsUTF8 bytes text (some next) = .ok t) :
    (do
        let (c, next) ← NextUTF8Char bytes p
        let x := if cPrev != 0 then x0 + GetKernValue pFont.mHorizontalKernTable cPrev c else x0
        let quad ← SetGlyphQuad pFont c x y
        let g ← pFont.GetGlyph c
        let x := x + g.mMetrics.advanceX
        let startPosition ← CountCharsUTF8 bytes text (some p)
        let endPosition ← CountCharsUTF8 bytes text (some next)
        let glyphSelection := SetTextSelection pFont.mMetrics startPosition endPosition x0 x y
        return (c, next, x, Event.OnGlyph c quad glyphSelection) :
          Except Error (UTF8Char × Nat × ℚ × Event))
      = .ok (c, next,
          (if cPrev != 0 then x0 + GetKernValue pFont.mHorizontalKernTable cPrev c else x0)
            + g.mMetrics.advanceX,
          Event.OnGlyph c quad (SetTextSelection pFont.mMetrics s t x0
            ((if cPrev != 0 then x0 + GetKernValue pFont.mHorizontalKernTable cPrev c else x0)
              + g.mMetrics.advanceX) y)) := by
  simp only [hn, bind, Except.bind, hq, hg, hs, ht, pure, Except.pure]

theorem IterateTextGlyphs_step {pFont : GLTextureFont} {bytes : List Byte} {text : Nat} {y : ℚ}
    {pLineEnd fuel p : Nat} {x0 : ℚ} {cPrev c : UTF8Char} {next : Nat} {x' : ℚ} {ev : Event}
    (out : List Event) (hlt : p < pLineEnd)
    (heq : (do
        let (c, next) ← NextUTF8Char bytes p
        let x := if cPrev != 0 then x0 + GetKernValue pFont.mHorizontalKernTable cPrev c else x0
        let quad ← SetGlyphQuad pFont c x y
        let g ← pFont.GetGlyph c
        let x := x + g.mMetrics.advanceX
        let startPosition ← CountCharsUTF8 bytes text (some p)
        let endPosition ← CountCharsUTF8 bytes text (some next)
        let glyphSelection := SetTextSelection pFont.mMetrics startPosition endPosition x0 x y
        return (c, next, x, Event.OnGlyph c quad glyphSelection) :
          Except Error (UTF8Char × Nat × ℚ × Event)) = .ok (c, next, x', ev)) :
    IterateTextGlyphs pFont bytes text y pLineEnd (fuel + 1) p x0 cPrev out
      = IterateTextGlyphs pFont bytes text y pLineEnd fuel next x' c (out ++ [ev]) := by
  simp only [IterateTextGlyphs, hlt, if_true]
  split
  · rename_i heq'
    exact absurd (heq.symm.trans heq') (by simp)
  · rename_i heq'
    have h := heq.symm.trans heq'
    simp only [Except.ok.injEq, Prod.mk.injEq] at h
    obtain ⟨h1, h2, h3, h4⟩ := h
    subst h1 h2 h3 h4
    rfl

theorem lineStep_eq {pFont : GLTextureFont} {bytes : List Byte} {text : Nat}
    {params : TextParams} {p : Nat} {y W : ℚ} {p1 e s t : Nat}
    (hse : AtStringEnding bytes p = .ok false)
    (hl : NextLineWidth pFont.toFont bytes p params.maxWidth = .ok (W, e))
    (hskip : SkipSpaces bytes p = .ok p1)
    (hs : CountCharsUTF8 bytes text (some p1) = .ok s)
    (ht : CountCharsUTF8 bytes text (some e) = .ok t) :
    (do
        if ← AtStringEnding bytes p then
          return none
        let (lineWidth, pLineEnd) ← NextLineWidth pFont.toFont bytes p params.maxWidth
        let x :=
          if params.align = .TEXTALIGN_CENTER then params.startX - lineWidth / 2
          else if params.align = .TEXTALIGN_RIGHT then params.startX - lineWidth
          else params.startX
        let p ← SkipSpaces bytes p
        let startPosition ← CountCharsUTF8 bytes text (some p)
        let endPosition ← CountCharsUTF8 bytes text (some pLineEnd)
        let lineSelection :=
          SetTextSelection pFont.mMetrics startPosition endPosition x (x + lineWidth) y
        return some (x, p, pLineEnd, Event.OnLine lineSelection) :
          Except Error (Option (ℚ × Nat × Nat × Event)))
      = .ok (some (alignedStartX params W, p1, e,
          Event.OnLine (SetTextSelection pFont.mMetrics s t (alignedStartX params W)
            (alignedStartX params W + W) y))) := by
  have hx : (if params.align = .TEXTALIGN_CENTER then params.startX - W / 2
          else if params.align = .TEXTALIGN_RIGHT then params.startX - W
          else params.startX) = alignedStartX params W := by
    unfold alignedStartX
    cases params.align <;> simp
  simp only [hse, bind, Except.bind, Bool.false_eq_true, if_false, pure, Except.pure, hl, hskip,
    hs, ht, hx]

theorem IterateTextLoop_step {pFont : GLTextureFont} {bytes : List Byte} {text : Nat}
    {params : TextParams} {fuel p : Nat} {y x : ℚ} {p1 e : Nat} {ev : Event}
    (out : List Event)
    (heq : (do
        if ← AtStringEnding bytes p then
          return none
        let (lineWidth, pLineEnd) ← NextLineWidth pFont.toFont bytes p params.maxWidth
        let x :=
          if params.align = .TEXTALIGN_CENTER then params.startX - lineWidth / 2
          else if params.align = .TEXTALIGN_RIGHT then params.startX - lineWidth
          else params.startX
        let p ← SkipSpaces bytes p
        let startPosition ← CountCharsUTF8 bytes text (some p)
        let endPosition ← CountCharsUTF8 bytes text (some pLineEnd)
        let lineSelection :=
          SetTextSelection pFont.mMetrics startPosition endPosition x (x + lineWidth) y
        return some (x, p, pLineEnd, Event.OnLine lineSelection) :
          Except Error (Option (ℚ × Nat × Nat × Event))) = .ok (some (x, p1, e, ev))) :
    ∃ more, (IterateTextLoop pFont bytes text params (fuel + 1) p y out).1
      = (IterateTextGlyphs pFont bytes text y e (bytes.length + 1) p1 x 0 (out ++ [ev])).1
        ++ more := by
  simp only [IterateTextLoop]
  split
  · rename_i heq'
    exact absurd (heq.symm.trans heq') (by simp)
  · rename_i heq'
    exact absurd (heq.symm.trans heq') (by simp)
  · rename_i x2 p2 e2 ev2 heq'
    have h := heq.symm.trans heq'
    simp only [Except.ok.injEq, Option.some.injEq, Prod.mk.injEq] at h
    obtain ⟨h1, h2, h3, h4⟩ := h
    subst h1 h2 h3 h4
    split
    · rename_i out1 err hg
      exact ⟨[], by rw [hg]; simp⟩
    · rename_i out1 p3 hg
      rw [hg]
      split
      · exact ⟨[], by simp⟩
      · exact ⟨[], by simp⟩
      · obtain ⟨more, hmore, _⟩ := IterateTextLoop_events pFont bytes text params fuel _
          (y - params.lineSpacing) out1
        exact ⟨more, hmore⟩

theorem firstGlyphQuad_prefix (d : TextSelectionDetails) (c : UTF8Char) (quad : GlyphQuad)
    (sel : TextSelectionDetails) (rest : List Event) :
    firstGlyphQuad (Event.OnLine d :: Event.OnGlyph c quad sel :: rest) = some quad := rfl

theorem alignedStartX_eq (params : TextParams) (W : ℚ) :
    (params.align = .TEXTALIGN_LEFT → alignedStartX params W = params.startX) ∧
    (params.align = .TEXTALIGN_CENTER → alignedStartX params W = params.startX - W / 2) ∧
    (params.align = .TEXTALIGN_RIGHT → alignedStartX params W = params.startX - W) := by
  refine ⟨?_, ?_, ?_⟩ <;> intro h <;> simp [alignedStartX, h]

theorem IterateText_empty (pFont : GLTextureFont) (bytes : List Byte) (text : Nat)
    (params : TextParams) (h : bytes[text]? = some 0) :
    IterateText pFont bytes text params = ([], .ok ()) ∧
      CountLines pFont.toFont bytes text params = .ok 0 := by
  have hse : AtStringEnding bytes text = .ok true := by
    rw [AtStringEnding_of_next (NextUTF8Char_zero h)]; rfl
  constructor
  · simp only [IterateText, IterateTextLoop, hse, bind, Except.bind, pure, Except.pure, if_true]
  · simp only [CountLines, CountLinesLoop, hse, bind, Except.bind, pure, Except.pure, if_true]

/-! ## Lemmas on the number and path parser -/

theorem digit_facts : ∀ c : Byte, isdigit c = true →
    c.val ≠ 0 ∧ (tolower c).val ≠ 101 ∧ c.val ≠ 46 ∧ c.val ≠ 45 := by decide

theorem endsNumber_facts : ∀ c : Byte, endsNumber c = true →
    isdigit c = false ∧ (tolower c).val ≠ 101 ∧ c.val ≠ 46 ∧ c.val ≠ 45 := by decide

theorem digitsValue_foldl (ds : List Byte) :
    ∀ acc : Nat, ds.foldl (fun acc c => acc * 10 + (c.val - 48)) acc
      = acc * 10 ^ ds.length + digitsValue ds := by
  induction ds with
  | nil => intro acc; simp [digitsValue]
  | cons c ds ih =>
    intro acc
    simp only [digitsValue, List.foldl_cons, List.length_cons]
    rw [ih (acc * 10 + (c.val - 48)), ih (0 * 10 + (c.val - 48))]
    ring

theorem digitsValue_cons (c : Byte) (ds : List Byte) :
    digitsValue (c :: ds) = (c.val - 48) * 10 ^ ds.length + digitsValue ds := by
  have := digitsValue_foldl ds (0 * 10 + (c.val - 48))
  simpa [digitsValue] using this

theorem ParseDoubleLoop_intDigits :
    ∀ (ip tl : List Byte) (p : Nat) (acc : Nat) (ndigit : Int),
      (∀ c ∈ ip, isdigit c = true) →
      ParseDoubleLoop (ip ++ tl) p (acc : ℚ) 10 ndigit
        = ParseDoubleLoop tl (p + ip.length)
            ((acc * 10 ^ ip.length + digitsValue ip : Nat) : ℚ) 10 (ndigit + ip.length) := by
  intro ip
  induction ip with
  | nil => intro tl p acc nd _; simp [digitsValue]
  | cons c ip ih =>
    intro tl p acc nd hd
    have hc := hd c (List.mem_cons_self _ _)
    obtain ⟨h0, _, _, _⟩ := digit_facts c hc
    have h10 : (10 : ℚ) > 1 := by norm_num
    simp only [List.cons_append, ParseDoubleLoop, h0, if_false, hc, if_true, h10, List.append_eq]
    have hacc : (acc : ℚ) * 10 + ((c.val - 48 : Nat) : ℚ) = ((acc * 10 + (c.val - 48) : Nat) : ℚ) := by
      push_cast; ring
    rw [hacc, ih tl (p + 1) (acc * 10 + (c.val - 48)) (nd + 1)
      (fun x hx => hd x (List.mem_cons_of_mem _ hx))]
    rw [digitsValue_cons]
    simp only [List.length_cons]
    congr 1
    · omega
    · congr 1
      ring
    · push_cast; ring

theorem ParseDoubleLoop_fracDigits :
    ∀ (fp tl : List Byte) (p : Nat) (out d : ℚ) (ndigit : Int),
      (∀ c ∈ fp, isdigit c = true) → d ≤ 1 → 0 < d →
      ParseDoubleLoop (fp ++ tl) p out d ndigit
        = ParseDoubleLoop tl (p + fp.length)
            (out + d * 10 * (digitsValue fp : ℚ) / 10 ^ fp.length) (d / 10 ^ fp.length)
            (ndigit + fp.length) := by
  intro fp
  induction fp with
  | nil => intro tl p out d nd _ _ _; simp [digitsValue]
  | cons c fp ih =>
    intro tl p out d nd hd hle hpos
    have hc := hd c (List.mem_cons_self _ _)
    obtain ⟨h0, _, _, _⟩ := digit_facts c hc
    have hnot : ¬ d > 1 := not_lt.mpr hle
    simp only [List.cons_append, ParseDoubleLoop, h0, if_false, hc, if_true, hnot, List.append_eq]
    rw [ih tl (p + 1) _ _ (nd + 1) (fun x hx => hd x (List.mem_cons_of_mem _ hx))
      (by linarith) (by positivity)]
    rw [digitsValue_cons]
    simp only [List.length_cons]
    have hpow : (10 : ℚ) ^ fp.length ≠ 0 := by positivity
    have e1 : p + 1 + fp.length = p + (fp.length + 1) := by omega
    have e2 : out + d * ((c.val - 48 : Nat) : ℚ)
          + d * (1 / 10) * 10 * (digitsValue fp : ℚ) / 10 ^ fp.length
        = out + d * 10 * (((c.val - 48) * 10 ^ fp.length + digitsValue fp : Nat) : ℚ)
          / 10 ^ (fp.length + 1) := by
      push_cast
      rw [pow_succ]
      field_simp
      ring
    have e3 : d * (1 / 10) / 10 ^ fp.length = d / 10 ^ (fp.length + 1) := by
      rw [pow_succ]
      field_simp
      left
      ring
    have e4 : nd + 1 + (fp.length : Int) = nd + ((fp.length + 1 : Nat) : Int) := by
      push_cast; ring
    rw [e1, e2, e3, e4]

theorem ParseDoubleLoop_end (t : Byte) (rest : List Byte) (p : Nat) (out d : ℚ) (ndigit : Int)
    (ht : endsNumber t = true) (hn : ndigit > 0) :
    ParseDoubleLoop (t :: rest) p out d ndigit = .ok (out, some p) := by
  obtain ⟨h1, h2, h3, h4⟩ := endsNumber_facts t ht
  by_cases h0 : t.val = 0
  · simp [ParseDoubleLoop, h0]
  · simp [ParseDoubleLoop, h0, h1, h2, h3, h4, hn]

theorem ParseDoubleLoop_unsigned (ip : List Byte) (fp : Option (List Byte)) (t : Byte)
    (rest : List Byte) (p : Nat)
    (hip : ∀ c ∈ ip, isdigit c = true) (hne : ip ≠ [])
    (hfp : ∀ ds, fp = some ds → ∀ c ∈ ds, isdigit c = true)
    (ht : endsNumber t = true) :
    ParseDoubleLoop (literalChars false ip fp ++ t :: rest) p 0 10 0
      = .ok (literalValue false ip fp, some (p + (literalChars false ip fp).length)) := by
  have hlen : 0 < ip.length := List.length_pos.mpr hne
  have h0 : ((0 : Nat) : ℚ) = 0 := by norm_num
  cases fp with
  | none =>
    simp only [literalChars, fractionChars, literalValue, Bool.false_eq_true, if_false,
      List.nil_append, List.append_nil, add_zero]
    rw [← h0, ParseDoubleLoop_intDigits ip (t :: rest) p 0 0 hip,
      ParseDoubleLoop_end t rest _ _ _ _ ht (by omega)]
    simp
  | some ds =>
    have hds := hfp ds rfl
    simp only [literalChars, fractionChars, literalValue, Bool.false_eq_true, if_false,
      List.nil_append, List.append_assoc, List.cons_append]
    rw [← h0, ParseDoubleLoop_intDigits ip (46 :: (ds ++ t :: rest)) p 0 0 hip]
    have hdot : ParseDoubleLoop (46 :: (ds ++ t :: rest)) (p + ip.length)
        ((0 * 10 ^ ip.length + digitsValue ip : Nat) : ℚ) 10 (0 + (ip.length : Int))
        = ParseDoubleLoop (ds ++ t :: rest) (p + ip.length + 1)
          ((0 * 10 ^ ip.length + digitsValue ip : Nat) : ℚ) (1 / 10) (0 + (ip.length : Int)) := by
      have d1 : ((46 : Byte).val = 0) = False := by decide
      have d2 : isdigit (46 : Byte) = false := by decide
      have d3 : ((tolower (46 : Byte)).val = 101) = False := by decide
      have d4 : ((46 : Byte).val = 46) = True := by decide
      simp only [ParseDoubleLoop, d1, d2, d3, d4, if_false, if_true, Bool.false_eq_true,
        List.append_eq]
    rw [hdot, ParseDoubleLoop_fracDigits ds (t :: rest) _ _ _ _ hds (by norm_num) (by norm_num),
      ParseDoubleLoop_end t rest _ _ _ _ ht (by omega)]
    simp only [Except.ok.injEq, Prod.mk.injEq, Option.some.injEq, List.length_append,
      List.length_cons]
    constructor
    · push_cast
      field_simp
    · omega

/-- `ParseDouble` on a decimal literal that stands anywhere in the buffer, before a character
that ends a number. -/
theorem ParseDouble_literalChars (pre rest : List Byte) (neg : Bool) (ip : List Byte)
    (fp : Option (List Byte)) (t : Byte)
    (hip : ∀ c ∈ ip, isdigit c = true) (hne : ip ≠ [])
    (hfp : ∀ ds, fp = some ds → ∀ c ∈ ds, isdigit c = true)
    (ht : endsNumber t = true) :
    ParseDouble (pre ++ literalChars neg ip fp ++ t :: rest) pre.length
      = .ok (literalValue neg ip fp, some (pre.length + (literalChars neg ip fp).length)) := by
  unfold ParseDouble
  rw [List.append_assoc, List.drop_left]
  cases neg with
  | false => exact ParseDoubleLoop_unsigned ip fp t rest _ hip hne hfp ht
  | true =>
    have hbody := ParseDoubleLoop_unsigned ip fp t rest (pre.length + 1) hip hne hfp ht
    have hchars : literalChars true ip fp = 45 :: literalChars false ip fp := by
      simp [literalChars]
    have hval : literalValue true ip fp = - literalValue false ip fp := by
      simp [literalValue]
    rw [hchars, hval]
    have d1 : ((45 : Byte).val = 0) = False := by decide
    have d2 : isdigit (45 : Byte) = false := by decide
    have d3 : ((tolower (45 : Byte)).val = 101) = False := by decide
    have d4 : ((45 : Byte).val = 46) = False := by decide
    have d5 : ((45 : Byte).val = 45) = True := by decide
    simp only [List.cons_append, ParseDoubleLoop, d1, d2, d3, d4, d5, if_false, if_true,
      Bool.false_eq_true, List.append_eq]
    rw [hbody]
    simp only [List.length_cons, Except.ok.injEq, Prod.mk.injEq, Option.some.injEq, true_and]
    omega

theorem DecimalLiteral.wellFormed_iff (L : DecimalLiteral) (h : L.wellFormed = true) :
    (∀ c ∈ L.ip, isdigit c = true) ∧ L.ip ≠ [] ∧
      ∀ ds, L.fp = some ds → ∀ c ∈ ds, isdigit c = true := by
  unfold DecimalLiteral.wellFormed at h
  simp only [Bool.and_eq_true, List.all_eq_true, Bool.not_eq_true', List.isEmpty_eq_false] at h
  refine ⟨h.1.1, ?_, ?_⟩
  · intro hnil
    have := h.1.2
    rw [hnil] at this
    simp at this
  · intro ds hds c hc
    have h2 := h.2
    rw [hds] at h2
    simp only [List.all_eq_true] at h2
    exact h2 c hc

theorem ParseDouble_at (bytes : List Byte) (q : Nat) (L : DecimalLiteral) (t : Byte)
    (tl : List Byte) (hdrop : bytes.drop q = L.chars ++ t :: tl) (hL : L.wellFormed = true)
    (ht : endsNumber t = true) :
    ParseDouble bytes q = .ok (L.value, some (q + L.chars.length)) := by
  obtain ⟨hip, hne, hfp⟩ := L.wellFormed_iff hL
  have h := ParseDouble_literalChars (bytes.take q) tl L.neg L.ip L.fp t hip hne hfp ht
  have hq : q ≤ bytes.length := by
    by_contra hcon
    have : bytes.drop q = [] := List.drop_eq_nil_of_le (by omega)
    rw [this] at hdrop
    simp at hdrop
  have hbytes : bytes.take q ++ literalChars L.neg L.ip L.fp ++ t :: tl = bytes := by
    rw [List.append_assoc]
    have := List.take_append_drop q bytes
    rw [hdrop] at this
    exact this
  rw [hbytes, List.length_take, Nat.min_eq_left hq] at h
  exact h

theorem literal_head (L : DecimalLiteral) (hL : L.wellFormed = true) :
    ∃ c tl, L.chars = c :: tl ∧ (isdigit c = true ∨ c.val = 45) := by
  obtain ⟨hip, hne, _⟩ := L.wellFormed_iff hL
  obtain ⟨c0, ip', hip'⟩ := List.exists_cons_of_ne_nil hne
  have hc0 : isdigit c0 = true := hip c0 (by rw [hip']; exact List.mem_cons_self _ _)
  unfold DecimalLiteral.chars literalChars
  cases L.neg with
  | true => exact ⟨45, L.ip ++ fractionChars L.fp, by simp, Or.inr rfl⟩
  | false => exact ⟨c0, ip' ++ fractionChars L.fp, by simp [hip'], Or.inl hc0⟩

theorem head_facts : ∀ c : Byte, (isdigit c = true ∨ c.val = 45) →
    c.val ≠ 0 ∧ isSeparator c = false ∧ isspace c = false := by decide

theorem separator_facts : ∀ c : Byte, isSeparator c = true →
    c.val ≠ 0 ∧ endsNumber c = true ∧ isdigit c = false ∧ c.val ≠ 45 := by decide

theorem space_facts : ∀ c : Byte, isspace c = true →
    c.val ≠ 0 ∧ endsNumber c = true ∧ isSeparator c = true := by decide

theorem drop_append_length {α : Type} {l a b : List α} {q : Nat} (h : l.drop q = a ++ b) :
    l.drop (q + a.length) = b := by
  rw [← List.drop_drop, h, List.drop_left]

theorem getElem?_of_drop {α : Type} {l : List α} {q : Nat} {c : α} {tl : List α}
    (h : l.drop q = c :: tl) : l[q]? = some c :=
  (drop_eq_cons h).1

theorem skipSeparators_spec :
    ∀ (sep : List Byte) (c : Byte) (tl : List Byte) (p : Nat),
      sep.all isSeparator = true → isSeparator c = false →
      skipSeparators (sep ++ c :: tl) p = .ok (p + sep.length) := by
  intro sep
  induction sep with
  | nil =>
    intro c tl p _ hc
    have hc' : (isspace c || c.val == 44) = false := hc
    simp [skipSeparators, hc']
  | cons s sep ih =>
    intro c tl p hsep hc
    simp only [List.all_cons, Bool.and_eq_true] at hsep
    have hs : (isspace s || s.val == 44) = true := hsep.1
    simp only [List.cons_append, skipSeparators, hs, if_true, List.length_cons, List.append_eq]
    rw [ih c tl (p + 1) hsep.2 hc]
    congr 1
    omega

theorem skipSpace_spec :
    ∀ (ws : List Byte) (c : Byte) (tl : List Byte) (p : Nat),
      ws.all isspace = true → isspace c = false →
      skipSpace (ws ++ c :: tl) p = .ok (p + ws.length) := by
  intro ws
  induction ws with
  | nil => intro c tl p _ hc; simp [skipSpace, hc]
  | cons s ws ih =>
    intro c tl p hws hc
    simp only [List.all_cons, Bool.and_eq_true] at hws
    simp only [List.cons_append, skipSpace, hws.1, if_true, List.length_cons, List.append_eq]
    rw [ih c tl (p + 1) hws.2 hc]
    congr 1
    omega

theorem SVGParsePathDoublesSkip_spec :
    ∀ (sep : List Byte) (c : Byte) (tl : List Byte) (p : Nat),
      sep.all isSeparator = true → isSeparator c = false → c.val ≠ 0 →
      SVGParsePathDoublesSkip (sep ++ c :: tl) p = .ok (some (p + sep.length)) := by
  intro sep
  induction sep with
  | nil =>
    intro c tl p _ hc _
    have hc' : (isspace c || c.val == 44) = false := hc
    simp [SVGParsePathDoublesSkip, hc']
  | cons s sep ih =>
    intro c tl p hsep hc hc0
    simp only [List.all_cons, Bool.and_eq_true] at hsep
    have hs : (isspace s || s.val == 44) = true := hsep.1
    have hrec := ih c tl (p + 1) hsep.2 hc hc0
    have hnext : ∃ c' tl', sep ++ c :: tl = c' :: tl' ∧ c'.val ≠ 0 := by
      cases sep with
      | nil => exact ⟨c, tl, rfl, hc0⟩
      | cons s2 sep2 =>
        simp only [List.all_cons, Bool.and_eq_true] at hsep
        exact ⟨s2, sep2 ++ c :: tl, rfl, (separator_facts s2 hsep.2.1).1⟩
    obtain ⟨c', tl', hnext, hc'0⟩ := hnext
    rw [List.cons_append]
    rw [hnext] at hrec ⊢
    rw [SVGParsePathDoublesSkip]
    simp only [hs, if_true, hc'0, if_false]
    rw [hrec]
    simp only [List.length_cons]
    congr 2
    omega

theorem SVGParsePathDoubles_step (bytes : List Byte) (n q : Nat) (sep : List Byte)
    (L : DecimalLiteral) (t : Byte) (tl : List Byte) (vs : List ℚ) (e : Nat)
    (hdrop : bytes.drop q = sep ++ (L.chars ++ t :: tl))
    (hsep : sep.all isSeparator = true) (hL : L.wellFormed = true) (ht : endsNumber t = true)
    (hrest : SVGParsePathDoubles bytes n (q + sep.length + L.chars.length) = .ok (some (vs, e))) :
    SVGParsePathDoubles bytes (n + 1) q = .ok (some (L.value :: vs, e)) := by
  obtain ⟨c, ltl, hchars, hc⟩ := literal_head L hL
  obtain ⟨hc0, hcsep, _⟩ := head_facts c hc
  have hfirst : ∃ b btl, bytes.drop q = b :: btl ∧ b.val ≠ 0 := by
    cases sep with
    | nil => exact ⟨c, ltl ++ t :: tl, by rw [hdrop, hchars]; rfl, hc0⟩
    | cons s sep' =>
      simp only [List.all_cons, Bool.and_eq_true] at hsep
      exact ⟨s, _, by rw [hdrop]; rfl, (separator_facts s hsep.1).1⟩
  obtain ⟨b, btl, hb, hb0⟩ := hfirst
  have hskip : SVGParsePathDoublesSkip (bytes.drop q) q = .ok (some (q + sep.length)) := by
    rw [hdrop, hchars, List.cons_append]
    exact SVGParsePathDoublesSkip_spec sep c _ q hsep hcsep hc0
  have hparse := ParseDouble_at bytes (q + sep.length) L t tl (drop_append_length hdrop) hL ht
  simp only [SVGParsePathDoubles, getElem?_of_drop hb, hb0, if_false, hskip, hparse, hrest]

theorem digit_not_separator : ∀ c : Byte, isdigit c = true → isSeparator c = false := by
  decide

theorem nonempty_separators (s : List Byte) (hs : s.all isSeparator = true) (hne : s ≠ []) :
    ∃ a tl, s = a :: tl ∧ endsNumber a = true := by
  obtain ⟨a, tl, rfl⟩ := List.exists_cons_of_ne_nil hne
  simp only [List.all_cons, Bool.and_eq_true] at hs
  exact ⟨a, tl, rfl, (separator_facts a hs.1).2.1⟩

theorem ParseSVGPathArc_complete (bytes : List Byte) (upper : Bool) (d : Nat)
    (el : GlyphPathElement) (rx ry rot : DecimalLiteral) (f1 f2 : Byte) (x y : DecimalLiteral)
    (s1 s2 s3 s4 s5 s6 ws : List Byte) (t : Byte) (rest : List Byte)
    (hdrop : bytes.drop d
      = arcGroupChars rx ry rot f1 f2 x y s1 s2 s3 s4 s5 s6 ws ++ t :: rest)
    (hrx : rx.wellFormed = true) (hry : ry.wellFormed = true) (hrot : rot.wellFormed = true)
    (hx : x.wellFormed = true) (hy : y.wellFormed = true)
    (hf1 : isdigit f1 = true) (hf2 : isdigit f2 = true)
    (hs1 : s1.all isSeparator = true) (hs1n : s1 ≠ [])
    (hs2 : s2.all isSeparator = true) (hs2n : s2 ≠ [])
    (hs3 : s3.all isSeparator = true) (hs3n : s3 ≠ [])
    (hs4 : s4.all isSeparator = true) (hs5 : s5.all isSeparator = true)
    (hs6 : s6.all isSeparator = true) (hs6n : s6 ≠ [])
    (hws : ws.all isspace = true) (ht : isspace t = false)
    (hend : ws ≠ [] ∨ endsNumber t = true) :
    ParseSVGPathArc bytes upper d el
      = .ok (d + (arcGroupChars rx ry rot f1 f2 x y s1 s2 s3 s4 s5 s6 ws).length,
          arcElement upper el rx ry rot f1 f2 x y) := by
  obtain ⟨a1, s1', rfl, ha1⟩ := nonempty_separators s1 hs1 hs1n
  obtain ⟨a2, s2', rfl, ha2⟩ := nonempty_separators s2 hs2 hs2n
  obtain ⟨a3, s3', rfl, ha3⟩ := nonempty_separators s3 hs3 hs3n
  obtain ⟨a6, s6', rfl, ha6⟩ := nonempty_separators s6 hs6 hs6n
  obtain ⟨cx, xtl, hxchars, hcx⟩ := literal_head x hx
  -- positions
  unfold arcGroupChars at hdrop
  simp only [List.append_assoc, List.cons_append] at hdrop
  -- the first three numbers
  have d0 : bytes.drop d = [] ++ (rx.chars ++ a1 :: (s1' ++ (ry.chars ++ (a2 :: (s2' ++
      (rot.chars ++ (a3 :: (s3' ++ (f1 :: (s4 ++ (f2 :: (s5 ++ (x.chars ++ (a6 :: (s6' ++
      (y.chars ++ (ws ++ t :: rest))))))))))))))))) := by
    rw [hdrop]; rfl
  have d1 := drop_append_length (drop_append_length d0)
  have d1' : bytes.drop (d + ([] : List Byte).length + rx.chars.length)
      = (a1 :: s1') ++ (ry.chars ++ a2 :: (s2' ++
      (rot.chars ++ (a3 :: (s3' ++ (f1 :: (s4 ++ (f2 :: (s5 ++ (x.chars ++ (a6 :: (s6' ++
      (y.chars ++ (ws ++ t :: rest)))))))))))))) := by
    rw [d1]; rfl
  have d2 := drop_append_length (drop_append_length d1')
  have d2' : bytes.drop (d + ([] : List Byte).length + rx.chars.length + (a1 :: s1').length
        + ry.chars.length)
      = (a2 :: s2') ++ (rot.chars ++ a3 :: (s3' ++ (f1 :: (s4 ++ (f2 :: (s5 ++ (x.chars ++
        (a6 :: (s6' ++ (y.chars ++ (ws ++ t :: rest))))))))))) := by
    rw [d2]; rfl
  have d3 := drop_append_length (drop_append_length d2')
  have n3 := SVGParsePathDoubles_step bytes 0 _ (a2 :: s2') rot a3 _ [] _ d2' hs2 hrot ha3 rfl
  have n2 := SVGParsePathDoubles_step bytes 1 _ (a1 :: s1') ry a2 _ _ _ d1' hs1 hry ha2 n3
  have n1 := SVGParsePathDoubles_step bytes 2 _ [] rx a1 _ _ _ d0 (by rfl) hrx ha1 n2
  -- the flags
  have d3' : bytes.drop (d + ([] : List Byte).length + rx.chars.length + (a1 :: s1').length
        + ry.chars.length + (a2 :: s2').length + rot.chars.length)
      = (a3 :: s3') ++ (f1 :: (s4 ++ (f2 :: (s5 ++ (x.chars ++
        (a6 :: (s6' ++ (y.chars ++ (ws ++ t :: rest))))))))) := by
    rw [d3]; rfl
  have k1 := skipSeparators_spec (a3 :: s3') f1 (s4 ++ (f2 :: (s5 ++ (x.chars ++
        (a6 :: (s6' ++ (y.chars ++ (ws ++ t :: rest)))))))) (d + ([] : List Byte).length
    + rx.chars.length + (a1 :: s1').length + ry.chars.length + (a2 :: s2').length
    + rot.chars.length) hs3 (digit_not_separator f1 hf1)
  rw [← d3'] at k1
  have d4 := drop_append_length d3'
  have r1 : readChar bytes (d + ([] : List Byte).length + rx.chars.length + (a1 :: s1').length
      + ry.chars.length + (a2 :: s2').length + rot.chars.length + (a3 :: s3').length)
      = .ok f1 := by
    simp only [readChar, getElem?_of_drop d4]
  have d5 := (drop_eq_cons d4).2
  have k2 := skipSeparators_spec s4 f2 (s5 ++ (x.chars ++
        (a6 :: (s6' ++ (y.chars ++ (ws ++ t :: rest)))))) (d + ([] : List Byte).length
    + rx.chars.length + (a1 :: s1').length + ry.chars.length + (a2 :: s2').length
    + rot.chars.length + (a3 :: s3').length + 1) hs4 (digit_not_separator f2 hf2)
  rw [← d5] at k2
  have d6 := drop_append_length d5
  have r2 : readChar bytes (d + ([] : List Byte).length + rx.chars.length + (a1 :: s1').length
      + ry.chars.length + (a2 :: s2').length + rot.chars.length + (a3 :: s3').length + 1
      + s4.length) = .ok f2 := by
    simp only [readChar, getElem?_of_drop d6]
  have d7 := (drop_eq_cons d6).2
  have d7' : bytes.drop (d + ([] : List Byte).length + rx.chars.length + (a1 :: s1').length
      + ry.chars.length + (a2 :: s2').length + rot.chars.length + (a3 :: s3').length + 1
      + s4.length + 1) = s5 ++ cx :: (xtl ++ (a6 :: (s6' ++ (y.chars ++ (ws ++ t :: rest))))) := by
    rw [d7, hxchars]; rfl
  have k3 := skipSeparators_spec s5 cx (xtl ++ (a6 :: (s6' ++ (y.chars ++ (ws ++ t :: rest))))) (d + ([] : List Byte).length
    + rx.chars.length + (a1 :: s1').length + ry.chars.length + (a2 :: s2').length
    + rot.chars.length + (a3 :: s3').length + 1 + s4.length + 1) hs5 (head_facts cx hcx).2.1
  rw [← d7'] at k3
  -- the last two numbers
  have d8 := drop_append_length d7
  have d8' : bytes.drop (d + ([] : List Byte).length + rx.chars.length + (a1 :: s1').length
      + ry.chars.length + (a2 :: s2').length + rot.chars.length + (a3 :: s3').length + 1
      + s4.length + 1 + s5.length) = [] ++ (x.chars ++ a6 :: (s6' ++ (y.chars ++ (ws ++ t :: rest)))) := by
    rw [d8]; rfl
  have d9 := drop_append_length (drop_append_length d8')
  obtain ⟨ty, tyl, hty, htyend, htyspace⟩ : ∃ ty tyl, ws ++ t :: rest = ty :: tyl ∧
      endsNumber ty = true ∧ True := by
    cases ws with
    | nil =>
      rcases hend with h | h
      · exact absurd rfl h
      · exact ⟨t, rest, rfl, h, trivial⟩
    | cons w ws' =>
      simp only [List.all_cons, Bool.and_eq_true] at hws
      exact ⟨w, ws' ++ t :: rest, rfl, (space_facts w hws.1).2.1, trivial⟩
  have d9' : bytes.drop (d + ([] : List Byte).length + rx.chars.length + (a1 :: s1').length
      + ry.chars.length + (a2 :: s2').length + rot.chars.length + (a3 :: s3').length + 1
      + s4.length + 1 + s5.length + ([] : List Byte).length + x.chars.length)
      = (a6 :: s6') ++ (y.chars ++ ty :: tyl) := by
    rw [d9, hty]; rfl
  have d10 := drop_append_length (drop_append_length d9')
  have m2 := SVGParsePathDoubles_step bytes 0 _ (a6 :: s6') y ty _ [] _ d9' hs6 hy htyend rfl
  have m1 := SVGParsePathDoubles_step bytes 1 _ [] x a6 _ _ _ d8' (by rfl) hx ha6 m2
  rw [← hty] at d10
  have k4 := skipSpace_spec ws t rest (d + ([] : List Byte).length + rx.chars.length
      + (a1 :: s1').length + ry.chars.length + (a2 :: s2').length + rot.chars.length
      + (a3 :: s3').length + 1 + s4.length + 1 + s5.length + ([] : List Byte).length
      + x.chars.length + (a6 :: s6').length + y.chars.length) hws ht
  rw [← d10] at k4
  simp only [ParseSVGPathArc, bind, Except.bind, n1, k1, r1, hf1, k2, r2, hf2, k3, m1, k4,
    Bool.not_true, Bool.false_eq_true, if_false, pure, Except.pure, List.getD_cons_zero,
    List.getD_cons_succ]
  simp only [arcElement, arcGroupChars, setEndPoint, List.length_append, List.length_cons,
    List.length_nil, Except.ok.injEq, Prod.mk.injEq]
  constructor
  · omega
  · cases upper <;> rfl

theorem digit_or_minus : ∀ c : Byte, (isdigit c = true ∨ c.val = 45) →
    (isdigit c || c.val == 45) = true := by decide

theorem atoiDigits_digits :
    ∀ (ds : List Byte) (t : Byte) (rest : List Byte) (acc : Nat),
      (∀ c ∈ ds, isdigit c = true) → isdigit t = false →
      atoiDigits (ds ++ t :: rest) acc = .ok (acc * 10 ^ ds.length + digitsValue ds) := by
  intro ds
  induction ds with
  | nil =>
    intro t rest acc _ ht
    simp [atoiDigits, ht, digitsValue]
  | cons c ds ih =>
    intro t rest acc hds ht
    have hc := hds c (List.mem_cons_self _ _)
    simp only [List.cons_append, atoiDigits, hc, if_true, List.append_eq]
    rw [ih t rest _ (fun x hx => hds x (List.mem_cons_of_mem _ hx)) ht, digitsValue_cons]
    simp only [List.length_cons]
    congr 1
    ring

theorem ParseDoubleSkipDigits_digits :
    ∀ (ds : List Byte) (t : Byte) (rest : List Byte) (p : Nat),
      (∀ c ∈ ds, isdigit c = true) → isdigit t = false →
      ParseDoubleSkipDigits (ds ++ t :: rest) p = .ok (p + ds.length) := by
  intro ds
  induction ds with
  | nil =>
    intro t rest p _ ht
    simp [ParseDoubleSkipDigits, ht]
  | cons c ds ih =>
    intro t rest p hds ht
    have hc := hds c (List.mem_cons_self _ _)
    simp only [List.cons_append, ParseDoubleSkipDigits, hc, if_true, List.append_eq]
    rw [ih t rest _ (fun x hx => hds x (List.mem_cons_of_mem _ hx)) ht]
    simp only [List.length_cons]
    congr 1
    omega

theorem digit_not_sign : ∀ c : Byte, isdigit c = true →
    isspace c = false ∧ c.val ≠ 45 ∧ c.val ≠ 43 := by decide

theorem marker_facts : ∀ c : Byte, (c.val = 101 ∨ c.val = 69) →
    c.val ≠ 0 ∧ isdigit c = false ∧ (tolower c).val = 101 := by decide

theorem ParseDoubleExponent_digits (sign ds : List Byte) (t : Byte) (rest : List Byte)
    (p : Nat) (out : ℚ)
    (hsign : sign = [] ∨ sign = [43] ∨ sign = [45])
    (hds : ∀ c ∈ ds, isdigit c = true) (hne : ds ≠ []) (ht : isdigit t = false) :
    ParseDoubleExponent (sign ++ ds ++ t :: rest) p out
      = .ok (out * (10 : ℚ) ^ exponentValue sign ds, some (p + sign.length + ds.length)) := by
  obtain ⟨c, ds', rfl⟩ := List.exists_cons_of_ne_nil hne
  have hc := hds c (List.mem_cons_self _ _)
  obtain ⟨hc1, hc2, hc3⟩ := digit_not_sign c hc
  have hatoi := atoiDigits_digits (c :: ds') t rest 0 hds ht
  have hskip := fun q => ParseDoubleSkipDigits_digits (c :: ds') t rest q hds ht
  simp only [List.cons_append] at hatoi hskip
  have e43 : ((43 : Byte).val = 43) = True := by decide
  have e45 : ((45 : Byte).val = 43) = False := by decide
  have e45' : ((45 : Byte).val = 45) = True := by decide
  have s45 : isspace (45 : Byte) = false := by decide
  rcases hsign with rfl | rfl | rfl
  · simp only [List.nil_append, List.cons_append, ParseDoubleExponent, hc3, if_false, atoi,
      hc1, hc2, Bool.false_eq_true, hatoi, Except.map, hskip, exponentValue, List.length_nil,
      List.length_cons, reduceCtorEq, zero_mul, zero_add, Nat.add_zero]
    simp
  · simp only [List.nil_append, List.cons_append, ParseDoubleExponent, e43, if_true, atoi,
      hc1, hc2, hc3, if_false, Bool.false_eq_true, hatoi, Except.map, hskip, exponentValue,
      List.length_nil, List.length_cons, zero_mul, zero_add, List.singleton_append]
    simp
  · simp only [List.nil_append, List.cons_append, ParseDoubleExponent, e45, e45', if_true, atoi,
      if_false, s45, Bool.false_eq_true, hatoi, Except.map, hskip, exponentValue,
      List.length_nil, List.length_cons, zero_mul, zero_add, List.singleton_append]
    simp

/-! ## Lemmas on measuring and emitting -/

/-- What `isWordChar` gives for the tests of the loops. -/
theorem isWordChar_facts {c : UTF8Char} (h : isWordChar c = true) :
    (c == 0) = false ∧ (c == 10) = false ∧ IsSpace c = false ∧ (c != 0) = true := by
  simp only [isWordChar, Bool.and_eq_true, bne_iff_ne, ne_eq] at h
  obtain ⟨⟨⟨h0, h10⟩, h32⟩, h9⟩ := h
  simp [IsSpace, h0, h10, h32, h9]

/-- The advance of the metrics that `GetGlyphMetrics` returns. -/
theorem advanceOf_eq {pFont : Font} {c : UTF8Char} {m : GlyphMetrics}
    (h : pFont.GetGlyphMetrics c = .ok m) : m.advanceX = advanceOf pFont c := by
  simp [advanceOf, h]

/-- `DecodeChars` returns as many characters as asked for and moves forward. -/
theorem DecodeChars_length {bytes : List Byte} :
    ∀ {n p : Nat} {cs : List UTF8Char} {q : Nat},
      DecodeChars bytes n p = .ok (cs, q) → cs.length = n ∧ p + n ≤ q := by
  intro n
  induction n with
  | zero =>
    intro p cs q h
    simp only [DecodeChars, Except.ok.injEq, Prod.mk.injEq] at h
    obtain ⟨rfl, rfl⟩ := h
    simp
  | succ n ih =>
    intro p cs q h
    simp only [DecodeChars] at h
    cases hn : NextUTF8Char bytes p with
    | error err => simp [hn] at h
    | ok r =>
      obtain ⟨c, next⟩ := r
      simp only [hn] at h
      cases hd : DecodeChars bytes n next with
      | error err => simp [hd] at h
      | ok r2 =>
        obtain ⟨cs', q'⟩ := r2
        simp only [hd, Except.ok.injEq, Prod.mk.injEq] at h
        obtain ⟨rfl, rfl⟩ := h
        obtain ⟨h1, h2⟩ := ih hd
        have := NextUTF8Char_lt hn
        simp only [List.length_cons, h1, true_and]
        omega

/-- The first step of `DecodeChars`. -/
theorem DecodeChars_cons {bytes : List Byte} {n p : Nat} {c : UTF8Char} {cs : List UTF8Char}
    {q : Nat} (h : DecodeChars bytes (n + 1) p = .ok (c :: cs, q)) :
    ∃ next, NextUTF8Char bytes p = .ok (c, next) ∧ DecodeChars bytes n next = .ok (cs, q) := by
  simp only [DecodeChars] at h
  cases hn : NextUTF8Char bytes p with
  | error err => simp [hn] at h
  | ok r =>
    obtain ⟨c', next⟩ := r
    simp only [hn] at h
    cases hd : DecodeChars bytes n next with
    | error err => simp [hd] at h
    | ok r2 =>
      obtain ⟨cs', q'⟩ := r2
      simp only [hd, Except.ok.injEq, Prod.mk.injEq, List.cons.injEq] at h
      obtain ⟨⟨rfl, rfl⟩, rfl⟩ := h
      exact ⟨next, rfl, hd⟩

/-- With no previous character the first character adds its advance only. -/
theorem chainWidth_zero (pFont : Font) (c : UTF8Char) (cs : List UTF8Char) :
    chainWidth pFont 0 (c :: cs) = advanceOf pFont c + chainWidth pFont c cs := by
  simp [chainWidth]

/-- The width accumulated over a word is the sum of the advances and of the
kerning between neighbours. -/
theorem chainWidth_wordWidth (pFont : Font) :
    ∀ (c : UTF8Char) (cs : List UTF8Char), (∀ x ∈ c :: cs, isWordChar x = true) →
      advanceOf pFont c + chainWidth pFont c cs = wordWidth pFont (c :: cs) := by
  intro c cs
  induction cs generalizing c with
  | nil => intro _; simp [chainWidth, wordWidth]
  | cons c' cs ih =>
    intro h
    have hc := (isWordChar_facts (h c (List.mem_cons_self _ _))).2.2.2
    have ih' := ih c' (fun x hx => h x (List.mem_cons_of_mem _ hx))
    simp only [chainWidth, hc, if_true]
    simp only [wordWidth, List.map_cons, List.sum_cons, List.tail_cons, List.zip_cons_cons]
      at ih' ⊢
    linarith

/-- The second loop of `NextWordWidth` over the characters `cs` of a word that ends at `e`:
it adds the advances and the kerning, starting from `cPrev`, and stops at `e`. -/
theorem NextWordWidthWord_chain (pFont : Font) (bytes : List Byte) :
    ∀ (cs : List UTF8Char) (fuel p : Nat) (w : ℚ) (cPrev : UTF8Char) (e : Nat) (t : UTF8Char)
      (next : Nat),
      DecodeChars bytes cs.length p = .ok (cs, e) →
      (∀ c ∈ cs, isWordChar c = true) →
      (∀ c ∈ cs, ∃ m, pFont.GetGlyphMetrics c = .ok m) →
      NextUTF8Char bytes e = .ok (t, next) → isWordChar t = false →
      cs.length < fuel →
      NextWordWidthWord pFont bytes fuel p w cPrev = .ok (w + chainWidth pFont cPrev cs, e) := by
  intro cs
  induction cs with
  | nil =>
    intro fuel p w cPrev e t next hdec _ _ hend ht hfuel
    simp only [List.length_nil, DecodeChars, Except.ok.injEq, Prod.mk.injEq, true_and] at hdec
    subst hdec
    obtain ⟨fuel, rfl⟩ : ∃ k, fuel = k + 1 := ⟨fuel - 1, by simp at hfuel; omega⟩
    have hse := AtStringEnding_of_next hend
    have hle := AtLineEnding_of_next hend
    simp only [NextWordWidthWord, hend, hse, hle, bind, Except.bind, pure, Except.pure,
      chainWidth, add_zero]
    by_cases h0 : t = 0
    · simp [h0]
    · have h0' : (t == 0) = false := by simpa using h0
      simp only [h0', Bool.false_eq_true, if_false]
      have : ((t == 10) || IsSpace t) = true := by
        simp only [isWordChar, Bool.and_eq_false_iff, bne_eq_false_iff_eq] at ht
        simp only [IsSpace, Bool.or_eq_true, beq_iff_eq]
        tauto
      simp [this]
  | cons c cs ih =>
    intro fuel p w cPrev e t next hdec hword hglyph hend ht hfuel
    obtain ⟨fuel, rfl⟩ : ∃ k, fuel = k + 1 := ⟨fuel - 1, by simp at hfuel; omega⟩
    obtain ⟨n1, hn, hrest⟩ := DecodeChars_cons hdec
    obtain ⟨h0, h10, hsp, _⟩ := isWordChar_facts (hword c (List.mem_cons_self _ _))
    obtain ⟨m, hm⟩ := hglyph c (List.mem_cons_self _ _)
    have hse := AtStringEnding_of_next hn
    have hle := AtLineEnding_of_next hn
    have ih' := ih fuel n1
      ((if cPrev != 0 then w + GetKernValue pFont.GetHorizontalKernTable cPrev c else w)
        + m.advanceX) c e t next hrest
      (fun x hx => hword x (List.mem_cons_of_mem _ hx))
      (fun x hx => hglyph x (List.mem_cons_of_mem _ hx)) hend ht
      (by simp only [List.length_cons] at hfuel; omega)
    simp only [NextWordWidthWord, hn, hse, hle, bind, Except.bind, pure, Except.pure, h0, h10,
      hsp, Bool.false_eq_true, if_false, Bool.or_self, hm]
    rw [ih']
    simp only [chainWidth, advanceOf_eq hm, Except.ok.injEq, Prod.mk.injEq, and_true]
    split <;> ring

/-- The first loop of `NextWordWidth` standing at the first character of a word. -/
theorem NextWordWidthSpaces_word (pFont : Font) (bytes : List Byte) (c : UTF8Char)
    (cs : List UTF8Char) (fuel p : Nat) (w : ℚ) (cPrev : UTF8Char) (e : Nat) (t : UTF8Char)
    (next : Nat)
    (hdec : DecodeChars bytes (c :: cs).length p = .ok (c :: cs, e))
    (hword : ∀ x ∈ c :: cs, isWordChar x = true)
    (hglyph : ∀ x ∈ c :: cs, ∃ m, pFont.GetGlyphMetrics x = .ok m)
    (hend : NextUTF8Char bytes e = .ok (t, next)) (ht : isWordChar t = false)
    (hfuel : (c :: cs).length < fuel) :
    NextWordWidthSpaces pFont bytes fuel p w cPrev
      = .ok (w + chainWidth pFont cPrev (c :: cs), e) := by
  obtain ⟨fuel, rfl⟩ : ∃ k, fuel = k + 1 := ⟨fuel - 1, by simp at hfuel; omega⟩
  obtain ⟨n1, hn, _⟩ := DecodeChars_cons hdec
  obtain ⟨h0, h10, hsp, _⟩ := isWordChar_facts (hword c (List.mem_cons_self _ _))
  have hse := AtStringEnding_of_next hn
  have hle := AtLineEnding_of_next hn
  simp only [NextWordWidthSpaces, hn, hse, hle, bind, Except.bind, pure, Except.pure, h0, h10,
    hsp, Bool.false_eq_true, if_false, Bool.not_false, if_true]
  exact NextWordWidthWord_chain pFont bytes (c :: cs) (fuel + 1) p w cPrev e t next hdec hword
    hglyph hend ht hfuel

/-- `NextWordWidth` at the first character of a word: the sum of the advances and of the
kerning between neighbours, ending right after the word. -/
theorem NextWordWidth_chars (pFont : Font) (bytes : List Byte) (text e : Nat)
    (cs : List UTF8Char) (t : UTF8Char) (next : Nat)
    (hdec : DecodeChars bytes cs.length text = .ok (cs, e)) (hne : cs ≠ [])
    (hword : ∀ c ∈ cs, c ≠ 0 ∧ c ≠ 10 ∧ c ≠ 32 ∧ c ≠ 9)
    (hglyph : ∀ c ∈ cs, ∃ m, pFont.GetGlyphMetrics c = .ok m)
    (hend : NextUTF8Char bytes e = .ok (t, next))
    (ht : t = 0 ∨ t = 10 ∨ t = 32 ∨ t = 9) :
    NextWordWidth pFont bytes text = .ok (wordWidth pFont cs, e) := by
  obtain ⟨c, cs, rfl⟩ := List.exists_cons_of_ne_nil hne
  have hword' : ∀ x ∈ c :: cs, isWordChar x = true := by
    intro x hx
    obtain ⟨h1, h2, h3, h4⟩ := hword x hx
    simp [isWordChar, h1, h2, h3, h4]
  have ht' : isWordChar t = false := by
    rcases ht with h | h | h | h <;> subst h <;> decide
  have hlen := (DecodeChars_length hdec).2
  have hb := NextUTF8Char_inBounds hend
  have h := NextWordWidthSpaces_word pFont bytes c cs (bytes.length + 1) text 0 0 e t next hdec
    hword' hglyph hend ht' (by omega)
  unfold NextWordWidth
  rw [h, chainWidth_zero, chainWidth_wordWidth pFont c cs hword', zero_add]

/-- When the loop of `NextLineWidth` ends at a position that is neither the end of the text
nor a line ending, the word measured from there does not fit any more. -/
theorem NextLineWidthLoop_width_break (pFont : Font) (bytes : List Byte) (maxLineWidth : ℚ) :
    ∀ (fuel p : Nat) (lineWidth W : ℚ) (e q : Nat),
      NextLineWidthLoop pFont bytes maxLineWidth fuel p lineWidth = .ok (W, e) →
      AtStringEnding bytes e = .ok false → AtLineEnding bytes e = .ok (false, q) →
      ∃ w next, NextWordWidth pFont bytes e = .ok (w, next) ∧ ¬ w > maxLineWidth ∧
        W + w > maxLineWidth := by
  intro fuel
  induction fuel with
  | zero => intro p lw W e q h; simp [NextLineWidthLoop] at h
  | succ fuel ih =>
    intro p lw W e q h hse hle
    simp only [NextLineWidthLoop] at h
    cases hword : NextWordWidth pFont bytes p with
    | error err => simp [hword, bind, Except.bind] at h
    | ok r =>
      obtain ⟨wordWidth, pWordEnd⟩ := r
      simp only [hword, bind, Except.bind] at h
      by_cases h1 : wordWidth > maxLineWidth
      · simp [h1, throw, throwThe, MonadExceptOf.throw] at h
      · simp only [h1, if_false] at h
        by_cases h2 : lw + wordWidth > maxLineWidth
        · simp only [h2, if_true, pure, Except.pure, Except.ok.injEq, Prod.mk.injEq] at h
          obtain ⟨rfl, rfl⟩ := h
          exact ⟨wordWidth, pWordEnd, hword, h1, h2⟩
        · simp only [h2, if_false] at h
          cases hse' : AtStringEnding bytes pWordEnd with
          | error err => simp [hse'] at h
          | ok se =>
            simp only [hse'] at h
            cases se with
            | true =>
              simp only [if_true, pure, Except.pure, Except.ok.injEq, Prod.mk.injEq] at h
              rw [h.2, hse] at hse'
              simp at hse'
            | false =>
              simp only [Bool.false_eq_true, if_false, pure, Except.pure] at h
              cases hle' : AtLineEnding bytes pWordEnd with
              | error err => simp [hle'] at h
              | ok le =>
                obtain ⟨lineEnding, past⟩ := le
                simp only [hle'] at h
                cases lineEnding with
                | true =>
                  simp only [if_true, Except.ok.injEq, Prod.mk.injEq] at h
                  rw [h.2, hle] at hle'
                  simp at hle'
                | false =>
                  simp only [Bool.false_eq_true, if_false] at h
                  exact ih pWordEnd (lw + wordWidth) W e q h hse hle

/-- The glyph loop only appends `OnGlyph` records, all of them with the `baseY` of the line. -/
theorem IterateTextGlyphs_baseY (pFont : GLTextureFont) (bytes : List Byte) (text : Nat)
    (y : ℚ) (pLineEnd : Nat) :
    ∀ (fuel p : Nat) (x : ℚ) (cPrev : UTF8Char) (out : List Event),
      ∃ gs, (IterateTextGlyphs pFont bytes text y pLineEnd fuel p x cPrev out).1 = out ++ gs ∧
        ∀ ev ∈ gs, ∃ c quad d, ev = Event.OnGlyph c quad d ∧ d.baseY = y := by
  intro fuel
  induction fuel with
  | zero => intro p x cPrev out; exact ⟨[], by simp [IterateTextGlyphs], by simp⟩
  | succ fuel ih =>
    intro p x cPrev out
    simp only [IterateTextGlyphs]
    by_cases hlt : p < pLineEnd
    · simp only [hlt, if_true]
      split
      · exact ⟨[], by simp, by simp⟩
      · rename_i c next x' ev heq
        obtain ⟨quad, g, s, e, _, _, _, hev⟩ := glyphStep_ok heq
        obtain ⟨gs, hgs, hall⟩ := ih next x' c (out ++ [ev])
        refine ⟨ev :: gs, by rw [hgs]; simp, ?_⟩
        intro ev' hev'
        rcases List.mem_cons.mp hev' with h | h
        · rw [h, hev]; exact ⟨_, _, _, rfl, rfl⟩
        · exact hall ev' h
    · simp only [hlt, if_false]
      exact ⟨[], by simp, by simp⟩

/-- `OnGlyph` records in front do not change the list of `baseY` of the lines. -/
theorem lineBaseYs_glyphs_append (gs more : List Event) (y : ℚ)
    (h : ∀ ev ∈ gs, ∃ c quad d, ev = Event.OnGlyph c quad d ∧ d.baseY = y) :
    lineBaseYs (gs ++ more) = lineBaseYs more := by
  induction gs with
  | nil => rfl
  | cons ev gs ih =>
    obtain ⟨c, quad, d, rfl, _⟩ := h ev (List.mem_cons_self _ _)
    simp only [List.cons_append, lineBaseYs]
    exact ih (fun ev hev => h ev (List.mem_cons_of_mem _ hev))

/-- `OnGlyph` records with the `baseY` of the current line may stand in front. -/
theorem glyphsFollowLine_glyphs_append (gs more : List Event) (y : ℚ)
    (h : ∀ ev ∈ gs, ∃ c quad d, ev = Event.OnGlyph c quad d ∧ d.baseY = y)
    (hmore : ∀ current, glyphsFollowLine current more) :
    glyphsFollowLine (some y) (gs ++ more) := by
  induction gs with
  | nil => exact hmore _
  | cons ev gs ih =>
    obtain ⟨c, quad, d, rfl, hd⟩ := h ev (List.mem_cons_self _ _)
    simp only [List.cons_append, glyphsFollowLine, hd, true_and, List.append_eq]
    exact ih (fun ev hev => h ev (List.mem_cons_of_mem _ hev))

/-- The line loop started with the height `y`: the `k`-th line it adds has the `baseY`
`y - k * lineSpacing`, and the glyphs it adds follow their lines. -/
theorem IterateTextLoop_baseY (pFont : GLTextureFont) (bytes : List Byte) (text : Nat)
    (params : TextParams) :
    ∀ (fuel p : Nat) (y : ℚ) (out : List Event),
      ∃ more, (IterateTextLoop pFont bytes text params fuel p y out).1 = out ++ more ∧
        (∀ (k : Nat) (yk : ℚ), (lineBaseYs more)[k]? = some yk →
          yk = y - k * params.lineSpacing) ∧
        ∀ current, glyphsFollowLine current more := by
  intro fuel
  induction fuel with
  | zero =>
    intro p y out
    exact ⟨[], by simp [IterateTextLoop], by simp [lineBaseYs], by simp [glyphsFollowLine]⟩
  | succ fuel ih =>
    intro p y out
    have hnil : (∀ (k : Nat) (yk : ℚ), (lineBaseYs [])[k]? = some yk →
          yk = y - k * params.lineSpacing) ∧ ∀ current, glyphsFollowLine current [] :=
      ⟨by simp [lineBaseYs], by simp [glyphsFollowLine]⟩
    simp only [IterateTextLoop]
    split
    · exact ⟨[], by simp, hnil⟩
    · exact ⟨[], by simp, hnil⟩
    · rename_i x p1 e ev heq
      obtain ⟨W, s, t, _, _, _, _, _, _, hev⟩ := lineStep_ok heq
      obtain ⟨gs, hgs, hglyph⟩ := IterateTextGlyphs_baseY pFont bytes text y e
        (bytes.length + 1) p1 x 0 (out ++ [ev])
      have hstop : (∀ (k : Nat) (yk : ℚ), (lineBaseYs (ev :: gs))[k]? = some yk →
          yk = y - k * params.lineSpacing) ∧ ∀ current, glyphsFollowLine current (ev :: gs) := by
        have h1 := lineBaseYs_glyphs_append gs [] y hglyph
        have h2 := glyphsFollowLine_glyphs_append gs [] y hglyph
          (by simp [glyphsFollowLine])
        rw [List.append_nil] at h1 h2
        constructor
        · intro k yk hk
          rw [hev] at hk
          simp only [lineBaseYs, h1, SetTextSelection] at hk
          cases k with
          | zero => simp at hk; rw [← hk]; simp
          | succ k => simp at hk
        · intro current
          rw [hev]
          simpa only [glyphsFollowLine, SetTextSelection] using h2
      split
      · rename_i out1 err hg
        rw [hg] at hgs
        exact ⟨ev :: gs, by simpa using hgs, hstop⟩
      · rename_i out1 p2 hg
        rw [hg] at hgs
        simp only at hgs
        split
        · exact ⟨ev :: gs, by simpa using hgs, hstop⟩
        · exact ⟨ev :: gs, by simpa using hgs, hstop⟩
        · rename_i p3 hend
          obtain ⟨more, hmore, hm1, hm2⟩ := ih p3 (y - params.lineSpacing) out1
          refine ⟨ev :: (gs ++ more), ?_, ?_, ?_⟩
          · rw [hmore, hgs]; simp
          · intro k yk hk
            rw [hev] at hk
            simp only [lineBaseYs, lineBaseYs_glyphs_append gs more y hglyph,
              SetTextSelection] at hk
            cases k with
            | zero => simp at hk; rw [← hk]; simp
            | succ k =>
              simp only [List.getElem?_cons_succ] at hk
              rw [hm1 k yk hk]
              push_cast
              ring
          · intro current
            rw [hev]
            simp only [glyphsFollowLine, SetTextSelection]
            exact glyphsFollowLine_glyphs_append gs more y hglyph hm2

/-- One more character in front. -/
theorem DecodeChars_step {bytes : List Byte} {p n k q : Nat} {c : UTF8Char}
    {cs : List UTF8Char} (h1 : NextUTF8Char bytes p = .ok (c, n))
    (h2 : DecodeChars bytes k n = .ok (cs, q)) :
    DecodeChars bytes (k + 1) p = .ok (c :: cs, q) := by
  simp [DecodeChars, h1, h2]

/-- Decoding `a` and then `b` decodes `a ++ b`. -/
theorem DecodeChars_append {bytes : List Byte} :
    ∀ (a : List UTF8Char) {b : List UTF8Char} {p q r : Nat},
      DecodeChars bytes a.length p = .ok (a, q) → DecodeChars bytes b.length q = .ok (b, r) →
      DecodeChars bytes (a ++ b).length p = .ok (a ++ b, r) := by
  intro a
  induction a with
  | nil =>
    intro b p q r h1 h2
    simp only [List.length_nil, DecodeChars, Except.ok.injEq, Prod.mk.injEq, true_and] at h1
    subst h1
    simpa using h2
  | cons c a ih =>
    intro b p q r h1 h2
    obtain ⟨n, hn, hrest⟩ := DecodeChars_cons h1
    have := ih hrest h2
    simp only [List.cons_append, List.length_cons]
    exact DecodeChars_step hn this

/-- The empty span. -/
theorem Span_refl (bytes : List Byte) (P : UTF8Char → Prop) (p : Nat) : Span bytes P p p :=
  ⟨[], rfl, by simp⟩

/-- A span with one more character in front. -/
theorem Span_step {bytes : List Byte} {P : UTF8Char → Prop} {p n q : Nat} {c : UTF8Char}
    (h : NextUTF8Char bytes p = .ok (c, n)) (hc : P c) (hr : Span bytes P n q) :
    Span bytes P p q := by
  obtain ⟨cs, hcs, hall⟩ := hr
  refine ⟨c :: cs, DecodeChars_step h hcs, ?_⟩
  intro x hx
  rcases List.mem_cons.mp hx with rfl | hx
  · exact hc
  · exact hall x hx

/-- Spans compose. -/
theorem Span_trans {bytes : List Byte} {P : UTF8Char → Prop} {p q r : Nat}
    (h1 : Span bytes P p q) (h2 : Span bytes P q r) : Span bytes P p r := by
  obtain ⟨a, ha, hPa⟩ := h1
  obtain ⟨b, hb, hPb⟩ := h2
  refine ⟨a ++ b, DecodeChars_append a ha hb, ?_⟩
  intro x hx
  rcases List.mem_append.mp hx with h | h
  · exact hPa x h
  · exact hPb x h

/-- `SkipSpaces` moves over spaces and tabs only. -/
theorem SkipSpacesLoop_span (bytes : List Byte) :
    ∀ (fuel p q : Nat), SkipSpacesLoop bytes fuel p = .ok q →
      Span bytes (fun c => c ≠ 0 ∧ IsSpace c = true) p q := by
  intro fuel
  induction fuel with
  | zero => intro p q h; simp [SkipSpacesLoop] at h
  | succ fuel ih =>
    intro p q h
    simp only [SkipSpacesLoop] at h
    cases hn : NextUTF8Char bytes p with
    | error e => simp [hn, bind, Except.bind] at h
    | ok r =>
      obtain ⟨c, next⟩ := r
      simp only [hn, bind, Except.bind, pure, Except.pure] at h
      by_cases hc : (c == 0 || !IsSpace c) = true
      · simp only [hc, if_true, Except.ok.injEq] at h
        subst h
        exact Span_refl _ _ _
      · simp only [hc, Bool.false_eq_true, if_false] at h
        have hc' : c ≠ 0 ∧ IsSpace c = true := by
          simp only [Bool.or_eq_true, beq_iff_eq, Bool.not_eq_true', not_or,
            Bool.not_eq_false] at hc
          exact hc
        exact Span_step hn hc' (ih _ _ h)

/-- The second loop of `NextWordWidth` never moves over a terminator or a line feed. -/
theorem NextWordWidthWord_span (pFont : Font) (bytes : List Byte) :
    ∀ (fuel p : Nat) (w : ℚ) (cPrev : UTF8Char) (w' : ℚ) (e : Nat),
      NextWordWidthWord pFont bytes fuel p w cPrev = .ok (w', e) →
      Span bytes (fun c => c ≠ 0 ∧ c ≠ 10) p e := by
  intro fuel
  induction fuel with
  | zero => intro p w cPrev w' e h; simp [NextWordWidthWord] at h
  | succ fuel ih =>
    intro p w cPrev w' e h
    simp only [NextWordWidthWord] at h
    cases hn : NextUTF8Char bytes p with
    | error err => simp [hn, bind, Except.bind] at h
    | ok r =>
      obtain ⟨c, next⟩ := r
      simp only [hn, AtStringEnding_of_next hn, AtLineEnding_of_next hn, bind, Except.bind,
        pure, Except.pure] at h
      by_cases h0 : (c == 0) = true
      · simp only [h0, if_true, Except.ok.injEq, Prod.mk.injEq] at h
        rw [← h.2]; exact Span_refl _ _ _
      · simp only [h0, Bool.false_eq_true, if_false] at h
        by_cases hbr : ((c == 10) || IsSpace c) = true
        · simp only [hbr, if_true, Except.ok.injEq, Prod.mk.injEq] at h
          rw [← h.2]; exact Span_refl _ _ _
        · simp only [hbr, Bool.false_eq_true, if_false] at h
          cases hg : pFont.GetGlyphMetrics c with
          | error err => simp [hg] at h
          | ok m =>
            simp only [hg] at h
            have hc : c ≠ 0 ∧ c ≠ 10 := by
              simp only [beq_iff_eq] at h0
              simp only [Bool.or_eq_true, beq_iff_eq, not_or] at hbr
              exact ⟨h0, hbr.1⟩
            exact Span_step hn hc (ih _ _ _ _ _ h)

/-- The first loop of `NextWordWidth` never moves over a terminator or a line feed. -/
theorem NextWordWidthSpaces_span (pFont : Font) (bytes : List Byte) :
    ∀ (fuel p : Nat) (w : ℚ) (cPrev : UTF8Char) (w' : ℚ) (e : Nat),
      NextWordWidthSpaces pFont bytes fuel p w cPrev = .ok (w', e) →
      Span bytes (fun c => c ≠ 0 ∧ c ≠ 10) p e := by
  intro fuel
  induction fuel with
  | zero => intro p w cPrev w' e h; simp [NextWordWidthSpaces] at h
  | succ fuel ih =>
    intro p w cPrev w' e h
    simp only [NextWordWidthSpaces] at h
    cases hn : NextUTF8Char bytes p with
    | error err => simp [hn, bind, Except.bind] at h
    | ok r =>
      obtain ⟨c, next⟩ := r
      simp only [hn, AtStringEnding_of_next hn, AtLineEnding_of_next hn, bind, Except.bind,
        pure, Except.pure] at h
      by_cases h0 : (c == 0) = true
      · simp only [h0, if_true, Except.ok.injEq, Prod.mk.injEq] at h
        rw [← h.2]; exact Span_refl _ _ _
      · simp only [h0, Bool.false_eq_true, if_false] at h
        by_cases h10 : (c == 10) = true
        · simp only [h10, if_true, Except.ok.injEq, Prod.mk.injEq] at h
          rw [← h.2]; exact Span_refl _ _ _
        · simp only [h10, Bool.false_eq_true, if_false] at h
          cases hsp : IsSpace c with
          | false =>
            simp only [hsp, Bool.not_false, if_true] at h
            exact NextWordWidthWord_span pFont bytes _ _ _ _ _ _ h
          | true =>
            simp only [hsp, Bool.not_true, Bool.false_eq_true, if_false] at h
            cases hg : pFont.GetGlyphMetrics c with
            | error err => simp [hg] at h
            | ok m =>
              simp only [hg] at h
              have hc : c ≠ 0 ∧ c ≠ 10 := by
                simp only [beq_iff_eq] at h0 h10
                exact ⟨h0, h10⟩
              exact Span_step hn hc (ih _ _ _ _ _ h)

/-- The loop of `NextLineWidth` never moves over a terminator or a line feed. -/
theorem NextLineWidthLoop_span (pFont : Font) (bytes : List Byte) (maxLineWidth : ℚ) :
    ∀ (fuel p : Nat) (lineWidth w : ℚ) (e : Nat),
      NextLineWidthLoop pFont bytes maxLineWidth fuel p lineWidth = .ok (w, e) →
      Span bytes (fun c => c ≠ 0 ∧ c ≠ 10) p e := by
  intro fuel
  induction fuel with
  | zero => intro p lw w e h; simp [NextLineWidthLoop] at h
  | succ fuel ih =>
    intro p lw w e h
    simp only [NextLineWidthLoop] at h
    cases hword : NextWordWidth pFont bytes p with
    | error err => simp [hword, bind, Except.bind] at h
    | ok r =>
      obtain ⟨wordWidth, pWordEnd⟩ := r
      have hend : Span bytes (fun c => c ≠ 0 ∧ c ≠ 10) p pWordEnd :=
        NextWordWidthSpaces_span pFont bytes _ _ _ _ _ _ hword
      simp only [hword, bind, Except.bind] at h
      by_cases h1 : wordWidth > maxLineWidth
      · simp [h1, throw, throwThe, MonadExceptOf.throw] at h
      · simp only [h1, if_false] at h
        by_cases h2 : lw + wordWidth > maxLineWidth
        · simp only [h2, if_true, pure, Except.pure, Except.ok.injEq, Prod.mk.injEq] at h
          rw [← h.2]; exact Span_refl _ _ _
        · simp only [h2, if_false] at h
          cases hse : AtStringEnding bytes pWordEnd with
          | error err => simp [hse] at h
          | ok se =>
            simp only [hse] at h
            cases se with
            | true =>
              simp only [if_true, pure, Except.pure, Except.ok.injEq, Prod.mk.injEq] at h
              rw [← h.2]; exact hend
            | false =>
              simp only [Bool.false_eq_true, if_false, pure, Except.pure] at h
              cases hle : AtLineEnding bytes pWordEnd with
              | error err => simp [hle] at h
              | ok le =>
                obtain ⟨lineEnding, past⟩ := le
                simp only [hle] at h
                cases lineEnding with
                | true =>
                  simp only [if_true, Except.ok.injEq, Prod.mk.injEq] at h
                  rw [← h.2]; exact hend
                | false =>
                  simp only [Bool.false_eq_true, if_false] at h
                  exact Span_trans hend (ih pWordEnd (lw + wordWidth) w e h)

/-- `NextLineWidth` skips spaces and then moves over characters other than the terminator
and the line feed. -/
theorem NextLineWidth_span {pFont : Font} {bytes : List Byte} {text : Nat}
    {maxLineWidth w : ℚ} {e : Nat}
    (h : NextLineWidth pFont bytes text maxLineWidth = .ok (w, e)) :
    ∃ p, SkipSpaces bytes text = .ok p ∧
      Span bytes (fun c => c ≠ 0 ∧ IsSpace c = true) text p ∧
      Span bytes (fun c => c ≠ 0 ∧ c ≠ 10) p e := by
  unfold NextLineWidth at h
  cases hskip : SkipSpaces bytes text with
  | error err => simp [hskip, bind, Except.bind] at h
  | ok p =>
    simp only [hskip, bind, Except.bind] at h
    exact ⟨p, rfl, SkipSpacesLoop_span bytes _ _ _ hskip,
      NextLineWidthLoop_span pFont bytes _ _ _ _ _ _ h⟩

/-- `glyphChars` of a concatenation. -/
theorem glyphChars_append (l1 l2 : List Event) :
    glyphChars (l1 ++ l2) = glyphChars l1 ++ glyphChars l2 := by
  induction l1 with
  | nil => rfl
  | cons ev l1 ih =>
    cases ev with
    | OnGlyph c q d => simp [glyphChars, ih]
    | OnLine d => simp [glyphChars, ih]

/-- The glyph loop over the characters `cs` between `p` and `pLineEnd`, when it succeeds,
passes exactly `cs` to `OnGlyph` and ends at `pLineEnd`. -/
theorem IterateTextGlyphs_chars (pFont : GLTextureFont) (bytes : List Byte) (text : Nat)
    (y : ℚ) (pLineEnd : Nat) :
    ∀ (fuel : Nat) (cs : List UTF8Char) (p : Nat) (x : ℚ) (cPrev : UTF8Char)
      (out out' : List Event) (p' : Nat),
      DecodeChars bytes cs.length p = .ok (cs, pLineEnd) →
      IterateTextGlyphs pFont bytes text y pLineEnd fuel p x cPrev out = (out', .ok p') →
      p' = pLineEnd ∧ glyphChars out' = glyphChars out ++ cs := by
  intro fuel
  induction fuel with
  | zero => intro cs p x cPrev out out' p' _ h; simp [IterateTextGlyphs] at h
  | succ fuel ih =>
    intro cs p x cPrev out out' p' hdec h
    simp only [IterateTextGlyphs] at h
    have hle := (DecodeChars_length hdec).2
    by_cases hlt : p < pLineEnd
    · simp only [hlt, if_true] at h
      split at h
      · simp at h
      · rename_i c next x' ev heq
        obtain ⟨quad, g, s, e, hn, _, _, hev⟩ := glyphStep_ok heq
        cases cs with
        | nil =>
          simp only [List.length_nil, DecodeChars, Except.ok.injEq, Prod.mk.injEq,
            true_and] at hdec
          omega
        | cons c0 cs =>
          obtain ⟨n0, hn0, hrest⟩ := DecodeChars_cons hdec
          rw [hn] at hn0
          simp only [Except.ok.injEq, Prod.mk.injEq] at hn0
          obtain ⟨rfl, rfl⟩ := hn0
          obtain ⟨h1, h2⟩ := ih cs next x' c _ _ _ hrest h
          refine ⟨h1, ?_⟩
          rw [h2, glyphChars_append, hev]
          simp [glyphChars]
    · simp only [hlt, if_false, Prod.mk.injEq, Except.ok.injEq] at h
      obtain ⟨rfl, rfl⟩ := h
      cases cs with
      | nil =>
        simp only [List.length_nil, DecodeChars, Except.ok.injEq, Prod.mk.injEq,
          true_and] at hdec
        exact ⟨hdec, by simp⟩
      | cons c0 cs =>
        simp only [List.length_cons] at hle
        omega

/-- `AtStringEnding` decodes one character and compares it with 0. -/
theorem AtStringEnding_inv {bytes : List Byte} {p : Nat} {b : Bool}
    (h : AtStringEnding bytes p = .ok b) :
    ∃ c n, NextUTF8Char bytes p = .ok (c, n) ∧ b = (c == 0) := by
  unfold AtStringEnding at h
  cases hn : NextUTF8Char bytes p with
  | error err => simp [hn, bind, Except.bind] at h
  | ok r =>
    obtain ⟨c, n⟩ := r
    simp only [hn, bind, Except.bind, pure, Except.pure, Except.ok.injEq] at h
    exact ⟨c, n, rfl, h.symm⟩

/-- Spaces and tabs are not visible. -/
theorem filter_isVisible_spaces (ss : List UTF8Char)
    (h : ∀ c ∈ ss, c ≠ 0 ∧ IsSpace c = true) : ss.filter isVisible = [] := by
  rw [List.filter_eq_nil_iff]
  intro c hc
  rcases (IsSpace_iff c).mp (h c hc).2 with h1 | h1 <;> subst h1 <;> decide

/-- The line loop started at `p`, when it succeeds, runs over characters `cs` up to the
terminator, and the visible characters it passes to `OnGlyph` are those of `cs`. -/
theorem IterateTextLoop_chars (pFont : GLTextureFont) (bytes : List Byte) (text : Nat)
    (params : TextParams) :
    ∀ (fuel p : Nat) (y : ℚ) (out events : List Event),
      IterateTextLoop pFont bytes text params fuel p y out = (events, .ok ()) →
      ∃ cs e next, DecodeChars bytes cs.length p = .ok (cs, e) ∧ (∀ c ∈ cs, c ≠ 0) ∧
        NextUTF8Char bytes e = .ok (0, next) ∧
        (glyphChars events).filter isVisible
          = (glyphChars out).filter isVisible ++ cs.filter isVisible := by
  intro fuel
  induction fuel with
  | zero => intro p y out events h; simp [IterateTextLoop] at h
  | succ fuel ih =>
    intro p y out events h
    simp only [IterateTextLoop] at h
    split at h
    · simp at h
    · rename_i heq
      have hse := lineStep_none heq
      simp only [Prod.mk.injEq, and_true] at h
      subst h
      obtain ⟨c, n, hn, hc⟩ := AtStringEnding_inv hse
      have hc0 : c = 0 := by simpa using hc.symm
      subst hc0
      exact ⟨[], p, n, rfl, by simp, hn, by simp⟩
    · rename_i x p1 e ev heq
      obtain ⟨W, s, t, hse, hl, hskip, _, _, _, hev⟩ := lineStep_ok heq
      obtain ⟨p', hskip', ⟨ss, hss, hssP⟩, ⟨ws, hws, hwsP⟩⟩ := NextLineWidth_span hl
      rw [hskip] at hskip'
      simp only [Except.ok.injEq] at hskip'
      subst hskip'
      have hline := DecodeChars_append ss hss hws
      have hssv := filter_isVisible_spaces ss hssP
      split at h
      · simp at h
      · rename_i out1 p2 hg
        obtain ⟨hp2, hchars⟩ := IterateTextGlyphs_chars pFont bytes text y e _ ws _ _ _ _ _ _
          hws hg
        subst hp2
        have hout1 : (glyphChars out1).filter isVisible
            = (glyphChars out).filter isVisible ++ (ss ++ ws).filter isVisible := by
          rw [hchars, glyphChars_append, hev]
          simp [glyphChars, List.filter_append, hssv]
        have hnz : ∀ c ∈ ss ++ ws, c ≠ 0 := by
          intro c hc
          rcases List.mem_append.mp hc with h1 | h1
          · exact (hssP c h1).1
          · exact (hwsP c h1).1
        split at h
        · simp at h
        · rename_i hend
          simp only [Prod.mk.injEq, and_true] at h
          subst h
          rcases endingStep_ok hend with ⟨_, hse2⟩ | ⟨le, next, _, _, hr⟩
          · obtain ⟨c, n, hn, hc⟩ := AtStringEnding_inv hse2
            have hc0 : c = 0 := by simpa using hc.symm
            subst hc0
            exact ⟨ss ++ ws, p2, n, hline, hnz, hn, hout1⟩
          · exact absurd hr (by simp)
        · rename_i p3 hend
          rcases endingStep_ok hend with ⟨hr, _⟩ | ⟨le, next, hse2, hle2, hr⟩
          · exact absurd hr (by simp)
          · simp only [Option.some.injEq] at hr
            obtain ⟨cs, e', n', hcs, hcsP, hterm, hfilter⟩ :=
              ih p3 (y - params.lineSpacing) out1 events h
            obtain ⟨c, n, hn, hc⟩ := AtStringEnding_inv hse2
            have hc0 : c ≠ 0 := by
              intro h0
              rw [h0] at hc
              simp at hc
            rw [AtLineEnding_of_next hn] at hle2
            simp only [Except.ok.injEq, Prod.mk.injEq] at hle2
            obtain ⟨hle, hnext⟩ := hle2
            cases le with
            | true =>
              simp only [if_true] at hr
              have hc10 : c = 10 := by simpa using hle
              subst hc10
              rw [hr, ← hnext] at hcs
              have hnl : DecodeChars bytes ([10] ++ cs).length p2 = .ok ([10] ++ cs, e') :=
                DecodeChars_step hn hcs
              refine ⟨(ss ++ ws) ++ ([10] ++ cs), e', n',
                DecodeChars_append (ss ++ ws) hline hnl, ?_, hterm, ?_⟩
              · intro c hc
                rcases List.mem_append.mp hc with h1 | h1
                · exact hnz c h1
                · rcases List.mem_append.mp h1 with h2 | h2
                  · simp only [List.mem_singleton] at h2
                    subst h2
                    decide
                  · exact hcsP c h2
              · rw [hfilter, hout1]
                have h10 : List.filter isVisible [10] = [] := by decide
                simp only [List.filter_append, List.append_assoc, h10, List.nil_append]
            | false =>
              simp only [Bool.false_eq_true, if_false] at hr
              rw [hr] at hcs
              refine ⟨(ss ++ ws) ++ cs, e', n', DecodeChars_append (ss ++ ws) hline hcs, ?_,
                hterm, ?_⟩
              · intro c hc
                rcases List.mem_append.mp hc with h1 | h1
                · exact hnz c h1
                · exact hcsP c h1
              · rw [hfilter, hout1]
                simp only [List.filter_append, List.append_assoc]

/-! ## Lemmas on the document parser -/

/-- One round of the loop of `ParseBoundingBoxAttrib`: white space, then a decimal literal. -/
theorem ParseBoundingBoxNumbers_step (bytes : List Byte) (n p : Nat) (ws : List Byte)
    (L : DecimalLiteral) (t : Byte) (tl : List Byte) (vs : List ℚ)
    (hdrop : bytes.drop p = ws ++ (L.chars ++ t :: tl))
    (hws : ws.all isspace = true) (hL : L.wellFormed = true) (ht : endsNumber t = true)
    (hrest : ParseBoundingBoxNumbers bytes n (p + ws.length + L.chars.length) = .ok vs) :
    ParseBoundingBoxNumbers bytes (n + 1) p = .ok (L.value :: vs) := by
  obtain ⟨c, ltl, hchars, hc⟩ := literal_head L hL
  have hskip : skipSpace (bytes.drop p) p = .ok (p + ws.length) := by
    rw [hdrop, hchars, List.cons_append]
    exact skipSpace_spec ws c _ p hws (head_facts c hc).2.2
  have hparse := ParseDouble_at bytes (p + ws.length) L t tl (drop_append_length hdrop) hL ht
  simp only [ParseBoundingBoxNumbers, hskip, hparse, hrest]

/-- White space followed by the terminator starts with a character that ends a number. -/
theorem space_or_end (ws : List Byte) (hws : ws.all isspace = true) (tl : List Byte) :
    ∃ t tl', ws ++ 0 :: tl = t :: tl' ∧ endsNumber t = true := by
  cases ws with
  | nil => exact ⟨0, tl, rfl, by decide⟩
  | cons w ws =>
    simp only [List.all_cons, Bool.and_eq_true] at hws
    exact ⟨w, ws ++ 0 :: tl, rfl, (space_facts w hws.1).2.1⟩

/-- Nonempty white space starts with a character that ends a number. -/
theorem nonempty_spaces (ws : List Byte) (hws : ws.all isspace = true) (hne : ws ≠ []) :
    ∃ a tl, ws = a :: tl ∧ endsNumber a = true := by
  obtain ⟨a, tl, rfl⟩ := List.exists_cons_of_ne_nil hne
  simp only [List.all_cons, Bool.and_eq_true] at hws
  exact ⟨a, tl, rfl, (space_facts a hws.1).2.1⟩

/-- What a successful `ParseGlyphTag` changes: neither the kern table nor the metrics; without
a `unicode` attribute nothing at all, and with one the glyph of that character and, when
the element has a `glyph-name`, the entry of that name. -/
theorem ParseGlyphTag_ok {pGlyphTag : XmlNode} {defaults : GlyphMetrics}
    {el : GlyphPathElement} {fontData fontData' : FontData} {names names' : NameTable}
    (h : ParseGlyphTag pGlyphTag defaults el fontData names = .ok (fontData', names')) :
    fontData'.mHorizontalKernTable = fontData.mHorizontalKernTable ∧
    fontData'.mMetrics = fontData.mMetrics ∧
    ((xmlHasProp pGlyphTag (str "unicode") = false ∧ fontData' = fontData ∧ names' = names) ∨
      (∃ c g, xmlHasProp pGlyphTag (str "unicode") = true ∧
        ParseUnicodeAttrib pGlyphTag (str "unicode") = .ok c ∧
        fontData'.mGlyphs = (fun c' => if c' = c then some g else fontData.mGlyphs c') ∧
        names' = (match xmlGetProp pGlyphTag (str "glyph-name") with
          | none => names
          | some name => fun n => if n = name then some c else names n))) := by
  unfold ParseGlyphTag at h
  cases hu : xmlHasProp pGlyphTag (str "unicode") with
  | false =>
    simp only [hu, Bool.not_false, if_true, Except.ok.injEq, Prod.mk.injEq] at h
    obtain ⟨rfl, rfl⟩ := h
    exact ⟨rfl, rfl, Or.inl ⟨rfl, rfl, rfl⟩⟩
  | true =>
    simp only [hu, Bool.not_true, Bool.false_eq_true, if_false] at h
    cases hc : ParseUnicodeAttrib pGlyphTag (str "unicode") with
    | error err => simp only [hc, reduceCtorEq] at h
    | ok c =>
      simp only [hc] at h
      have key : ∀ nt : NameTable,
          (match (.ok nt : Except Error NameTable) with
            | .error err => (.error err : Except Error (FontData × NameTable))
            | .ok namesToCharacters =>
              match ParseOptionalDoubleAttrib pGlyphTag (str "horiz-adv-x")
                  defaults.advanceX with
              | .error err => .error err
              | .ok advanceX =>
                match ParseOptionalDoubleAttrib pGlyphTag (str "horiz-origin-x")
                    defaults.bearingX with
                | .error err => .error err
                | .ok bearingX =>
                  match ParseOptionalDoubleAttrib pGlyphTag (str "horiz-origin-y")
                      defaults.bearingY with
                  | .error err => .error err
                  | .ok bearingY =>
                    match (if xmlHasProp pGlyphTag (str "d") = true then
                        ParseStringAttrib pGlyphTag (str "d") else .ok []) with
                    | .error err => .error err
                    | .ok d =>
                      match ParseSVGPath (d ++ [0]) 0 el
                          (match fontData.mGlyphs c with
                            | none => []
                            | some g => g.mPath) with
                      | .error err => .error err
                      | .ok mPath =>
                        .ok ({ fontData with
                                mGlyphs := fun c' =>
                                  if c' = c then
                                    some ⟨{ defaults with advanceX := advanceX,
                                                          bearingX := bearingX,
                                                          bearingY := bearingY }, mPath⟩
                                  else fontData.mGlyphs c' },
                              namesToCharacters)) = .ok (fontData', names') →
          fontData'.mHorizontalKernTable = fontData.mHorizontalKernTable ∧
          fontData'.mMetrics = fontData.mMetrics ∧
          names' = nt ∧
          ∃ g, fontData'.mGlyphs = (fun c' => if c' = c then some g else fontData.mGlyphs c') := by
        intro nt hk
        simp only at hk
        split at hk
        · simp only [reduceCtorEq] at hk
        · split at hk
          · simp only [reduceCtorEq] at hk
          · split at hk
            · simp only [reduceCtorEq] at hk
            · split at hk
              · simp only [reduceCtorEq] at hk
              · split at hk
                · simp only [reduceCtorEq] at hk
                · simp only [Except.ok.injEq, Prod.mk.injEq] at hk
                  obtain ⟨rfl, rfl⟩ := hk
                  exact ⟨rfl, rfl, rfl, _, rfl⟩
      cases hg : xmlGetProp pGlyphTag (str "glyph-name") with
      | none =>
        have hh : xmlHasProp pGlyphTag (str "glyph-name") = false := by simp [xmlHasProp, hg]
        simp only [hh, Bool.false_eq_true, if_false] at h
        obtain ⟨k1, k2, k3, g, k4⟩ := key _ h
        exact ⟨k1, k2, Or.inr ⟨c, g, rfl, rfl, k4, k3⟩⟩
      | some name =>
        have hh : xmlHasProp pGlyphTag (str "glyph-name") = true := by simp [xmlHasProp, hg]
        simp only [hh, if_true, ParseStringAttrib, hg] at h
        obtain ⟨k1, k2, k3, g, k4⟩ := key _ h
        exact ⟨k1, k2, Or.inr ⟨c, g, rfl, rfl, k4, k3⟩⟩

/-- The glyph elements change neither the kern table nor the metrics. -/
theorem ParseGlyphTags_kern (defaults : GlyphMetrics) (el : GlyphPathElement) :
    ∀ (tags : List XmlNode) (fontData fontData' : FontData) (names names' : NameTable),
      ParseGlyphTags defaults el tags fontData names = .ok (fontData', names') →
      fontData'.mHorizontalKernTable = fontData.mHorizontalKernTable ∧
        fontData'.mMetrics = fontData.mMetrics := by
  intro tags
  induction tags with
  | nil =>
    intro fd fd' names names' h
    simp only [ParseGlyphTags, Except.ok.injEq, Prod.mk.injEq] at h
    obtain ⟨rfl, rfl⟩ := h
    exact ⟨rfl, rfl⟩
  | cons tag tags ih =>
    intro fd fd' names names' h
    simp only [ParseGlyphTags] at h
    cases h1 : ParseGlyphTag tag defaults el fd names with
    | error err => simp only [h1, reduceCtorEq] at h
    | ok r =>
      obtain ⟨fd1, names1⟩ := r
      simp only [h1] at h
      obtain ⟨hk, hm, _⟩ := ParseGlyphTag_ok h1
      obtain ⟨hk2, hm2⟩ := ih fd1 fd' names1 names' h
      exact ⟨hk2.trans hk, hm2.trans hm⟩

/-- `ParseUnicodeAttrib` on an attribute that holds one well-formed character. -/
theorem ParseUnicodeAttrib_wellFormed (pTag : XmlNode) (key s : List Byte)
    (hprop : xmlGetProp pTag key = some s) (hs : WellFormedSeq s) :
    ParseUnicodeAttrib pTag key = .ok (bigEndian s) := by
  have hnext := NextUTF8Char_wellFormed [] s [0] hs
  simp only [List.nil_append, List.length_nil, Nat.zero_add] at hnext
  have hlen : ¬ s.length > 4 := by
    cases s with
    | nil => simp
    | cons b0 rest =>
      rcases hs with ⟨_, hr⟩ | ⟨_, h4, hl, _⟩
      · subst hr; simp
      · simp only [List.length_cons]; omega
  have hget : (s ++ [0])[s.length]? = some (0 : Byte) := by simp
  simp only [ParseUnicodeAttrib, hprop, hlen, if_false, hnext, hget]
  simp

/-- `ParseSVGFontData` on a document whose structure and `font-face` are readable: what
remains are the glyph elements and then the `hkern` elements. -/
theorem ParseSVGFontData_eq (pRoot pDefsTag pFontTag pFaceTag : XmlNode)
    (el : GlyphPathElement) (fontData : FontData) (ascent descent unitsPerEM : ℚ)
    (bbox : FontBoundingBox) (advanceX bearingX bearingY : ℚ)
    (hroot : iequals pRoot.name (str "svg") = true)
    (hdefs : FindChild pRoot (str "defs") = .ok pDefsTag)
    (hfont : FindChild pDefsTag (str "font") = .ok pFontTag)
    (hface : FindChild pFontTag (str "font-face") = .ok pFaceTag)
    (hascent : ParseDoubleAttrib pFaceTag (str "ascent") = .ok ascent)
    (hdescent : ParseDoubleAttrib pFaceTag (str "descent") = .ok descent)
    (hunits : ParseDoubleAttrib pFaceTag (str "units-per-em") = .ok unitsPerEM)
    (hbbox : ParseBoundingBoxAttrib pFaceTag = .ok bbox)
    (hadv : ParseOptionalDoubleAttrib pFontTag (str "horiz-adv-x") (bbox.right - bbox.left)
      = .ok advanceX)
    (hbx : ParseOptionalDoubleAttrib pFontTag (str "horiz-origin-x") 0 = .ok bearingX)
    (hby : ParseOptionalDoubleAttrib pFontTag (str "horiz-origin-y") 0 = .ok bearingY) :
    ParseSVGFontData (some pRoot) el fontData
      = (match ParseGlyphTags ⟨bearingX, bearingY, 0, bbox.top - bbox.bottom, advanceX⟩ el
            (IterFindChildren pFontTag (str "glyph"))
            { fontData with mMetrics := ⟨unitsPerEM, ascent, descent, bbox⟩ } (fun _ => none) with
        | .error err => .error err
        | .ok (fd, names) => ParseHKernTags names (IterFindChildren pFontTag (str "hkern")) fd) := by
  simp only [ParseSVGFontData, hroot, hdefs, hfont, hface, hascent, hdescent, hunits, hbbox,
    hadv, hbx, hby, bind, Except.bind, pure, Except.pure, Bool.not_true, Bool.false_eq_true,
    if_false]
  cases ParseGlyphTags ⟨bearingX, bearingY, 0, bbox.top - bbox.bottom, advanceX⟩ el
      (IterFindChildren pFontTag (str "glyph"))
      { fontData with mMetrics := ⟨unitsPerEM, ascent, descent, bbox⟩ } (fun _ => none) with
  | error err => rfl
  | ok r => rfl

/-- The entries of the kern table after one assignment. -/
theorem kernEntry_setKernValue (table : KernTable) (c1 c2 : UTF8Char) (k : ℚ)
    (a b : UTF8Char) :
    kernEntry (setKernValue table c1 c2 k) a b
      = if a = c1 ∧ b = c2 then some k else kernEntry table a b := by
  unfold kernEntry setKernValue
  by_cases ha : a = c1
  · subst ha
    by_cases hb : b = c2
    · simp [hb]
    · simp [hb]
  · simp [ha]

/-- The entries of the kern table after the inner loop of `ParseHKernTag`. -/
theorem kernEntry_foldl_inner (c1 : UTF8Char) (k : ℚ) (a b : UTF8Char) :
    ∀ (u2 : List UTF8Char) (table : KernTable),
      kernEntry (u2.foldl (fun table c2 => setKernValue table c1 c2 k) table) a b
        = if a = c1 ∧ b ∈ u2 then some k else kernEntry table a b := by
  intro u2
  induction u2 with
  | nil => intro table; simp
  | cons c2 u2 ih =>
    intro table
    simp only [List.foldl_cons, ih, kernEntry_setKernValue, List.mem_cons]
    by_cases ha : a = c1 <;> by_cases hb : b = c2 <;> by_cases hm : b ∈ u2 <;> simp [ha, hb, hm]

/-- The entries of the kern table after the two nested loops of `ParseHKernTag`. -/
theorem kernEntry_foldl (u2 : List UTF8Char) (k : ℚ) (a b : UTF8Char) :
    ∀ (u1 : List UTF8Char) (table : KernTable),
      kernEntry (u1.foldl (fun table c1 =>
          u2.foldl (fun table c2 => setKernValue table c1 c2 k) table) table) a b
        = if a ∈ u1 ∧ b ∈ u2 then some k else kernEntry table a b := by
  intro u1
  induction u1 with
  | nil => intro table; simp
  | cons c1 u1 ih =>
    intro table
    simp only [List.foldl_cons, ih, kernEntry_foldl_inner, List.mem_cons]
    by_cases ha : a = c1 <;> by_cases hb : b ∈ u2 <;> by_cases hm : a ∈ u1 <;> simp [ha, hb, hm]

/-- `splitAtCommas` on a name without comma, alone or followed by a comma. -/
theorem splitAtCommas_name (name : List Byte) (hname : ∀ c ∈ name, c.val ≠ 44) :
    splitAtCommas name = [name] ∧
      ∀ rest, splitAtCommas (name ++ 44 :: rest) = name :: splitAtCommas rest := by
  induction name with
  | nil =>
    refine ⟨rfl, ?_⟩
    intro rest
    have h44 : ((44 : Byte).val = 44) = True := by decide
    simp only [List.nil_append, splitAtCommas, h44, if_true]
  | cons c name ih =>
    have hc := hname c (List.mem_cons_self _ _)
    obtain ⟨ih1, ih2⟩ := ih (fun x hx => hname x (List.mem_cons_of_mem _ hx))
    refine ⟨?_, ?_⟩
    · simp only [splitAtCommas, hc, if_false, ih1]
    · intro rest
      simp only [List.cons_append, splitAtCommas, hc, if_false, List.append_eq, ih2 rest]

/-- A computation that succeeds equals `ok` of its value. -/
theorem Except.eq_ok_of_isOk {ε α : Type} (e : Except ε α) (d : α) (h : e.isOk = true) :
    e = .ok (e.toOption.getD d) := by
  cases e with
  | error err => simp [Except.isOk, Except.toBool] at h
  | ok a => rfl

/-! ## Lemmas on coordinate groups -/

/-- The characters of a sequence of numbers, number by number. -/
theorem numbersChars_cons (w : WrittenNumber) (ws : List WrittenNumber) :
    numbersChars (w :: ws) = w.sep ++ (w.lit.chars ++ numbersChars ws) := by
  simp [numbersChars, WrittenNumber.chars]

/-- The characters of two sequences of numbers written one after the other. -/
theorem numbersChars_append (a b : List WrittenNumber) :
    numbersChars (a ++ b) = numbersChars a ++ numbersChars b := by
  simp [numbersChars]

/-- What `wellWritten` says about the numbers. -/
theorem wellWritten_iff (ws : List WrittenNumber) :
    wellWritten ws = true ↔
      (∀ w ∈ ws, w.sep.all isSeparator = true ∧ w.lit.wellFormed = true) ∧
        ∀ w ∈ ws.tail, w.sep ≠ [] := by
  simp [wellWritten, WrittenNumber.wellFormed, List.all_eq_true]

/-- A character at which the numbers stop ends a number and is no separator. -/
theorem stopsNumbers_facts : ∀ c : Byte, stopsNumbers c = true →
    endsNumber c = true ∧ isSeparator c = false ∧ isspace c = false := by decide

/-- What follows a written number starts with a character that ends a number. -/
theorem numbers_rest_head (ws : List WrittenNumber) (sep : List Byte) (t : Byte)
    (tl : List Byte) (hws : ∀ w ∈ ws, w.sep.all isSeparator = true)
    (hne : ∀ w ∈ ws.head?, w.sep ≠ []) (hsep : sep.all isSeparator = true)
    (ht : endsNumber t = true) :
    ∃ t' tl', numbersChars ws ++ (sep ++ t :: tl) = t' :: tl' ∧ endsNumber t' = true := by
  cases ws with
  | nil =>
    cases sep with
    | nil => exact ⟨t, tl, rfl, ht⟩
    | cons s sep' =>
      simp only [List.all_cons, Bool.and_eq_true] at hsep
      exact ⟨s, sep' ++ t :: tl, rfl, (separator_facts s hsep.1).2.1⟩
  | cons w ws' =>
    obtain ⟨a, stl, hs, ha⟩ := nonempty_separators w.sep (hws w (List.mem_cons_self _ _))
      (hne w (by simp))
    refine ⟨a, stl ++ (w.lit.chars ++ numbersChars ws') ++ (sep ++ t :: tl), ?_, ha⟩
    rw [numbersChars_cons, hs]
    simp

/-- `SVGParsePathDoubles` reads the numbers that are written. -/
theorem SVGParsePathDoubles_numbers (bytes : List Byte) :
    ∀ (ws : List WrittenNumber) (q : Nat) (t : Byte) (tl : List Byte),
      bytes.drop q = numbersChars ws ++ t :: tl → wellWritten ws = true →
      endsNumber t = true →
      SVGParsePathDoubles bytes ws.length q
        = .ok (some (numbersValues ws, q + (numbersChars ws).length)) := by
  intro ws
  induction ws with
  | nil =>
    intro q t tl _ _ _
    simp [SVGParsePathDoubles, numbersValues, numbersChars]
  | cons w ws ih =>
    intro q t tl hdrop hww ht
    obtain ⟨hall, htail⟩ := (wellWritten_iff _).1 hww
    have hw := hall w (List.mem_cons_self _ _)
    have hww' : wellWritten ws = true := by
      rw [wellWritten_iff]
      refine ⟨fun x hx => hall x (List.mem_cons_of_mem _ hx), fun x hx => ?_⟩
      exact htail x (by simpa using List.mem_of_mem_tail hx)
    obtain ⟨t', tl', hrest, ht'⟩ := numbers_rest_head ws [] t tl
      (fun x hx => (hall x (List.mem_cons_of_mem _ hx)).1)
      (fun x hx => htail x (by
        cases ws with
        | nil => simp at hx
        | cons a b => simp at hx; subst hx; simp)) rfl ht
    rw [numbersChars_cons, List.append_assoc, List.append_assoc] at hdrop
    have hdrop2 : bytes.drop (q + w.sep.length + w.lit.chars.length)
        = numbersChars ws ++ t :: tl := by
      have h1 := drop_append_length hdrop
      exact drop_append_length h1
    have hih := ih (q + w.sep.length + w.lit.chars.length) t tl hdrop2 hww' ht
    have hdrop3 : bytes.drop q = w.sep ++ (w.lit.chars ++ t' :: tl') := by
      rw [hdrop]
      simp only [List.nil_append] at hrest
      rw [hrest]
    have := SVGParsePathDoubles_step bytes ws.length q w.sep w.lit t' tl' _ _ hdrop3 hw.1 hw.2
      ht' hih
    rw [List.length_cons, this, numbersChars_cons]
    simp only [numbersValues, List.map_cons, List.length_append]
    congr 3
    omega

/-- Separators that run into the terminator: `SVGParsePathDoubles` gives up. -/
theorem SVGParsePathDoublesSkip_end :
    ∀ (sep : List Byte) (t : Byte) (tl : List Byte) (p : Nat),
      sep.all isSeparator = true → sep ≠ [] → t.val = 0 →
      SVGParsePathDoublesSkip (sep ++ t :: tl) p = .ok none := by
  intro sep
  induction sep with
  | nil => intro t tl p _ hne _; exact absurd rfl hne
  | cons s sep ih =>
    intro t tl p hsep _ ht
    simp only [List.all_cons, Bool.and_eq_true] at hsep
    have hs : (isspace s || s.val == 44) = true := hsep.1
    cases sep with
    | nil =>
      simp [SVGParsePathDoublesSkip, hs, ht]
    | cons s2 sep2 =>
      have h2 := hsep.2
      simp only [List.all_cons, Bool.and_eq_true] at h2
      have hs20 := (separator_facts s2 h2.1).1
      have hrec := ih t tl (p + 1) hsep.2 (by simp) ht
      simp only [List.cons_append] at hrec ⊢
      rw [SVGParsePathDoublesSkip]
      simp only [hs, if_true, hs20, if_false]
      exact hrec

/-- `ParseDouble` finds no number at a character that cannot start one. -/
theorem ParseDouble_none (bytes : List Byte) (q : Nat) (t : Byte) (tl : List Byte)
    (hdrop : bytes.drop q = t :: tl) (ht : endsNumber t = true) (h0 : t.val ≠ 0) :
    ParseDouble bytes q = .ok (0, none) := by
  obtain ⟨h1, h2, h3, h4⟩ := endsNumber_facts t ht
  simp [ParseDouble, hdrop, ParseDoubleLoop, h0, h1, h2, h3, h4]

/-- Where the numbers stop, `SVGParsePathDoubles` returns NULL. -/
theorem SVGParsePathDoubles_stop (bytes : List Byte) (n q : Nat) (sep : List Byte) (t : Byte)
    (tl : List Byte) (hdrop : bytes.drop q = sep ++ t :: tl)
    (hsep : sep.all isSeparator = true) (ht : stopsNumbers t = true) :
    SVGParsePathDoubles bytes (n + 1) q = .ok none := by
  obtain ⟨hte, hts, _⟩ := stopsNumbers_facts t ht
  by_cases h0 : t.val = 0
  · cases sep with
    | nil =>
      have := getElem?_of_drop hdrop
      simp [SVGParsePathDoubles, this, h0]
    | cons s sep' =>
      have hb := getElem?_of_drop hdrop
      simp only [List.all_cons, Bool.and_eq_true] at hsep
      have hs0 := (separator_facts s hsep.1).1
      have hskip := SVGParsePathDoublesSkip_end (s :: sep') t tl q
        (by simp [hsep.1, hsep.2]) (by simp) h0
      rw [← hdrop] at hskip
      simp only [SVGParsePathDoubles, hb, hs0, if_false, hskip]
  · have hfirst : ∃ b btl, bytes.drop q = b :: btl ∧ b.val ≠ 0 := by
      cases sep with
      | nil => exact ⟨t, tl, hdrop, h0⟩
      | cons s sep' =>
        simp only [List.all_cons, Bool.and_eq_true] at hsep
        exact ⟨s, _, by rw [hdrop]; rfl, (separator_facts s hsep.1).1⟩
    obtain ⟨b, btl, hb, hb0⟩ := hfirst
    have hskip : SVGParsePathDoublesSkip (bytes.drop q) q = .ok (some (q + sep.length)) := by
      rw [hdrop]
      exact SVGParsePathDoublesSkip_spec sep t tl q hsep hts h0
    have hparse := ParseDouble_none bytes (q + sep.length) t tl (drop_append_length hdrop) hte h0
    simp only [SVGParsePathDoubles, getElem?_of_drop hb, hb0, if_false, hskip, hparse]

/-- A loop over coordinate groups reads every group that is written and pushes one element
for each. -/
theorem ParseSVGPathGroups_groups (bytes : List Byte) (n : Nat)
    (update : GlyphPathElement → List ℚ → GlyphPathElement) :
    ∀ (gs : List (List WrittenNumber)) (fuel d : Nat) (el : GlyphPathElement)
      (path : List GlyphPathElement) (sep : List Byte) (t : Byte) (tl : List Byte),
      bytes.drop d = numbersChars gs.flatten ++ (sep ++ t :: tl) →
      (∀ g ∈ gs, g.length = n + 1) → wellWritten gs.flatten = true →
      sep.all isSeparator = true → stopsNumbers t = true → gs.length < fuel →
      ParseSVGPathGroups bytes (n + 1) update fuel d el path
        = .ok (d + (numbersChars gs.flatten).length,
            groupLast update el (gs.map numbersValues),
            path ++ groupElements update el (gs.map numbersValues)) := by
  intro gs
  induction gs with
  | nil =>
    intro fuel d el path sep t tl hdrop _ _ hsep ht hfuel
    obtain ⟨f, rfl⟩ : ∃ f, fuel = f + 1 := ⟨fuel - 1, by simp at hfuel; omega⟩
    simp only [List.flatten_nil, numbersChars, List.map_nil, List.nil_append] at hdrop
    have := SVGParsePathDoubles_stop bytes n d sep t tl hdrop hsep ht
    simp [ParseSVGPathGroups, this, numbersChars, groupLast, groupElements]
  | cons g gs ih =>
    intro fuel d el path sep t tl hdrop hlen hww hsep ht hfuel
    obtain ⟨f, rfl⟩ : ∃ f, fuel = f + 1 := ⟨fuel - 1, by simp at hfuel; omega⟩
    have hglen := hlen g (List.mem_cons_self _ _)
    obtain ⟨hall, htail⟩ := (wellWritten_iff _).1 hww
    rw [List.flatten_cons] at hall htail
    have hgne : g ≠ [] := by
      intro h
      rw [h] at hglen
      simp at hglen
    have hwwg : wellWritten g = true := by
      rw [wellWritten_iff]
      refine ⟨fun x hx => hall x (List.mem_append_left _ hx), fun x hx => htail x ?_⟩
      rw [List.tail_append_of_ne_nil hgne]
      exact List.mem_append_left _ hx
    have hwwgs : wellWritten gs.flatten = true := by
      rw [wellWritten_iff]
      refine ⟨fun x hx => hall x (List.mem_append_right _ hx), fun x hx => htail x ?_⟩
      rw [List.tail_append_of_ne_nil hgne]
      exact List.mem_append_right _ (List.mem_of_mem_tail hx)
    obtain ⟨t', tl', hrest, ht'⟩ := numbers_rest_head gs.flatten sep t tl
      (fun x hx => (hall x (List.mem_append_right _ hx)).1)
      (fun x hx => htail x (by
        rw [List.tail_append_of_ne_nil hgne]
        refine List.mem_append_right _ ?_
        cases hgs : gs.flatten with
        | nil => rw [hgs] at hx; simp at hx
        | cons a b => rw [hgs] at hx; simp at hx; subst hx; simp)) hsep
      (stopsNumbers_facts t ht).1
    rw [List.flatten_cons, numbersChars_append, List.append_assoc] at hdrop
    have hnum := SVGParsePathDoubles_numbers bytes g d t' tl' (by rw [hdrop, hrest]) hwwg ht'
    rw [hglen] at hnum
    have hdrop2 := drop_append_length hdrop
    have hih := ih f (d + (numbersChars g).length) (update el (numbersValues g))
      (path ++ [update el (numbersValues g)]) sep t tl hdrop2
      (fun x hx => hlen x (List.mem_cons_of_mem _ hx)) hwwgs hsep ht
      (by simp at hfuel; omega)
    rw [ParseSVGPathGroups]
    simp only [hnum, hih, List.flatten_cons, numbersChars_append, List.length_append,
      List.map_cons, groupLast, groupElements, List.append_assoc, List.singleton_append,
      Nat.add_assoc]

/-- The written groups are not more than the characters of the buffer. -/
theorem groups_length_lt (bytes : List Byte) (d : Nat) (gs : List (List WrittenNumber))
    (rest : List Byte) (n : Nat) (hdrop : bytes.drop d = numbersChars gs.flatten ++ rest)
    (hlen : ∀ g ∈ gs, g.length = n + 1) (hww : wellWritten gs.flatten = true) :
    gs.length < bytes.length + 1 := by
  have h1 : gs.length ≤ gs.flatten.length := by
    clear hdrop hww
    induction gs with
    | nil => simp
    | cons g gs ih =>
      have := hlen g (List.mem_cons_self _ _)
      have := ih (fun x hx => hlen x (List.mem_cons_of_mem _ hx))
      simp only [List.length_cons, List.flatten_cons, List.length_append]
      omega
  have h2 : ∀ ws : List WrittenNumber, (∀ w ∈ ws, w.lit.wellFormed = true) →
      ws.length ≤ (numbersChars ws).length := by
    intro ws
    induction ws with
    | nil => simp
    | cons w ws ih =>
      intro h
      obtain ⟨c, ctl, hc, _⟩ := literal_head w.lit (h w (List.mem_cons_self _ _))
      have := ih (fun x hx => h x (List.mem_cons_of_mem _ hx))
      rw [numbersChars_cons, hc]
      simp only [List.length_cons, List.length_append]
      omega
  have h3 := h2 gs.flatten (fun w hw => (((wellWritten_iff _).1 hww).1 w hw).2)
  have h4 : (bytes.drop d).length ≤ bytes.length := by simp
  rw [hdrop, List.length_append] at h4
  omega

/-- One round of the loop of `ParseSVGPath` that stands before a command letter. -/
theorem ParseSVGPathLoop_command (bytes : List Byte) (fuel dl : Nat) (symbol letter : Byte)
    (el : GlyphPathElement) (path : List GlyphPathElement) (ws0 rest : List Byte)
    (hdrop : bytes.drop dl = ws0 ++ letter :: rest) (hws0 : ws0.all isspace = true)
    (hl0 : letter.val ≠ 0) (hlsp : isspace letter = false) :
    ParseSVGPathLoop bytes (fuel + 1) dl symbol el path
      = (ParseSVGPathCommand bytes (isupper letter) (tolower letter) symbol
          (dl + ws0.length + 1) el path).bind
          (fun r => ParseSVGPathLoop bytes fuel r.1 (tolower letter) r.2.1 r.2.2) := by
  have hfirst : ∃ b btl, bytes.drop dl = b :: btl ∧ b.val ≠ 0 := by
    cases ws0 with
    | nil => exact ⟨letter, rest, hdrop, hl0⟩
    | cons s ws' =>
      simp only [List.all_cons, Bool.and_eq_true] at hws0
      exact ⟨s, _, by rw [hdrop]; rfl, (space_facts s hws0.1).1⟩
  obtain ⟨b, btl, hb, hb0⟩ := hfirst
  have hread : readChar bytes dl = .ok b := by
    simp only [readChar, getElem?_of_drop hb]
  have hskip : skipSpace (bytes.drop dl) dl = .ok (dl + ws0.length) := by
    rw [hdrop]
    exact skipSpace_spec ws0 letter rest dl hws0 hlsp
  have hread2 : readChar bytes (dl + ws0.length) = .ok letter := by
    simp only [readChar, getElem?_of_drop (drop_append_length hdrop)]
  rw [ParseSVGPathLoop]
  simp only [hread, hb0, if_false, hskip, hread2]
  cases ParseSVGPathCommand bytes (isupper letter) (tolower letter) symbol
      (dl + ws0.length + 1) el path with
  | error e => rfl
  | ok r => rfl

/-- The command letters `L` and `l`. -/
theorem line_letter_facts : ∀ c : Byte, (c.val = 76 ∨ c.val = 108) →
    c.val ≠ 0 ∧ isspace c = false ∧ tolower c = 108 := by decide

/-- One round of the loop of `ParseSVGPath` at a `lineto` letter followed by coordinate
pairs. -/
theorem ParseSVGPathLoop_lineto (bytes : List Byte) (fuel dl : Nat) (symbol letter : Byte)
    (el : GlyphPathElement) (path : List GlyphPathElement) (ws0 : List Byte)
    (ps : List (WrittenNumber × WrittenNumber)) (sep : List Byte) (t : Byte) (tl : List Byte)
    (hdrop : bytes.drop dl
      = ws0 ++ letter :: (numbersChars (pairGroups ps).flatten ++ (sep ++ t :: tl)))
    (hws0 : ws0.all isspace = true) (hletter : letter.val = 76 ∨ letter.val = 108)
    (hww : wellWritten (pairGroups ps).flatten = true)
    (hsep : sep.all isSeparator = true) (ht : stopsNumbers t = true) :
    ParseSVGPathLoop bytes (fuel + 1) dl symbol el path
      = ParseSVGPathLoop bytes fuel
          (dl + ws0.length + 1 + (numbersChars (pairGroups ps).flatten).length) 108
          (groupLast (pathLineTo (isupper letter)) el ((pairGroups ps).map numbersValues))
          (path ++ groupElements (pathLineTo (isupper letter)) el
            ((pairGroups ps).map numbersValues)) := by
  obtain ⟨l0, lsp, llow⟩ := line_letter_facts letter hletter
  have hround := ParseSVGPathLoop_command bytes fuel dl symbol letter el path ws0 _ hdrop hws0
    l0 lsp
  have hdrop2 : bytes.drop (dl + ws0.length + 1)
      = numbersChars (pairGroups ps).flatten ++ (sep ++ t :: tl) := by
    have h1 := drop_append_length hdrop
    exact (drop_eq_cons h1).2
  have hlen : ∀ g ∈ pairGroups ps, g.length = 1 + 1 := by
    intro g hg
    simp only [pairGroups, List.mem_map] at hg
    obtain ⟨p, _, rfl⟩ := hg
    rfl
  have hgroups := ParseSVGPathGroups_groups bytes 1 (pathLineTo (isupper letter)) (pairGroups ps)
    (bytes.length + 1) (dl + ws0.length + 1) el path sep t tl hdrop2 hlen hww hsep ht
    (groups_length_lt bytes _ _ _ 1 hdrop2 hlen hww)
  have hcmd : ParseSVGPathCommand bytes (isupper letter) 108 symbol (dl + ws0.length + 1) el path
      = ParseSVGPathGroups bytes 2 (pathLineTo (isupper letter)) (bytes.length + 1)
          (dl + ws0.length + 1) el path := rfl
  rw [hround, llow, hcmd, hgroups]
  rfl

/-- The command letters `Z` and `z`. -/
theorem close_letter_facts : ∀ c : Byte, (c.val = 90 ∨ c.val = 122) →
    c.val ≠ 0 ∧ isspace c = false ∧ tolower c = 122 := by decide

/-- A byte `10xxxxxx` is not the terminator. -/
theorem continuation_ne_zero : ∀ b : Byte, notContinuation b = false → b ≠ 0 := by decide

/-- A string that ends at `T` also ends at `T` when read from a later position. -/
theorem TerminatedAt.mono {bytes : List Byte} {p q T : Nat} (h : TerminatedAt bytes p T)
    (hpq : p ≤ q) : TerminatedAt bytes q T :=
  ⟨h.1, fun i hi hT => h.2 i (by omega) hT⟩

/-- The loop of `NextUTF8Char` stops with an error at the terminator at the latest. -/
theorem NextUTF8CharLoop_terminated (bytes : List Byte) (p T : Nat)
    (hT : TerminatedAt bytes p T) :
    ∀ (r i : Nat) (ch : UTF8Char), p + i ≤ T →
      (∃ a b, NextUTF8CharLoop bytes p r i ch = .error (.EncodingError a b)) ∨
      (∃ ch1, NextUTF8CharLoop bytes p r i ch = .ok ch1 ∧ p + i + r ≤ T) := by
  intro r
  induction r with
  | zero => intro i ch hi; exact Or.inr ⟨ch, rfl, by omega⟩
  | succ r ih =>
    intro i ch hi
    have hlen : T < bytes.length := by
      by_contra hcon
      have := hT.1
      rw [List.getElem?_eq_none (by omega)] at this
      exact Option.noConfusion this
    have hbound : p + i < bytes.length := by omega
    obtain ⟨b, hget⟩ : ∃ b, bytes[p + i]? = some b :=
      ⟨bytes[p + i], List.getElem?_eq_getElem hbound⟩
    rw [NextUTF8CharLoop, hget]
    simp only
    by_cases hc : notContinuation b = true
    · rw [if_pos hc]
      exact Or.inl ⟨_, _, rfl⟩
    · rw [if_neg hc]
      have hne := continuation_ne_zero b (by simpa using hc)
      have hlt : p + i < T := by
        rcases Nat.lt_or_ge (p + i) T with h | h
        · exact h
        · have hEq : p + i = T := by omega
          have h0 := hT.1
          rw [← hEq, hget] at h0
          exact absurd (Option.some.inj h0) hne
      rcases ih (i + 1) _ (by omega) with h | ⟨ch1, h, hle⟩
      · exact Or.inl h
      · exact Or.inr ⟨ch1, h, by omega⟩

/-- Before the terminator `NextUTF8Char` raises `EncodingError` or moves forward, not beyond
the terminator. -/
theorem NextUTF8Char_terminated (bytes : List Byte) (p T : Nat) (hT : TerminatedAt bytes p T)
    (hp : p < T) :
    (∃ a b, NextUTF8Char bytes p = .error (.EncodingError a b)) ∨
    (∃ c q, NextUTF8Char bytes p = .ok (c, q) ∧ p < q ∧ q ≤ T) := by
  have hlen : T < bytes.length := by
    by_contra hcon
    have := hT.1
    rw [List.getElem?_eq_none (by omega)] at this
    exact Option.noConfusion this
  have hbound : p < bytes.length := by omega
  obtain ⟨b0, hget⟩ : ∃ b, bytes[p]? = some b := ⟨bytes[p], List.getElem?_eq_getElem hbound⟩
  rw [NextUTF8Char, hget]
  simp only
  by_cases h0 : CountSuccessiveLeftBits b0 = 0
  · rw [if_pos h0]
    exact Or.inr ⟨_, _, rfl, by omega, by omega⟩
  · rw [if_neg h0]
    rcases NextUTF8CharLoop_terminated bytes p T hT (CountSuccessiveLeftBits b0 - 1) 1
        (0xff &&& b0.val) (by omega) with ⟨a, b, h⟩ | ⟨ch1, h, hle⟩
    · rw [h]
      exact Or.inl ⟨a, b, rfl⟩
    · rw [h]
      exact Or.inr ⟨_, _, rfl, by omega, by omega⟩

/-- The loop of `CountCharsUTF8` without end pointer ends at the terminator. -/
theorem CountCharsUTF8Loop_terminated (bytes : List Byte) (T : Nat) :
    ∀ (fuel p n : Nat), TerminatedAt bytes p T → p ≤ T → T - p < fuel →
      (∃ m, CountCharsUTF8Loop bytes none fuel p n = .ok m) ∨
      (∃ a b, CountCharsUTF8Loop bytes none fuel p n = .error (.EncodingError a b)) := by
  intro fuel
  induction fuel with
  | zero => intro p n _ _ h; omega
  | succ fuel ih =>
    intro p n hT hp hfuel
    have hlen : T < bytes.length := by
      by_contra hcon
      have := hT.1
      rw [List.getElem?_eq_none (by omega)] at this
      exact Option.noConfusion this
    have hbound : p < bytes.length := by omega
    obtain ⟨b0, hget⟩ : ∃ b, bytes[p]? = some b := ⟨bytes[p], List.getElem?_eq_getElem hbound⟩
    rw [CountCharsUTF8Loop, hget]
    simp only
    by_cases h0 : b0.val = 0
    · rw [if_pos h0]
      exact Or.inl ⟨n, rfl⟩
    · rw [if_neg h0]
      have hlt : p < T := by
        rcases Nat.lt_or_ge p T with h | h
        · exact h
        · have hEq : p = T := by omega
          have hz := hT.1
          rw [← hEq, hget] at hz
          have := Option.some.inj hz
          rw [this] at h0
          exact absurd rfl h0
      rcases NextUTF8Char_terminated bytes p T hT hlt with ⟨a, b, h⟩ | ⟨c, q, h, hpq, hqT⟩
      · rw [h]
        exact Or.inr ⟨a, b, rfl⟩
      · rw [h]
        exact ih q (n + 1) (hT.mono (by omega)) hqT (by omega)

/-- The terminator lies inside the buffer. -/
theorem TerminatedAt.length_gt {bytes : List Byte} {p T : Nat} (h : TerminatedAt bytes p T) :
    T < bytes.length := by
  by_contra hcon
  have := h.1
  rw [List.getElem?_eq_none (by omega)] at this
  exact Option.noConfusion this

/-- Up to the terminator `NextUTF8Char` completes: at the terminator it returns 0, before
it a position that is not beyond the terminator. -/
theorem NextUTF8Char_completes (bytes : List Byte) (p T : Nat) (hT : TerminatedAt bytes p T)
    (hp : p ≤ T) :
    CompletesWith (NextUTF8Char bytes p)
      (fun r => (p = T ∧ r.1 = 0) ∨ (p < T ∧ r.2 ≤ T)) := by
  rcases Nat.lt_or_ge p T with hlt | hge
  · rcases NextUTF8Char_terminated bytes p T hT hlt with ⟨a, b, h⟩ | ⟨c, q, h, _, hq⟩
    · rw [h]; rfl
    · rw [h]; exact Or.inr ⟨hlt, hq⟩
  · have hEq : p = T := by omega
    subst hEq
    rw [NextUTF8Char_zero hT.1]
    exact Or.inl ⟨rfl, rfl⟩

/-- `AtStringEnding` passes on the error of `NextUTF8Char`. -/
theorem AtStringEnding_error {bytes : List Byte} {p : Nat} {e : Error}
    (h : NextUTF8Char bytes p = .error e) : AtStringEnding bytes p = .error e := by
  simp [AtStringEnding, h, bind, Except.bind]

/-- `AtLineEnding` passes on the error of `NextUTF8Char`. -/
theorem AtLineEnding_error {bytes : List Byte} {p : Nat} {e : Error}
    (h : NextUTF8Char bytes p = .error e) : AtLineEnding bytes p = .error e := by
  simp [AtLineEnding, h, bind, Except.bind]

/-- `SkipSpaces` completes and stays before the terminator. -/
theorem SkipSpacesLoop_completes (bytes : List Byte) (T : Nat) :
    ∀ (fuel p : Nat), TerminatedAt bytes p T → p ≤ T → T - p < fuel →
      CompletesWith (SkipSpacesLoop bytes fuel p) (fun q => q ≤ T) := by
  intro fuel
  induction fuel with
  | zero => intro p _ _ h; omega
  | succ fuel ih =>
    intro p hT hp hfuel
    have hc := NextUTF8Char_completes bytes p T hT hp
    cases hn : NextUTF8Char bytes p with
    | error e =>
      rw [hn] at hc
      simp only [SkipSpacesLoop, hn, bind, Except.bind]
      exact hc
    | ok r =>
      obtain ⟨c, q⟩ := r
      rw [hn] at hc
      have hlt := NextUTF8Char_lt hn
      simp only [SkipSpacesLoop, hn, bind, Except.bind, pure, Except.pure]
      by_cases hcond : (c == 0 || !IsSpace c) = true
      · rw [if_pos hcond]
        exact hp
      · rw [if_neg hcond]
        rcases hc with ⟨_, h0⟩ | ⟨hpT, hq⟩
        · simp only at h0
          rw [h0] at hcond
          simp at hcond
        · exact ih q (hT.mono (by omega)) hq (by omega)

/-- The second loop of `NextWordWidth` completes and stays before the terminator. -/
theorem NextWordWidthWord_completes (pFont : Font) (bytes : List Byte) (T : Nat)
    (hfont : ∀ c e, pFont.GetGlyphMetrics c = .error e → e.isException = true) :
    ∀ (fuel p : Nat) (w : ℚ) (cPrev : UTF8Char), TerminatedAt bytes p T → p ≤ T →
      T - p < fuel →
      CompletesWith (NextWordWidthWord pFont bytes fuel p w cPrev) (fun r => r.2 ≤ T) := by
  intro fuel
  induction fuel with
  | zero => intro p _ _ _ _ h; omega
  | succ fuel ih =>
    intro p w cPrev hT hp hfuel
    have hc := NextUTF8Char_completes bytes p T hT hp
    cases hn : NextUTF8Char bytes p with
    | error e =>
      rw [hn] at hc
      simp only [NextWordWidthWord, hn, bind, Except.bind]
      exact hc
    | ok r =>
      obtain ⟨c, q⟩ := r
      rw [hn] at hc
      have hlt := NextUTF8Char_lt hn
      simp only [NextWordWidthWord, hn, AtStringEnding_of_next hn, AtLineEnding_of_next hn, bind,
        Except.bind, pure, Except.pure]
      by_cases h0 : (c == 0) = true
      · rw [if_pos h0]
        exact hp
      · rw [if_neg h0]
        by_cases hb : (c == 10 || IsSpace c) = true
        · rw [if_pos hb]
          exact hp
        · rw [if_neg hb]
          cases hm : pFont.GetGlyphMetrics c with
          | error e => exact hfont c e hm
          | ok m =>
            rcases hc with ⟨_, hc0⟩ | ⟨hpT, hq⟩
            · simp only at hc0
              rw [hc0] at h0
              simp at h0
            · exact ih q _ c (hT.mono (by omega)) hq (by omega)

/-- The first loop of `NextWordWidth` completes and stays before the terminator. -/
theorem NextWordWidthSpaces_completes (pFont : Font) (bytes : List Byte) (T : Nat)
    (hfont : ∀ c e, pFont.GetGlyphMetrics c = .error e → e.isException = true) :
    ∀ (fuel p : Nat) (w : ℚ) (cPrev : UTF8Char), TerminatedAt bytes p T → p ≤ T →
      T - p < fuel →
      CompletesWith (NextWordWidthSpaces pFont bytes fuel p w cPrev) (fun r => r.2 ≤ T) := by
  intro fuel
  induction fuel with
  | zero => intro p _ _ _ _ h; omega
  | succ fuel ih =>
    intro p w cPrev hT hp hfuel
    have hc := NextUTF8Char_completes bytes p T hT hp
    cases hn : NextUTF8Char bytes p with
    | error e =>
      rw [hn] at hc
      simp only [NextWordWidthSpaces, hn, bind, Except.bind]
      exact hc
    | ok r =>
      obtain ⟨c, q⟩ := r
      rw [hn] at hc
      have hlt := NextUTF8Char_lt hn
      simp only [NextWordWidthSpaces, hn, AtStringEnding_of_next hn, AtLineEnding_of_next hn,
        bind, Except.bind, pure, Except.pure]
      by_cases h0 : (c == 0) = true
      · rw [if_pos h0]
        exact hp
      · rw [if_neg h0]
        by_cases hb : (c == 10) = true
        · rw [if_pos hb]
          exact hp
        · rw [if_neg hb]
          by_cases hs : (!IsSpace c) = true
          · rw [if_pos hs]
            exact NextWordWidthWord_completes pFont bytes T hfont (fuel + 1) p w cPrev hT hp
              (by omega)
          · rw [if_neg hs]
            cases hm : pFont.GetGlyphMetrics c with
            | error e => exact hfont c e hm
            | ok m =>
              rcases hc with ⟨_, hc0⟩ | ⟨hpT, hq⟩
              · simp only at hc0
                rw [hc0] at h0
                simp at h0
              · exact ih q _ c (hT.mono (by omega)) hq (by omega)

/-- A word that `NextWordWidth` measures ends after its start, unless the text or the line
ends at the start. -/
theorem NextWordWidthSpaces_progress (pFont : Font) (bytes : List Byte) (fuel p : Nat)
    (w : ℚ) (cPrev : UTF8Char) (w' : ℚ) (e : Nat)
    (h : NextWordWidthSpaces pFont bytes fuel p w cPrev = .ok (w', e)) :
    p < e ∨ ∃ c n, NextUTF8Char bytes p = .ok (c, n) ∧ (c = 0 ∨ c = 10) := by
  cases fuel with
  | zero => simp [NextWordWidthSpaces] at h
  | succ fuel =>
    cases hn : NextUTF8Char bytes p with
    | error err => simp [NextWordWidthSpaces, hn, bind, Except.bind] at h
    | ok r =>
      obtain ⟨c, q⟩ := r
      have hlt := NextUTF8Char_lt hn
      simp only [NextWordWidthSpaces, hn, AtStringEnding_of_next hn, AtLineEnding_of_next hn,
        bind, Except.bind, pure, Except.pure] at h
      by_cases h0 : (c == 0) = true
      · exact Or.inr ⟨c, q, rfl, Or.inl (by simpa using h0)⟩
      · rw [if_neg h0] at h
        by_cases hb : (c == 10) = true
        · exact Or.inr ⟨c, q, rfl, Or.inr (by simpa using hb)⟩
        · rw [if_neg hb] at h
          left
          by_cases hs : (!IsSpace c) = true
          · rw [if_pos hs] at h
            simp only [NextWordWidthWord, hn, AtStringEnding_of_next hn, AtLineEnding_of_next hn,
              bind, Except.bind, pure, Except.pure, if_neg h0] at h
            have hb2 : ¬ (c == 10 || IsSpace c) = true := by
              simp only [Bool.not_eq_true', Bool.not_eq_true] at hs hb
              simp [hs, hb]
            rw [if_neg hb2] at h
            cases hm : pFont.GetGlyphMetrics c with
            | error err => simp [hm] at h
            | ok m =>
              simp only [hm] at h
              have := (NextWordWidthWord_reach pFont bytes _ _ _ _ _ _ h).le
              omega
          · rw [if_neg hs] at h
            cases hm : pFont.GetGlyphMetrics c with
            | error err => simp [hm] at h
            | ok m =>
              simp only [hm] at h
              have := (NextWordWidthSpaces_reach pFont bytes _ _ _ _ _ _ h).le
              omega

/-- The loop of `NextLineWidth` completes and stays before the terminator. -/
theorem NextLineWidthLoop_completes (pFont : Font) (bytes : List Byte) (T : Nat)
    (maxLineWidth : ℚ)
    (hfont : ∀ c e, pFont.GetGlyphMetrics c = .error e → e.isException = true) :
    ∀ (fuel p : Nat) (lineWidth : ℚ), TerminatedAt bytes p T → p ≤ T → T - p < fuel →
      CompletesWith (NextLineWidthLoop pFont bytes maxLineWidth fuel p lineWidth)
        (fun r => r.2 ≤ T) := by
  intro fuel
  induction fuel with
  | zero => intro p _ _ _ h; omega
  | succ fuel ih =>
    intro p lw hT hp hfuel
    have hlen := hT.length_gt
    have hw := NextWordWidthSpaces_completes pFont bytes T hfont (bytes.length + 1) p 0 0 hT hp
      (by omega)
    cases hword : NextWordWidth pFont bytes p with
    | error e =>
      rw [NextWordWidth] at hword
      rw [hword] at hw
      simp only [NextLineWidthLoop, NextWordWidth, hword, bind, Except.bind]
      exact hw
    | ok r =>
      obtain ⟨ww, e⟩ := r
      have hprog := NextWordWidthSpaces_progress pFont bytes _ p 0 0 ww e hword
      have hge := (NextWordWidthSpaces_reach pFont bytes _ _ _ _ _ _ hword).le
      have hbrk := NextWordWidthSpaces_atBreak pFont bytes _ _ _ _ _ _ hword
      rw [NextWordWidth] at hword
      rw [hword] at hw
      have heT : e ≤ T := hw
      obtain ⟨c, n, hn, hcb⟩ := hbrk
      simp only [NextLineWidthLoop, NextWordWidth, hword, bind, Except.bind, pure, Except.pure,
        AtStringEnding_of_next hn, AtLineEnding_of_next hn, throw, throwThe,
        MonadExceptOf.throw]
      by_cases h1 : ww > maxLineWidth
      · rw [if_pos h1]
        rfl
      · rw [if_neg h1]
        by_cases h2 : lw + ww > maxLineWidth
        · rw [if_pos h2]
          exact hp
        · rw [if_neg h2]
          by_cases h0 : (c == 0) = true
          · rw [if_pos h0]
            exact heT
          · rw [if_neg h0]
            by_cases hb : (c == 10) = true
            · rw [if_pos hb]
              exact heT
            · rw [if_neg hb]
              have hpe : p < e := by
                rcases hprog with h | ⟨c', n', hn', hc'⟩
                · exact h
                · rcases Nat.lt_or_ge p e with h | h
                  · exact h
                  · have hEq : e = p := by omega
                    rw [hEq, hn'] at hn
                    simp only [Except.ok.injEq, Prod.mk.injEq] at hn
                    rw [← hn.1] at h0 hb
                    rcases hc' with h | h <;> rw [h] at h0 hb <;> simp at h0 hb
              exact ih e _ (hT.mono (by omega)) heT (by omega)

/-- The first word is always taken: with the running width 0 the loop of `NextLineWidth`
ends after its start, unless the text or the line ends where it ends. -/
theorem NextLineWidthLoop_progress (pFont : Font) (bytes : List Byte) (maxLineWidth : ℚ)
    (fuel p : Nat) (W : ℚ) (e : Nat)
    (h : NextLineWidthLoop pFont bytes maxLineWidth fuel p 0 = .ok (W, e)) :
    p < e ∨ ∃ c n, NextUTF8Char bytes e = .ok (c, n) ∧ (c = 0 ∨ c = 10) := by
  cases fuel with
  | zero => simp [NextLineWidthLoop] at h
  | succ fuel =>
    cases hword : NextWordWidth pFont bytes p with
    | error err => simp [NextLineWidthLoop, hword, bind, Except.bind] at h
    | ok r =>
      obtain ⟨ww, e1⟩ := r
      have hprog := NextWordWidthSpaces_progress pFont bytes _ p 0 0 ww e1 hword
      have hge := (NextWordWidthSpaces_reach pFont bytes _ _ _ _ _ _ hword).le
      obtain ⟨c, n, hn, hcb⟩ := NextWordWidthSpaces_atBreak pFont bytes _ _ _ _ _ _ hword
      simp only [NextLineWidthLoop, hword, bind, Except.bind, pure, Except.pure,
        AtStringEnding_of_next hn, AtLineEnding_of_next hn, throw, throwThe,
        MonadExceptOf.throw, zero_add] at h
      by_cases h1 : ww > maxLineWidth
      · rw [if_pos h1] at h
        simp at h
      · rw [if_neg h1, if_neg h1] at h
        by_cases h0 : (c == 0) = true
        · rw [if_pos h0] at h
          simp only [Except.ok.injEq, Prod.mk.injEq] at h
          rw [← h.2]
          exact Or.inr ⟨c, n, hn, Or.inl (by simpa using h0)⟩
        · rw [if_neg h0] at h
          by_cases hb : (c == 10) = true
          · rw [if_pos hb] at h
            simp only [Except.ok.injEq, Prod.mk.injEq] at h
            rw [← h.2]
            exact Or.inr ⟨c, n, hn, Or.inr (by simpa using hb)⟩
          · rw [if_neg hb] at h
            left
            have hpe : p < e1 := by
              rcases hprog with h' | ⟨c', n', hn', hc'⟩
              · exact h'
              · rcases Nat.lt_or_ge p e1 with h' | h'
                · exact h'
                · have hEq : e1 = p := by omega
                  rw [hEq, hn'] at hn
                  simp only [Except.ok.injEq, Prod.mk.injEq] at hn
                  rw [← hn.1] at h0 hb
                  rcases hc' with h'' | h'' <;> rw [h''] at h0 hb <;> simp at h0 hb
            have := (NextLineWidthLoop_reach pFont bytes maxLineWidth _ _ _ _ _ h).le
            omega

/-- `NextLineWidth` completes; the line ends before the terminator and after its start,
unless the text or the line ends where it ends. -/
theorem NextLineWidth_completes (pFont : Font) (bytes : List Byte) (T : Nat)
    (maxLineWidth : ℚ)
    (hfont : ∀ c e, pFont.GetGlyphMetrics c = .error e → e.isException = true)
    (text : Nat) (hT : TerminatedAt bytes text T) (hp : text ≤ T) :
    CompletesWith (NextLineWidth pFont bytes text maxLineWidth)
      (fun r => r.2 ≤ T ∧ ∃ c n, NextUTF8Char bytes r.2 = .ok (c, n) ∧
        (c = 0 ∨ c = 10 ∨ ((c = 32 ∨ c = 9) ∧ text < r.2))) := by
  have hlen := hT.length_gt
  have hs := SkipSpacesLoop_completes bytes T (bytes.length + 1) text hT hp (by omega)
  cases hskip : SkipSpaces bytes text with
  | error e =>
    rw [SkipSpaces] at hskip
    rw [hskip] at hs
    simp only [NextLineWidth, SkipSpaces, hskip, bind, Except.bind]
    exact hs
  | ok p0 =>
    have hge := (SkipSpacesLoop_reach bytes _ _ _ hskip).le
    rw [SkipSpaces] at hskip
    rw [hskip] at hs
    have hp0 : p0 ≤ T := hs
    have hl := NextLineWidthLoop_completes pFont bytes T maxLineWidth hfont (bytes.length + 1) p0
      0 (hT.mono hge) hp0 (by omega)
    simp only [NextLineWidth, SkipSpaces, hskip, bind, Except.bind]
    cases hloop : NextLineWidthLoop pFont bytes maxLineWidth (bytes.length + 1) p0 0 with
    | error e =>
      rw [hloop] at hl
      exact hl
    | ok r =>
      obtain ⟨W, e⟩ := r
      rw [hloop] at hl
      have heT : e ≤ T := hl
      obtain ⟨c, n, hn, hcb⟩ := NextLineWidthLoop_atBreak pFont bytes maxLineWidth _ _ _ _ _
        (Or.inr rfl) hloop
      refine ⟨heT, c, n, hn, ?_⟩
      rcases hcb with h | h | h | h
      · exact Or.inl h
      · exact Or.inr (Or.inl h)
      · refine Or.inr (Or.inr ⟨Or.inl h, ?_⟩)
        rcases NextLineWidthLoop_progress pFont bytes maxLineWidth _ _ _ _ hloop with
          hlt | ⟨c', n', hn', hc'⟩
        · omega
        · rw [hn'] at hn
          simp only [Except.ok.injEq, Prod.mk.injEq] at hn
          rw [hn.1, h] at hc'
          simp at hc'
      · refine Or.inr (Or.inr ⟨Or.inr h, ?_⟩)
        rcases NextLineWidthLoop_progress pFont bytes maxLineWidth _ _ _ _ hloop with
          hlt | ⟨c', n', hn', hc'⟩
        · omega
        · rw [hn'] at hn
          simp only [Except.ok.injEq, Prod.mk.injEq] at hn
          rw [hn.1, h] at hc'
          simp at hc'

/-- One round of the loop of `CountLines`: it ends the loop, raises, or goes on from a
position that lies after its start and not beyond the terminator. -/
theorem CountLinesLoop_round (pFont : Font) (bytes : List Byte) (T : Nat)
    (params : TextParams)
    (hfont : ∀ c e, pFont.GetGlyphMetrics c = .error e → e.isException = true)
    (fuel p count : Nat) (hT : TerminatedAt bytes p T) (hp : p ≤ T) :
    (∃ n, CountLinesLoop pFont bytes params (fuel + 1) p count = .ok n) ∨
    (∃ e, CountLinesLoop pFont bytes params (fuel + 1) p count = .error e ∧
      e.isException = true) ∨
    (∃ p1, p < p1 ∧ p1 ≤ T ∧
      CountLinesLoop pFont bytes params (fuel + 1) p count
        = CountLinesLoop pFont bytes params fuel p1 (count + 1)) := by
  have hc := NextUTF8Char_completes bytes p T hT hp
  cases hn : NextUTF8Char bytes p with
  | error e =>
    rw [hn] at hc
    refine Or.inr (Or.inl ⟨e, ?_, hc⟩)
    simp only [CountLinesLoop, AtStringEnding_error hn, bind, Except.bind]
  | ok r =>
    obtain ⟨c, q⟩ := r
    by_cases h0 : (c == 0) = true
    · refine Or.inl ⟨count, ?_⟩
      simp only [CountLinesLoop, AtStringEnding_of_next hn, bind, Except.bind, pure, Except.pure,
        h0, if_true]
    · have hl := NextLineWidth_completes pFont bytes T params.maxWidth hfont p hT hp
      cases hline : NextLineWidth pFont bytes p params.maxWidth with
      | error e =>
        rw [hline] at hl
        refine Or.inr (Or.inl ⟨e, ?_, hl⟩)
        simp only [CountLinesLoop, AtStringEnding_of_next hn, bind, Except.bind, pure,
          Except.pure, h0, hline]
        rfl
      | ok r =>
        obtain ⟨W, next⟩ := r
        rw [hline] at hl
        obtain ⟨hnT, c1, n1, hn1, hcase⟩ := hl
        have hge : p ≤ next := by
          obtain ⟨p0, _, h1, h2⟩ := NextLineWidth_reach hline
          exact Nat.le_trans h1.le h2.le
        have hlt1 := NextUTF8Char_lt hn1
        have hc1 := NextUTF8Char_completes bytes next T (hT.mono hge) hnT
        rw [hn1] at hc1
        simp only [CountLinesLoop, AtStringEnding_of_next hn, bind, Except.bind, pure,
          Except.pure, h0, hline, AtStringEnding_of_next hn1, AtLineEnding_of_next hn1]
        by_cases h10 : (c1 == 0) = true
        · refine Or.inl ⟨count + 1, ?_⟩
          simp [h10]
        · have hn1T : n1 ≤ T := by
            rcases hc1 with ⟨_, hz⟩ | ⟨_, hq⟩
            · simp only at hz
              rw [hz] at h10
              simp at h10
            · exact hq
          refine Or.inr (Or.inr ⟨if (c1 == 10) = true then n1 else next, ?_, ?_, ?_⟩)
          · by_cases hb : (c1 == 10) = true
            · rw [if_pos hb]; omega
            · rw [if_neg hb]
              rcases hcase with h | h | ⟨_, h⟩
              · rw [h] at h10; simp at h10
              · rw [h] at hb; simp at hb
              · exact h
          · by_cases hb : (c1 == 10) = true
            · rw [if_pos hb]; exact hn1T
            · rw [if_neg hb]; exact hnT
          · simp [h10]

/-- The loop of `CountLines` completes. -/
theorem CountLinesLoop_completes (pFont : Font) (bytes : List Byte) (T : Nat)
    (params : TextParams)
    (hfont : ∀ c e, pFont.GetGlyphMetrics c = .error e → e.isException = true) :
    ∀ (fuel p count : Nat), TerminatedAt bytes p T → p ≤ T → T - p < fuel →
      CompletesWith (CountLinesLoop pFont bytes params fuel p count) (fun _ => True) := by
  intro fuel
  induction fuel with
  | zero => intro p _ _ _ h; omega
  | succ fuel ih =>
    intro p count hT hp hfuel
    rcases CountLinesLoop_round pFont bytes T params hfont fuel p count hT hp with
      ⟨n, h⟩ | ⟨e, h, he⟩ | ⟨p1, hlt, hle, h⟩
    · rw [h]; trivial
    · rw [h]; exact he
    · rw [h]
      exact ih p1 (count + 1) (hT.mono (by omega)) hle (by omega)

/-! ## Lemmas on the ends of lines -/

/-- The last character of two lists written one after the other. -/
theorem lastOr_append (a : UTF8Char) (xs ys : List UTF8Char) :
    lastOr a (xs ++ ys) = lastOr (lastOr a xs) ys := by
  induction xs generalizing a with
  | nil => rfl
  | cons x xs ih => simp [lastOr, ih]

/-- The last character of a list that is not empty does not depend on the default. -/
theorem lastOr_of_ne_nil (a b : UTF8Char) (xs : List UTF8Char) (h : xs ≠ []) :
    lastOr a xs = lastOr b xs := by
  cases xs with
  | nil => exact absurd rfl h
  | cons x xs => rfl

/-- The last character of a list that is not empty is one of its characters. -/
theorem lastOr_mem (a : UTF8Char) (xs : List UTF8Char) (h : xs ≠ []) : lastOr a xs ∈ xs := by
  induction xs generalizing a with
  | nil => exact absurd rfl h
  | cons x xs ih =>
    cases xs with
    | nil => simp [lastOr]
    | cons y ys =>
      have := ih x (by simp)
      simp only [lastOr] at this ⊢
      exact List.mem_cons_of_mem _ this

/-- The width added for `xs ++ ys` is the width added for `xs` plus the width added for `ys`
after the last character of `xs`. -/
theorem chainWidth_append (pFont : Font) (a : UTF8Char) (xs ys : List UTF8Char) :
    chainWidth pFont a (xs ++ ys) = chainWidth pFont a xs + chainWidth pFont (lastOr a xs) ys := by
  induction xs generalizing a with
  | nil => simp [chainWidth, lastOr]
  | cons x xs ih =>
    simp only [List.cons_append, chainWidth, lastOr, List.append_eq, ih]
    ring

/-- The second loop of `NextWordWidth`, when it returns, has read characters of a word and
has added their advances and the kerning between them. -/
theorem NextWordWidthWord_width (pFont : Font) (bytes : List Byte) :
    ∀ (fuel p : Nat) (w : ℚ) (cPrev : UTF8Char) (w1 : ℚ) (e : Nat),
      NextWordWidthWord pFont bytes fuel p w cPrev = .ok (w1, e) →
      ∃ cs, DecodeChars bytes cs.length p = .ok (cs, e) ∧ (∀ c ∈ cs, isWordChar c = true) ∧
        w1 = w + chainWidth pFont cPrev cs := by
  intro fuel
  induction fuel with
  | zero => intro p w cPrev w1 e h; simp [NextWordWidthWord] at h
  | succ fuel ih =>
    intro p w cPrev w1 e h
    cases hn : NextUTF8Char bytes p with
    | error err => simp [NextWordWidthWord, hn, bind, Except.bind] at h
    | ok r =>
      obtain ⟨c, q⟩ := r
      simp only [NextWordWidthWord, hn, AtStringEnding_of_next hn, AtLineEnding_of_next hn, bind,
        Except.bind, pure, Except.pure] at h
      by_cases h0 : (c == 0) = true
      · rw [if_pos h0] at h
        simp only [Except.ok.injEq, Prod.mk.injEq] at h
        exact ⟨[], by simp [DecodeChars, h.2], by simp, by simp [chainWidth, h.1]⟩
      · rw [if_neg h0] at h
        by_cases hb : (c == 10 || IsSpace c) = true
        · rw [if_pos hb] at h
          simp only [Except.ok.injEq, Prod.mk.injEq] at h
          exact ⟨[], by simp [DecodeChars, h.2], by simp, by simp [chainWidth, h.1]⟩
        · rw [if_neg hb] at h
          cases hm : pFont.GetGlyphMetrics c with
          | error err => simp [hm] at h
          | ok m =>
            simp only [hm] at h
            obtain ⟨cs, hdec, hword, hw⟩ := ih _ _ _ _ _ h
            have hcw : isWordChar c = true := by
              simp only [Bool.or_eq_true, not_or, Bool.not_eq_true, IsSpace] at hb
              simp only [Bool.not_eq_true] at h0
              simp only [isWordChar, Bool.and_eq_true, bne_iff_ne, ne_eq]
              simp only [beq_eq_false_iff_ne, ne_eq, Bool.or_eq_false_iff] at hb h0
              exact ⟨⟨⟨h0, hb.1⟩, hb.2.1⟩, hb.2.2⟩
            refine ⟨c :: cs, DecodeChars_step hn hdec, ?_, ?_⟩
            · intro x hx
              rcases List.mem_cons.mp hx with h1 | h1
              · rw [h1]; exact hcw
              · exact hword x h1
            · rw [hw, chainWidth, advanceOf_eq hm]
              split_ifs <;> ring

/-- The first loop of `NextWordWidth`, when it returns, has read spaces `ss` and then the
characters `cs` of a word.  Without a word the text or the line ends there and the width
is 0; otherwise the width is the one added for `ss ++ cs`. -/
theorem NextWordWidthSpaces_width (pFont : Font) (bytes : List Byte) :
    ∀ (fuel p : Nat) (w : ℚ) (cPrev : UTF8Char) (w1 : ℚ) (e : Nat),
      NextWordWidthSpaces pFont bytes fuel p w cPrev = .ok (w1, e) →
      ∃ ss cs, DecodeChars bytes (ss ++ cs).length p = .ok (ss ++ cs, e) ∧
        (∀ s ∈ ss, IsSpace s = true) ∧ (∀ c ∈ cs, isWordChar c = true) ∧
        ((cs = [] ∧ w1 = 0 ∧ ∃ c n, NextUTF8Char bytes e = .ok (c, n) ∧ (c = 0 ∨ c = 10)) ∨
          (cs ≠ [] ∧ w1 = w + chainWidth pFont cPrev (ss ++ cs))) := by
  intro fuel
  induction fuel with
  | zero => intro p w cPrev w1 e h; simp [NextWordWidthSpaces] at h
  | succ fuel ih =>
    intro p w cPrev w1 e h
    cases hn : NextUTF8Char bytes p with
    | error err => simp [NextWordWidthSpaces, hn, bind, Except.bind] at h
    | ok r =>
      obtain ⟨c, q⟩ := r
      simp only [NextWordWidthSpaces, hn, AtStringEnding_of_next hn, AtLineEnding_of_next hn,
        bind, Except.bind, pure, Except.pure] at h
      by_cases h0 : (c == 0) = true
      · rw [if_pos h0] at h
        simp only [Except.ok.injEq, Prod.mk.injEq] at h
        refine ⟨[], [], by simp [DecodeChars, h.2], by simp, by simp, Or.inl ⟨rfl, h.1.symm, ?_⟩⟩
        rw [← h.2]
        exact ⟨c, q, hn, Or.inl (by simpa using h0)⟩
      · rw [if_neg h0] at h
        by_cases hb : (c == 10) = true
        · rw [if_pos hb] at h
          simp only [Except.ok.injEq, Prod.mk.injEq] at h
          refine ⟨[], [], by simp [DecodeChars, h.2], by simp, by simp,
            Or.inl ⟨rfl, h.1.symm, ?_⟩⟩
          rw [← h.2]
          exact ⟨c, q, hn, Or.inr (by simpa using hb)⟩
        · rw [if_neg hb] at h
          by_cases hs : (!IsSpace c) = true
          · rw [if_pos hs] at h
            simp only [NextWordWidthWord, hn, AtStringEnding_of_next hn, AtLineEnding_of_next hn,
              bind, Except.bind, pure, Except.pure, if_neg h0] at h
            have hb2 : ¬ (c == 10 || IsSpace c) = true := by
              simp only [Bool.not_eq_true', Bool.not_eq_true] at hs hb
              simp [hs, hb]
            rw [if_neg hb2] at h
            cases hm : pFont.GetGlyphMetrics c with
            | error err => simp [hm] at h
            | ok m =>
              simp only [hm] at h
              obtain ⟨cs, hdec, hword, hw⟩ := NextWordWidthWord_width pFont bytes _ _ _ _ _ _ h
              have hcw : isWordChar c = true := by
                simp only [Bool.not_eq_true', IsSpace, Bool.or_eq_false_iff] at hs
                simp only [Bool.not_eq_true] at h0 hb
                simp only [isWordChar, Bool.and_eq_true, bne_iff_ne, ne_eq]
                simp only [beq_eq_false_iff_ne, ne_eq] at hs hb h0
                exact ⟨⟨⟨h0, hb⟩, hs.1⟩, hs.2⟩
              refine ⟨[], c :: cs, DecodeChars_step hn hdec, by simp, ?_, Or.inr ⟨by simp, ?_⟩⟩
              · intro x hx
                rcases List.mem_cons.mp hx with h1 | h1
                · rw [h1]; exact hcw
                · exact hword x h1
              · rw [hw, List.nil_append, chainWidth, advanceOf_eq hm]
                split_ifs <;> ring
          · rw [if_neg hs] at h
            cases hm : pFont.GetGlyphMetrics c with
            | error err => simp [hm] at h
            | ok m =>
              simp only [hm] at h
              obtain ⟨ss, cs, hdec, hsp, hword, hcase⟩ := ih _ _ _ _ _ h
              have hcs : IsSpace c = true := by simpa using hs
              refine ⟨c :: ss, cs, DecodeChars_step hn hdec, ?_, hword, ?_⟩
              · intro x hx
                rcases List.mem_cons.mp hx with h1 | h1
                · rw [h1]; exact hcs
                · exact hsp x h1
              · rcases hcase with ⟨h1, h2, h3⟩ | ⟨h1, h2⟩
                · exact Or.inl ⟨h1, h2, h3⟩
                · refine Or.inr ⟨h1, ?_⟩
                  rw [h2, List.cons_append, chainWidth, advanceOf_eq hm]
                  split_ifs <;> ring

/-- The first character that `DecodeChars` returns is the character at the start. -/
theorem DecodeChars_head {bytes : List Byte} {p e : Nat} {c c1 : UTF8Char} {cs : List UTF8Char}
    {n : Nat} (hdec : DecodeChars bytes (c :: cs).length p = .ok (c :: cs, e))
    (hn : NextUTF8Char bytes p = .ok (c1, n)) : c = c1 := by
  obtain ⟨n0, hn0, _⟩ := DecodeChars_cons hdec
  rw [hn] at hn0
  simp only [Except.ok.injEq, Prod.mk.injEq] at hn0
  exact hn0.1.symm

/-- A word measured after a space costs the same after any character that is no space, when
there is no kerning between such a character and a space. -/
theorem chainWidth_after_word (pFont : Font) (a s : UTF8Char) (rest : List UTF8Char)
    (hkern : ∀ a s, IsSpace a = false → IsSpace s = true →
      GetKernValue pFont.GetHorizontalKernTable a s = 0)
    (ha : IsSpace a = false) (hs : IsSpace s = true) :
    chainWidth pFont a (s :: rest) = chainWidth pFont 0 (s :: rest) := by
  simp only [chainWidth, hkern a s ha hs]
  simp

/-- The loop of `NextLineWidth`, when it returns, has read characters `cs` and then spaces
`ss` that it has not measured; the width it returns is the running width plus the width of
`cs`, kerning between neighbours included, when there is no kerning between a character that
is no space and a space after it. -/
theorem NextLineWidthLoop_width (pFont : Font) (bytes : List Byte) (maxLineWidth : ℚ)
    (hkern : ∀ a s, IsSpace a = false → IsSpace s = true →
      GetKernValue pFont.GetHorizontalKernTable a s = 0) :
    ∀ (fuel p : Nat) (lineWidth W : ℚ) (e : Nat) (pre : List UTF8Char),
      (pre = [] ∨ (IsSpace (lastOr 0 pre) = false ∧
        ∃ c n, NextUTF8Char bytes p = .ok (c, n) ∧ IsSpace c = true)) →
      lineWidth = chainWidth pFont 0 pre →
      NextLineWidthLoop pFont bytes maxLineWidth fuel p lineWidth = .ok (W, e) →
      ∃ cs ss, DecodeChars bytes (cs ++ ss).length p = .ok (cs ++ ss, e) ∧
        (∀ s ∈ ss, IsSpace s = true) ∧ (cs ≠ [] → IsSpace (lastOr 0 cs) = false) ∧
        W = chainWidth pFont 0 (pre ++ cs) := by
  intro fuel
  induction fuel with
  | zero => intro p lw W e pre _ _ h; simp [NextLineWidthLoop] at h
  | succ fuel ih =>
    intro p lw W e pre hpre hlw h
    cases hword : NextWordWidth pFont bytes p with
    | error err => simp [NextLineWidthLoop, hword, bind, Except.bind] at h
    | ok r =>
      obtain ⟨ww, e1⟩ := r
      obtain ⟨ss1, cs1, hdec1, hsp1, hword1, hcase⟩ :=
        NextWordWidthSpaces_width pFont bytes _ _ _ _ _ _ hword
      obtain ⟨c, n, hn, hcb⟩ := NextWordWidthSpaces_atBreak pFont bytes _ _ _ _ _ _ hword
      simp only [NextLineWidthLoop, hword, bind, Except.bind, pure, Except.pure,
        AtStringEnding_of_next hn, AtLineEnding_of_next hn, throw, throwThe,
        MonadExceptOf.throw] at h
      by_cases h1 : ww > maxLineWidth
      · rw [if_pos h1] at h
        simp at h
      · rw [if_neg h1] at h
        by_cases h2 : lw + ww > maxLineWidth
        · rw [if_pos h2] at h
          simp only [Except.ok.injEq, Prod.mk.injEq] at h
          exact ⟨[], [], by simp [DecodeChars, h.2], by simp, by simp, by simp [← h.1, hlw]⟩
        · rw [if_neg h2] at h
          -- the width of the run that was measured, as a part of the line
          have hrun : cs1 ≠ [] → ww = chainWidth pFont (lastOr 0 pre) (ss1 ++ cs1) ∧
              IsSpace (lastOr 0 (ss1 ++ cs1)) = false := by
            intro hne
            rcases hcase with ⟨hnil, _⟩ | ⟨_, hww⟩
            · exact absurd hnil hne
            · have hlast : IsSpace (lastOr 0 (ss1 ++ cs1)) = false := by
                rw [lastOr_append, lastOr_of_ne_nil _ 0 cs1 hne]
                exact (isWordChar_facts (hword1 _ (lastOr_mem 0 cs1 hne))).2.2.1
              refine ⟨?_, hlast⟩
              rw [hww, zero_add]
              rcases hpre with hnil | ⟨hlp, c0, n0, hn0, hc0⟩
              · rw [hnil]; rfl
              · cases hss : ss1 ++ cs1 with
                | nil =>
                  simp only [List.append_eq_nil] at hss
                  exact absurd hss.2 hne
                | cons s rest =>
                  rw [hss] at hdec1
                  have := DecodeChars_head hdec1 hn0
                  rw [this]
                  exact (chainWidth_after_word pFont _ c0 rest hkern hlp hc0).symm
          by_cases h0 : (c == 0) = true
          · rw [if_pos h0] at h
            simp only [Except.ok.injEq, Prod.mk.injEq] at h
            obtain ⟨hW, he⟩ := h
            subst he
            by_cases hne : cs1 = []
            · rcases hcase with ⟨_, hww, _⟩ | ⟨hne', _⟩
              · subst hne
                refine ⟨[], ss1, by simpa using hdec1, hsp1, by simp, ?_⟩
                rw [← hW, hww, hlw]
                simp
              · exact absurd hne hne'
            · obtain ⟨hww, hlast⟩ := hrun hne
              refine ⟨ss1 ++ cs1, [], by simpa using hdec1, by simp, fun _ => hlast, ?_⟩
              rw [← hW, hww, hlw]
              exact (chainWidth_append pFont 0 pre (ss1 ++ cs1)).symm
          · rw [if_neg h0] at h
            by_cases hb : (c == 10) = true
            · rw [if_pos hb] at h
              simp only [Except.ok.injEq, Prod.mk.injEq] at h
              obtain ⟨hW, he⟩ := h
              subst he
              by_cases hne : cs1 = []
              · rcases hcase with ⟨_, hww, _⟩ | ⟨hne', _⟩
                · subst hne
                  refine ⟨[], ss1, by simpa using hdec1, hsp1, by simp, ?_⟩
                  rw [← hW, hww, hlw]
                  simp
                · exact absurd hne hne'
              · obtain ⟨hww, hlast⟩ := hrun hne
                refine ⟨ss1 ++ cs1, [], by simpa using hdec1, by simp, fun _ => hlast, ?_⟩
                rw [← hW, hww, hlw]
                exact (chainWidth_append pFont 0 pre (ss1 ++ cs1)).symm
            · rw [if_neg hb] at h
              have hc0 : c ≠ 0 := by simpa using h0
              have hc10 : c ≠ 10 := by simpa using hb
              have hcsp : IsSpace c = true := by
                rw [IsSpace_iff]
                rcases hcb with h' | h' | h' | h'
                · exact absurd h' hc0
                · exact absurd h' hc10
                · exact Or.inl h'
                · exact Or.inr h'
              have hne : cs1 ≠ [] := by
                intro hnil
                rcases hcase with ⟨_, _, c', n', hn', hc'⟩ | ⟨hne', _⟩
                · rw [hn] at hn'
                  simp only [Except.ok.injEq, Prod.mk.injEq] at hn'
                  rw [← hn'.1] at hc'
                  rcases hc' with h' | h'
                  · exact hc0 h'
                  · exact hc10 h'
                · exact hne' hnil
              obtain ⟨hww, hlast⟩ := hrun hne
              have hlast' : IsSpace (lastOr 0 (pre ++ (ss1 ++ cs1))) = false := by
                rw [lastOr_append, lastOr_of_ne_nil _ 0 (ss1 ++ cs1) (by simp [hne])]
                exact hlast
              obtain ⟨cs2, ss2, hdec2, hsp2, hlast2, hW⟩ := ih e1 (lw + ww) W e
                (pre ++ (ss1 ++ cs1)) (Or.inr ⟨hlast', c, n, hn, hcsp⟩)
                (by rw [hww, hlw]; exact (chainWidth_append pFont 0 pre (ss1 ++ cs1)).symm) h
              refine ⟨(ss1 ++ cs1) ++ cs2, ss2, ?_, hsp2, ?_, ?_⟩
              · rw [List.append_assoc]
                exact DecodeChars_append (ss1 ++ cs1) hdec1 hdec2
              · intro _
                rw [lastOr_append]
                by_cases hcs2 : cs2 = []
                · rw [hcs2]
                  exact hlast
                · rw [lastOr_of_ne_nil _ 0 cs2 hcs2]
                  exact hlast2 hcs2
              · rw [hW, List.append_assoc]

/-- `NextLineWidth`, when it returns, has skipped spaces and then read characters `cs` and
spaces `ss` that it has not measured: the width is the one that the characters `cs` take,
kerning between neighbours included, when there is no kerning between a character that is no
space and a space after it. -/
theorem NextLineWidth_width (pFont : Font) (bytes : List Byte) (maxLineWidth : ℚ)
    (hkern : ∀ a s, IsSpace a = false → IsSpace s = true →
      GetKernValue pFont.GetHorizontalKernTable a s = 0)
    (text : Nat) (W : ℚ) (e : Nat)
    (h : NextLineWidth pFont bytes text maxLineWidth = .ok (W, e)) :
    ∃ p0 cs ss, SkipSpaces bytes text = .ok p0 ∧
      DecodeChars bytes (cs ++ ss).length p0 = .ok (cs ++ ss, e) ∧
      (∀ s ∈ ss, IsSpace s = true) ∧ (cs ≠ [] → IsSpace (lastOr 0 cs) = false) ∧
      W = chainWidth pFont 0 cs := by
  cases hskip : SkipSpaces bytes text with
  | error err => simp [NextLineWidth, hskip, bind, Except.bind] at h
  | ok p0 =>
    simp only [NextLineWidth, hskip, bind, Except.bind] at h
    obtain ⟨cs, ss, hdec, hsp, hlast, hW⟩ := NextLineWidthLoop_width pFont bytes maxLineWidth
      hkern _ p0 0 W e [] (Or.inl rfl) (by simp [chainWidth]) h
    exact ⟨p0, cs, ss, rfl, hdec, hsp, hlast, by simpa using hW⟩

/-- One round of the glyph loop of `IterateText`: the pen position after the glyph. -/
theorem glyphStep_advance {pFont : GLTextureFont} {bytes : List Byte} {text : Nat} {y : ℚ}
    {p : Nat} {x0 : ℚ} {cPrev c : UTF8Char} {next : Nat} {x1 : ℚ} {ev : Event}
    (heq : (do
        let (c, next) ← NextUTF8Char bytes p
        let x := if cPrev != 0 then x0 + GetKernValue pFont.mHorizontalKernTable cPrev c else x0
        let quad ← SetGlyphQuad pFont c x y
        let g ← pFont.GetGlyph c
        let x := x + g.mMetrics.advanceX
        let startPosition ← CountCharsUTF8 bytes text (some p)
        let endPosition ← CountCharsUTF8 bytes text (some next)
        let glyphSelection := SetTextSelection pFont.mMetrics startPosition endPosition x0 x y
        return (c, next, x, Event.OnGlyph c quad glyphSelection) :
          Except Error (UTF8Char × Nat × ℚ × Event)) = .ok (c, next, x1, ev)) :
    ∃ quad s e, NextUTF8Char bytes p = .ok (c, next) ∧
      x1 = x0 + ((if cPrev != 0 then GetKernValue pFont.toFont.GetHorizontalKernTable cPrev c
        else 0) + advanceOf pFont.toFont c) ∧
      ev = .OnGlyph c quad (SetTextSelection pFont.mMetrics s e x0 x1 y) := by
  cases hn : NextUTF8Char bytes p with
  | error err => simp [hn, bind, Except.bind] at heq
  | ok r =>
    obtain ⟨c0, n0⟩ := r
    simp only [hn, bind, Except.bind] at heq
    cases hq : SetGlyphQuad pFont c0
        (if cPrev != 0 then x0 + GetKernValue pFont.mHorizontalKernTable cPrev c0 else x0) y with
    | error err => simp only [hq, reduceCtorEq] at heq
    | ok quad =>
      simp only [hq] at heq
      cases hg : pFont.GetGlyph c0 with
      | error err => simp only [hg, reduceCtorEq] at heq
      | ok g =>
        simp only [hg] at heq
        cases hs : CountCharsUTF8 bytes text (some p) with
        | error err => simp only [hs, reduceCtorEq] at heq
        | ok s =>
          simp only [hs] at heq
          cases he : CountCharsUTF8 bytes text (some n0) with
          | error err => simp only [he, reduceCtorEq] at heq
          | ok e =>
            simp only [he, pure, Except.pure, Except.ok.injEq, Prod.mk.injEq] at heq
            obtain ⟨h1, h2, h3, h4⟩ := heq
            subst h1 h2 h3
            have hadv : advanceOf pFont.toFont c0 = g.mMetrics.advanceX := by
              simp [advanceOf, GLTextureFont.toFont, GLTextureFont.GetGlyphMetrics, hg, bind,
                Except.bind, pure, Except.pure]
            refine ⟨quad, s, e, rfl, ?_, h4.symm⟩
            rw [hadv]
            simp only [GLTextureFont.toFont]
            split_ifs <;> ring

/-- The glyph loop over the characters `cs` between `p` and `pLineEnd`, when it succeeds:
the last glyph ends at the pen position plus the width that `cs` takes. -/
theorem IterateTextGlyphs_meets (pFont : GLTextureFont) (bytes : List Byte) (text : Nat)
    (y : ℚ) (pLineEnd : Nat) :
    ∀ (fuel : Nat) (cs : List UTF8Char) (p : Nat) (x : ℚ) (cPrev : UTF8Char)
      (out out1 : List Event) (p1 : Nat),
      DecodeChars bytes cs.length p = .ok (cs, pLineEnd) →
      IterateTextGlyphs pFont bytes text y pLineEnd fuel p x cPrev out = (out1, .ok p1) →
      ∃ gs, out1 = out ++ gs ∧ (cs = [] → gs = []) ∧
        (cs ≠ [] → ∀ more, startsNewLine (gs ++ more) = false) ∧
        ∀ (E : ℚ) (more : List Event), startsNewLine more = true →
          (∀ L, lastGlyphsMeetLineEnd L more) →
          (cs ≠ [] → IsSpace (lastOr 0 cs) = false →
            E = x + chainWidth pFont.toFont cPrev cs) →
          lastGlyphsMeetLineEnd (some E) (gs ++ more) := by
  intro fuel
  induction fuel with
  | zero => intro cs p x cPrev out out1 p1 _ h; simp [IterateTextGlyphs] at h
  | succ fuel ih =>
    intro cs p x cPrev out out1 p1 hdec h
    simp only [IterateTextGlyphs] at h
    have hle := (DecodeChars_length hdec).2
    by_cases hlt : p < pLineEnd
    · simp only [hlt, if_true] at h
      split at h
      · simp at h
      · rename_i c next x1 ev heq
        obtain ⟨quad, s, e, hn, hx1, hev⟩ := glyphStep_advance heq
        cases cs with
        | nil =>
          simp only [List.length_nil, DecodeChars, Except.ok.injEq, Prod.mk.injEq,
            true_and] at hdec
          omega
        | cons c0 cs =>
          obtain ⟨n0, hn0, hrest⟩ := DecodeChars_cons hdec
          rw [hn] at hn0
          simp only [Except.ok.injEq, Prod.mk.injEq] at hn0
          obtain ⟨rfl, rfl⟩ := hn0
          obtain ⟨gs, hgs, hnil, hglyph, hmeet⟩ := ih cs next x1 c _ _ _ hrest h
          refine ⟨ev :: gs, by rw [hgs]; simp, by simp, ?_, ?_⟩
          · intro _ more
            rw [hev]
            rfl
          · intro E more hmore hall hE
            rw [hev, List.cons_append]
            refine ⟨?_, ?_⟩
            · intro ⟨hnew, hsp⟩
              by_cases hcs : cs = []
              · subst hcs
                have := hE (by simp) (by simpa [lastOr] using hsp)
                rw [this, hx1]
                simp only [SetTextSelection, chainWidth, add_zero]
              · rw [hglyph hcs more] at hnew
                exact absurd hnew (by simp)
            · refine hmeet E more hmore hall ?_
              intro hcs hsp
              have := hE (by simp) (by
                rw [lastOr, lastOr_of_ne_nil c 0 cs hcs]
                exact hsp)
              rw [this, hx1, chainWidth]
              ring
    · simp only [hlt, if_false, Prod.mk.injEq, Except.ok.injEq] at h
      obtain ⟨rfl, rfl⟩ := h
      cases cs with
      | nil =>
        refine ⟨[], by simp, by simp, by simp, ?_⟩
        intro E more _ hall _
        exact hall (some E)
      | cons c0 cs =>
        simp only [List.length_cons] at hle
        omega

/-- The line loop of `IterateText`, when it succeeds, only adds lines whose last glyph, when
it is no space or tab, ends where the line record ends, when there is no kerning between a
character that is no space and a space after it. -/
theorem IterateTextLoop_meets (pFont : GLTextureFont) (bytes : List Byte) (text : Nat)
    (params : TextParams)
    (hkern : ∀ a s, IsSpace a = false → IsSpace s = true →
      GetKernValue pFont.mHorizontalKernTable a s = 0) :
    ∀ (fuel p : Nat) (y : ℚ) (out events : List Event),
      IterateTextLoop pFont bytes text params fuel p y out = (events, .ok ()) →
      ∃ more, events = out ++ more ∧ startsNewLine more = true ∧
        ∀ L, lastGlyphsMeetLineEnd L more := by
  intro fuel
  induction fuel with
  | zero => intro p y out events h; simp [IterateTextLoop] at h
  | succ fuel ih =>
    intro p y out events h
    simp only [IterateTextLoop] at h
    split at h
    · simp at h
    · simp only [Prod.mk.injEq, and_true] at h
      subst h
      exact ⟨[], by simp, rfl, fun _ => trivial⟩
    · rename_i x p1 e ev heq
      obtain ⟨W, s, t, hse, hl, hskip, _, _, _, hev⟩ := lineStep_ok heq
      obtain ⟨p0, cs, ss, hskip0, hdec, hsp, hlast, hW⟩ :=
        NextLineWidth_width pFont.toFont bytes params.maxWidth hkern p W e hl
      rw [hskip] at hskip0
      simp only [Except.ok.injEq] at hskip0
      subst hskip0
      have hE : cs ++ ss ≠ [] → IsSpace (lastOr 0 (cs ++ ss)) = false →
          x + W = x + chainWidth pFont.toFont 0 (cs ++ ss) := by
        intro _ hns
        by_cases hss : ss = []
        · subst hss
          simp only [List.append_nil]
          rw [hW]
        · rw [lastOr_append, lastOr_of_ne_nil _ 0 ss hss,
            hsp _ (lastOr_mem 0 ss hss)] at hns
          exact absurd hns (by simp)
      split at h
      · simp at h
      · rename_i out1 p2 hg
        obtain ⟨gs, hgs, _, _, hmeet⟩ := IterateTextGlyphs_meets pFont bytes text y e _
          (cs ++ ss) _ _ _ _ _ _ hdec hg
        split at h
        · simp at h
        · simp only [Prod.mk.injEq, and_true] at h
          subst h
          refine ⟨ev :: gs, by rw [hgs]; simp, by rw [hev]; rfl, ?_⟩
          intro L
          rw [hev]
          have := hmeet (x + W) [] rfl (fun _ => trivial) hE
          simpa [lastGlyphsMeetLineEnd, SetTextSelection] using this
        · rename_i p3 hend
          obtain ⟨more, hmore, hnew, hall⟩ := ih p3 (y - params.lineSpacing) out1 events h
          refine ⟨ev :: (gs ++ more), by rw [hmore, hgs]; simp, by rw [hev]; rfl, ?_⟩
          intro L
          rw [hev]
          have := hmeet (x + W) more hnew hall hE
          simpa [lastGlyphsMeetLineEnd, SetTextSelection] using this

/-! ## Lemmas on line records -/

/-- The line records of two lists of events written one after the other. -/
theorem lineRecords_append (l1 l2 : List Event) :
    lineRecords (l1 ++ l2) = lineRecords l1 ++ lineRecords l2 := by
  induction l1 with
  | nil => rfl
  | cons ev l1 ih =>
    cases ev with
    | OnGlyph c q d => simpa [lineRecords] using ih
    | OnLine d => simp [lineRecords, ih]

/-- Glyph events hold no line record. -/
theorem lineRecords_glyphs (gs : List Event) (h : ∀ ev ∈ gs, ev.isGlyph = true) :
    lineRecords gs = [] := by
  induction gs with
  | nil => rfl
  | cons ev gs ih =>
    have hev := h ev (List.mem_cons_self _ _)
    cases ev with
    | OnGlyph c q d =>
      simp only [lineRecords]
      exact ih (fun e he => h e (List.mem_cons_of_mem _ he))
    | OnLine d => simp [Event.isGlyph] at hev

/-- The line loop of `IterateText` emits, line by line, the records of the lines that
`measuredLines` lists from the same position: of all of them when it returns, of the first
ones when it raises. -/
theorem IterateTextLoop_lines (pFont : GLTextureFont) (bytes : List Byte) (text : Nat)
    (params : TextParams) :
    ∀ (fuel p : Nat) (y : ℚ) (out : List Event),
      ∃ more L rest,
        (IterateTextLoop pFont bytes text params fuel p y out).1 = out ++ more ∧
        measuredLines pFont.toFont bytes params.maxWidth fuel p = L ++ rest ∧
        ((IterateTextLoop pFont bytes text params fuel p y out).2 = .ok () → rest = []) ∧
        List.Forall₂ (recordOfLine pFont.toFont bytes text params) (lineRecords more) L := by
  intro fuel
  induction fuel with
  | zero =>
    intro p y out
    exact ⟨[], [], [], by simp [IterateTextLoop], by simp [measuredLines],
      fun _ => rfl, List.Forall₂.nil⟩
  | succ fuel ih =>
    intro p y out
    simp only [IterateTextLoop]
    split
    · exact ⟨[], [], measuredLines pFont.toFont bytes params.maxWidth (fuel + 1) p, by simp,
        (List.nil_append _).symm, by simp, List.Forall₂.nil⟩
    · rename_i heq
      have hse := lineStep_none heq
      exact ⟨[], [], [], by simp, by simp [measuredLines, hse], fun _ => rfl, List.Forall₂.nil⟩
    · rename_i x p1 e ev heq
      obtain ⟨W, s, t, hse, hl, hskip, hs, ht, hx, hev⟩ := lineStep_ok heq
      obtain ⟨gs, hgs, hglyph⟩ := IterateTextGlyphs_events pFont bytes text y e
        (bytes.length + 1) p1 x 0 (out ++ [ev])
      obtain ⟨p', hskip', _, hreach⟩ := NextLineWidth_reach hl
      rw [hskip] at hskip'
      simp only [Except.ok.injEq] at hskip'
      subst hskip'
      obtain ⟨a1, a2, a3⟩ := alignedStartX_eq params W
      have hrec : recordOfLine pFont.toFont bytes text params
          (SetTextSelection pFont.mMetrics s t x (x + W) y) (p, W, e) :=
        ⟨hl, ⟨p1, hskip, hs⟩, ht, fun ha => hx.trans (a1 ha), fun ha => hx.trans (a2 ha),
          fun ha => hx.trans (a3 ha), rfl⟩
      have hrecs : lineRecords (ev :: gs) = [SetTextSelection pFont.mMetrics s t x (x + W) y] := by
        rw [hev]
        simp only [lineRecords, lineRecords_glyphs gs hglyph]
      have hml : measuredLines pFont.toFont bytes params.maxWidth (fuel + 1) p
          = (p, W, e) ::
            (match AtStringEnding bytes e, AtLineEnding bytes e with
            | .ok false, .ok (lineEnding, next) =>
              measuredLines pFont.toFont bytes params.maxWidth fuel
                (if lineEnding then next else e)
            | _, _ => []) := by
        simp only [measuredLines, hse, hl]
      obtain ⟨tl, htl⟩ : ∃ tl, measuredLines pFont.toFont bytes params.maxWidth (fuel + 1) p
          = [(p, W, e)] ++ tl := ⟨_, hml⟩
      split
      · rename_i out1 err hg
        rw [hg] at hgs
        refine ⟨ev :: gs, [(p, W, e)], tl, by simpa using hgs, htl, by simp, ?_⟩
        · rw [hrecs]; exact List.Forall₂.cons hrec List.Forall₂.nil
      · rename_i out1 p2 hg
        have hp2 : p2 = e := IterateTextGlyphs_end pFont bytes text y e _ _ _ _ _ _ _ hreach hg
        subst hp2
        rw [hg] at hgs
        simp only at hgs
        split
        · refine ⟨ev :: gs, [(p, W, p2)], tl, by simpa using hgs, htl, by simp, ?_⟩
          · rw [hrecs]; exact List.Forall₂.cons hrec List.Forall₂.nil
        · rename_i hend
          rcases endingStep_ok hend with ⟨_, hse2⟩ | ⟨le, next, _, _, hr⟩
          · refine ⟨ev :: gs, [(p, W, p2)], [], by simpa using hgs, ?_, fun _ => rfl, ?_⟩
            · rw [hml, hse2]; simp
            · rw [hrecs]; exact List.Forall₂.cons hrec List.Forall₂.nil
          · exact absurd hr (by simp)
        · rename_i p3 hend
          rcases endingStep_ok hend with ⟨hr, _⟩ | ⟨le, next, hse2, hle2, hr⟩
          · exact absurd hr (by simp)
          · simp only [Option.some.injEq] at hr
            obtain ⟨more, L, rest, hmore, hL, hok, hall⟩ :=
              ih p3 (y - params.lineSpacing) out1
            refine ⟨ev :: gs ++ more, (p, W, p2) :: L, rest, ?_, ?_, hok, ?_⟩
            · rw [hmore, hgs]; simp
            · rw [hml, hse2, hle2]
              simp only [← hr, hL, List.cons_append]
            · rw [lineRecords_append, hrecs]
              exact List.Forall₂.cons hrec hall

/-! ## Claims on the UTF-8 codec -/

/-- C1: for a well-formed multi-byte sequence (a lead byte with `n` leading 1-bits,
`2 ≤ n ≤ 4`, followed by `n - 1` continuation bytes `10xxxxxx`) starting at position
`pre.length`, if `NextUTF8Char` there returns the value `c` and the position `q`, then
`PrevUTF8Char` at `q` returns the same value `c` and the position `pre.length`. -/
theorem NextUTF8Char_PrevUTF8Char_roundtrip (pre post : List Byte) (lead : Byte)
    (conts : List Byte) (c : UTF8Char) (q : Nat)
    (h2 : 2 ≤ CountSuccessiveLeftBits lead) (h4 : CountSuccessiveLeftBits lead ≤ 4)
    (hlen : conts.length + 1 = CountSuccessiveLeftBits lead)
    (hconts : ∀ b ∈ conts, notContinuation b = false)
    (hnext : NextUTF8Char (pre ++ lead :: conts ++ post) pre.length = .ok (c, q)) :
    PrevUTF8Char (pre ++ lead :: conts ++ post) q = .ok (c, pre.length) := by
  have hs : WellFormedSeq (lead :: conts) := Or.inr ⟨h2, h4, hlen, hconts⟩
  rw [NextUTF8Char_wellFormed pre _ post hs] at hnext
  simp only [Except.ok.injEq, Prod.mk.injEq] at hnext
  obtain ⟨hc, hq⟩ := hnext
  rw [← hc, ← hq]
  exact PrevUTF8Char_wellFormed pre _ post hs

/-- Witness of C1: the sequence D0 91 between an ASCII byte and the terminator. -/
theorem NextUTF8Char_PrevUTF8Char_roundtrip_witness :
    NextUTF8Char [0x65, 0xD0, 0x91, 0] 1 = .ok (0xD091, 3) ∧
      PrevUTF8Char [0x65, 0xD0, 0x91, 0] 3 = .ok (0xD091, 1) :=
  ⟨by decide,
    NextUTF8Char_PrevUTF8Char_roundtrip [0x65] [0] 0xD0 [0x91] 0xD091 3 (by decide) (by decide)
      (by decide) (by decide) (by decide)⟩

/-- C3: for a well-formed sequence `s` of 1 to 4 bytes starting at position `pre.length`,
`NextUTF8Char` returns the position `pre.length + s.length`, where `s.length` is the number of
leading 1-bits of the first byte (or 1 when there are none), and the value made of the bytes of
`s` concatenated big-endian; iterating it over a text made of well-formed sequences up to the
terminator yields the value of each sequence once, in order. -/
theorem NextUTF8Char_decodes_wellFormed (pre s post : List Byte) (seqs : List (List Byte))
    (hs : WellFormedSeq s) (hseqs : ∀ t ∈ seqs, WellFormedSeq t ∧ t ≠ [0]) :
    NextUTF8Char (pre ++ s ++ post) pre.length = .ok (bigEndian s, pre.length + s.length) ∧
    (∀ b0 ∈ s.head?, s.length =
      if CountSuccessiveLeftBits b0 = 0 then 1 else CountSuccessiveLeftBits b0) ∧
    nextTest (seqs.flatten ++ [0]) 0 = .ok (seqs.map bigEndian) := by
  refine ⟨NextUTF8Char_wellFormed pre s post hs, ?_, nextTest_wellFormed seqs hseqs⟩
  intro b0 hb0
  cases s with
  | nil => simp at hb0
  | cons b rest =>
    simp only [List.head?_cons, Option.mem_def, Option.some.injEq] at hb0
    subst hb0
    exact wellFormed_length b rest hs

/-- Witness of C3: the bytes D0 91 give 0xD091, and the text of the test `next_test`,
"БejЖbaba", gives its eight characters in order. -/
theorem NextUTF8Char_decodes_wellFormed_witness :
    NextUTF8Char [0xD0, 0x91, 0] 0 = .ok (0xD091, 2) ∧
    nextTest [0xD0, 0x91, 0x65, 0x6A, 0xD0, 0x96, 0x62, 0x61, 0x62, 0x61, 0] 0
      = .ok [0xD091, 0x65, 0x6A, 0xD096, 0x62, 0x61, 0x62, 0x61] :=
  have h := NextUTF8Char_decodes_wellFormed [] [0xD0, 0x91] [0]
    [[0xD0, 0x91], [0x65], [0x6A], [0xD0, 0x96], [0x62], [0x61], [0x62], [0x61]]
    (by decide) (by decide)
  ⟨h.1, h.2.2⟩

/-- C4: `NextUTF8Char` raises `EncodingError` if and only if the first byte has `n ≥ 2`
leading 1-bits and at least one of the bytes at offsets `1 .. n-1` is not of the form
`10xxxxxx`; the error carries the first such byte and its 1-based position in the sequence
(offset + 1). -/
theorem NextUTF8Char_EncodingError_iff (bytes : List Byte) (p : Nat) :
    ((∃ a b, NextUTF8Char bytes p = .error (.EncodingError a b)) ↔
      ∃ b0 : Byte, bytes[p]? = some b0 ∧ 2 ≤ CountSuccessiveLeftBits b0 ∧
        ∃ i, 1 ≤ i ∧ i < CountSuccessiveLeftBits b0 ∧
          ∃ c : Byte, bytes[p + i]? = some c ∧ notContinuation c = true) ∧
    (∀ a b, NextUTF8Char bytes p = .error (.EncodingError a b) →
      ∃ (i : Nat) (bad : Byte), a = i + 1 ∧ 1 ≤ i ∧ bytes[p + i]? = some bad ∧
        notContinuation bad = true ∧ b = bad.val ∧
        ∀ j, 1 ≤ j → j < i → ∃ c : Byte, bytes[p + j]? = some c ∧ notContinuation c = false) := by
  constructor
  · constructor
    · rintro ⟨a, b, h⟩
      obtain ⟨b0, bad, hb0, h2, hle, hbad, hnc, _, _⟩ := (NextUTF8Char_error_iff bytes p a b).mp h
      exact ⟨b0, hb0, by omega, a - 1, by omega, by omega, bad, hbad, hnc⟩
    · rintro ⟨b0, hb0, h2, hex⟩
      obtain ⟨i, bad, h1, hn, hbad, hnc, hall⟩ :=
        exists_first_bad bytes p (CountSuccessiveLeftBits b0) hex
      refine ⟨i + 1, bad.val, (NextUTF8Char_error_iff bytes p (i + 1) bad.val).mpr ?_⟩
      exact ⟨b0, bad, hb0, by omega, by omega, by simpa using hbad, hnc, rfl, by simpa using hall⟩
  · intro a b h
    obtain ⟨b0, bad, hb0, h2, hle, hbad, hnc, hb, hall⟩ := (NextUTF8Char_error_iff bytes p a b).mp h
    exact ⟨a - 1, bad, by omega, by omega, hbad, hnc, hb, hall⟩

/-- Witness of C4: after the lead byte D0 the byte 41 is no continuation byte; the error
carries position 2 and the byte 0x41. -/
theorem NextUTF8Char_EncodingError_iff_witness :
    ∃ a b, NextUTF8Char [0xD0, 0x41, 0] 0 = .error (.EncodingError a b) :=
  (NextUTF8Char_EncodingError_iff [0xD0, 0x41, 0] 0).1.mpr
    ⟨0xD0, by decide, by decide, 1, by decide, by decide, 0x41, by decide, by decide⟩

/-- C5: when the bytes at the `k - 1` positions before `p` are continuation bytes and the byte
at `p - k` (`k ≥ 1`) is the first that is not, `PrevUTF8Char` raises `EncodingError` if and
only if `k > 1` and the number of leading 1-bits of that byte differs from `k`; otherwise it
returns the position `p - k`. -/
theorem PrevUTF8Char_scan (bytes : List Byte) (p k : Nat) (byte : Byte)
    (hk : 1 ≤ k) (hkp : k ≤ p) (hstop : bytes[p - k]? = some byte)
    (hnc : notContinuation byte = true)
    (hcont : ∀ j, 1 ≤ j → j < k → ∃ c : Byte, bytes[p - j]? = some c ∧ notContinuation c = false) :
    ((∃ a b, PrevUTF8Char bytes p = .error (.EncodingError a b)) ↔
      (k > 1 ∧ CountSuccessiveLeftBits byte ≠ k)) ∧
    ((k > 1 ∧ CountSuccessiveLeftBits byte ≠ k) →
      PrevUTF8Char bytes p = .error (.EncodingError (CountSuccessiveLeftBits byte) k)) ∧
    (¬ (k > 1 ∧ CountSuccessiveLeftBits byte ≠ k) →
      ∃ ch, PrevUTF8Char bytes p = .ok (ch, p - k)) := by
  obtain ⟨ch, hloop⟩ := PrevUTF8CharLoop_scan bytes p k byte hkp hstop hnc hcont (k - 1) 0 0
    (by omega)
  simp only [Nat.sub_zero] at hloop
  have hval : PrevUTF8Char bytes p =
      if CountSuccessiveLeftBits byte ≠ k ∧ k > 1 then
        .error (.EncodingError (CountSuccessiveLeftBits byte) k)
      else .ok (ch, p - k) := by
    unfold PrevUTF8Char
    rw [hloop]
  rw [hval]
  by_cases hbad : k > 1 ∧ CountSuccessiveLeftBits byte ≠ k
  · rw [if_pos ⟨hbad.2, hbad.1⟩]
    exact ⟨⟨fun _ => hbad, fun _ => ⟨_, _, rfl⟩⟩, fun _ => rfl, fun h => absurd hbad h⟩
  · rw [if_neg (fun h => hbad ⟨h.2, h.1⟩)]
    refine ⟨⟨?_, fun h => absurd h hbad⟩, fun h => absurd h hbad, fun _ => ⟨ch, rfl⟩⟩
    rintro ⟨a, b, h⟩
    exact Except.noConfusion h

/-- Witness of C5: before position 3 of `a D0 91` the scan covers two bytes and stops at D0,
which has two leading 1-bits. -/
theorem PrevUTF8Char_scan_witness :
    ∃ ch, PrevUTF8Char [0x61, 0xD0, 0x91, 0] 3 = .ok (ch, 3 - 2) :=
  (PrevUTF8Char_scan [0x61, 0xD0, 0x91, 0] 3 2 0xD0 (by decide) (by decide) (by decide)
    (by decide) (by
      intro j h1 h2
      have hj : j = 1 := by omega
      subst hj
      exact ⟨0x91, by decide, by decide⟩)).2.2 (by decide)

/-- C2 (failing input): on the text "a", `GetUTF8Position` for `n = 0` is the start of the
text, and `CountCharsUTF8` up to that position counts 1, not 0: the `end` pointer is only
looked at after the first character has been counted. -/
theorem CountCharsUTF8_GetUTF8Position_zero :
    GetUTF8Position (cstr "a") 0 0 = .ok 0 ∧ CountCharsUTF8 (cstr "a") 0 (some 0) = .ok 1 := by
  decide

/-! ## Claims on the layout engine -/

/-- Counterexample to C6 as stated: all advances are 1, with the kerning `tightKern`, and
`maxWidth` is 2.  The measured words are "one" = 3, " two" = -1, " three" = 3 and
"three" = 2, so "one two" measures 2 (at most `maxWidth`), "one two three" measures 5 (more
than `maxWidth`) and "three" alone is no wider than `maxWidth`; yet `CountLines` raises
`TextFormatError`, because the word "one" is wider than `maxWidth`. -/
theorem CountLines_one_two_three_counterexample :
    NextWordWidth (simpleFont (fun _ => 1) tightKern) (cstr "one two three") 0 = .ok (3, 3) ∧
    NextWordWidth (simpleFont (fun _ => 1) tightKern) (cstr "one two three") 3 = .ok (-1, 7) ∧
    NextWordWidth (simpleFont (fun _ => 1) tightKern) (cstr "one two three") 7 = .ok (3, 13) ∧
    NextWordWidth (simpleFont (fun _ => 1) tightKern) (cstr "one two three") 8 = .ok (2, 13) ∧
    (3 : ℚ) + -1 ≤ 2 ∧ (3 : ℚ) + -1 + 3 > 2 ∧ (2 : ℚ) ≤ 2 ∧
    CountLines (simpleFont (fun _ => 1) tightKern) (cstr "one two three") 0
      ⟨0, 0, 2, 1, .TEXTALIGN_LEFT⟩ = .error .TextFormatError := by
  with_unfolding_all decide

/-- C6 (amended): for the text "one two three" and every font view under which
`NextWordWidth` measures "one" as `a`, " two" as `b`, " three" as `c` (each with the space
before it) and "three" alone as `d`: if each of `a`, `b`, `c` and `d` is at most `maxWidth`,
"one two" fits (`a + b ≤ maxWidth`) and "one two three" does not (`a + b + c > maxWidth`),
then `CountLines` returns 2. -/
theorem CountLines_one_two_three (pFont : Font) (params : TextParams) (a b c d : ℚ)
    (hone : NextWordWidth pFont (cstr "one two three") 0 = .ok (a, 3))
    (htwo : NextWordWidth pFont (cstr "one two three") 3 = .ok (b, 7))
    (hthree : NextWordWidth pFont (cstr "one two three") 7 = .ok (c, 13))
    (halone : NextWordWidth pFont (cstr "one two three") 8 = .ok (d, 13))
    (ha : a ≤ params.maxWidth) (hb : b ≤ params.maxWidth) (hc : c ≤ params.maxWidth)
    (hfit : a + b ≤ params.maxWidth) (hover : a + b + c > params.maxWidth)
    (hd : d ≤ params.maxWidth) :
    CountLines pFont (cstr "one two three") 0 params = .ok 2 := by
  have hlen : (cstr "one two three").length + 1 = 15 := by decide
  have e0 : AtStringEnding (cstr "one two three") 0 = .ok false := by decide
  have s0 : SkipSpaces (cstr "one two three") 0 = .ok 0 := by decide
  have e3 : AtStringEnding (cstr "one two three") 3 = .ok false := by decide
  have l3 : AtLineEnding (cstr "one two three") 3 = .ok (false, 4) := by decide
  have e7 : AtStringEnding (cstr "one two three") 7 = .ok false := by decide
  have l7 : AtLineEnding (cstr "one two three") 7 = .ok (false, 8) := by decide
  have s7 : SkipSpaces (cstr "one two three") 7 = .ok 8 := by decide
  have e13 : AtStringEnding (cstr "one two three") 13 = .ok true := by decide
  have na : ¬ a > params.maxWidth := not_lt.mpr ha
  have nb : ¬ b > params.maxWidth := not_lt.mpr hb
  have nc : ¬ c > params.maxWidth := not_lt.mpr hc
  have nd : ¬ d > params.maxWidth := not_lt.mpr hd
  have nfit : ¬ a + b > params.maxWidth := not_lt.mpr hfit
  have line1 : NextLineWidth pFont (cstr "one two three") 0 params.maxWidth = .ok (a + b, 7) := by
    simp only [NextLineWidth, hlen, s0, bind, Except.bind, NextLineWidthLoop, hone, htwo, hthree,
      zero_add, na, nb, nc, nfit, hover, if_false, if_true, e3, l3, e7, l7, pure, Except.pure,
      Bool.false_eq_true]
  have line2 : NextLineWidth pFont (cstr "one two three") 7 params.maxWidth = .ok (d, 13) := by
    simp only [NextLineWidth, hlen, s7, bind, Except.bind, NextLineWidthLoop, halone,
      zero_add, nd, if_false, if_true, e13, pure, Except.pure]
  simp only [CountLines, hlen, CountLinesLoop, bind, Except.bind, e0, e7, l7, e13, line1, line2,
    pure, Except.pure, Bool.false_eq_true, if_false, if_true]

/-- Witness of C6 (amended): all advances 1, no kerning, `maxWidth` 7; the words measure
3, 4, 6 and 5. -/
theorem CountLines_one_two_three_witness :
    CountLines (simpleFont (fun _ => 1) (fun _ => none)) (cstr "one two three") 0
      ⟨0, 0, 7, 1, .TEXTALIGN_LEFT⟩ = .ok 2 :=
  CountLines_one_two_three (simpleFont (fun _ => 1) (fun _ => none))
    ⟨0, 0, 7, 1, .TEXTALIGN_LEFT⟩ 3 4 6 5
    (by with_unfolding_all decide) (by with_unfolding_all decide)
    (by with_unfolding_all decide) (by with_unfolding_all decide)
    (by with_unfolding_all decide) (by with_unfolding_all decide)
    (by with_unfolding_all decide) (by with_unfolding_all decide)
    (by with_unfolding_all decide) (by with_unfolding_all decide)

/-- C7 (failing input): all advances 1, no kerning, `maxWidth` 7, so that the first line
holds exactly "one two" (`NextLineWidth` measures 7 and ends the line at offset 7).
`IterateText` completes and calls `OnLine` exactly twice, with the spans (1, 7) and (8, 13):
the first span starts at 1, not 0. -/
theorem IterateText_one_two_three_lineSpans :
    NextLineWidth (simpleTextureFont (fun _ => 1) (fun _ => none)).toFont
      (cstr "one two three") 0 7 = .ok (7, 7) ∧
    (IterateText (simpleTextureFont (fun _ => 1) (fun _ => none)) (cstr "one two three") 0
      ⟨0, 0, 7, 1, .TEXTALIGN_LEFT⟩).2 = .ok () ∧
    lineSpans (IterateText (simpleTextureFont (fun _ => 1) (fun _ => none))
      (cstr "one two three") 0 ⟨0, 0, 7, 1, .TEXTALIGN_LEFT⟩).1 = [(1, 7), (8, 13)] := by
  with_unfolding_all decide

/-- C9 (failing input): the text "a b" with advance 2 for the letters and 1 for the space,
no kerning, `maxWidth` 2.  Each word alone measures 2, which is at most `maxWidth`, and the
text "b" alone is one line; yet `CountLines` raises `TextFormatError` on "a b", because the
second word is measured together with the space before it (3). -/
theorem CountLines_raises_though_words_fit :
    NextWordWidth (simpleFont (fun c => if c = 32 then 1 else 2) (fun _ => none))
      (cstr "a b") 0 = .ok (2, 1) ∧
    NextWordWidth (simpleFont (fun c => if c = 32 then 1 else 2) (fun _ => none))
      (cstr "a b") 2 = .ok (2, 3) ∧
    NextWordWidth (simpleFont (fun c => if c = 32 then 1 else 2) (fun _ => none))
      (cstr "a b") 1 = .ok (3, 3) ∧
    CountLines (simpleFont (fun c => if c = 32 then 1 else 2) (fun _ => none))
      (cstr "b") 0 ⟨0, 0, 2, 1, .TEXTALIGN_LEFT⟩ = .ok 1 ∧
    CountLines (simpleFont (fun c => if c = 32 then 1 else 2) (fun _ => none))
      (cstr "a b") 0 ⟨0, 0, 2, 1, .TEXTALIGN_LEFT⟩ = .error .TextFormatError := by
  with_unfolding_all decide

/-- C10: whenever `NextLineWidth` returns normally, the line width it returns is at most
`maxLineWidth`. -/
theorem NextLineWidth_le_maxLineWidth (pFont : Font) (bytes : List Byte) (text : Nat)
    (maxLineWidth w : ℚ) (pLineEnd : Nat)
    (h : NextLineWidth pFont bytes text maxLineWidth = .ok (w, pLineEnd)) :
    w ≤ maxLineWidth := by
  unfold NextLineWidth at h
  cases hskip : SkipSpaces bytes text with
  | error err => simp [hskip, bind, Except.bind] at h
  | ok p =>
    simp only [hskip, bind, Except.bind] at h
    exact NextLineWidthLoop_le pFont bytes maxLineWidth _ p 0 w pLineEnd (Or.inr rfl) h

/-- Witness of C10: the first line of "one two three" with all advances 1 and
`maxLineWidth` 7 measures 7. -/
theorem NextLineWidth_le_maxLineWidth_witness :
    NextLineWidth (simpleFont (fun _ => 1) (fun _ => none)) (cstr "one two three") 0 7
      = .ok (7, 7) ∧ (7 : ℚ) ≤ 7 :=
  ⟨by with_unfolding_all decide,
    NextLineWidth_le_maxLineWidth (simpleFont (fun _ => 1) (fun _ => none))
      (cstr "one two three") 0 7 7 7 (by with_unfolding_all decide)⟩

/-- C8: for a text that consists of a single word (it starts with a character that is no
space, and `NextWordWidth` measures from its start up to the terminator at `e`) whose measured
width `W` exceeds `maxWidth`, `IterateText` raises `TextFormatError` and has called neither
`OnGlyph` nor `OnLine`. -/
theorem IterateText_single_word_too_wide (pFont : GLTextureFont) (bytes : List Byte)
    (text e : Nat) (params : TextParams) (W : ℚ) (c : UTF8Char) (next : Nat)
    (hfirst : NextUTF8Char bytes text = .ok (c, next)) (hnospace : IsSpace c = false)
    (hword : NextWordWidth pFont.toFont bytes text = .ok (W, e))
    (hnonempty : text < e) (_hend : bytes[e]? = some 0)
    (hwide : W > params.maxWidth) :
    IterateText pFont bytes text params = ([], .error .TextFormatError) := by
  have hc : (c == 0) = false := by
    cases hc0 : (c == 0) with
    | false => rfl
    | true =>
      have h := hword
      simp only [NextWordWidth, NextWordWidthSpaces, AtStringEnding, hfirst, bind, Except.bind,
        pure, Except.pure, hc0, if_true, Except.ok.injEq, Prod.mk.injEq] at h
      omega
  have hse : AtStringEnding bytes text = .ok false := by
    simp only [AtStringEnding, hfirst, bind, Except.bind, pure, Except.pure, hc]
  have hskip : SkipSpaces bytes text = .ok text := by
    simp only [SkipSpaces, SkipSpacesLoop, hfirst, bind, Except.bind, pure, Except.pure, hc,
      hnospace, Bool.not_false, Bool.or_true, if_true]
  have hline : NextLineWidth pFont.toFont bytes text params.maxWidth
      = .error .TextFormatError := by
    simp only [NextLineWidth, hskip, bind, Except.bind, NextLineWidthLoop, hword, hwide, if_true,
      throw, throwThe, MonadExceptOf.throw]
  simp only [IterateText, IterateTextLoop, hse, hline, bind, Except.bind, pure, Except.pure,
    Bool.false_eq_true, if_false]

/-- Witness of C8: the word "three" with all advances 1 measures 5, more than the
`maxWidth` 4. -/
theorem IterateText_single_word_too_wide_witness :
    IterateText (simpleTextureFont (fun _ => 1) (fun _ => none)) (cstr "three") 0
      ⟨0, 0, 4, 1, .TEXTALIGN_LEFT⟩ = ([], .error .TextFormatError) :=
  IterateText_single_word_too_wide (simpleTextureFont (fun _ => 1) (fun _ => none))
    (cstr "three") 0 5 ⟨0, 0, 4, 1, .TEXTALIGN_LEFT⟩ 5 116 1
    (by decide) (by decide) (by with_unfolding_all decide) (by decide) (by decide)
    (by with_unfolding_all decide)

/-! ## Claims on line breaking and alignment -/

/-- C11: whenever `NextLineWidth` returns normally, the line-end position it reports is
reached from `text` by decoding whole characters, and the character at that position is the
terminator (end of the text), a line feed, a space or a tab: a line is never broken between
two codepoints of one word. -/
theorem NextLineWidth_ends_at_break (pFont : Font) (bytes : List Byte) (text : Nat)
    (maxLineWidth w : ℚ) (pLineEnd : Nat)
    (h : NextLineWidth pFont bytes text maxLineWidth = .ok (w, pLineEnd)) :
    (∃ k, GetUTF8Position bytes text k = .ok pLineEnd) ∧
    ∃ c next, NextUTF8Char bytes pLineEnd = .ok (c, next) ∧
      (c = 0 ∨ c = 10 ∨ c = 32 ∨ c = 9) := by
  refine ⟨?_, ?_⟩
  · obtain ⟨p, _, h1, h2⟩ := NextLineWidth_reach h
    exact Reach.trans h1 h2
  · unfold NextLineWidth at h
    cases hskip : SkipSpaces bytes text with
    | error err => simp [hskip, bind, Except.bind] at h
    | ok p =>
      simp only [hskip, bind, Except.bind] at h
      exact NextLineWidthLoop_atBreak pFont bytes maxLineWidth _ p 0 w pLineEnd (Or.inr rfl) h

/-- Witness of C11: the first line of "one two three" with all advances 1 and
`maxLineWidth` 7 ends at offset 7, the space after "two". -/
theorem NextLineWidth_ends_at_break_witness :
    NextLineWidth (simpleFont (fun _ => 1) (fun _ => none)) (cstr "one two three") 0 7
      = .ok (7, 7) ∧
    ((∃ k, GetUTF8Position (cstr "one two three") 0 k = .ok 7) ∧
    ∃ c next, NextUTF8Char (cstr "one two three") 7 = .ok (c, next) ∧
      (c = 0 ∨ c = 10 ∨ c = 32 ∨ c = 9)) :=
  ⟨by with_unfolding_all decide,
    NextLineWidth_ends_at_break (simpleFont (fun _ => 1) (fun _ => none))
      (cstr "one two three") 0 7 7 7 (by with_unfolding_all decide)⟩

/-- C12: the line records that `IterateText` emits are, in order, the records of the lines
of the text: the first line starts at `text`, each further line at the end position of
the line before or after the line ending that stands there (`measuredLines`).  For each
line, with `p` its start and `W` and `e` the width and the end position that `NextLineWidth`
returns at `p`, the record spans the characters from the first one after the spaces at `p`
up to `e`, its `startX` is `params.startX` for left alignment, `params.startX - W / 2` for
center alignment and `params.startX - W` for right alignment, and its `endX` is that
`startX + W`.  When `IterateText` returns, every line of the text has its record; when it
raises, the lines up to the one at which it raises have theirs. -/
theorem IterateText_line_alignment (pFont : GLTextureFont) (bytes : List Byte) (text : Nat)
    (params : TextParams) :
    ∃ L rest,
      measuredLines pFont.toFont bytes params.maxWidth (bytes.length + 1) text = L ++ rest ∧
      ((IterateText pFont bytes text params).2 = .ok () → rest = []) ∧
      List.Forall₂
        (fun (d : TextSelectionDetails) (l : Nat × ℚ × Nat) =>
          NextLineWidth pFont.toFont bytes l.1 params.maxWidth = .ok (l.2.1, l.2.2) ∧
          (∃ s, SkipSpaces bytes l.1 = .ok s ∧
            CountCharsUTF8 bytes text (some s) = .ok d.startPosition) ∧
          CountCharsUTF8 bytes text (some l.2.2) = .ok d.endPosition ∧
          (params.align = .TEXTALIGN_LEFT → d.startX = params.startX) ∧
          (params.align = .TEXTALIGN_CENTER → d.startX = params.startX - l.2.1 / 2) ∧
          (params.align = .TEXTALIGN_RIGHT → d.startX = params.startX - l.2.1) ∧
          d.endX = d.startX + l.2.1)
        (lineRecords (IterateText pFont bytes text params).1) L := by
  obtain ⟨more, L, rest, hmore, hL, hok, hall⟩ := IterateTextLoop_lines pFont bytes text params
    (bytes.length + 1) text params.startY []
  refine ⟨L, rest, hL, hok, ?_⟩
  unfold IterateText
  rw [hmore, List.nil_append]
  exact hall

/-- Witness of C12: "one two three" centered at 100 with all advances 1 and `maxWidth` 7.
The lines are "one two" (start 0, width 7, end 7) and " three" (start 7, width 5, end 13);
`IterateText` returns, and its two line records run from `100 - 7 / 2` to `100 + 7 / 2` and
from `100 - 5 / 2` to `100 + 5 / 2`. -/
theorem IterateText_line_alignment_witness :
    measuredLines (simpleTextureFont (fun _ => 1) (fun _ => none)).toFont
      (cstr "one two three") 7 15 0 = [(0, 7, 7), (7, 5, 13)] ∧
    (IterateText (simpleTextureFont (fun _ => 1) (fun _ => none)) (cstr "one two three") 0
      ⟨100, 0, 7, 1, .TEXTALIGN_CENTER⟩).2 = .ok () ∧
    (lineRecords (IterateText (simpleTextureFont (fun _ => 1) (fun _ => none))
      (cstr "one two three") 0 ⟨100, 0, 7, 1, .TEXTALIGN_CENTER⟩).1).map
        (fun d => (d.startX, d.endX))
      = [(100 - 7 / 2, 100 - 7 / 2 + 7), (100 - 5 / 2, 100 - 5 / 2 + 5)] ∧
    List.Forall₂
      (fun (d : TextSelectionDetails) (l : Nat × ℚ × Nat) =>
        d.startX = 100 - l.2.1 / 2 ∧ d.endX = d.startX + l.2.1)
      (lineRecords (IterateText (simpleTextureFont (fun _ => 1) (fun _ => none))
        (cstr "one two three") 0 ⟨100, 0, 7, 1, .TEXTALIGN_CENTER⟩).1)
      [(0, 7, 7), (7, 5, 13)] := by
  have hm : measuredLines (simpleTextureFont (fun _ => 1) (fun _ => none)).toFont
      (cstr "one two three") 7 15 0 = [(0, 7, 7), (7, 5, 13)] := by decide!
  have hr : (IterateText (simpleTextureFont (fun _ => 1) (fun _ => none))
      (cstr "one two three") 0 ⟨100, 0, 7, 1, .TEXTALIGN_CENTER⟩).2 = .ok () := by decide!
  refine ⟨hm, hr, by decide!, ?_⟩
  obtain ⟨L, rest, hL, hok, hall⟩ :=
    IterateText_line_alignment (simpleTextureFont (fun _ => 1) (fun _ => none))
      (cstr "one two three") 0 ⟨100, 0, 7, 1, .TEXTALIGN_CENTER⟩
  have hrest := hok hr
  subst hrest
  rw [List.append_nil] at hL
  have hlen : (cstr "one two three").length + 1 = 15 := by decide
  rw [hlen, hm] at hL
  subst hL
  exact List.Forall₂.imp (fun _ _ h => ⟨h.2.2.2.2.1 rfl, h.2.2.2.2.2.2⟩) hall

/-- C13 (counterexample): in a texture font whose bounding box has `left = 7` and whose
glyphs have `bearingX = 3` and advance 10, the one-word text "a" measures `W = 10`; laid out
centered at `startX = 100`, the left edge of its quad (vertices 0 and 3) is at 105, not at
`100 - W / 2 + bearingX = 98`. -/
theorem IterateText_center_left_edge_counterexample :
    NextLineWidth insetTextureFont.toFont (cstr "a") 0 100 = .ok (10, 1) ∧
    (insetTextureFont.mGlyphs 97).map (fun g => g.mMetrics.bearingX) = some 3 ∧
    (firstGlyphQuad (IterateText insetTextureFont (cstr "a") 0
      ⟨100, 0, 100, 1, .TEXTALIGN_CENTER⟩).1).map
        (fun quad => ((quad.vertices 0).x, (quad.vertices 3).x)) = some (105, 105) ∧
    (105 : ℚ) ≠ 100 - 10 / 2 + 3 := by
  with_unfolding_all decide

/-- C13 (amended): for every texture font and every one-word text (it starts with a
character that is no space and has a glyph `g`, and `NextWordWidth` measures it up to the
terminator at `e`) whose measured width `W` is at most `maxWidth`, laid out with center
alignment and `startX = 100`, the first emitted glyph quad has its left edge (vertices 0 and
3) at `100 - W / 2 + bbox.left + bearingX`, with `bbox.left` of the font and `bearingX` of
the glyph. -/
theorem IterateText_center_left_edge (pFont : GLTextureFont) (bytes : List Byte)
    (text e : Nat) (params : TextParams) (W : ℚ) (c : UTF8Char) (next : Nat)
    (g : GLTextureGlyph)
    (hfirst : NextUTF8Char bytes text = .ok (c, next)) (hnospace : IsSpace c = false)
    (hglyph : pFont.mGlyphs c = some g)
    (hword : NextWordWidth pFont.toFont bytes text = .ok (W, e))
    (hnonempty : text < e) (hend : bytes[e]? = some 0)
    (hfit : W ≤ params.maxWidth)
    (hcenter : params.align = .TEXTALIGN_CENTER) (hstart : params.startX = 100) :
    ∃ quad, firstGlyphQuad (IterateText pFont bytes text params).1 = some quad ∧
      (quad.vertices 0).x = 100 - W / 2 + pFont.mMetrics.bbox.left + g.mMetrics.bearingX ∧
      (quad.vertices 3).x = 100 - W / 2 + pFont.mMetrics.bbox.left + g.mMetrics.bearingX := by
  have hc : (c == 0) = false := by
    cases hc0 : (c == 0) with
    | false => rfl
    | true =>
      have h := hword
      simp only [NextWordWidth, NextWordWidthSpaces, AtStringEnding, hfirst, bind, Except.bind,
        pure, Except.pure, hc0, if_true, Except.ok.injEq, Prod.mk.injEq] at h
      omega
  have hcne : c ≠ 0 := by simpa using hc
  have hse : AtStringEnding bytes text = .ok false := by
    rw [AtStringEnding_of_next hfirst, hc]
  have hskip : SkipSpaces bytes text = .ok text := by
    simp only [SkipSpaces, SkipSpacesLoop, hfirst, bind, Except.bind, pure, Except.pure, hc,
      hnospace, Bool.not_false, Bool.or_true, if_true]
  have hse2 : AtStringEnding bytes e = .ok true := by
    rw [AtStringEnding_of_next (NextUTF8Char_zero hend)]; rfl
  have hnw : ¬ W > params.maxWidth := not_lt.mpr hfit
  have hline : NextLineWidth pFont.toFont bytes text params.maxWidth = .ok (W, e) := by
    simp only [NextLineWidth, hskip, bind, Except.bind, NextLineWidthLoop, hword, hnw, zero_add,
      if_false, hse2, if_true, pure, Except.pure]
  have hreach : Reach bytes text e := NextWordWidthSpaces_reach _ _ _ _ _ _ _ _ hword
  have hlen : e < bytes.length := (List.getElem?_eq_some_iff.mp hend).1
  have hcount1 : CountCharsUTF8 bytes text (some text) = .ok 1 :=
    CountCharsUTF8Loop_one hfirst hcne (Nat.le_of_lt (NextUTF8Char_lt hfirst))
  have hcount2 : CountCharsUTF8 bytes text (some next) = .ok 1 :=
    CountCharsUTF8Loop_one hfirst hcne (Nat.le_refl _)
  obtain ⟨t, hcount3⟩ := CountCharsUTF8Loop_ok bytes e hend (bytes.length + 1) text 0 hreach
    (by omega)
  have hgg : pFont.GetGlyph c = .ok g := by simp [GLTextureFont.GetGlyph, hglyph]
  have hx : alignedStartX params W = 100 - W / 2 := by
    simp [alignedStartX, hcenter, hstart]
  obtain ⟨quad, hquad, hv0, hv3⟩ : ∃ quad, SetGlyphQuad pFont c
      (if (0 : UTF8Char) != 0 then alignedStartX params W
        + GetKernValue pFont.mHorizontalKernTable 0 c else alignedStartX params W) params.startY
        = .ok quad ∧
      (quad.vertices 0).x = 100 - W / 2 + pFont.mMetrics.bbox.left + g.mMetrics.bearingX ∧
      (quad.vertices 3).x = 100 - W / 2 + pFont.mMetrics.bbox.left + g.mMetrics.bearingX := by
    simp only [SetGlyphQuad, hgg, bind, Except.bind, pure, Except.pure, bne_self_eq_false,
      Bool.false_eq_true, if_false, hx]
    exact ⟨_, rfl, rfl, rfl⟩
  have hlineblock := @lineStep_eq pFont bytes text params text params.startY W text e 1 t
    hse hline hskip hcount1 hcount3
  have hglyphblock := @glyphStep_eq pFont bytes text params.startY text (alignedStartX params W)
    0 c next quad g 1 1 hfirst hquad hgg hcount1 hcount2
  obtain ⟨more, hmore⟩ := @IterateTextLoop_step pFont bytes text params bytes.length text
    params.startY (alignedStartX params W) text e _ [] hlineblock
  rw [IterateTextGlyphs_step _ hnonempty hglyphblock] at hmore
  obtain ⟨gs, hgs, _⟩ := IterateTextGlyphs_events pFont bytes text params.startY e bytes.length
    next _ c ([] ++ [Event.OnLine (SetTextSelection pFont.mMetrics 1 t (alignedStartX params W)
      (alignedStartX params W + W) params.startY)] ++ [Event.OnGlyph c quad
        (SetTextSelection pFont.mMetrics 1 1 (alignedStartX params W) _ params.startY)])
  rw [hgs] at hmore
  refine ⟨quad, ?_, hv0, hv3⟩
  unfold IterateText
  rw [hmore]
  rfl

/-- Witness of C13: the text "a" in the font with `bbox.left = 7`, bearing 3 and advance
10: the left edge is at `100 - 10 / 2 + 7 + 3`. -/
theorem IterateText_center_left_edge_witness :
    ∃ quad, firstGlyphQuad (IterateText insetTextureFont (cstr "a") 0
        ⟨100, 0, 100, 1, .TEXTALIGN_CENTER⟩).1 = some quad ∧
      (quad.vertices 0).x = 100 - 10 / 2 + 7 + 3 ∧
      (quad.vertices 3).x = 100 - 10 / 2 + 7 + 3 :=
  IterateText_center_left_edge insetTextureFont (cstr "a") 0 1 ⟨100, 0, 100, 1, .TEXTALIGN_CENTER⟩ 10 97 1
    ⟨⟨3, 0, 10, 1000, 10⟩, 97, 16, 16⟩ (by decide) (by decide) rfl
    (by with_unfolding_all decide) (by decide) (by decide) (by with_unfolding_all decide)
    (by decide) (by with_unfolding_all decide)

/-- C14: `CountLines` breaks lines as `IterateText` does: whenever `IterateText` completes
with the events `events`, `CountLines` returns the number of `OnLine` calls among them; and
for the empty text (the terminator at `text`) `IterateText` completes without any call and
`CountLines` returns 0. -/
theorem CountLines_eq_IterateText_lines (pFont : GLTextureFont) (bytes : List Byte)
    (text : Nat) (params : TextParams) :
    (∀ events, IterateText pFont bytes text params = (events, .ok ()) →
      CountLines pFont.toFont bytes text params = .ok (lineSpans events).length) ∧
    (bytes[text]? = some 0 →
      IterateText pFont bytes text params = ([], .ok ()) ∧
      CountLines pFont.toFont bytes text params = .ok 0) := by
  refine ⟨?_, IterateText_empty pFont bytes text params⟩
  intro events h
  obtain ⟨n, hn, hc⟩ := IterateTextLoop_CountLinesLoop pFont bytes text params _ _ _ _ _ 0 h
  simp only [lineSpans, List.length_nil, Nat.zero_add] at hn hc
  rw [hn]
  exact hc

/-- Witness of C14: "one two three" with all advances 1 and `maxWidth` 7 gives two `OnLine`
calls and `CountLines` returns 2; the empty text gives none and 0. -/
theorem CountLines_eq_IterateText_lines_witness :
    CountLines (simpleTextureFont (fun _ => 1) (fun _ => none)).toFont (cstr "one two three") 0
        ⟨0, 0, 7, 1, .TEXTALIGN_LEFT⟩
      = .ok (lineSpans (IterateText (simpleTextureFont (fun _ => 1) (fun _ => none))
          (cstr "one two three") 0 ⟨0, 0, 7, 1, .TEXTALIGN_LEFT⟩).1).length ∧
    (lineSpans (IterateText (simpleTextureFont (fun _ => 1) (fun _ => none))
          (cstr "one two three") 0 ⟨0, 0, 7, 1, .TEXTALIGN_LEFT⟩).1).length = 2 ∧
    (IterateText (simpleTextureFont (fun _ => 1) (fun _ => none)) (cstr "") 0
        ⟨0, 0, 7, 1, .TEXTALIGN_LEFT⟩ = ([], .ok ()) ∧
      CountLines (simpleTextureFont (fun _ => 1) (fun _ => none)).toFont (cstr "") 0
        ⟨0, 0, 7, 1, .TEXTALIGN_LEFT⟩ = .ok 0) :=
  ⟨(CountLines_eq_IterateText_lines (simpleTextureFont (fun _ => 1) (fun _ => none))
      (cstr "one two three") 0 ⟨0, 0, 7, 1, .TEXTALIGN_LEFT⟩).1 _
      (Prod.ext rfl (by with_unfolding_all decide)),
    by with_unfolding_all decide,
    (CountLines_eq_IterateText_lines (simpleTextureFont (fun _ => 1) (fun _ => none))
      (cstr "") 0 ⟨0, 0, 7, 1, .TEXTALIGN_LEFT⟩).2 (by decide)⟩

/-- C15 (failing input): the text "a\r\nb".  At offset 1 the carriage return is decoded
(next offset 2) and the line feed stands at offset 2, yet `AtLineEnding` at offset 1 returns
false with the position 2: it decodes at offset 1 a second time and compares the carriage
return with the line feed.  The carriage return is therefore laid out as a glyph:
`CountLines` raises `MissingGlyphError` for it in a font view that has no such glyph, and
`IterateText` calls `OnGlyph` for the characters a, carriage return, b. -/
theorem AtLineEnding_carriage_return_line_feed :
    NextUTF8Char windowsText 1 = .ok (13, 2) ∧ NextUTF8Char windowsText 2 = .ok (10, 3) ∧
    AtLineEnding windowsText 1 = .ok (false, 2) ∧
    CountLines noCarriageReturnFont windowsText 0 ⟨0, 0, 100, 1, .TEXTALIGN_LEFT⟩
      = .error (.MissingGlyphError 13) ∧
    glyphChars (IterateText (simpleTextureFont (fun _ => 1) (fun _ => none)) windowsText 0
      ⟨0, 0, 100, 1, .TEXTALIGN_LEFT⟩).1 = [97, 13, 98] := by
  with_unfolding_all decide

/-- C16: `GetKernValue` is total; it returns the stored adjustment when the table has a row
for `a` with an entry for `b`, 0 when `a` has no row, and 0 when the row of `a` has no entry
for `b`. -/
theorem GetKernValue_spec (kernTable : KernTable) (a b : UTF8Char) :
    (∀ row v, kernTable a = some row → row b = some v → GetKernValue kernTable a b = v) ∧
    (kernTable a = none → GetKernValue kernTable a b = 0) ∧
    (∀ row, kernTable a = some row → row b = none → GetKernValue kernTable a b = 0) := by
  refine ⟨?_, ?_, ?_⟩
  · intro row v ha hb
    simp [GetKernValue, ha, hb]
  · intro ha
    simp [GetKernValue, ha]
  · intro row ha hb
    simp [GetKernValue, ha, hb]

/-- Witness of C16: the table with -5 between `t` and `w`: the pair (t, w) gives -5, the
pair (a, b) has no row and the pair (t, x) no entry, both give 0. -/
theorem GetKernValue_spec_witness :
    GetKernValue tightKern 116 119 = -5 ∧ GetKernValue tightKern 97 98 = 0 ∧
      GetKernValue tightKern 116 120 = 0 :=
  ⟨(GetKernValue_spec tightKern 116 119).1 (fun c2 => if c2 = 119 then some (-5) else none)
      (-5) rfl rfl,
    (GetKernValue_spec tightKern 97 98).2.1 rfl,
    (GetKernValue_spec tightKern 116 120).2.2
      (fun c2 => if c2 = 119 then some (-5) else none) rfl rfl⟩

/-! ## Claims on the number and path parser -/

/-- C17: for every literal made of an optional `-`, one or more decimal digits `ip` and
optionally a `.` followed by decimal digits, placed anywhere in a buffer before a character
`t` that cannot continue a number (the terminator 0 at the end of input, or anything but a
digit, `.`, `e`, `E`, `-`), `ParseDouble` returns the value the literal denotes and the
position right after the last character of the literal. -/
theorem ParseDouble_literal (pre rest : List Byte) (neg : Bool) (ip : List Byte)
    (fp : Option (List Byte)) (t : Byte)
    (hip : ∀ c ∈ ip, isdigit c = true) (hne : ip ≠ [])
    (hfp : ∀ ds, fp = some ds → ∀ c ∈ ds, isdigit c = true)
    (ht : endsNumber t = true) :
    ParseDouble (pre ++ literalChars neg ip fp ++ t :: rest) pre.length
      = .ok (literalValue neg ip fp, some (pre.length + (literalChars neg ip fp).length)) :=
  ParseDouble_literalChars pre rest neg ip fp t hip hne hfp ht

/-- Witness of C17: "-12.5" before `x` is -25/2 and ends at offset 5; "42" at offset 2 of
"x=42" is 42 and ends at the terminator. -/
theorem ParseDouble_literal_witness :
    ParseDouble (cstr "-12.5x") 0 = .ok (-25 / 2, some 5) ∧
    ParseDouble (cstr "x=42") 2 = .ok (42, some 4) := by
  refine ⟨?_, ?_⟩
  · have h := ParseDouble_literal [] [0] true [49, 50] (some [53]) 120 (by decide) (by decide)
      (fun ds hds => by cases hds; decide) (by decide)
    exact h.trans (by with_unfolding_all decide)
  · have h := ParseDouble_literal [120, 61] [] false [52, 50] none 0 (by decide) (by decide)
      (fun ds hds => by cases hds) (by decide)
    exact h.trans (by with_unfolding_all decide)

/-- C18 (failing inputs): on the empty string, on "." and on "-" `ParseDouble` consumes no
digit and finds no exponent marker, yet it reports success: a position (0, 1 and 1) and the
value 0.  Where a character that is not part of a number stops the scan ("x", ".x") it
reports failure. -/
theorem ParseDouble_accepts_without_digits :
    ParseDouble (cstr "") 0 = .ok (0, some 0) ∧
    ParseDouble (cstr ".") 0 = .ok (0, some 1) ∧
    ParseDouble (cstr "-") 0 = .ok (0, some 1) ∧
    ParseDouble (cstr "x") 0 = .ok (0, none) ∧
    ParseDouble (cstr ".x") 0 = .ok (0, none) := by
  with_unfolding_all decide

/-- C19: a literal that consists of an exponent marker `e` or `E`, an optional sign `+` or
`-` and one or more decimal digits `ds` (within the range of `int`), followed by a character
that is no digit, is read with mantissa 1: `ParseDouble` returns 10 to the power of the
signed exponent and the position right after the digits. -/
theorem ParseDouble_exponent_only (pre rest : List Byte) (marker : Byte) (sign ds : List Byte)
    (t : Byte)
    (hm : marker.val = 101 ∨ marker.val = 69)
    (hsign : sign = [] ∨ sign = [43] ∨ sign = [45])
    (hds : ∀ c ∈ ds, isdigit c = true) (hne : ds ≠ []) (ht : isdigit t = false)
    (_hrange : digitsValue ds ≤ 2147483647) :
    ParseDouble (pre ++ marker :: (sign ++ ds) ++ t :: rest) pre.length
      = .ok ((10 : ℚ) ^ exponentValue sign ds,
          some (pre.length + 1 + sign.length + ds.length)) := by
  obtain ⟨m0, m1, m2⟩ := marker_facts marker hm
  have hdrop : (pre ++ marker :: (sign ++ ds) ++ t :: rest).drop pre.length
      = marker :: (sign ++ ds ++ t :: rest) := by
    simp only [List.append_assoc, List.cons_append, List.drop_left]
  unfold ParseDouble
  rw [hdrop, ParseDoubleLoop]
  simp only [m0, if_false, m1, Bool.false_eq_true, m2, if_true, le_refl]
  rw [ParseDoubleExponent_digits sign ds t rest (pre.length + 1) 1 hsign hds hne ht, one_mul]

/-- Witness of C19: "e2" gives 100 and ends at offset 2; "E-2" gives 1/100. -/
theorem ParseDouble_exponent_only_witness :
    ParseDouble (cstr "e2") 0 = .ok (100, some 2) ∧
    ParseDouble (cstr "E-2 ") 0 = .ok (1 / 100, some 3) := by
  refine ⟨?_, ?_⟩
  · have h := ParseDouble_exponent_only [] [] 101 [] [50] 0 (by decide) (by decide) (by decide)
      (by decide) (by decide) (by decide)
    exact h.trans (by with_unfolding_all decide)
  · have h := ParseDouble_exponent_only [] [32, 0] 69 [45] [50] 32 (by decide) (by decide)
      (by decide) (by decide) (by decide) (by decide)
    exact h.trans (by with_unfolding_all decide)

/-- The arc groups that the arc loop reads: a complete arc group
`rx ry rotation largeArcFlag sweepFlag x y` (five decimal literals and two flag digits,
separated by white space or commas, which may be missing around the sweep flag) that stands
after the white space `ws0` following an arc command or an arc group before it, and that
starts with a digit or `-`.  One pass of the arc loop consumes the group and appends exactly
one element `el'` to the path; `el'` is an ArcTo with `rx` and `ry` as written (0 included),
the rotation in radians, each flag false exactly when its digit is `0`, and the end point
`(x, y)` for `A` (`upper`) or the end point of the element before plus `(x, y)` for `a`.
When no further group follows, the arc command as a whole returns the path with just this
element appended. -/
theorem ParseSVGPath_arc_group (bytes : List Byte) (upper : Bool) (prevSymbol : Byte)
    (d : Nat) (el : GlyphPathElement) (path : List GlyphPathElement) (fuel : Nat)
    (rx ry rot : DecimalLiteral) (f1 f2 : Byte) (x y : DecimalLiteral)
    (ws0 s1 s2 s3 s4 s5 s6 ws : List Byte) (t : Byte) (rest : List Byte)
    (hdrop : bytes.drop d
      = ws0 ++ (arcGroupChars rx ry rot f1 f2 x y s1 s2 s3 s4 s5 s6 ws ++ t :: rest))
    (hws0 : ws0.all isspace = true)
    (hrx : rx.wellFormed = true) (hry : ry.wellFormed = true) (hrot : rot.wellFormed = true)
    (hx : x.wellFormed = true) (hy : y.wellFormed = true)
    (hf1 : isdigit f1 = true) (hf2 : isdigit f2 = true)
    (hs1 : s1.all isSeparator = true) (hs1n : s1 ≠ [])
    (hs2 : s2.all isSeparator = true) (hs2n : s2 ≠ [])
    (hs3 : s3.all isSeparator = true) (hs3n : s3 ≠ [])
    (hs4 : s4.all isSeparator = true) (hs5 : s5.all isSeparator = true)
    (hs6 : s6.all isSeparator = true) (hs6n : s6 ≠ [])
    (hws : ws.all isspace = true) (ht : isspace t = false)
    (hend : ws ≠ [] ∨ endsNumber t = true) :
    ∃ el' : GlyphPathElement,
      el'.type = .ELEMENT_ARCTO ∧ el'.rx = rx.value ∧ el'.ry = ry.value ∧
      el'.rotate = rot.value * PI / 180 ∧
      (el'.largeArc = false ↔ f1.val = 48) ∧ (el'.sweep = false ↔ f2.val = 48) ∧
      el'.x = (if upper then x.value else el.x + x.value) ∧
      el'.y = (if upper then y.value else el.y + y.value) ∧
      ParseSVGPathArcs bytes upper (fuel + 1) (d + ws0.length) el path
        = ParseSVGPathArcs bytes upper fuel
            (d + ws0.length + (arcGroupChars rx ry rot f1 f2 x y s1 s2 s3 s4 s5 s6 ws).length)
            el' (path ++ [el']) ∧
      ((isdigit t || t.val == 45) = false →
        ParseSVGPathCommand bytes upper 97 prevSymbol d el path
          = .ok (d + ws0.length
              + (arcGroupChars rx ry rot f1 f2 x y s1 s2 s3 s4 s5 s6 ws).length,
              el', path ++ [el'])) := by
  have hd := drop_append_length hdrop
  have harc := ParseSVGPathArc_complete bytes upper (d + ws0.length) el rx ry rot f1 f2 x y
    s1 s2 s3 s4 s5 s6 ws t rest hd hrx hry hrot hx hy hf1 hf2 hs1 hs1n hs2 hs2n hs3 hs3n
    hs4 hs5 hs6 hs6n hws ht hend
  obtain ⟨c, ctl, hc, hcd⟩ := literal_head rx hrx
  have hd' : bytes.drop (d + ws0.length) = c :: (ctl ++ (s1 ++ (ry.chars ++ (s2 ++
      (rot.chars ++ (s3 ++ (f1 :: (s4 ++ (f2 :: (s5 ++ (x.chars ++ (s6 ++ (y.chars ++ ws))))))))))))
      ++ t :: rest) := by
    rw [hd, arcGroupChars, hc]; simp only [List.cons_append, List.append_assoc]
  have hread : readChar bytes (d + ws0.length) = .ok c := by
    simp only [readChar, getElem?_of_drop hd']
  have hstep : ∀ n, ParseSVGPathArcs bytes upper (n + 1) (d + ws0.length) el path
      = ParseSVGPathArcs bytes upper n
          (d + ws0.length + (arcGroupChars rx ry rot f1 f2 x y s1 s2 s3 s4 s5 s6 ws).length)
          (arcElement upper el rx ry rot f1 f2 x y)
          (path ++ [arcElement upper el rx ry rot f1 f2 x y]) := by
    intro n
    rw [ParseSVGPathArcs]
    simp only [hread, digit_or_minus c hcd, if_true, harc]
  have hafter := drop_append_length hd
  have hreadt : readChar bytes (d + ws0.length
      + (arcGroupChars rx ry rot f1 f2 x y s1 s2 s3 s4 s5 s6 ws).length) = .ok t := by
    simp only [readChar, getElem?_of_drop hafter]
  refine ⟨arcElement upper el rx ry rot f1 f2 x y, rfl, rfl, rfl, rfl, ?_, ?_, rfl, rfl,
    hstep fuel, ?_⟩
  · simp [arcElement]
  · simp [arcElement]
  · intro htd
    have hskip : skipSpace (bytes.drop d) d = .ok (d + ws0.length) := by
      rw [hdrop, ← hd, hd']
      exact skipSpace_spec ws0 c _ d hws0 (head_facts c hcd).2.2
    have hlen : bytes.length + 1 = (bytes.length - 1) + 1 + 1 := by
      have : d < bytes.length := by
        by_contra hlt
        rw [List.drop_eq_nil_of_le (by omega)] at hd'
        exact List.noConfusion hd'
      omega
    have h97 : ((97 : Byte).val = 122) = False ∧ ((97 : Byte).val = 109) = False ∧
        ((97 : Byte).val = 108) = False ∧ ((97 : Byte).val = 104) = False ∧
        ((97 : Byte).val = 118) = False ∧ ((97 : Byte).val = 99) = False ∧
        ((97 : Byte).val = 115) = False ∧ ((97 : Byte).val = 113) = False ∧
        ((97 : Byte).val = 116) = False ∧ ((97 : Byte).val = 97) = True := by decide
    obtain ⟨e1, e2, e3, e4, e5, e6, e7, e8, e9, e10⟩ := h97
    simp only [ParseSVGPathCommand, e1, e2, e3, e4, e5, e6, e7, e8, e9, e10, if_false, if_true,
      hskip]
    rw [hlen, hstep, ParseSVGPathArcs]
    simp only [hreadt, htd, Bool.false_eq_true, if_false]

/-- An arc with `rx = 0`: the path "M 10 10 a 0 5 30 0 1 5 5" parses
to a MoveTo and an ArcTo with radii 0 and 5, large-arc flag false, sweep flag true and end
point (15, 15). -/
theorem ParseSVGPath_arc_group_witness :
    ParseSVGPath (cstr "M 10 10 a 0 5 30 0 1 5 5") 0 zeroElement []
      = .ok [⟨.ELEMENT_MOVETO, 0, 0, 0, 0, false, false, 10, 10⟩,
          ⟨.ELEMENT_ARCTO, 0, 5, 30 * PI / 180, 0, false, true, 15, 15⟩] ∧
    ∃ el' : GlyphPathElement,
      el'.type = .ELEMENT_ARCTO ∧ el'.rx = 0 ∧ el'.ry = 5 ∧
      el'.largeArc = false ∧ el'.sweep = true ∧ el'.x = 15 ∧ el'.y = 15 ∧
      ParseSVGPathCommand (cstr "M 10 10 a 0 5 30 0 1 5 5") false 97 109 9
          ⟨.ELEMENT_MOVETO, 0, 0, 0, 0, false, false, 10, 10⟩
          [⟨.ELEMENT_MOVETO, 0, 0, 0, 0, false, false, 10, 10⟩]
        = .ok (24, el', [⟨.ELEMENT_MOVETO, 0, 0, 0, 0, false, false, 10, 10⟩, el']) := by
  refine ⟨by decide!, ?_⟩
  obtain ⟨el', h1, h2, h3, _, h5, h6, h7, h8, _, h10⟩ :=
    ParseSVGPath_arc_group (cstr "M 10 10 a 0 5 30 0 1 5 5") false 109 9
      ⟨.ELEMENT_MOVETO, 0, 0, 0, 0, false, false, 10, 10⟩
      [⟨.ELEMENT_MOVETO, 0, 0, 0, 0, false, false, 10, 10⟩] 0
      ⟨false, [48], none⟩ ⟨false, [53], none⟩ ⟨false, [51, 48], none⟩ 48 49
      ⟨false, [53], none⟩ ⟨false, [53], none⟩
      [32] [32] [32] [32] [32] [32] [32] [] 0 []
      (by decide) (by decide) (by decide) (by decide) (by decide) (by decide) (by decide)
      (by decide) (by decide) (by decide) (by decide) (by decide) (by decide) (by decide)
      (by decide) (by decide) (by decide) (by decide) (by decide) (by decide) (by decide)
      (by decide)
  refine ⟨el', h1, h2.trans (by with_unfolding_all decide),
    h3.trans (by with_unfolding_all decide), h5.mpr (by decide), ?_,
    h7.trans (by with_unfolding_all decide), h8.trans (by with_unfolding_all decide),
    h10 (by decide)⟩
  cases hs : el'.sweep with
  | true => rfl
  | false => exact absurd (h6.mp hs) (by decide)

/-- C20 (failing input): the path "M 0 0 A 1 1 0 0 1 2 2,3 3 0 0 1 4 4" holds two complete
arc groups, set apart by a comma; `ParseSVGPath` appends an ArcTo for the first and nothing
for the second, whereas with a space in the place of the comma it appends both.  The path
"M 0 0 A .5 .5 0 0 1 2 2" holds one complete arc group whose first number starts with the
decimal point; no ArcTo is appended, whereas the same group written with "0.5" gives its
ArcTo.  The lineto command reads both forms: "L 1 1,2 2" gives two lines and "L .5 .5"
one. -/
theorem ParseSVGPath_arc_group_dropped :
    ParseSVGPath (cstr "M 0 0 A 1 1 0 0 1 2 2,3 3 0 0 1 4 4") 0 zeroElement []
      = .ok [⟨.ELEMENT_MOVETO, 0, 0, 0, 0, false, false, 0, 0⟩,
          ⟨.ELEMENT_ARCTO, 1, 1, 0, 0, false, true, 2, 2⟩] ∧
    ParseSVGPath (cstr "M 0 0 A 1 1 0 0 1 2 2 3 3 0 0 1 4 4") 0 zeroElement []
      = .ok [⟨.ELEMENT_MOVETO, 0, 0, 0, 0, false, false, 0, 0⟩,
          ⟨.ELEMENT_ARCTO, 1, 1, 0, 0, false, true, 2, 2⟩,
          ⟨.ELEMENT_ARCTO, 3, 3, 0, 0, false, true, 4, 4⟩] ∧
    ParseSVGPath (cstr "M 0 0 A .5 .5 0 0 1 2 2") 0 zeroElement []
      = .ok [⟨.ELEMENT_MOVETO, 0, 0, 0, 0, false, false, 0, 0⟩] ∧
    ParseSVGPath (cstr "M 0 0 A 0.5 .5 0 0 1 2 2") 0 zeroElement []
      = .ok [⟨.ELEMENT_MOVETO, 0, 0, 0, 0, false, false, 0, 0⟩,
          ⟨.ELEMENT_ARCTO, 1 / 2, 1 / 2, 0, 0, false, true, 2, 2⟩] ∧
    ParseSVGPath (cstr "M 0 0 L 1 1,2 2") 0 zeroElement []
      = .ok [⟨.ELEMENT_MOVETO, 0, 0, 0, 0, false, false, 0, 0⟩,
          ⟨.ELEMENT_LINETO, 0, 0, 0, 0, false, false, 1, 1⟩,
          ⟨.ELEMENT_LINETO, 0, 0, 0, 0, false, false, 2, 2⟩] ∧
    ParseSVGPath (cstr "M 0 0 L .5 .5") 0 zeroElement []
      = .ok [⟨.ELEMENT_MOVETO, 0, 0, 0, 0, false, false, 0, 0⟩,
          ⟨.ELEMENT_LINETO, 0, 0, 0, 0, false, false, 1 / 2, 1 / 2⟩] := by
  decide!

/-! ## Claims on the path and document parser -/

/-- C22: for a document `svg > defs > font` whose `font-face` has a readable `ascent`,
`descent`, `units-per-em` and `bbox`, whose `font` element has exactly one `glyph` child and
no `hkern` child, the glyph carrying a `unicode` attribute that is one well-formed character
`s` and being readable itself (`ParseGlyphTag` succeeds on it), `ParseSVGFontData` applied to
a `FontData` without glyphs and kerning returns a `FontData` whose glyph map has exactly one
key, the value decoded from `s`, and whose horizontal kern table is empty. -/
theorem ParseSVGFontData_single_glyph (pRoot pDefsTag pFontTag pFaceTag pGlyphTag : XmlNode)
    (el : GlyphPathElement) (fontData : FontData) (ascent descent unitsPerEM : ℚ)
    (bbox : FontBoundingBox) (advanceX bearingX bearingY : ℚ) (s : List Byte)
    (fontData1 : FontData) (names1 : NameTable)
    (hroot : iequals pRoot.name (str "svg") = true)
    (hdefs : FindChild pRoot (str "defs") = .ok pDefsTag)
    (hfont : FindChild pDefsTag (str "font") = .ok pFontTag)
    (hface : FindChild pFontTag (str "font-face") = .ok pFaceTag)
    (hascent : ParseDoubleAttrib pFaceTag (str "ascent") = .ok ascent)
    (hdescent : ParseDoubleAttrib pFaceTag (str "descent") = .ok descent)
    (hunits : ParseDoubleAttrib pFaceTag (str "units-per-em") = .ok unitsPerEM)
    (hbbox : ParseBoundingBoxAttrib pFaceTag = .ok bbox)
    (hadv : ParseOptionalDoubleAttrib pFontTag (str "horiz-adv-x") (bbox.right - bbox.left)
      = .ok advanceX)
    (hbx : ParseOptionalDoubleAttrib pFontTag (str "horiz-origin-x") 0 = .ok bearingX)
    (hby : ParseOptionalDoubleAttrib pFontTag (str "horiz-origin-y") 0 = .ok bearingY)
    (hglyphs : IterFindChildren pFontTag (str "glyph") = [pGlyphTag])
    (hkerns : IterFindChildren pFontTag (str "hkern") = [])
    (hunicode : xmlGetProp pGlyphTag (str "unicode") = some s) (hs : WellFormedSeq s)
    (hglyph : ParseGlyphTag pGlyphTag ⟨bearingX, bearingY, 0, bbox.top - bbox.bottom, advanceX⟩
      el { fontData with mMetrics := ⟨unitsPerEM, ascent, descent, bbox⟩ } (fun _ => none)
      = .ok (fontData1, names1))
    (hnoglyphs : ∀ c, fontData.mGlyphs c = none)
    (hnokern : ∀ a, fontData.mHorizontalKernTable a = none) :
    ∃ fd, ParseSVGFontData (some pRoot) el fontData = .ok fd ∧
      (∀ c, (fd.mGlyphs c).isSome = true ↔ c = bigEndian s) ∧
      (∀ a, fd.mHorizontalKernTable a = none) := by
  refine ⟨fontData1, ?_, ?_, ?_⟩
  · rw [ParseSVGFontData_eq pRoot pDefsTag pFontTag pFaceTag el fontData ascent descent
      unitsPerEM bbox advanceX bearingX bearingY hroot hdefs hfont hface hascent hdescent hunits
      hbbox hadv hbx hby, hglyphs, hkerns]
    simp only [ParseGlyphTags, hglyph, ParseHKernTags]
  · obtain ⟨_, _, h | ⟨c, g, _, hc, hmap, _⟩⟩ := ParseGlyphTag_ok hglyph
    · have : xmlHasProp pGlyphTag (str "unicode") = true := by simp [xmlHasProp, hunicode]
      rw [this] at h
      exact absurd h.1 (by simp)
    · rw [ParseUnicodeAttrib_wellFormed pGlyphTag _ s hunicode hs] at hc
      simp only [Except.ok.injEq] at hc
      subst hc
      intro c'
      rw [hmap]
      by_cases hcc : c' = bigEndian s
      · simp [hcc]
      · simp [hcc, hnoglyphs]
  · obtain ⟨hk, _, _⟩ := ParseGlyphTag_ok hglyph
    intro a
    rw [hk]
    exact hnokern a

/-- Witness of C22: the document with the single glyph `A`: the parse succeeds and the only
key of the glyph map is 65. -/
theorem ParseSVGFontData_single_glyph_witness :
    ∃ fd, ParseSVGFontData (some singleGlyphDocument) zeroElement emptyFontData = .ok fd ∧
      (∀ c, (fd.mGlyphs c).isSome = true ↔ c = bigEndian (str "A")) ∧
      (∀ a, fd.mHorizontalKernTable a = none) :=
  ParseSVGFontData_single_glyph singleGlyphDocument singleGlyphDefs singleGlyphFont exampleFace
    exampleGlyph zeroElement emptyFontData 800 (-200) 1000 ⟨0, -200, 1000, 800⟩ 600 0 0 (str "A")
    _ _ (by decide) rfl rfl rfl (by decide!) (by decide!) (by decide!) (by decide!) (by decide!)
    (by decide!) (by decide!) rfl rfl (by decide) (by decide)
    ((Except.eq_ok_of_isOk _ (emptyFontData, fun _ => none) (by decide!)).trans rfl)
    (fun _ => rfl) (fun _ => rfl)

/-- C23: for a font document whose glyph elements are read without error and give the
glyph names `n1`, `n2`, `m1`, `m2`, `m3` the pairwise distinct characters `a1`, `a2`, `b1`,
`b2`, `b3`, and whose single `hkern` element has the value `k`, the attribute `g1` listing
`n1,n2` and the attribute `g2` listing `m1,m2,m3` (no `u1`, no `u2`), `ParseSVGFontData`
applied to a `FontData` without kerning returns a kern table that holds the value `k` for
each of the six pairs `(a, b)` with `a` named in `g1` and `b` named in `g2`, which are
pairwise distinct, and no entry for any other pair. -/
theorem ParseSVGFontData_hkern_groups (pRoot pDefsTag pFontTag pFaceTag pHKernTag : XmlNode)
    (el : GlyphPathElement) (fontData : FontData) (ascent descent unitsPerEM : ℚ)
    (bbox : FontBoundingBox) (advanceX bearingX bearingY : ℚ)
    (fontData1 : FontData) (names : NameTable) (k : ℚ)
    (n1 n2 m1 m2 m3 : List Byte) (a1 a2 b1 b2 b3 : UTF8Char)
    (hroot : iequals pRoot.name (str "svg") = true)
    (hdefs : FindChild pRoot (str "defs") = .ok pDefsTag)
    (hfont : FindChild pDefsTag (str "font") = .ok pFontTag)
    (hface : FindChild pFontTag (str "font-face") = .ok pFaceTag)
    (hascent : ParseDoubleAttrib pFaceTag (str "ascent") = .ok ascent)
    (hdescent : ParseDoubleAttrib pFaceTag (str "descent") = .ok descent)
    (hunits : ParseDoubleAttrib pFaceTag (str "units-per-em") = .ok unitsPerEM)
    (hbbox : ParseBoundingBoxAttrib pFaceTag = .ok bbox)
    (hadv : ParseOptionalDoubleAttrib pFontTag (str "horiz-adv-x") (bbox.right - bbox.left)
      = .ok advanceX)
    (hbx : ParseOptionalDoubleAttrib pFontTag (str "horiz-origin-x") 0 = .ok bearingX)
    (hby : ParseOptionalDoubleAttrib pFontTag (str "horiz-origin-y") 0 = .ok bearingY)
    (hglyphs : ParseGlyphTags ⟨bearingX, bearingY, 0, bbox.top - bbox.bottom, advanceX⟩ el
      (IterFindChildren pFontTag (str "glyph"))
      { fontData with mMetrics := ⟨unitsPerEM, ascent, descent, bbox⟩ } (fun _ => none)
      = .ok (fontData1, names))
    (hkerns : IterFindChildren pFontTag (str "hkern") = [pHKernTag])
    (hk : ParseDoubleAttrib pHKernTag (str "k") = .ok k)
    (hg1 : xmlGetProp pHKernTag (str "g1") = some (n1 ++ 44 :: n2))
    (hg2 : xmlGetProp pHKernTag (str "g2") = some (m1 ++ 44 :: (m2 ++ 44 :: m3)))
    (hu1 : xmlGetProp pHKernTag (str "u1") = none)
    (hu2 : xmlGetProp pHKernTag (str "u2") = none)
    (hcomma : ∀ name ∈ [n1, n2, m1, m2, m3], ∀ c ∈ name, c.val ≠ 44)
    (hn1 : names n1 = some a1) (hn2 : names n2 = some a2)
    (hm1 : names m1 = some b1) (hm2 : names m2 = some b2) (hm3 : names m3 = some b3)
    (hdistinct : [a1, a2, b1, b2, b3].Nodup)
    (hnokern : ∀ a, fontData.mHorizontalKernTable a = none) :
    ∃ fd, ParseSVGFontData (some pRoot) el fontData = .ok fd ∧
      (∀ a b, kernEntry fd.mHorizontalKernTable a b
        = if (a, b) ∈ [(a1, b1), (a1, b2), (a1, b3), (a2, b1), (a2, b2), (a2, b3)]
          then some k else none) ∧
      [(a1, b1), (a1, b2), (a1, b3), (a2, b1), (a2, b2), (a2, b3)].Nodup := by
  have hsplit1 : splitAtCommas (n1 ++ 44 :: n2) = [n1, n2] := by
    rw [(splitAtCommas_name n1 (hcomma n1 (by simp))).2,
      (splitAtCommas_name n2 (hcomma n2 (by simp))).1]
  have hsplit2 : splitAtCommas (m1 ++ 44 :: (m2 ++ 44 :: m3)) = [m1, m2, m3] := by
    rw [(splitAtCommas_name m1 (hcomma m1 (by simp))).2,
      (splitAtCommas_name m2 (hcomma m2 (by simp))).2,
      (splitAtCommas_name m3 (hcomma m3 (by simp))).1]
  have hl1 : ParseHKernNames pHKernTag names (str "g1") = .ok [a1, a2] := by
    simp [ParseHKernNames, xmlHasProp, ParseGlyphNameListAttrib, ParseStringAttrib, hg1,
      hsplit1, lookupGlyphNames, hn1, hn2]
  have hl2 : ParseHKernNames pHKernTag names (str "g2") = .ok [b1, b2, b3] := by
    simp [ParseHKernNames, xmlHasProp, ParseGlyphNameListAttrib, ParseStringAttrib, hg2,
      hsplit2, lookupGlyphNames, hm1, hm2, hm3]
  have hh1 : xmlHasProp pHKernTag (str "u1") = false := by simp [xmlHasProp, hu1]
  have hh2 : xmlHasProp pHKernTag (str "u2") = false := by simp [xmlHasProp, hu2]
  obtain ⟨hkern1, _⟩ := ParseGlyphTags_kern _ _ _ _ _ _ _ hglyphs
  refine ⟨{ fontData1 with
      mHorizontalKernTable :=
        [a1, a2].foldl (fun table c1 =>
          [b1, b2, b3].foldl (fun table c2 => setKernValue table c1 c2 k) table)
          fontData1.mHorizontalKernTable }, ?_, ?_, ?_⟩
  · rw [ParseSVGFontData_eq pRoot pDefsTag pFontTag pFaceTag el fontData ascent descent
      unitsPerEM bbox advanceX bearingX bearingY hroot hdefs hfont hface hascent hdescent hunits
      hbbox hadv hbx hby, hglyphs, hkerns]
    simp only [ParseHKernTags, ParseHKernTag, hk, hl1, hl2, hh1, hh2, Bool.false_eq_true,
      if_false]
  · intro a b
    simp only
    rw [kernEntry_foldl]
    have hempty : kernEntry fontData1.mHorizontalKernTable a b = none := by
      simp [kernEntry, hkern1, hnokern]
    rw [hempty]
    simp only [List.mem_cons, List.mem_singleton, Prod.mk.injEq, List.not_mem_nil, or_false]
    by_cases h1 : a = a1 <;> by_cases h2 : a = a2 <;> by_cases h3 : b = b1 <;>
      by_cases h4 : b = b2 <;> by_cases h5 : b = b3 <;> simp [h1, h2, h3, h4, h5]
  · simp only [List.nodup_cons, List.mem_cons, List.mem_singleton, List.not_mem_nil,
      or_false, not_or, List.nodup_nil, and_true, not_false_eq_true, Prod.mk.injEq] at hdistinct ⊢
    tauto

/-- Witness of C23: the document with the glyphs A, V, a, o, e and the `hkern` element
`g1="A,V" g2="a,o,e" k="40"`: the kern table holds 40 for exactly the six pairs. -/
theorem ParseSVGFontData_hkern_groups_witness :
    ∃ fd, ParseSVGFontData (some kernDocument) zeroElement emptyFontData = .ok fd ∧
      (∀ a b, kernEntry fd.mHorizontalKernTable a b
        = if (a, b) ∈ [(65, 97), (65, 111), (65, 101), (86, 97), (86, 111), (86, 101)]
          then some 40 else none) ∧
      [((65 : UTF8Char), (97 : UTF8Char)), (65, 111), (65, 101), (86, 97), (86, 111),
        (86, 101)].Nodup :=
  ParseSVGFontData_hkern_groups kernDocument kernDefs kernFont exampleFace exampleHKern
    zeroElement emptyFontData 800 (-200) 1000 ⟨0, -200, 1000, 800⟩ 600 0 0 _ _ 40
    (str "A") (str "V") (str "a") (str "o") (str "e") 65 86 97 111 101
    (by decide) rfl rfl rfl (by decide!) (by decide!) (by decide!) (by decide!) (by decide!)
    (by decide!) (by decide!)
    ((Except.eq_ok_of_isOk _ (emptyFontData, fun _ => none) (by decide!)).trans rfl)
    rfl (by decide!) (by decide) (by decide) (by decide) (by decide) (by decide)
    (by decide!) (by decide!) (by decide!) (by decide!) (by decide!) (by decide) (fun _ => rfl)

/-- C24 (counterexample): the attribute value "1 2 3 4" yields the bounding box
(1, 2, 3, 4), but the values "1,2,3,4" and "1, 2, 3, 4" are rejected with
`FontParseError`: between the numbers only white space is skipped. -/
theorem ParseBoundingBoxAttrib_commas_counterexample :
    ParseBoundingBoxAttrib (leaf "font-face" [("bbox", "1 2 3 4")]) = .ok ⟨1, 2, 3, 4⟩ ∧
    ParseBoundingBoxAttrib (leaf "font-face" [("bbox", "1,2,3,4")]) = .error .FontParseError ∧
    ParseBoundingBoxAttrib (leaf "font-face" [("bbox", "1, 2, 3, 4")])
      = .error .FontParseError := by
  decide!

/-- C24 (amended): `ParseBoundingBoxAttrib` accepts four numbers separated by white space:
for all decimal literals `l`, `b`, `r`, `t`, a `bbox` attribute that consists of these four
literals in this order, with white space between them and possibly before the first and
after the last, yields `bbox.left = l`, `bbox.bottom = b`, `bbox.right = r` and
`bbox.top = t`. -/
theorem ParseBoundingBoxAttrib_white_space (pTag : XmlNode) (l b r t : DecimalLiteral)
    (w0 w1 w2 w3 w4 : List Byte)
    (hprop : xmlGetProp pTag (str "bbox")
      = some (w0 ++ (l.chars ++ (w1 ++ (b.chars ++ (w2 ++ (r.chars ++ (w3 ++ (t.chars
          ++ w4)))))))))
    (hl : l.wellFormed = true) (hb : b.wellFormed = true) (hr : r.wellFormed = true)
    (ht : t.wellFormed = true)
    (hw0 : w0.all isspace = true)
    (hw1 : w1.all isspace = true) (hw1n : w1 ≠ [])
    (hw2 : w2.all isspace = true) (hw2n : w2 ≠ [])
    (hw3 : w3.all isspace = true) (hw3n : w3 ≠ [])
    (hw4 : w4.all isspace = true) :
    ParseBoundingBoxAttrib pTag = .ok ⟨l.value, b.value, r.value, t.value⟩ := by
  obtain ⟨a1, w1', rfl, ha1⟩ := nonempty_spaces w1 hw1 hw1n
  obtain ⟨a2, w2', rfl, ha2⟩ := nonempty_spaces w2 hw2 hw2n
  obtain ⟨a3, w3', rfl, ha3⟩ := nonempty_spaces w3 hw3 hw3n
  obtain ⟨a4, w4', hw4eq, ha4⟩ := space_or_end w4 hw4 []
  have d0 : (w0 ++ (l.chars ++ (a1 :: w1' ++ (b.chars ++ (a2 :: w2' ++ (r.chars ++ (a3 :: w3'
      ++ (t.chars ++ w4))))))) ++ [0]).drop 0
      = w0 ++ (l.chars ++ a1 :: (w1' ++ (b.chars ++ (a2 :: (w2' ++ (r.chars ++ (a3 :: (w3'
        ++ (t.chars ++ (w4 ++ [0])))))))))) := by
    simp only [List.drop_zero, List.append_assoc, List.cons_append]
  have d1 := drop_append_length (drop_append_length d0)
  have d1' : (w0 ++ (l.chars ++ (a1 :: w1' ++ (b.chars ++ (a2 :: w2' ++ (r.chars ++ (a3 :: w3'
      ++ (t.chars ++ w4))))))) ++ [0]).drop (0 + w0.length + l.chars.length)
      = (a1 :: w1') ++ (b.chars ++ a2 :: (w2' ++ (r.chars ++ (a3 :: (w3'
        ++ (t.chars ++ (w4 ++ [0]))))))) := by
    rw [d1]; rfl
  have d2 := drop_append_length (drop_append_length d1')
  have d2' : (w0 ++ (l.chars ++ (a1 :: w1' ++ (b.chars ++ (a2 :: w2' ++ (r.chars ++ (a3 :: w3'
      ++ (t.chars ++ w4))))))) ++ [0]).drop
        (0 + w0.length + l.chars.length + (a1 :: w1').length + b.chars.length)
      = (a2 :: w2') ++ (r.chars ++ a3 :: (w3' ++ (t.chars ++ (w4 ++ [0])))) := by
    rw [d2]; rfl
  have d3 := drop_append_length (drop_append_length d2')
  have d3' : (w0 ++ (l.chars ++ (a1 :: w1' ++ (b.chars ++ (a2 :: w2' ++ (r.chars ++ (a3 :: w3'
      ++ (t.chars ++ w4))))))) ++ [0]).drop
        (0 + w0.length + l.chars.length + (a1 :: w1').length + b.chars.length
          + (a2 :: w2').length + r.chars.length)
      = (a3 :: w3') ++ (t.chars ++ a4 :: w4') := by
    rw [d3, hw4eq]; rfl
  have n4 := ParseBoundingBoxNumbers_step _ 0 _ (a3 :: w3') t a4 w4' [] d3' hw3 ht ha4 rfl
  have n3 := ParseBoundingBoxNumbers_step _ 1 _ (a2 :: w2') r a3 _ _ d2' hw2 hr ha3 n4
  have n2 := ParseBoundingBoxNumbers_step _ 2 _ (a1 :: w1') b a2 _ _ d1' hw1 hb ha2 n3
  have n1 := ParseBoundingBoxNumbers_step _ 3 0 w0 l a1 _ _ d0 hw0 hl ha1 n2
  simp only [ParseBoundingBoxAttrib, ParseStringAttrib, hprop, n1, List.getD_cons_zero,
    List.getD_cons_succ]

/-- Witness of C24: the attribute value " -1.5 2\t30  4 " yields the bounding box
(-3/2, 2, 30, 4). -/
theorem ParseBoundingBoxAttrib_white_space_witness :
    ParseBoundingBoxAttrib (leaf "font-face" [("bbox", " -1.5 2\t30  4 ")])
      = .ok ⟨-3 / 2, 2, 30, 4⟩ :=
  (ParseBoundingBoxAttrib_white_space (leaf "font-face" [("bbox", " -1.5 2\t30  4 ")])
    ⟨true, [49], some [53]⟩ ⟨false, [50], none⟩ ⟨false, [51, 48], none⟩ ⟨false, [52], none⟩
    [32] [32] [9] [32, 32] [32] (by decide) (by decide) (by decide) (by decide) (by decide)
    (by decide) (by decide) (by decide) (by decide) (by decide) (by decide) (by decide)
    (by decide)).trans (by with_unfolding_all decide)

/-! ## Claims on measuring and emitting -/

/-- C25 (counterexample): a font view with advance 1 for every glyph and kerning -5
between `t` and `w`, the text "tw abc" and `maxLineWidth` 2.  The word "tw" measures -3,
the next word with its space measures 4, and the running width plus the measured width is
-3 + 4 = 1, at most `maxLineWidth`; yet the word is not added: the round of the loop, and
`NextLineWidth` as a whole, raise `TextFormatError`, because the measured width alone is
above `maxLineWidth`. -/
theorem NextLineWidth_sum_fits_counterexample :
    NextWordWidth (simpleFont (fun _ => 1) tightKern) (cstr "tw abc") 0 = .ok (-3, 2) ∧
    NextWordWidth (simpleFont (fun _ => 1) tightKern) (cstr "tw abc") 2 = .ok (4, 6) ∧
    (-3 : ℚ) + 4 ≤ 2 ∧
    NextLineWidthLoop (simpleFont (fun _ => 1) tightKern) (cstr "tw abc") 2 7 2 (-3)
      = .error .TextFormatError ∧
    NextLineWidth (simpleFont (fun _ => 1) tightKern) (cstr "tw abc") 0 2
      = .error .TextFormatError := by
  refine ⟨?_, ?_, ?_, ?_, ?_⟩ <;> with_unfolding_all decide

/-- C25 (amended): one round of the loop of `NextLineWidth`, with the running width
`lineWidth` and the next word (together with the spaces before it) measured as `w`, ending
at `pWordEnd`, where `w` alone is at most `maxLineWidth`, so that the round raises no error.
If `lineWidth + w ≤ maxLineWidth` (equality included) the word is added: the line goes on
from `pWordEnd` with the running width `lineWidth + w`; otherwise the line is ended before
the word, at `p`, with the width `lineWidth`.  And whenever `NextLineWidth` ends a line at a
position that is neither the end of the text nor a line ending, the returned width plus the
measured width of the next word exceeds `maxLineWidth`. -/
theorem NextLineWidth_adds_word_iff_fits (pFont : Font) (bytes : List Byte)
    (maxLineWidth : ℚ) :
    (∀ (fuel p : Nat) (lineWidth w : ℚ) (pWordEnd : Nat),
      NextWordWidth pFont bytes p = .ok (w, pWordEnd) → w ≤ maxLineWidth →
      (lineWidth + w ≤ maxLineWidth →
        NextLineWidthLoop pFont bytes maxLineWidth (fuel + 1) p lineWidth
          = (do
              if ← AtStringEnding bytes pWordEnd then
                return (lineWidth + w, pWordEnd)
              let (lineEnding, _) ← AtLineEnding bytes pWordEnd
              if lineEnding then
                return (lineWidth + w, pWordEnd)
              NextLineWidthLoop pFont bytes maxLineWidth fuel pWordEnd (lineWidth + w))) ∧
      (¬ lineWidth + w ≤ maxLineWidth →
        NextLineWidthLoop pFont bytes maxLineWidth (fuel + 1) p lineWidth
          = .ok (lineWidth, p))) ∧
    (∀ (text : Nat) (W : ℚ) (pLineEnd q : Nat),
      NextLineWidth pFont bytes text maxLineWidth = .ok (W, pLineEnd) →
      AtStringEnding bytes pLineEnd = .ok false →
      AtLineEnding bytes pLineEnd = .ok (false, q) →
      ∃ w next, NextWordWidth pFont bytes pLineEnd = .ok (w, next) ∧
        W + w > maxLineWidth) := by
  refine ⟨?_, ?_⟩
  · intro fuel p lw w e hword hfit
    have h1 : ¬ w > maxLineWidth := not_lt.mpr hfit
    refine ⟨?_, ?_⟩
    · intro hsum
      have h2 : ¬ lw + w > maxLineWidth := not_lt.mpr hsum
      simp only [NextLineWidthLoop, hword, bind, Except.bind, h1, h2, if_false]
    · intro hsum
      have h2 : lw + w > maxLineWidth := not_le.mp hsum
      simp only [NextLineWidthLoop, hword, bind, Except.bind, h1, h2, if_false, if_true, pure,
        Except.pure]
  · intro text W e q h hse hle
    unfold NextLineWidth at h
    cases hskip : SkipSpaces bytes text with
    | error err => simp [hskip, bind, Except.bind] at h
    | ok p =>
      simp only [hskip, bind, Except.bind] at h
      obtain ⟨w, next, hw, _, hgt⟩ :=
        NextLineWidthLoop_width_break pFont bytes maxLineWidth _ p 0 W e q h hse hle
      exact ⟨w, next, hw, hgt⟩

/-- Witness of C25: "one two three" with all advances 1 and `maxLineWidth` 7.  After "one"
(running width 3) the word " two" measures 4 and the sum 7 equals `maxLineWidth`: it is
added.  The line then ends at offset 7 for width: the next word measures 6 and 7 + 6 > 7. -/
theorem NextLineWidth_adds_word_iff_fits_witness :
    NextLineWidth (simpleFont (fun _ => 1) (fun _ => none)) (cstr "one two three") 0 7
      = .ok (7, 7) ∧
    NextLineWidthLoop (simpleFont (fun _ => 1) (fun _ => none)) (cstr "one two three") 7 2 3 3
      = .ok (7, 7) ∧
    (∃ w next, NextWordWidth (simpleFont (fun _ => 1) (fun _ => none)) (cstr "one two three") 7
        = .ok (w, next) ∧ 7 + w > 7) := by
  have h := NextLineWidth_adds_word_iff_fits (simpleFont (fun _ => 1) (fun _ => none))
    (cstr "one two three") 7
  refine ⟨by with_unfolding_all decide, ?_, ?_⟩
  · have h1 := (h.1 1 3 3 4 7 (by with_unfolding_all decide) (by norm_num)).1 (by norm_num)
    rw [h1]
    with_unfolding_all decide
  · exact h.2 0 7 7 8 (by with_unfolding_all decide) (by decide) (by decide)

/-- The words that end at a line feed, a space, a tab or the terminator: for every font
view and every text that starts at `text` with a word `cs` of one or more characters, none
of them the terminator, a line feed, a space or a tab, each with a glyph in the font view,
followed at `e` by the terminator, a line feed, a space or a tab, `NextWordWidth` returns
the sum of the advances of `cs` plus the sum of the kerning between each character of `cs`
and the next, and reports `e`, the position right after the last character, as the end of
the word. -/
theorem NextWordWidth_word (pFont : Font) (bytes : List Byte) (text e : Nat)
    (cs : List UTF8Char) (t : UTF8Char) (next : Nat)
    (hdec : DecodeChars bytes cs.length text = .ok (cs, e)) (hne : cs ≠ [])
    (hword : ∀ c ∈ cs, c ≠ 0 ∧ c ≠ 10 ∧ c ≠ 32 ∧ c ≠ 9)
    (hglyph : ∀ c ∈ cs, ∃ m, pFont.GetGlyphMetrics c = .ok m)
    (hend : NextUTF8Char bytes e = .ok (t, next))
    (ht : t = 0 ∨ t = 10 ∨ t = 32 ∨ t = 9) :
    NextWordWidth pFont bytes text = .ok (wordWidth pFont cs, e) :=
  NextWordWidth_chars pFont bytes text e cs t next hdec hne hword hglyph hend ht

/-- A word before a space: the word "two" of "two three" with all advances 1 and kerning -5
between `t` and `w` measures 3 - 5 = -2 and ends at offset 3. -/
theorem NextWordWidth_word_witness :
    NextWordWidth (simpleFont (fun _ => 1) tightKern) (cstr "two three") 0 = .ok (-2, 3) :=
  (NextWordWidth_word (simpleFont (fun _ => 1) tightKern) (cstr "two three") 0 3
    [116, 119, 111] 32 4 (by decide) (by decide) (by decide)
    (fun c _ => ⟨_, rfl⟩) (by decide) (by decide)).trans (by with_unfolding_all decide)

/-- C26 (failing input): the text "ab\r\n", the word "ab" followed by a Windows line
ending.  With advance 1 for every glyph and no kerning the word measures 2 and ends at
offset 2, yet `NextWordWidth` returns the width 3 and the end position 3: `AtLineEnding`
does not recognise the line ending at offset 2, and the carriage return is measured as a
character of the word.  In a font view without a glyph for the carriage return
`NextWordWidth` raises `MissingGlyphError`.  Followed by a line feed alone, the word is
measured as 2 up to offset 2. -/
theorem NextWordWidth_carriage_return_in_word :
    wordWidth (simpleFont (fun _ => 1) (fun _ => none)) [97, 98] = 2 ∧
    DecodeChars (cstr "ab\r\n") 2 0 = .ok ([97, 98], 2) ∧
    NextUTF8Char (cstr "ab\r\n") 2 = .ok (13, 3) ∧
    NextUTF8Char (cstr "ab\r\n") 3 = .ok (10, 4) ∧
    AtLineEnding (cstr "ab\r\n") 2 = .ok (false, 3) ∧
    NextWordWidth (simpleFont (fun _ => 1) (fun _ => none)) (cstr "ab\r\n") 0 = .ok (3, 3) ∧
    NextWordWidth noCarriageReturnFont (cstr "ab\r\n") 0 = .error (.MissingGlyphError 13) ∧
    NextWordWidth (simpleFont (fun _ => 1) (fun _ => none)) (cstr "ab\n") 0 = .ok (2, 2) := by
  decide!

/-- C28: for every text that `IterateText` lays out without error, let `cs` be the
characters of the text, decoded from `text` up to the terminator.  The characters passed to
`OnGlyph`, restricted to those that are no space, tab or line feed, are exactly the
characters of `cs` that are no space, tab or line feed, in the same order and with the same
multiplicity. -/
theorem IterateText_visible_glyphs (pFont : GLTextureFont) (bytes : List Byte) (text : Nat)
    (params : TextParams) (events : List Event)
    (h : IterateText pFont bytes text params = (events, .ok ())) :
    ∃ cs e next, DecodeChars bytes cs.length text = .ok (cs, e) ∧ (∀ c ∈ cs, c ≠ 0) ∧
      NextUTF8Char bytes e = .ok (0, next) ∧
      (glyphChars events).filter isVisible = cs.filter isVisible := by
  obtain ⟨cs, e, next, h1, h2, h3, h4⟩ :=
    IterateTextLoop_chars pFont bytes text params _ _ _ _ _ h
  exact ⟨cs, e, next, h1, h2, h3, by simpa [glyphChars] using h4⟩

/-- Witness of C28: the text "one two\nthree" with all advances 1 and `maxWidth` 5, which
is broken after "one" for width and after "two" at the line feed. -/
theorem IterateText_visible_glyphs_witness :
    ∃ cs e next, DecodeChars (cstr "one two\nthree") cs.length 0 = .ok (cs, e) ∧
      (∀ c ∈ cs, c ≠ 0) ∧ NextUTF8Char (cstr "one two\nthree") e = .ok (0, next) ∧
      (glyphChars (IterateText (simpleTextureFont (fun _ => 1) (fun _ => none))
        (cstr "one two\nthree") 0 ⟨0, 0, 5, 1, .TEXTALIGN_LEFT⟩).1).filter isVisible
        = cs.filter isVisible :=
  IterateText_visible_glyphs (simpleTextureFont (fun _ => 1) (fun _ => none))
    (cstr "one two\nthree") 0 ⟨0, 0, 5, 1, .TEXTALIGN_LEFT⟩ _
    (Prod.ext rfl (by with_unfolding_all decide))

/-- C29: among the calls that `IterateText` makes (also when it ends with an error), the
`k`-th `OnLine` record, counted from 0, has `baseY = params.startY - k * params.lineSpacing`,
empty lines included, and every `OnGlyph` record carries the `baseY` of the last `OnLine`
record before it. -/
theorem IterateText_baseY (pFont : GLTextureFont) (bytes : List Byte) (text : Nat)
    (params : TextParams) :
    (∀ (k : Nat) (yk : ℚ),
      (lineBaseYs (IterateText pFont bytes text params).1)[k]? = some yk →
        yk = params.startY - k * params.lineSpacing) ∧
    glyphsFollowLine none (IterateText pFont bytes text params).1 := by
  obtain ⟨more, hmore, h1, h2⟩ := IterateTextLoop_baseY pFont bytes text params
    (bytes.length + 1) text params.startY []
  unfold IterateText
  rw [hmore, List.nil_append]
  exact ⟨h1, h2 none⟩

/-- Witness of C29: the text "a\n\nb c" with `maxWidth` 2, `startY` 50 and `lineSpacing`
12 gives four lines, the second one empty, at 50, 38, 26 and 14. -/
theorem IterateText_baseY_witness :
    lineBaseYs (IterateText (simpleTextureFont (fun _ => 1) (fun _ => none)) (cstr "a\n\nb c") 0
      ⟨0, 50, 2, 12, .TEXTALIGN_LEFT⟩).1 = [50, 38, 26, 14] ∧
    (14 : ℚ) = 50 - (3 : Nat) * 12 :=
  ⟨by with_unfolding_all decide,
    (IterateText_baseY (simpleTextureFont (fun _ => 1) (fun _ => none)) (cstr "a\n\nb c") 0
      ⟨0, 50, 2, 12, .TEXTALIGN_LEFT⟩).1 3 14 (by with_unfolding_all decide)⟩

/-- C30: for every glyph `g` of the font and every pen position, `SetGlyphQuad` returns a
quad whose vertices 0, 1, 2, 3 are the bottom-left, bottom-right, top-right and top-left
corners of an axis-aligned rectangle: vertex 1 lies `textureWidth` to the right of vertex 0
at the same height, vertex 2 lies `textureHeight` above vertex 1, vertex 3 lies above
vertex 0 at the height of vertex 2 (the sizes of a texture are not negative); the texture
coordinates are (0,0), (1,0), (1,1), (0,1). -/
theorem SetGlyphQuad_rectangle (pFont : GLTextureFont) (c : UTF8Char) (x y : ℚ)
    (g : GLTextureGlyph) (hg : pFont.mGlyphs c = some g) :
    ∃ quad, SetGlyphQuad pFont c x y = .ok quad ∧
      (quad.vertices 1).x - (quad.vertices 0).x = g.textureWidth ∧
      (quad.vertices 1).y = (quad.vertices 0).y ∧
      (quad.vertices 2).x = (quad.vertices 1).x ∧
      (quad.vertices 2).y - (quad.vertices 1).y = g.textureHeight ∧
      (quad.vertices 3).x = (quad.vertices 0).x ∧
      (quad.vertices 3).y = (quad.vertices 2).y ∧
      ((quad.vertices 0).tx, (quad.vertices 0).ty) = (0, 0) ∧
      ((quad.vertices 1).tx, (quad.vertices 1).ty) = (1, 0) ∧
      ((quad.vertices 2).tx, (quad.vertices 2).ty) = (1, 1) ∧
      ((quad.vertices 3).tx, (quad.vertices 3).ty) = (0, 1) := by
  have hgg : pFont.GetGlyph c = .ok g := by simp [GLTextureFont.GetGlyph, hg]
  simp only [SetGlyphQuad, hgg, bind, Except.bind, pure, Except.pure]
  refine ⟨_, rfl, ?_, ?_, ?_, ?_, ?_, ?_, rfl, rfl, rfl, rfl⟩
  · simp only [Matrix.cons_val_zero, Matrix.cons_val_one, Matrix.head_cons]; ring
  · simp [Matrix.cons_val_zero, Matrix.cons_val_one, Matrix.head_cons]
  · simp
  · simp
  · simp
  · simp

/-- Witness of C30: the quad of `a` at the pen position (10, 20) in the font whose glyph
textures measure 16 by 16. -/
theorem SetGlyphQuad_rectangle_witness :
    ∃ quad, SetGlyphQuad (simpleTextureFont (fun _ => 1) (fun _ => none)) 97 10 20 = .ok quad ∧
      (quad.vertices 1).x - (quad.vertices 0).x = ((16 : Int) : ℚ) ∧
      (quad.vertices 1).y = (quad.vertices 0).y ∧
      (quad.vertices 2).x = (quad.vertices 1).x ∧
      (quad.vertices 2).y - (quad.vertices 1).y = ((16 : Int) : ℚ) ∧
      (quad.vertices 3).x = (quad.vertices 0).x ∧
      (quad.vertices 3).y = (quad.vertices 2).y ∧
      ((quad.vertices 0).tx, (quad.vertices 0).ty) = (0, 0) ∧
      ((quad.vertices 1).tx, (quad.vertices 1).ty) = (1, 0) ∧
      ((quad.vertices 2).tx, (quad.vertices 2).ty) = (1, 1) ∧
      ((quad.vertices 3).tx, (quad.vertices 3).ty) = (0, 1) :=
  SetGlyphQuad_rectangle (simpleTextureFont (fun _ => 1) (fun _ => none)) 97 10 20
    ⟨⟨0, 0, 1, 1000, 1⟩, 97, 16, 16⟩ rfl

/-! ## Claims on path commands -/

/-- C33 (failing input): the path "M 0 0 Q 3 3 6 0 T 12 0".  The quadratic curve before `T`
has the control point (3, 3) and ends at (6, 0), so the mirrored control point is (9, -3)
and degree elevation gives the control points (8, -2) and (10, -2).  The element that
`ParseSVGPath` appends for `T` has the control points (6, 0) and (8, -2): the result of
`Quadratic2Bezier` is left in local variables, and the point that is mirrored is the second
control point of the cubic curve stored for `Q`.  Without a quadratic curve before it
("M 0 0 T 12 0") the element has the control points (0, 0) and (0, 0) where degree elevation
gives (0, 0) and (4, 0). -/
theorem ParseSVGPath_smooth_quadratic_not_elevated :
    ParseSVGPath (cstr "M 0 0 Q 3 3 6 0 T 12 0") 0 zeroElement []
      = .ok [⟨.ELEMENT_MOVETO, 0, 0, 0, 0, false, false, 0, 0⟩,
          ⟨.ELEMENT_CURVETO, 2, 2, 4, 2, false, false, 6, 0⟩,
          ⟨.ELEMENT_CURVETO, 6, 0, 8, -2, false, false, 12, 0⟩] ∧
    elevatedControls (6, 0) (2 * 6 - 3, 2 * 0 - 3) (12, 0) = ((8, -2), (10, -2)) ∧
    ParseSVGPath (cstr "M 0 0 T 12 0") 0 zeroElement []
      = .ok [⟨.ELEMENT_MOVETO, 0, 0, 0, 0, false, false, 0, 0⟩,
          ⟨.ELEMENT_CURVETO, 0, 0, 0, 0, false, false, 12, 0⟩] ∧
    elevatedControls (0, 0) (0, 0) (12, 0) = ((0, 0), (4, 0)) := by
  decide!

/-- C35 (counterexample): in "M 1 1 L 10 0 L 10 10 z l 1 1" the subpath that `z` closes starts
at (1, 1), yet the line after `z` ends at (11, 11), the end point (10, 10) of the element
before `z` plus (1, 1), and not at (2, 2). -/
theorem ParseSVGPath_closepath_counterexample :
    ParseSVGPath (cstr "M 1 1 L 10 0 L 10 10 z l 1 1") 0 zeroElement []
      = .ok [⟨.ELEMENT_MOVETO, 0, 0, 0, 0, false, false, 1, 1⟩,
          ⟨.ELEMENT_LINETO, 0, 0, 0, 0, false, false, 10, 0⟩,
          ⟨.ELEMENT_LINETO, 0, 0, 0, 0, false, false, 10, 10⟩,
          ⟨.ELEMENT_CLOSEPATH, 0, 0, 0, 0, false, false, 10, 10⟩,
          ⟨.ELEMENT_LINETO, 0, 0, 0, 0, false, false, 11, 11⟩] ∧
    ((11 : ℚ), (11 : ℚ)) ≠ (1 + 1, 1 + 1) := by
  decide!

/-- C35 (amended): a closepath command (`z` or `Z`) leaves the current point where it is, at
the end point `P` of the element before it: the loop of `ParseSVGPath` standing at `z`
followed by `l dx dy` appends an element of type `ELEMENT_CLOSEPATH` that carries `P` and
then a line that ends at `P + (dx, dy)`. -/
theorem ParseSVGPath_closepath_keeps_point (bytes : List Byte) (fuel dl : Nat)
    (symbol letter : Byte) (el : GlyphPathElement) (path : List GlyphPathElement)
    (ws0 ws1 : List Byte) (dx dy : WrittenNumber) (sep : List Byte) (t : Byte) (tl : List Byte)
    (P : ℚ × ℚ)
    (hdrop : bytes.drop dl
      = ws0 ++ letter :: (ws1 ++ 108 :: (numbersChars [dx, dy] ++ (sep ++ t :: tl))))
    (hws0 : ws0.all isspace = true) (hws1 : ws1.all isspace = true)
    (hletter : letter.val = 90 ∨ letter.val = 122)
    (hww : wellWritten [dx, dy] = true)
    (hsep : sep.all isSeparator = true) (ht : stopsNumbers t = true)
    (hP : (el.x, el.y) = P) :
    ∃ elz el1,
      ParseSVGPathLoop bytes (fuel + 2) dl symbol el path
        = ParseSVGPathLoop bytes fuel
            (dl + ws0.length + 1 + ws1.length + 1 + (numbersChars [dx, dy]).length) 108 el1
            (path ++ [elz, el1]) ∧
      elz.type = .ELEMENT_CLOSEPATH ∧ (elz.x, elz.y) = P ∧
      el1.type = .ELEMENT_LINETO ∧
      (el1.x, el1.y) = (P.1 + dx.lit.value, P.2 + dy.lit.value) := by
  obtain ⟨l0, lsp, llow⟩ := close_letter_facts letter hletter
  have hround := ParseSVGPathLoop_command bytes (fuel + 1) dl symbol letter el path ws0 _ hdrop
    hws0 l0 lsp
  have hcmd : ParseSVGPathCommand bytes (isupper letter) 122 symbol (dl + ws0.length + 1) el path
      = .ok (dl + ws0.length + 1, { el with type := .ELEMENT_CLOSEPATH },
          path ++ [{ el with type := .ELEMENT_CLOSEPATH }]) := rfl
  have hdrop2 : bytes.drop (dl + ws0.length + 1)
      = ws1 ++ 108 :: (numbersChars (pairGroups [(dx, dy)]).flatten ++ (sep ++ t :: tl)) := by
    have h1 := drop_append_length hdrop
    simpa [pairGroups] using (drop_eq_cons h1).2
  have hline := ParseSVGPathLoop_lineto bytes fuel (dl + ws0.length + 1) 122 108
    { el with type := .ELEMENT_CLOSEPATH } (path ++ [{ el with type := .ELEMENT_CLOSEPATH }])
    ws1 [(dx, dy)] sep t tl hdrop2 hws1 (Or.inr rfl) (by simpa [pairGroups] using hww) hsep ht
  refine ⟨{ el with type := .ELEMENT_CLOSEPATH },
    pathLineTo false { el with type := .ELEMENT_CLOSEPATH } [dx.lit.value, dy.lit.value],
    ?_, rfl, hP, rfl, ?_⟩
  · rw [hround, llow, hcmd]
    simp only [Except.bind]
    rw [hline]
    simp [pairGroups, numbersValues, groupLast, groupElements, Nat.add_assoc]
    rfl
  · rw [← hP]
    simp [pathLineTo, setEndPoint]

/-- Witness of C35: the rounds at `z` and `l` in "M 1 1 L 10 0 L 10 10 z l 1 1". -/
theorem ParseSVGPath_closepath_keeps_point_witness :
    ∃ elz el1,
      ParseSVGPathLoop (cstr "M 1 1 L 10 0 L 10 10 z l 1 1") 12 20 108
          ⟨.ELEMENT_LINETO, 0, 0, 0, 0, false, false, 10, 10⟩
          [⟨.ELEMENT_MOVETO, 0, 0, 0, 0, false, false, 1, 1⟩,
            ⟨.ELEMENT_LINETO, 0, 0, 0, 0, false, false, 10, 0⟩,
            ⟨.ELEMENT_LINETO, 0, 0, 0, 0, false, false, 10, 10⟩]
        = ParseSVGPathLoop (cstr "M 1 1 L 10 0 L 10 10 z l 1 1") 10 28 108 el1
            ([⟨.ELEMENT_MOVETO, 0, 0, 0, 0, false, false, 1, 1⟩,
              ⟨.ELEMENT_LINETO, 0, 0, 0, 0, false, false, 10, 0⟩,
              ⟨.ELEMENT_LINETO, 0, 0, 0, 0, false, false, 10, 10⟩] ++ [elz, el1]) ∧
      elz.type = .ELEMENT_CLOSEPATH ∧ (elz.x, elz.y) = (10, 10) ∧
      el1.type = .ELEMENT_LINETO ∧ (el1.x, el1.y) = (10 + 1, 10 + 1) := by
  obtain ⟨elz, el1, h1, h2, h3, h4, h5⟩ :=
    ParseSVGPath_closepath_keeps_point (cstr "M 1 1 L 10 0 L 10 10 z l 1 1") 10 20 108 122
      ⟨.ELEMENT_LINETO, 0, 0, 0, 0, false, false, 10, 10⟩
      [⟨.ELEMENT_MOVETO, 0, 0, 0, 0, false, false, 1, 1⟩,
        ⟨.ELEMENT_LINETO, 0, 0, 0, 0, false, false, 10, 0⟩,
        ⟨.ELEMENT_LINETO, 0, 0, 0, 0, false, false, 10, 10⟩] [32] [32]
      ⟨[32], ⟨false, [49], none⟩⟩ ⟨[32], ⟨false, [49], none⟩⟩ [] 0 [] (10, 10)
      (by decide) (by decide) (by decide) (by decide) (by decide) (by decide) (by decide) rfl
  refine ⟨elz, el1, h1, h2, h3, h4, ?_⟩
  rw [h5]; decide!

/-- C36 (failing input): on "10-20" `ParseDouble` returns -20 and the position 5 after the
last digit, not 10 and the position 2 of the `-`: the branch for `-` is taken inside a
number as well and overwrites the digits read so far.  The pair of "L 10-20" is therefore
read as one number and no line is appended, whereas "L 10 -20" gives the line to
(10, -20). -/
theorem ParseDouble_minus_inside :
    ParseDouble (cstr "10-20") 0 = .ok (-20, some 5) ∧
    ParseDouble (cstr "10 -20") 0 = .ok (10, some 2) ∧
    ParseSVGPath (cstr "M 0 0 L 10-20") 0 zeroElement []
      = .ok [⟨.ELEMENT_MOVETO, 0, 0, 0, 0, false, false, 0, 0⟩] ∧
    ParseSVGPath (cstr "M 0 0 L 10 -20") 0 zeroElement []
      = .ok [⟨.ELEMENT_MOVETO, 0, 0, 0, 0, false, false, 0, 0⟩,
          ⟨.ELEMENT_LINETO, 0, 0, 0, 0, false, false, 10, -20⟩] := by
  decide!

/-- C37 (counterexample): with advance 1 for every glyph and no kerning, the line "a " has
the width 1 and its record ends at 1, but its last glyph, the space, ends at 2: spaces
before the end of a line are laid out and not measured.  With kerning 3 between `a` and a
space after it, the line "a b" has the width 3 and its record ends at 3, but its last glyph
`b` ends at 6: the kerning between a glyph and the space after it is laid out and not
measured. -/
theorem IterateText_line_end_counterexample :
    endXs (IterateText (simpleTextureFont (fun _ => 1) (fun _ => none)) (cstr "a ") 0
        ⟨0, 0, 100, 1, .TEXTALIGN_LEFT⟩).1
      = [(none, 1), (some 97, 1), (some 32, 2)] ∧
    endXs (IterateText (simpleTextureFont (fun _ => 1) kernBeforeSpace) (cstr "a b") 0
        ⟨0, 0, 100, 1, .TEXTALIGN_LEFT⟩).1
      = [(none, 3), (some 97, 1), (some 32, 5), (some 98, 6)] ∧
    (IterateText (simpleTextureFont (fun _ => 1) (fun _ => none)) (cstr "a ") 0
        ⟨0, 0, 100, 1, .TEXTALIGN_LEFT⟩).2 = .ok () ∧
    (IterateText (simpleTextureFont (fun _ => 1) kernBeforeSpace) (cstr "a b") 0
        ⟨0, 0, 100, 1, .TEXTALIGN_LEFT⟩).2 = .ok () := by
  refine ⟨?_, ?_, ?_, ?_⟩ <;> decide!

/-- C37 (amended): for every texture font without kerning between a glyph that is no space
or tab and a space or tab after it, and every text that `IterateText` lays out without
error, on every line with at least one glyph whose last glyph is no space or tab, the `endX`
of the last glyph placement equals the `endX` of the line record. -/
theorem IterateText_last_glyph_meets_line_end (pFont : GLTextureFont) (bytes : List Byte)
    (text : Nat) (params : TextParams) (events : List Event)
    (h : IterateText pFont bytes text params = (events, .ok ()))
    (hkern : ∀ a s, IsSpace a = false → IsSpace s = true →
      GetKernValue pFont.mHorizontalKernTable a s = 0) :
    lastGlyphsMeetLineEnd none events := by
  obtain ⟨more, hmore, _, hall⟩ := IterateTextLoop_meets pFont bytes text params hkern _ _ _ _ _ h
  rw [hmore]
  exact hall none

/-- Witness of C37: "one two\nthree" with advance 1, kerning -5 between `t` and `w` and -3
between `h` and `r`, and `maxWidth` 5: the lines "one two" and "three" both have the width
2, and their last glyphs end at 2. -/
theorem IterateText_last_glyph_meets_line_end_witness :
    lastGlyphsMeetLineEnd none
        (IterateText (simpleTextureFont (fun _ => 1) tightKern) (cstr "one two\nthree") 0
          ⟨0, 0, 5, 1, .TEXTALIGN_LEFT⟩).1 ∧
    endXs (IterateText (simpleTextureFont (fun _ => 1) tightKern) (cstr "one two\nthree") 0
        ⟨0, 0, 5, 1, .TEXTALIGN_LEFT⟩).1
      = [(none, 2), (some 111, 1), (some 110, 2), (some 101, 3), (some 32, 4), (some 116, 5),
          (some 119, 1), (some 111, 2),
          (none, 2), (some 116, 1), (some 104, 2), (some 114, 0), (some 101, 1),
          (some 101, 2)] :=
  ⟨IterateText_last_glyph_meets_line_end (simpleTextureFont (fun _ => 1) tightKern)
      (cstr "one two\nthree") 0 ⟨0, 0, 5, 1, .TEXTALIGN_LEFT⟩ _
      (Prod.ext rfl (by decide!))
      (by
        intro a s ha hs
        rcases (IsSpace_iff s).mp hs with h | h <;> subst h <;>
          simp only [simpleTextureFont, tightKern, GetKernValue] <;> split_ifs <;> rfl),
    by decide!⟩

/-- C38 (failing input): the path "M 1 2 " ends in white space.  After the moveto the loop
skips the space, takes the terminator as the next symbol and steps over it (`d++`), so that
the next test `*d` reads the byte after the terminator: in the buffer that ends with the
terminator this is a read outside the buffer, and when the buffer goes on with "L 5 5" the
line to (5, 5) is appended.  Without the trailing space the path is read as it should. -/
theorem ParseSVGPath_steps_over_terminator :
    ParseSVGPath (cstr "M 1 2 ") 0 zeroElement [] = .error .OutOfBounds ∧
    ParseSVGPath (cstr "M 1 2") 0 zeroElement []
      = .ok [⟨.ELEMENT_MOVETO, 0, 0, 0, 0, false, false, 1, 2⟩] ∧
    ParseSVGPath (cstr "M 1 2 " ++ cstr "L 5 5") 0 zeroElement []
      = .ok [⟨.ELEMENT_MOVETO, 0, 0, 0, 0, false, false, 1, 2⟩,
          ⟨.ELEMENT_LINETO, 0, 0, 0, 0, false, false, 5, 5⟩] := by
  decide!

/-- C39: in a buffer whose terminator stands at position `T`, with no 0 byte from `p` up to
`T`, at every position `p < T` `NextUTF8Char` raises `EncodingError` or returns a position
`q` with `p < q ≤ T`; and `CountCharsUTF8` without end pointer returns a count or raises
`EncodingError`.  This holds in particular for the buffer that ends with the terminator,
where a read beyond it is the outcome `OutOfBounds`. -/
theorem NextUTF8Char_not_past_terminator (bytes : List Byte) (p T : Nat)
    (hT : TerminatedAt bytes p T) (hp : p < T) :
    ((∃ a b, NextUTF8Char bytes p = .error (.EncodingError a b)) ∨
      (∃ c q, NextUTF8Char bytes p = .ok (c, q) ∧ p < q ∧ q ≤ T)) ∧
    ((∃ m, CountCharsUTF8 bytes p none = .ok m) ∨
      (∃ a b, CountCharsUTF8 bytes p none = .error (.EncodingError a b))) := by
  have hlen : T < bytes.length := by
    by_contra hcon
    have := hT.1
    rw [List.getElem?_eq_none (by omega)] at this
    exact Option.noConfusion this
  exact ⟨NextUTF8Char_terminated bytes p T hT hp,
    CountCharsUTF8Loop_terminated bytes T (bytes.length + 1) p 0 hT (by omega) (by omega)⟩

/-- Witness of C39: in the buffer C3 A9 41 00 the character at 0 is decoded up to position
2, and two characters are counted; in the buffer C3 00 the terminator is no continuation
byte and `EncodingError` is raised. -/
theorem NextUTF8Char_not_past_terminator_witness :
    (((∃ a b, NextUTF8Char [0xC3, 0xA9, 0x41, 0] 0 = .error (.EncodingError a b)) ∨
        (∃ c q, NextUTF8Char [0xC3, 0xA9, 0x41, 0] 0 = .ok (c, q) ∧ 0 < q ∧ q ≤ 3)) ∧
      ((∃ m, CountCharsUTF8 [0xC3, 0xA9, 0x41, 0] 0 none = .ok m) ∨
        (∃ a b, CountCharsUTF8 [0xC3, 0xA9, 0x41, 0] 0 none = .error (.EncodingError a b)))) ∧
    NextUTF8Char [0xC3, 0xA9, 0x41, 0] 0 = .ok (0xC3A9, 2) ∧
    CountCharsUTF8 [0xC3, 0xA9, 0x41, 0] 0 none = .ok 2 ∧
    NextUTF8Char [0xC3, 0] 0 = .error (.EncodingError 2 0) :=
  ⟨NextUTF8Char_not_past_terminator [0xC3, 0xA9, 0x41, 0] 0 3 ⟨rfl, by decide⟩ (by decide),
    by decide, by decide, by decide⟩

/-- C40: for every buffer whose terminator stands at `T`, with no 0 byte from `text` up to
`T` (a well-formed text is one), every font view whose `GetGlyphMetrics` returns or raises
an exception, and every `maxWidth`, `CountLines` returns a count or raises an exception: it
neither runs out of iterations nor reads outside the buffer.  And one round of its loop at
a position `p` between `text` and `T` returns, raises, or goes on from a position `p1` with
`p < p1 ≤ T`. -/
theorem CountLines_terminates (pFont : Font) (bytes : List Byte) (text T : Nat)
    (params : TextParams) (hT : TerminatedAt bytes text T) (hle : text ≤ T)
    (hfont : ∀ c e, pFont.GetGlyphMetrics c = .error e → e.isException = true) :
    ((∃ n, CountLines pFont bytes text params = .ok n) ∨
      (∃ e, CountLines pFont bytes text params = .error e ∧ e.isException = true)) ∧
    (∀ (fuel p count : Nat), text ≤ p → p ≤ T →
      (∃ n, CountLinesLoop pFont bytes params (fuel + 1) p count = .ok n) ∨
      (∃ e, CountLinesLoop pFont bytes params (fuel + 1) p count = .error e ∧
        e.isException = true) ∨
      (∃ p1, p < p1 ∧ p1 ≤ T ∧
        CountLinesLoop pFont bytes params (fuel + 1) p count
          = CountLinesLoop pFont bytes params fuel p1 (count + 1))) := by
  refine ⟨?_, fun fuel p count hp hpT =>
    CountLinesLoop_round pFont bytes T params hfont fuel p count (hT.mono hp) hpT⟩
  have hlen := hT.length_gt
  have h := CountLinesLoop_completes pFont bytes T params hfont (bytes.length + 1) text 0 hT hle
    (by omega)
  rw [CountLines]
  cases hr : CountLinesLoop pFont bytes params (bytes.length + 1) text 0 with
  | ok n => exact Or.inl ⟨n, rfl⟩
  | error e =>
    rw [hr] at h
    exact Or.inr ⟨e, rfl, h⟩

/-- Witness of C40: "one two\nthree" with advance 1: three lines for `maxWidth` 5, and
`TextFormatError` for `maxWidth` 4. -/
theorem CountLines_terminates_witness :
    (((∃ n, CountLines (simpleFont (fun _ => 1) (fun _ => none)) (cstr "one two\nthree") 0
          ⟨0, 0, 5, 1, .TEXTALIGN_LEFT⟩ = .ok n) ∨
      (∃ e, CountLines (simpleFont (fun _ => 1) (fun _ => none)) (cstr "one two\nthree") 0
          ⟨0, 0, 5, 1, .TEXTALIGN_LEFT⟩ = .error e ∧ e.isException = true)) ∧
    (∀ (fuel p count : Nat), 0 ≤ p → p ≤ 13 →
      (∃ n, CountLinesLoop (simpleFont (fun _ => 1) (fun _ => none)) (cstr "one two\nthree")
          ⟨0, 0, 5, 1, .TEXTALIGN_LEFT⟩ (fuel + 1) p count = .ok n) ∨
      (∃ e, CountLinesLoop (simpleFont (fun _ => 1) (fun _ => none)) (cstr "one two\nthree")
          ⟨0, 0, 5, 1, .TEXTALIGN_LEFT⟩ (fuel + 1) p count = .error e ∧
        e.isException = true) ∨
      (∃ p1, p < p1 ∧ p1 ≤ 13 ∧
        CountLinesLoop (simpleFont (fun _ => 1) (fun _ => none)) (cstr "one two\nthree")
            ⟨0, 0, 5, 1, .TEXTALIGN_LEFT⟩ (fuel + 1) p count
          = CountLinesLoop (simpleFont (fun _ => 1) (fun _ => none)) (cstr "one two\nthree")
              ⟨0, 0, 5, 1, .TEXTALIGN_LEFT⟩ fuel p1 (count + 1)))) ∧
    CountLines (simpleFont (fun _ => 1) (fun _ => none)) (cstr "one two\nthree") 0
      ⟨0, 0, 5, 1, .TEXTALIGN_LEFT⟩ = .ok 3 ∧
    CountLines (simpleFont (fun _ => 1) (fun _ => none)) (cstr "one two\nthree") 0
      ⟨0, 0, 4, 1, .TEXTALIGN_LEFT⟩ = .error .TextFormatError :=
  ⟨CountLines_terminates (simpleFont (fun _ => 1) (fun _ => none)) (cstr "one two\nthree") 0 13
      ⟨0, 0, 5, 1, .TEXTALIGN_LEFT⟩ ⟨by decide, by decide⟩ (by decide)
      (fun c e h => by simp [simpleFont] at h),
    by decide!, by decide!⟩

end TextGL
